import Mathlib

/-!
# flatrtree-go: a static, bulk-loaded flat R-tree

Shallow embedding of `rtree.go`, `hilbert_builder.go`, `omt_builder.go`,
`box_dist.go` and `serialization.go`, followed by the properties proved about
them.

Conventions of the embedding.

* A `float64` is modelled by `F64`: the values other than NaN (a rational, or
  one of the two infinities; the two zeros are one value).  Every arithmetic
  operation of the program rounds its exact result to the nearest float64,
  ties to even, and overflows to an infinity, as IEEE 754 prescribes; each
  operation is rounded on its own (no fused multiply-add, as on amd64).  NaN
  is outside the model.
* Go slices are lists.  An index expression that would panic (index out of
  range) makes the enclosing function return `none`; so does running out of
  fuel in a function that carries a fuel argument for a Go loop or recursion
  whose termination is not syntactically evident.
* `int64` and `int` values are mathematical integers (`Int`), or naturals
  where the program only ever counts up from zero.
* A Go callback closing over mutable variables is a function that takes and
  returns the captured state explicitly.
* Code of other packages (`sort.Sort`, `FloydRivest.Buckets`, `flatqueue`) is
  known through its interface only: the two sorting routines are arbitrary
  functions producing the sequence of `Swap` calls they make, and the priority
  queue is an arbitrary implementation of a min-queue interface.  The encoder
  and decoder of the wire message are parameters of `Serialize` and
  `Deserialize`.
* Narrowing conversions are explicit: `uint32(count)` is reduction modulo
  2^32, `int64(f)` is defined on the range of int64.
* The height `int(math.Ceil(math.Log(count) / math.Log(degree)))` computed by
  `OMTBuilder.Finish` depends on the values `math.Log` returns, which IEEE 754
  does not fix; it is the parameter `logCeil` of `OMTBuilder.Finish`, an
  arbitrary function.  `exactLogCeil` is the exact value of the expression.
-/

namespace Flatrtree

/-! ## float64 -/

/-- A float64 value other than NaN: a number or an infinity. -/
inductive F64 where
  | negInf : F64
  | fin (q : ℚ) : F64
  | posInf : F64
deriving DecidableEq

/-- Rounding to the nearest integer, halves to the even one. -/
def roundHalfEven (t : ℚ) : Int :=
  if t - ⌊t⌋ < 1 / 2 then ⌊t⌋
  else if 1 / 2 < t - ⌊t⌋ then ⌊t⌋ + 1
  else if ⌊t⌋ % 2 = 0 then ⌊t⌋ else ⌊t⌋ + 1

namespace F64

/-- The exponent of the spacing of the float64 values around `q > 0`: the
values between `2^e` and `2^(e+1)` are the multiples of `2^(e-52)`, and below
`2^-1022` the spacing is that of the subnormal numbers, `2^-1074`. -/
def ulpExp (q : ℚ) : Int := max (Int.log 2 q) (-1022) - 52

/-- The multiple of the spacing nearest to `q >= 0`, ties to the even one. -/
def mag (q : ℚ) : ℚ := (roundHalfEven (q / 2 ^ ulpExp q) : ℚ) * 2 ^ ulpExp q

/-- The float64 value nearest to `q` in an unbounded exponent range. -/
def nearest (q : ℚ) : ℚ := if 0 ≤ q then mag q else -mag (-q)

/-- A rounded value as a float64: beyond the largest finite value it is an
infinity. -/
def ofRat (r : ℚ) : F64 :=
  if 2 ^ 1024 ≤ r then posInf else if r ≤ -2 ^ 1024 then negInf else fin r

/-- The float64 value of the real number `q`: round to nearest, ties to even,
as IEEE 754 prescribes for a single arithmetic operation. -/
def rnd (q : ℚ) : F64 := ofRat (nearest q)

/-- The result of a float64 operation from its exact result. -/
def rn : F64 → F64
  | fin q => rnd q
  | x => x

/-- The order of float64 values (`<=` of Go on values other than NaN). -/
def le : F64 → F64 → Prop
  | negInf, _ => True
  | fin _, negInf => False
  | fin a, fin b => a ≤ b
  | fin _, posInf => True
  | posInf, negInf => False
  | posInf, fin _ => False
  | posInf, posInf => True

/-- Deciding `le` by cases. -/
def decLe : (a b : F64) → Decidable (le a b)
  | negInf, negInf => isTrue trivial
  | negInf, fin _ => isTrue trivial
  | negInf, posInf => isTrue trivial
  | fin _, negInf => isFalse (fun h => h)
  | fin a, fin b => if h : a ≤ b then isTrue h else isFalse h
  | fin _, posInf => isTrue trivial
  | posInf, negInf => isFalse (fun h => h)
  | posInf, fin _ => isFalse (fun h => h)
  | posInf, posInf => isTrue trivial

instance : LE F64 := ⟨le⟩

instance : LT F64 := ⟨fun a b => le a b ∧ ¬ le b a⟩

instance : LinearOrder F64 where
  le_refl := fun a => by
    show le a a
    cases a <;> simp [le]
  le_trans := fun a b c h₁ h₂ => by
    change le a b at h₁
    change le b c at h₂
    show le a c
    cases a <;> cases b <;> cases c <;> simp_all [le]
    exact h₁.trans h₂
  le_antisymm := fun a b h₁ h₂ => by
    change le a b at h₁
    change le b a at h₂
    cases a <;> cases b <;> simp_all [le]
    exact h₁.antisymm h₂
  le_total := fun a b => by
    show le a b ∨ le b a
    cases a <;> cases b <;> simp [le]
    exact Rat.le_total
  lt_iff_le_not_le := fun _ _ => Iff.rfl
  decidableLE := decLe

/-- Negation. -/
def neg : F64 → F64
  | negInf => posInf
  | fin a => fin (-a)
  | posInf => negInf

/-- Addition, rounded; the NaN case (opposite infinities) is outside the
model and yields `fin 0`. -/
def add : F64 → F64 → F64
  | fin a, fin b => rnd (a + b)
  | fin _, negInf => negInf
  | fin _, posInf => posInf
  | negInf, posInf => fin 0
  | negInf, _ => negInf
  | posInf, negInf => fin 0
  | posInf, _ => posInf

/-- Subtraction, rounded; the NaN case (equal infinities) yields `fin 0`. -/
def sub (a b : F64) : F64 := add a (neg b)

/-- Multiplication, rounded; the NaN case (zero times an infinity) yields
`fin 0`. -/
def mul : F64 → F64 → F64
  | fin a, fin b => rnd (a * b)
  | fin a, posInf => if 0 < a then posInf else if a < 0 then negInf else fin 0
  | fin a, negInf => if 0 < a then negInf else if a < 0 then posInf else fin 0
  | posInf, fin b => if 0 < b then posInf else if b < 0 then negInf else fin 0
  | negInf, fin b => if 0 < b then negInf else if b < 0 then posInf else fin 0
  | posInf, posInf => posInf
  | posInf, negInf => negInf
  | negInf, posInf => negInf
  | negInf, negInf => posInf

/-- Division, rounded; zero is taken as positive zero, and the NaN cases
(zero by zero, infinity by infinity) yield `fin 0`. -/
def div : F64 → F64 → F64
  | fin a, fin b =>
    if b = 0 then (if 0 < a then posInf else if a < 0 then negInf else fin 0)
    else rnd (a / b)
  | fin _, posInf => fin 0
  | fin _, negInf => fin 0
  | posInf, fin b => if 0 ≤ b then posInf else negInf
  | negInf, fin b => if 0 ≤ b then negInf else posInf
  | posInf, posInf => fin 0
  | posInf, negInf => fin 0
  | negInf, posInf => fin 0
  | negInf, negInf => fin 0

instance : Add F64 := ⟨add⟩

instance : Sub F64 := ⟨sub⟩

instance : Mul F64 := ⟨mul⟩

instance : Div F64 := ⟨div⟩

instance : Zero F64 := ⟨fin 0⟩

/-- Rounding of `math.Round`: to the nearest integer, halves away from zero. -/
def roundHalfAway (q : ℚ) : Int :=
  if 0 ≤ q then ⌊q + 1 / 2⌋ else -⌊-q + 1 / 2⌋

/-- The conversion `uint32(math.Round(v))`.  Go leaves the conversion of a
value outside the range of uint32 to the implementation; here a finite value
is reduced modulo 2^32 and an infinity gives 0. -/
def roundToUint32 : F64 → Nat
  | fin q => (roundHalfAway q % 4294967296).toNat
  | _ => 0

end F64

open F64

/-! ## rtree.go -/

/-- The index: `count` leaves, `refs` and `boxes` as laid out by a builder. -/
structure RTree where
  count : Nat
  refs : List Int
  boxes : List F64
deriving DecidableEq

/-- The element `s[i]` of a slice for an integer index; `none` is the
index-out-of-range panic. -/
def index {β : Type} (s : List β) (i : Int) : Option β :=
  if i < 0 then none else s[i.toNat]?

/-- Count returns the number of items in the index. -/
def RTree.Count (r : RTree) : Nat := r.count

/-- The test `intersects`, with the short-circuit evaluation of `||`: a later
coordinate is only read when the earlier comparisons are false. -/
def RTree.intersects (r : RTree) (nodeIdx : Int) (minX minY maxX maxY : F64) :
    Option Bool :=
  match index r.boxes nodeIdx with
  | none => none
  | some b0 =>
    if maxX < b0 then some false
    else match index r.boxes (nodeIdx + 1) with
      | none => none
      | some b1 =>
        if maxY < b1 then some false
        else match index r.boxes (nodeIdx + 2) with
          | none => none
          | some b2 =>
            if minX > b2 then some false
            else match index r.boxes (nodeIdx + 3) with
              | none => none
              | some b3 => some (!decide (minY > b3))

/-- The values taken by the loop variable of
`for c = lo; c < hi; c += 4`. -/
def childIdxs (lo hi : Int) : List Int :=
  (List.range ((hi - lo + 3) / 4).toNat).map (fun i : Nat => lo + 4 * (i : Int))

/-- A loop over `cs` whose body can stop the enclosing function: the body
returns `(false, s)` for `return false` and `(true, s)` to go on. -/
def forChildren {σ : Type} (body : Int → σ → Option (Bool × σ)) :
    List Int → σ → Option (Bool × σ)
  | [], s => some (true, s)
  | c :: cs, s =>
    match body c s with
    | none => none
    | some (false, s') => some (false, s')
    | some (true, s') => forChildren body cs s'

/-- The recursive `search`.  The callback `iterf` carries its captured state
`σ`.  The fuel bounds the recursion depth. -/
def RTree.search {σ : Type} (r : RTree) (minX minY maxX maxY : F64)
    (iterf : Int → σ → Bool × σ) : Nat → Int → σ → Option (Bool × σ)
  | 0, _, _ => none
  | fuel + 1, nodeIdx, s =>
    let refIdx := Int.tdiv nodeIdx 4
    match index r.refs refIdx, index r.refs (refIdx + 1) with
    | some lo, some hi =>
      forChildren (fun childNodeIdx s =>
        match r.intersects childNodeIdx minX minY maxX maxY with
        | none => none
        | some false => some (true, s)
        | some true =>
          let childRefIdx := Int.tdiv childNodeIdx 4
          if childRefIdx < (r.count : Int) then
            match index r.refs childRefIdx with
            | none => none
            | some ref => some (iterf ref s)
          else
            r.search minX minY maxX maxY iterf fuel childNodeIdx s)
        (childIdxs lo hi) s
    | _, _ => none

/-- Search calls the iterf function for all items intersecting the search
box.  If iterf returns false the search will terminate. -/
def RTree.Search {σ : Type} (r : RTree) (minX minY maxX maxY : F64)
    (iterf : Int → σ → Bool × σ) (fuel : Nat) (s : σ) : Option σ :=
  if r.count = 0 then some s
  else
    let rootNodeIdx : Int := (r.boxes.length : Int) - 4
    match r.intersects rootNodeIdx minX minY maxX maxY with
    | none => none
    | some false => some s
    | some true =>
      (r.search minX minY maxX maxY iterf fuel rootNodeIdx s).map Prod.snd

/-- The interface of `flatqueue.FlatQueue[int64, float64]` used by
`Neighbors`; `Q` is the state of the queue. -/
structure FlatQueue (Q : Type) where
  new : Q
  Len : Q → Nat
  Push : Q → Int → F64 → Q
  Peek : Q → Int
  PeekValue : Q → F64
  Pop : Q → Int × Q

/-- The contract of the queue: it holds a multiset of (id, value) entries,
`Peek`, `PeekValue` and `Pop` agree on one entry of least value, and `Pop`
removes that entry. -/
structure FlatQueue.Lawful {Q : Type} (fq : FlatQueue Q)
    (entries : Q → Multiset (Int × F64)) : Prop where
  entries_new : entries fq.new = 0
  len_eq : ∀ q, fq.Len q = Multiset.card (entries q)
  entries_push : ∀ q id v, entries (fq.Push q id v) = (id, v) ::ₘ entries q
  peek_min : ∀ q, ∀ e ∈ entries q, fq.PeekValue q ≤ e.2
  pop_fst : ∀ q, 0 < fq.Len q → (fq.Pop q).1 = fq.Peek q
  entries_pop : ∀ q, 0 < fq.Len q →
    entries q = (fq.Peek q, fq.PeekValue q) ::ₘ entries (fq.Pop q).2

/-- The distance `Neighbors` computes for the child at `childNodeIdx`. -/
def RTree.childDist (r : RTree) (x y : F64)
    (boxDist : F64 → F64 → F64 → F64 → F64 → F64 → F64)
    (itemDist : Option (F64 → F64 → Int → F64)) (childNodeIdx : Int) : Option F64 :=
  let childRefIdx := Int.tdiv childNodeIdx 4
  let viaBox : Option F64 :=
    match index r.boxes childNodeIdx, index r.boxes (childNodeIdx + 1),
      index r.boxes (childNodeIdx + 2), index r.boxes (childNodeIdx + 3) with
    | some b0, some b1, some b2, some b3 => some (boxDist x y b0 b1 b2 b3)
    | _, _, _, _ => none
  match itemDist with
  | some f =>
    if childRefIdx < (r.count : Int) then
      match index r.refs childRefIdx with
      | none => none
      | some ref => some (f x y ref)
    else viaBox
  | none => viaBox

/-- The first inner loop of `Neighbors`: push every child with its distance. -/
def RTree.pushChildren {Q : Type} (fq : FlatQueue Q) (r : RTree) (x y : F64)
    (boxDist : F64 → F64 → F64 → F64 → F64 → F64 → F64)
    (itemDist : Option (F64 → F64 → Int → F64)) : List Int → Q → Option Q
  | [], q => some q
  | childNodeIdx :: cs, q =>
    match r.childDist x y boxDist itemDist childNodeIdx with
    | none => none
    | some dist =>
      r.pushChildren fq x y boxDist itemDist cs (fq.Push q (Int.tdiv childNodeIdx 4) dist)

/-- The second inner loop of `Neighbors`: while the head of the queue is a
leaf, pop it and hand it to the callback.  The flag is false when the
callback asked to stop. -/
def RTree.drain {Q σ : Type} (fq : FlatQueue Q) (r : RTree)
    (iterf : Int → F64 → σ → Bool × σ) : Nat → Q → σ → Option (Bool × Q × σ)
  | 0, _, _ => none
  | fuel + 1, q, s =>
    if 0 < fq.Len q ∧ fq.Peek q < (r.count : Int) then
      let dist := fq.PeekValue q
      let popped := fq.Pop q
      match index r.refs popped.1 with
      | none => none
      | some ref =>
        match iterf ref dist s with
        | (false, s') => some (false, popped.2, s')
        | (true, s') => r.drain fq iterf fuel popped.2 s'
    else some (true, q, s)

/-- The outer loop `for queue.Len() > 0` of `Neighbors`. -/
def RTree.neighborsLoop {Q σ : Type} (fq : FlatQueue Q) (r : RTree) (x y : F64)
    (iterf : Int → F64 → σ → Bool × σ)
    (boxDist : F64 → F64 → F64 → F64 → F64 → F64 → F64)
    (itemDist : Option (F64 → F64 → Int → F64)) : Nat → Q → σ → Option σ
  | 0, _, _ => none
  | fuel + 1, q, s =>
    if 0 < fq.Len q then
      let popped := fq.Pop q
      let refIdx := popped.1
      match index r.refs refIdx, index r.refs (refIdx + 1) with
      | some lo, some hi =>
        match r.pushChildren fq x y boxDist itemDist (childIdxs lo hi) popped.2 with
        | none => none
        | some q2 =>
          match r.drain fq iterf (fuel + 1) q2 s with
          | none => none
          | some (false, _, s') => some s'
          | some (true, q3, s') =>
            r.neighborsLoop fq x y iterf boxDist itemDist fuel q3 s'
      | _, _ => none
    else some s

/-- Neighbors calls the iterf function for all items in ascending order of
distance to the given coordinates.  If iterf returns false the search will
terminate.  `itemDist` is optional (`nil` in Go is `none`).  The fuel bounds
the number of iterations of each loop over the queue. -/
def RTree.Neighbors {Q σ : Type} (fq : FlatQueue Q) (r : RTree) (x y : F64)
    (iterf : Int → F64 → σ → Bool × σ)
    (boxDist : F64 → F64 → F64 → F64 → F64 → F64 → F64)
    (itemDist : Option (F64 → F64 → Int → F64)) (fuel : Nat) (s : σ) : Option σ :=
  if r.count = 0 then some s
  else
    let rootRefIdx : Int := (r.refs.length : Int) - 2
    r.neighborsLoop fq x y iterf boxDist itemDist fuel (fq.Push fq.new rootRefIdx 0) s

/-! ## box_dist.go -/

/-- PlanarBoxDist returns the squared distance between the given point and
rect. -/
def PlanarBoxDist (pX pY minX minY maxX maxY : F64) : F64 :=
  let dX : F64 :=
    if pX < minX then minX - pX
    else if pX ≤ maxX then 0
    else pX - maxX
  let dY : F64 :=
    if pY < minY then minY - pY
    else if pY ≤ maxY then 0
    else pY - maxY
  dX * dX + dY * dY

/-! ## hilbert_builder.go -/

/-- Left shift on uint32: bits shifted past bit 31 are lost. -/
def shl32 (a k : Nat) : Nat := (a <<< k) % 4294967296

/-- The Hilbert curve index of the grid point `(x, y)`; all values are uint32
words. -/
def hilbert (x y : Nat) : Nat :=
  let a := x ^^^ y
  let b := 0xFFFF ^^^ a
  let c := 0xFFFF ^^^ (x ||| y)
  let d := x &&& (y ^^^ 0xFFFF)
  let aa := a ||| (b >>> 1)
  let bb := (a >>> 1) ^^^ a
  let cc := ((c >>> 1) ^^^ (b &&& (d >>> 1))) ^^^ c
  let dd := ((a &&& (c >>> 1)) ^^^ (d >>> 1)) ^^^ d
  let a := aa
  let b := bb
  let c := cc
  let d := dd
  let aa := (a &&& (a >>> 2)) ^^^ (b &&& (b >>> 2))
  let bb := (a &&& (b >>> 2)) ^^^ (b &&& ((a ^^^ b) >>> 2))
  let cc := cc ^^^ ((a &&& (c >>> 2)) ^^^ (b &&& (d >>> 2)))
  let dd := dd ^^^ ((b &&& (c >>> 2)) ^^^ ((a ^^^ b) &&& (d >>> 2)))
  let a := aa
  let b := bb
  let c := cc
  let d := dd
  let aa := (a &&& (a >>> 4)) ^^^ (b &&& (b >>> 4))
  let bb := (a &&& (b >>> 4)) ^^^ (b &&& ((a ^^^ b) >>> 4))
  let cc := cc ^^^ ((a &&& (c >>> 4)) ^^^ (b &&& (d >>> 4)))
  let dd := dd ^^^ ((b &&& (c >>> 4)) ^^^ ((a ^^^ b) &&& (d >>> 4)))
  let a := aa
  let b := bb
  let c := cc
  let d := dd
  let cc := cc ^^^ ((a &&& (c >>> 8)) ^^^ (b &&& (d >>> 8)))
  let dd := dd ^^^ ((b &&& (c >>> 8)) ^^^ ((a ^^^ b) &&& (d >>> 8)))
  let a := cc ^^^ (cc >>> 1)
  let b := dd ^^^ (dd >>> 1)
  let i0 := x ^^^ y
  let i1 := b ||| (0xFFFF ^^^ (i0 ||| a))
  let i0 := (i0 ||| shl32 i0 8) &&& 0x00FF00FF
  let i0 := (i0 ||| shl32 i0 4) &&& 0x0F0F0F0F
  let i0 := (i0 ||| shl32 i0 2) &&& 0x33333333
  let i0 := (i0 ||| shl32 i0 1) &&& 0x55555555
  let i1 := (i1 ||| shl32 i1 8) &&& 0x00FF00FF
  let i1 := (i1 ||| shl32 i1 4) &&& 0x0F0F0F0F
  let i1 := (i1 ||| shl32 i1 2) &&& 0x33333333
  let i1 := (i1 ||| shl32 i1 1) &&& 0x55555555
  shl32 i1 1 ||| i0

/-- The assignment `s[i], s[j] = s[j], s[i]`. -/
def swapAt {β : Type} (s : List β) (i j : Nat) : Option (List β) :=
  match s[i]?, s[j]? with
  | some a, some b => some ((s.set i b).set j a)
  | _, _ => none

/-- The arrays handed to `sort.Sort`. -/
structure sortByValues where
  refs : List Int
  boxes : List F64
  values : List Nat

/-- Swap of `sortByValues`: the ref, the four coordinates and the value of
item `i` trade places with those of item `j`. -/
def sortByValues.Swap (s : sortByValues) (i j : Nat) : Option sortByValues :=
  match swapAt s.refs i j with
  | none => none
  | some refs =>
    match swapAt s.boxes (i * 4) (j * 4) with
    | none => none
    | some b0 =>
      match swapAt b0 (i * 4 + 1) (j * 4 + 1) with
      | none => none
      | some b1 =>
        match swapAt b1 (i * 4 + 2) (j * 4 + 2) with
        | none => none
        | some b2 =>
          match swapAt b2 (i * 4 + 3) (j * 4 + 3) with
          | none => none
          | some b3 =>
            match swapAt s.values i j with
            | none => none
            | some values => some ⟨refs, b3, values⟩

/-- The calls of `Swap` a sorting routine makes, in order. -/
def sortByValues.applySwaps : List (Nat × Nat) → sortByValues → Option sortByValues
  | [], s => some s
  | (i, j) :: rest, s =>
    match s.Swap i j with
    | none => none
    | some s' => sortByValues.applySwaps rest s'

/-- A sorting routine only calls `Swap(i, j)` with `i, j < Len()`. -/
def SwapsInRange (swaps : List (Nat × Nat)) (len : Nat) : Prop :=
  ∀ p ∈ swaps, p.1 < len ∧ p.2 < len

/-- The state of a Hilbert builder. -/
structure HilbertBuilder where
  count : Nat
  refs : List Int
  boxes : List F64
  minX : F64
  minY : F64
  maxX : F64
  maxY : F64
deriving DecidableEq

/-- A fresh builder. -/
def NewHilbertBuilder : HilbertBuilder :=
  { count := 0, refs := [], boxes := [],
    minX := posInf, minY := posInf, maxX := negInf, maxY := negInf }

/-- Add appends the item and widens the running bounds. -/
def HilbertBuilder.Add (b : HilbertBuilder) (ref : Int) (minX minY maxX maxY : F64) :
    HilbertBuilder :=
  { count := b.count + 1
    refs := b.refs ++ [ref]
    boxes := b.boxes ++ [minX, minY, maxX, maxY]
    minX := min b.minX minX
    minY := min b.minY minY
    maxX := max b.maxX maxX
    maxY := max b.maxY maxY }

/-- The Hilbert value of item `i`, as computed in the loop of `sort`. -/
def HilbertBuilder.hilbertValue (b : HilbertBuilder) (xScale yScale : F64) (i : Nat) :
    Option Nat :=
  match b.boxes[i * 4]?, b.boxes[i * 4 + 2]?, b.boxes[i * 4 + 1]?, b.boxes[i * 4 + 3]? with
  | some x0, some x1, some y0, some y1 =>
    let midX := (x0 + x1) / fin 2
    let midY := (y0 + y1) / fin 2
    let x := roundToUint32 (xScale * (midX - b.minX))
    let y := roundToUint32 (yScale * (midY - b.minY))
    some (hilbert x y)
  | _, _, _, _ => none

/-- The loop of `sort` filling `hilbertValues`, over the item numbers `is`. -/
def HilbertBuilder.hilbertValues (b : HilbertBuilder) (xScale yScale : F64) :
    List Nat → Option (List Nat)
  | [] => some []
  | i :: rest =>
    match b.hilbertValue xScale yScale i with
    | none => none
    | some v =>
      match b.hilbertValues xScale yScale rest with
      | none => none
      | some vs => some (v :: vs)

/-- The method `sort`: the Hilbert values are computed and the arrays are
handed to `sort.Sort`, modelled by `sorter`, which maps the values to the
sequence of `Swap` calls it makes. -/
def HilbertBuilder.sort (sorter : List Nat → List (Nat × Nat)) (b : HilbertBuilder) :
    Option HilbertBuilder :=
  let hilbertMax : F64 := fin 65535
  let width := b.maxX - b.minX
  let xScale : F64 := if width > 0 then hilbertMax / width else 0
  let height := b.maxY - b.minY
  let yScale : F64 := if height > 0 then hilbertMax / height else 0
  match b.hilbertValues xScale yScale (List.range b.count) with
  | none => none
  | some hilbertValues =>
    match sortByValues.applySwaps (sorter hilbertValues) ⟨b.refs, b.boxes, hilbertValues⟩ with
    | none => none
    | some s => some { b with refs := s.refs, boxes := s.boxes }

/-- A box under construction: the four running bounds. -/
structure Box where
  minX : F64
  minY : F64
  maxX : F64
  maxY : F64
deriving DecidableEq

/-- The bounds every node starts from. -/
def Box.empty : Box := ⟨posInf, posInf, negInf, negInf⟩

/-- One step of widening the running bounds by a box. -/
def Box.extend (n : Box) (minX minY maxX maxY : F64) : Box :=
  ⟨min n.minX minX, min n.minY minY, max n.maxX maxX, max n.maxY maxY⟩

/-- The innermost loop of `pack`,
`for j := 0; j < degree && start < end; j++`, with `n` the number of values
of `j` still to come. -/
def packNode (boxes : List F64) (end_ : Nat) : Nat → Nat → Box → Option (Nat × Box)
  | 0, start, node => some (start, node)
  | n + 1, start, node =>
    if start < end_ then
      match boxes[start]?, boxes[start + 1]?, boxes[start + 2]?, boxes[start + 3]? with
      | some b0, some b1, some b2, some b3 =>
        packNode boxes end_ n (start + 4) (node.extend b0 b1 b2 b3)
      | _, _, _, _ => none
    else some (start, node)

/-- The variables `pack` updates. -/
structure PackState where
  refs : List Int
  boxes : List F64
  start : Nat

/-- The loop `for start < end` of `pack`: one level of nodes. -/
def packLevel (degree end_ : Nat) : Nat → PackState → Option PackState
  | 0, _ => none
  | fuel + 1, st =>
    if st.start < end_ then
      match packNode st.boxes end_ degree st.start Box.empty with
      | none => none
      | some (start, node) =>
        packLevel degree end_ fuel
          { refs := st.refs ++ [(start : Int)]
            boxes := st.boxes ++ [node.minX, node.minY, node.maxX, node.maxY]
            start := start }
    else some st

/-- The quotient `math.Ceil(float64(a) / float64(b))`, computed exactly. -/
def ceilDiv (a b : Nat) : Nat := (a + b - 1) / b

/-- The loop `for { ... }` of `pack`: level after level until a level has one
node. -/
def packLoop (degree : Nat) : Nat → Nat → Nat → Nat → PackState → Option PackState
  | 0, _, _, _, _ => none
  | fuel + 1, count, numNodes, end_, st =>
    match packLevel degree end_ (end_ + 1) st with
    | none => none
    | some st' =>
      let count' := ceilDiv count degree
      let numNodes' := numNodes + count'
      let end' := numNodes' * 4
      if count' = 1 then some st'
      else packLoop degree fuel count' numNodes' end' st'

/-- The method `pack`. -/
def HilbertBuilder.pack (b : HilbertBuilder) (degree : Nat) : Option HilbertBuilder :=
  match packLoop degree (b.count + 1) b.count b.count b.boxes.length
      { refs := b.refs ++ [0], boxes := b.boxes, start := 0 } with
  | none => none
  | some st => some { b with refs := st.refs, boxes := st.boxes }

/-- Finish: the result of the call (a tree or an error) and the builder after
the call. -/
def HilbertBuilder.Finish (sorter : List Nat → List (Nat × Nat)) (b : HilbertBuilder)
    (degree : Int) : Option (Except String RTree × HilbertBuilder) :=
  if degree < 2 then some (.error "degree < 2", b)
  else if b.count = 0 then some (.ok ⟨0, [], []⟩, b)
  else if b.refs.length ≠ b.count then some (.error "Finish called more than once", b)
  else
    match b.sort sorter with
    | none => none
    | some b₁ =>
      match b₁.pack degree.toNat with
      | none => none
      | some b₂ => some (.ok ⟨b₂.count, b₂.refs, b₂.boxes⟩, b₂)

/-! ## omt_builder.go -/

/-- The arrays handed to `FloydRivest.Buckets`; `sortBy` is 0 for minX and 1
for minY. -/
structure sortByCoord where
  sortBy : Nat
  refs : List Int
  boxes : List F64

/-- Swap of `sortByCoord`. -/
def sortByCoord.Swap (s : sortByCoord) (i j : Nat) : Option sortByCoord :=
  match swapAt s.refs i j with
  | none => none
  | some refs =>
    match swapAt s.boxes (i * 4) (j * 4) with
    | none => none
    | some b0 =>
      match swapAt b0 (i * 4 + 1) (j * 4 + 1) with
      | none => none
      | some b1 =>
        match swapAt b1 (i * 4 + 2) (j * 4 + 2) with
        | none => none
        | some b2 =>
          match swapAt b2 (i * 4 + 3) (j * 4 + 3) with
          | none => none
          | some b3 => some ⟨s.sortBy, refs, b3⟩

/-- The calls of `Swap` the selection routine makes, in order. -/
def sortByCoord.applySwaps : List (Nat × Nat) → sortByCoord → Option sortByCoord
  | [], s => some s
  | (i, j) :: rest, s =>
    match s.Swap i j with
    | none => none
    | some s' => sortByCoord.applySwaps rest s'

/-- The state of an OMT builder. -/
structure OMTBuilder where
  count : Nat
  refs : List Int
  boxes : List F64
  nodeSizes : List (List Nat)
  nodeBoxes : List (List F64)
deriving DecidableEq

/-- A fresh builder. -/
def NewOMTBuilder : OMTBuilder :=
  { count := 0, refs := [], boxes := [], nodeSizes := [], nodeBoxes := [] }

/-- Add appends the item. -/
def OMTBuilder.Add (b : OMTBuilder) (ref : Int) (minX minY maxX maxY : F64) : OMTBuilder :=
  { b with
    count := b.count + 1
    refs := b.refs ++ [ref]
    boxes := b.boxes ++ [minX, minY, maxX, maxY] }

/-- The method `addNode`. -/
def OMTBuilder.addNode (b : OMTBuilder) (level size : Nat) (box : Box) : Option OMTBuilder :=
  match b.nodeSizes[level]?, b.nodeBoxes[level]? with
  | some sizes, some boxes =>
    some { b with
      nodeSizes := b.nodeSizes.set level (sizes ++ [size])
      nodeBoxes := b.nodeBoxes.set level (boxes ++ [box.minX, box.minY, box.maxX, box.maxY]) }
  | _, _ => none

/-- The calls `sortByX(b.refs[start:end], b.boxes[start*4:end*4], n)` and
`sortByY(...)`: the selection routine, modelled by `buckets`, works on the
sub-slices in place.  `buckets sortBy boxes n` is the sequence of `Swap` calls
`FloydRivest.Buckets` makes on a slice with these boxes. -/
def OMTBuilder.sortRange (buckets : Nat → List F64 → Nat → List (Nat × Nat))
    (sortBy : Nat) (b : OMTBuilder) (start end_ n : Nat) : Option OMTBuilder :=
  if start ≤ end_ ∧ end_ ≤ b.refs.length ∧ end_ * 4 ≤ b.boxes.length then
    let refs := (b.refs.drop start).take (end_ - start)
    let boxes := (b.boxes.drop (start * 4)).take (end_ * 4 - start * 4)
    match sortByCoord.applySwaps (buckets sortBy boxes n) ⟨sortBy, refs, boxes⟩ with
    | none => none
    | some s =>
      some { b with
        refs := b.refs.take start ++ s.refs ++ b.refs.drop end_
        boxes := b.boxes.take (start * 4) ++ s.boxes ++ b.boxes.drop (end_ * 4) }
  else none

/-- The least `s` with `s * s >= c`: `math.Ceil(math.Sqrt(c))` computed
exactly. -/
def ceilSqrt (c : Nat) : Nat :=
  if Nat.sqrt c * Nat.sqrt c = c then Nat.sqrt c else Nat.sqrt c + 1

/-- The values taken by the loop variable of
`for v := lo; v < hi; v += step`; `none` when the loop would not end. -/
def loopStarts (lo hi step : Nat) : Option (List Nat) :=
  if hi ≤ lo then some []
  else if step = 0 then none
  else some ((List.range (ceilDiv (hi - lo) step)).map (fun i => lo + i * step))

/-- The loop of the single-node branch of `build`: the bounds of the items
`start .. end`. -/
def OMTBuilder.leafBounds (b : OMTBuilder) : List Nat → Box → Option Box
  | [], box => some box
  | i :: rest, box =>
    match b.boxes[i * 4]?, b.boxes[i * 4 + 1]?, b.boxes[i * 4 + 2]?, b.boxes[i * 4 + 3]? with
    | some b0, some b1, some b2, some b3 => b.leafBounds rest (box.extend b0 b1 b2 b3)
    | _, _, _, _ => none

/-- The variables the two nested loops of `build` update. -/
structure BuildState where
  b : OMTBuilder
  box : Box
  nodeSize : Nat

/-- The inner loop of `build`, over the children of one slice. -/
def buildChildren (recur : Nat → Nat → OMTBuilder → Option (OMTBuilder × Box))
    (end_ nodeCapacity : Nat) : List Nat → BuildState → Option BuildState
  | [], st => some st
  | childStart :: rest, st =>
    let childEnd := if childStart + nodeCapacity > end_ then end_ else childStart + nodeCapacity
    match recur childStart childEnd st.b with
    | none => none
    | some (b', child) =>
      buildChildren recur end_ nodeCapacity rest
        { b := b'
          box := st.box.extend child.minX child.minY child.maxX child.maxY
          nodeSize := st.nodeSize + 1 }

/-- The outer loop of `build`, over the slices. -/
def buildSlices (buckets : Nat → List F64 → Nat → List (Nat × Nat))
    (recur : Nat → Nat → OMTBuilder → Option (OMTBuilder × Box))
    (end_ sliceCapacity nodeCapacity : Nat) : List Nat → BuildState → Option BuildState
  | [], st => some st
  | sliceStart :: rest, st =>
    let sliceEnd := if sliceStart + sliceCapacity > end_ then end_ else sliceStart + sliceCapacity
    match st.b.sortRange buckets 1 sliceStart sliceEnd nodeCapacity with
    | none => none
    | some b' =>
      match loopStarts sliceStart sliceEnd nodeCapacity with
      | none => none
      | some childStarts =>
        match buildChildren recur end_ nodeCapacity childStarts { st with b := b' } with
        | none => none
        | some st' => buildSlices buckets recur end_ sliceCapacity nodeCapacity rest st'

/-- The body of `build` at `level`, with `recur` standing for the recursive
call `b.build(degree, childStart, childEnd, level-1)`.  The ceilings, the
power and the square root are computed exactly. -/
def OMTBuilder.buildBody (buckets : Nat → List F64 → Nat → List (Nat × Nat))
    (degree level : Nat) (recur : Nat → Nat → OMTBuilder → Option (OMTBuilder × Box))
    (start end_ : Nat) (b : OMTBuilder) : Option (OMTBuilder × Box) :=
  let N := end_ - start
  let childCount := ceilDiv N (degree ^ level)
  if N ≤ childCount then
    match b.leafBounds ((List.range N).map (fun i => start + i)) Box.empty with
    | none => none
    | some box =>
      match b.addNode level N box with
      | none => none
      | some b' => some (b', box)
  else
    let nodeCapacity := ceilDiv N childCount
    let sliceCapacity := nodeCapacity * ceilSqrt childCount
    match b.sortRange buckets 0 start end_ sliceCapacity with
    | none => none
    | some b₁ =>
      match loopStarts start end_ sliceCapacity with
      | none => none
      | some sliceStarts =>
        match buildSlices buckets recur end_ sliceCapacity nodeCapacity sliceStarts
            { b := b₁, box := Box.empty, nodeSize := 0 } with
        | none => none
        | some st =>
          match st.b.addNode level st.nodeSize st.box with
          | none => none
          | some b' => some (b', st.box)

/-- The method `build`.  Below level 0 the Go code would index `nodeSizes`
with -1 and panic. -/
def OMTBuilder.build (buckets : Nat → List F64 → Nat → List (Nat × Nat)) (degree : Nat) :
    Nat → Nat → Nat → OMTBuilder → Option (OMTBuilder × Box)
  | 0, start, end_, b =>
    OMTBuilder.buildBody buckets degree 0 (fun _ _ _ => none) start end_ b
  | level + 1, start, end_, b =>
    OMTBuilder.buildBody buckets degree (level + 1)
      (OMTBuilder.build buckets degree level) start end_ b

/-- The inner loop of the method `pack`, over the nodes of one level. -/
def omtPackLevel (sizes : List Nat) (boxes : List F64) :
    List Nat → Int × List Int × List F64 → Option (Int × List Int × List F64)
  | [], acc => some acc
  | i :: rest, (ref, refs, bxs) =>
    match sizes[i]?, boxes[i * 4]?, boxes[i * 4 + 1]?, boxes[i * 4 + 2]?, boxes[i * 4 + 3]? with
    | some size, some b0, some b1, some b2, some b3 =>
      let ref' := ref + ((4 * size : Nat) : Int)
      omtPackLevel sizes boxes rest (ref', refs ++ [ref'], bxs ++ [b0, b1, b2, b3])
    | _, _, _, _, _ => none

/-- The outer loop of the method `pack`, over the levels. -/
def omtPackLevels (nodeSizes : List (List Nat)) (nodeBoxes : List (List F64)) :
    List Nat → Int × List Int × List F64 → Option (Int × List Int × List F64)
  | [], acc => some acc
  | level :: rest, acc =>
    match nodeSizes[level]?, nodeBoxes[level]? with
    | some sizes, some boxes =>
      match omtPackLevel sizes boxes (List.range sizes.length) acc with
      | none => none
      | some acc' => omtPackLevels nodeSizes nodeBoxes rest acc'
    | _, _ => none

/-- The method `pack`. -/
def OMTBuilder.pack (b : OMTBuilder) : Option OMTBuilder :=
  match omtPackLevels b.nodeSizes b.nodeBoxes (List.range b.nodeSizes.length)
      (0, b.refs ++ [0], b.boxes) with
  | none => none
  | some (_, refs, boxes) => some { b with refs := refs, boxes := boxes }

/-- The expression `ceil(log(count) / log(degree))` computed exactly: the
least `h` with `count <= degree^h`. -/
def exactLogCeil (count : Nat) (degree : Int) : Int := (Nat.clog degree.toNat count : Nat)

/-- Finish: the result of the call (a tree or an error) and the builder after
the call.  The value of the float64 expression
`int(math.Ceil(math.Log(float64(count)) / math.Log(float64(degree))))` is
given by `logCeil`, a function of `count` and `degree` about which nothing is
assumed; `math.Log` is not correctly rounded, and the quotient is 4, not 3,
for `count = 125` and `degree = 5`. -/
def OMTBuilder.Finish (buckets : Nat → List F64 → Nat → List (Nat × Nat))
    (logCeil : Nat → Int → Int) (b : OMTBuilder)
    (degree : Int) : Option (Except String RTree × OMTBuilder) :=
  if degree < 2 then some (.error "degree < 2", b)
  else if b.count = 0 then some (.ok ⟨0, [], []⟩, b)
  else if b.refs.length ≠ b.count then some (.error "Finish called more than once", b)
  else
    let targetHeight := (max (logCeil b.count degree) 1).toNat
    let b₀ : OMTBuilder :=
      { b with
        nodeSizes := List.replicate targetHeight []
        nodeBoxes := List.replicate targetHeight [] }
    match b₀.build buckets degree.toNat (targetHeight - 1) 0 b.count with
    | none => none
    | some (b₁, _) =>
      match b₁.pack with
      | none => none
      | some b₂ => some (.ok ⟨b₂.count, b₂.refs, b₂.boxes⟩, b₂)

/-! ## The tree a flat layout stands for

The definitions below are not part of the program: they describe the tree
that the arrays of an `RTree` encode, and are what the theorems are stated
with. -/

/-- An item as handed to `Add`. -/
structure Item where
  ref : Int
  box : Box
deriving DecidableEq

/-- The four coordinates of a box in the order they are stored. -/
def Box.coords (b : Box) : List F64 := [b.minX, b.minY, b.maxX, b.maxY]

/-- The layout of a list of boxes in a `boxes` array. -/
def flatBoxes (bs : List Box) : List F64 := bs.flatMap Box.coords

/-- The test of `intersects` on a box. -/
def Box.intersects (b : Box) (minX minY maxX maxY : F64) : Bool :=
  !(decide (maxX < b.minX) || decide (maxY < b.minY) ||
    decide (minX > b.maxX) || decide (minY > b.maxY))

/-- Componentwise containment: `outer` covers `inner`. -/
def Box.Contains (outer inner : Box) : Prop :=
  outer.minX ≤ inner.minX ∧ outer.minY ≤ inner.minY ∧
  inner.maxX ≤ outer.maxX ∧ inner.maxY ≤ outer.maxY

/-- A box is valid when its minima do not exceed its maxima. -/
def Box.Valid (b : Box) : Prop := b.minX ≤ b.maxX ∧ b.minY ≤ b.maxY

/-- The componentwise minimum bounding rectangle of a list of boxes. -/
def mbr (bs : List Box) : Box :=
  bs.foldl (fun n b => n.extend b.minX b.minY b.maxX b.maxY) Box.empty

/-- An interior node of a layout: the number of its children and its box. -/
structure Interior where
  size : Nat
  box : Box
deriving DecidableEq

/-- A flat tree seen as leaves followed by interior nodes; the children of
interior node `j` are the `size` nodes starting at node number
`childStart nodes j`. -/
structure Layout where
  leaves : List Item
  nodes : List Interior

/-- The node number of the first child of interior node `j`: the sum of the
sizes of the interior nodes before `j`. -/
def childStart (nodes : List Interior) (j : Nat) : Nat :=
  ((nodes.take j).map Interior.size).sum

/-- The boxes of all nodes of a layout, leaves first. -/
def Layout.allBoxes (ly : Layout) : List Box :=
  ly.leaves.map Item.box ++ ly.nodes.map Interior.box

/-- The `RTree` with this layout. -/
def Layout.tree (ly : Layout) : RTree :=
  { count := ly.leaves.length
    refs := ly.leaves.map Item.ref ++
      (List.range (ly.nodes.length + 1)).map
        (fun j => ((4 * childStart ly.nodes j : Nat) : Int))
    boxes := flatBoxes ly.allBoxes }

/-- Well-formedness of a layout: there is an interior node, the children of
every interior node come before it, and all nodes but the last one, the
root, are children. -/
structure Layout.WF (ly : Layout) : Prop where
  nonempty : ly.nodes ≠ []
  before : ∀ j < ly.nodes.length, childStart ly.nodes (j + 1) ≤ ly.leaves.length + j
  covered : childStart ly.nodes ly.nodes.length + 1 = ly.leaves.length + ly.nodes.length

/-- The containment invariant of a layout: the box of every interior node
covers the boxes of its children. -/
def Layout.Covers (ly : Layout) : Prop :=
  ∀ j (n : Interior), ly.nodes[j]? = some n →
    ∀ k (c : Box), childStart ly.nodes j ≤ k → k < childStart ly.nodes (j + 1) →
      ly.allBoxes[k]? = some c → n.box.Contains c

/-- A value for every node of a layout, computed bottom-up: `leafVals` are the
values of the leaves, and an interior node gets `f` of itself and the values
of its children. -/
def nodeTable {A : Type} (f : Interior → List A → A) (leafVals : List A)
    (nodes : List Interior) : List A :=
  (nodes.foldl (fun (acc : List A × Nat) n =>
    (acc.1 ++ [f n ((acc.1.drop acc.2).take n.size)], acc.2 + n.size)) (leafVals, 0)).1

/-- Feeding a list of arguments to a callback until it returns false. -/
def feed {β σ : Type} (iterf : β → σ → Bool × σ) : List β → σ → Bool × σ
  | [], s => (true, s)
  | r :: rs, s =>
    match iterf r s with
    | (false, s') => (false, s')
    | (true, s') => feed iterf rs s'

/-- The callback that records every ref it is given and never stops. -/
def collect : Int → List Int → Bool × List Int := fun ref s => (true, s ++ [ref])

/-- The refs `search` emits below each node, the node's own test included. -/
def hitTable (ly : Layout) (minX minY maxX maxY : F64) : List (List Int) :=
  nodeTable
    (fun n kids => if n.box.intersects minX minY maxX maxY then kids.flatten else [])
    (ly.leaves.map fun it => if it.box.intersects minX minY maxX maxY then [it.ref] else [])
    ly.nodes

/-- The linear scan of the tests: the refs of the items whose box intersects
the query rectangle. -/
def linearScan (items : List Item) (minX minY maxX maxY : F64) : List Int :=
  (items.filter fun it => it.box.intersects minX minY maxX maxY).map Item.ref

/-- The builder after `Add` has been called for each item in turn. -/
def HilbertBuilder.addAll (b : HilbertBuilder) (items : List Item) : HilbertBuilder :=
  items.foldl (fun b it => b.Add it.ref it.box.minX it.box.minY it.box.maxX it.box.maxY) b

/-- The builder after `Add` has been called for each item in turn. -/
def OMTBuilder.addAll (b : OMTBuilder) (items : List Item) : OMTBuilder :=
  items.foldl (fun b it => b.Add it.ref it.box.minX it.box.minY it.box.maxX it.box.maxY) b

/-- The index map of the exchange of positions `a` and `b`. -/
def swapIdx (a b m : Nat) : Nat := if m = a then b else if m = b then a else m

/-- A level of interior nodes lies over the boxes `prev` of the level below:
the sizes cut `prev` into consecutive blocks, one per node, and each node and
its block satisfy `P`. -/
def AlignedBy (P : Interior → List Box → Prop) : List Box → List Interior → Prop
  | prev, [] => prev = []
  | prev, n :: rest =>
    n.size ≤ prev.length ∧ P n (prev.take n.size) ∧ AlignedBy P (prev.drop n.size) rest

/-- A stack of levels over the boxes `prev`: each level lies over the one
below, and the last level is a single node, the root. -/
def LevelsBy (P : Interior → List Box → Prop) : List Box → List (List Interior) → Prop
  | _, [] => False
  | prev, [top] => AlignedBy P prev top ∧ top.length = 1
  | prev, level :: next :: rest =>
    AlignedBy P prev level ∧ LevelsBy P (level.map Interior.box) (next :: rest)

/-- The boxes of the children of interior node `j` of a layout. -/
def Layout.childBoxes (ly : Layout) (j : Nat) (n : Interior) : List Box :=
  (ly.allBoxes.drop (childStart ly.nodes j)).take n.size

/-- The part of well-formedness that holds while a layout is being built,
with `P` holding of every interior node and the boxes of its children. -/
structure Layout.Partial (P : Interior → List Box → Prop) (ly : Layout) : Prop where
  before : ∀ j < ly.nodes.length, childStart ly.nodes (j + 1) ≤ ly.leaves.length + j
  holds : ∀ j n, ly.nodes[j]? = some n → P n (ly.childBoxes j n)

/-- The nodes `pack` puts over a level with boxes `bs`: one node for every
`d` consecutive boxes, the last one possibly smaller.  The fuel is the
number of boxes. -/
def chunkNodes (d : Nat) : Nat → List Box → List Interior
  | 0, _ => []
  | fuel + 1, bs =>
    if bs = [] then []
    else ⟨(bs.take d).length, mbr (bs.take d)⟩ :: chunkNodes d fuel (bs.drop d)

/-- The levels `pack` builds over the leaf boxes `bs`, bottom-up, ending with
the first level of one node. -/
def packLevels (d : Nat) : Nat → List Box → List (List Interior)
  | 0, _ => []
  | fuel + 1, bs =>
    let level := chunkNodes d bs.length bs
    if level.length = 1 then [level]
    else level :: packLevels d fuel (level.map Interior.box)

/-- What `pack` establishes for a node and the boxes of its children. -/
def PackedNode (d : Nat) (n : Interior) (kids : List Box) : Prop :=
  n.box = mbr kids ∧ n.size = kids.length ∧ 1 ≤ n.size ∧ n.size ≤ d

/-- The variables of `pack` when the interior nodes of the layout have been
appended. -/
def Layout.packState (ly : Layout) : PackState :=
  { refs := ly.tree.refs
    boxes := ly.tree.boxes
    start := 4 * childStart ly.nodes ly.nodes.length }

/-- The layout `pack` produces from the sorted items. -/
def hilbertLayout (items : List Item) (d : Nat) : Layout :=
  ⟨items, (packLevels d items.length (items.map Item.box)).flatten⟩

/-- A sorting routine for the examples: it exchanges the first two items. -/
def sampleSorter : List Nat → List (Nat × Nat) :=
  fun vals => if 2 ≤ vals.length then [(0, 1)] else []

/-- Three items for the examples. -/
def sampleItems : List Item :=
  [⟨7, ⟨fin 0, fin 0, fin 1, fin 1⟩⟩, ⟨8, ⟨fin 5, fin 5, fin 6, fin 6⟩⟩,
   ⟨9, ⟨fin 1, fin 1, fin 2, fin 2⟩⟩]

/-- The callback of `Neighbors` as a function of the pair (ref, dist). -/
def pairCallback {σ : Type} (iterf : Int → F64 → σ → Bool × σ) : Int × F64 → σ → Bool × σ :=
  fun p s => iterf p.1 p.2 s

/-- The callback that records every (ref, dist) it is given and never stops. -/
def collectDist : Int → F64 → List (Int × F64) → Bool × List (Int × F64) :=
  fun ref dist s => (true, s ++ [(ref, dist)])

/-- The distance `Neighbors` gives to an item: `itemDist` when supplied, the
`boxDist` of the item's own box otherwise. -/
def itemDistance (x y : F64) (boxDist : F64 → F64 → F64 → F64 → F64 → F64 → F64)
    (itemDist : Option (F64 → F64 → Int → F64)) (it : Item) : F64 :=
  match itemDist with
  | some f => f x y it.ref
  | none => boxDist x y it.box.minX it.box.minY it.box.maxX it.box.maxY

/-- The distance `Neighbors` gives to every node of a layout, leaves first. -/
def Layout.distTable (ly : Layout) (x y : F64)
    (boxDist : F64 → F64 → F64 → F64 → F64 → F64 → F64)
    (itemDist : Option (F64 → F64 → Int → F64)) : List F64 :=
  ly.leaves.map (itemDistance x y boxDist itemDist) ++
    ly.nodes.map (fun n => boxDist x y n.box.minX n.box.minY n.box.maxX n.box.maxY)

/-- The (ref, dist) pairs of the items below each node of a layout. -/
def Layout.belowTable (ly : Layout) (x y : F64)
    (boxDist : F64 → F64 → F64 → F64 → F64 → F64 → F64)
    (itemDist : Option (F64 → F64 → Int → F64)) : List (List (Int × F64)) :=
  nodeTable (fun _ kids => kids.flatten)
    (ly.leaves.map fun it => [(it.ref, itemDistance x y boxDist itemDist it)]) ly.nodes

/-- The number of nodes in the subtree of each node of a layout. -/
def Layout.weightTable (ly : Layout) : List Nat :=
  nodeTable (fun _ kids => 1 + kids.sum) (ly.leaves.map fun _ => 1) ly.nodes

/-- Every entry of the queue is a node of the layout with the distance
`Neighbors` gives to that node. -/
def Layout.QueueOK (ly : Layout) (dists : List F64) (es : Multiset (Int × F64)) : Prop :=
  ∀ e ∈ es, ∃ k : Nat, e.1 = (k : Int) ∧ k < ly.leaves.length + ly.nodes.length ∧
    dists.getD k 0 = e.2

/-- The queue entry of node `k`. -/
def nodeEntry (dists : List F64) (k : Nat) : Int × F64 := ((k : Int), dists.getD k 0)

/-- The (ref, dist) pair the callback is given for leaf `k`. -/
def Layout.leafPair (ly : Layout) (dists : List F64) (k : Nat) : Int × F64 :=
  ((ly.leaves.map Item.ref).getD k 0, dists.getD k 0)

/-- The distance of every interior node is a lower bound of the distances of
its children. -/
def Layout.DistMono (ly : Layout) (dists : List F64) : Prop :=
  ∀ j n, ly.nodes[j]? = some n → ∀ i < n.size,
    dists.getD (ly.leaves.length + j) 0 ≤ dists.getD (childStart ly.nodes j + i) 0

/-- The number of nodes still to be popped: the sizes of the subtrees of the
entries of the queue. -/
def queueWeight (W : List Nat) (es : Multiset (Int × F64)) : Nat :=
  (es.map (fun e => W.getD e.1.toNat 0)).sum

/-- The (ref, dist) pairs of the items below the entries of the queue. -/
def queueBelow (L : List (List (Int × F64))) (es : Multiset (Int × F64)) :
    Multiset (Int × F64) :=
  es.bind (fun e => ((L.getD e.1.toNat [] : List (Int × F64)) : Multiset (Int × F64)))

/-- Appending, level by level, the nodes a call of `build` records to the
nodes recorded so far. -/
def appendLevels : List (List Interior) → List (List Interior) → List (List Interior)
  | l :: ls, n :: ns => (l ++ n) :: appendLevels ls ns
  | ls, [] => ls
  | [], _ :: _ => []

/-- A stack of levels over the boxes `prev`, each level lying over the one
below; `top` are the boxes of the uppermost level (`prev` when there is no
level). -/
def StackTo (P : Interior → List Box → Prop) : List Box → List (List Interior) → List Box → Prop
  | prev, [], top => top = prev
  | prev, level :: rest, top => AlignedBy P prev level ∧ StackTo P (level.map Interior.box) rest top

/-- The OMT builder holding the items `items` and, per level, the nodes
`levels`. -/
def OMTBuilder.repr (count : Nat) (items : List Item) (levels : List (List Interior)) :
    OMTBuilder :=
  { count := count
    refs := items.map Item.ref
    boxes := flatBoxes (items.map Item.box)
    nodeSizes := levels.map (fun l => l.map Interior.size)
    nodeBoxes := levels.map (fun l => flatBoxes (l.map Interior.box)) }

/-- What `build` establishes for a node and the boxes of its children. -/
def OMTNode (d : Nat) (n : Interior) (kids : List Box) : Prop :=
  n.box = mbr kids ∧ n.size = kids.length ∧ 1 ≤ n.size ∧ n.size ≤ d

/-- The numbers of items `build` is called with at `level`. -/
def Fits (d level N : Nat) : Prop :=
  1 ≤ N ∧ N ≤ d ^ (level + 1) ∧ (1 ≤ level → 2 ≤ N)

/-- The selection routine only calls `Swap(i, j)` with `i, j < Len()`. -/
def BucketsInRange (buckets : Nat → List F64 → Nat → List (Nat × Nat)) : Prop :=
  ∀ sortBy boxes n, SwapsInRange (buckets sortBy boxes n) (boxes.length / 4)

/-- What the recursive call of `build` at level `L` does, for a builder with
`H` levels: the items of the range are permuted in place, one node is
recorded at level `L` and the nodes below it at the levels under `L`. -/
def RecurSpec (d : Nat) (recur : Nat → Nat → OMTBuilder → Option (OMTBuilder × Box))
    (L H : Nat) : Prop :=
  ∀ (count : Nat) (A S C : List Item) (levels : List (List Interior)),
    levels.length = H → Fits d L S.length →
    ∃ (S' : List Item) (news : List (List Interior)) (root : Interior),
      S'.Perm S ∧ news.length = L ∧
      StackTo (OMTNode d) (S'.map Item.box) (news ++ [[root]]) [root.box] ∧
      recur A.length (A.length + S.length) (OMTBuilder.repr count (A ++ S ++ C) levels) =
        some (OMTBuilder.repr count (A ++ S' ++ C) (appendLevels levels (news ++ [[root]])),
          root.box)

/-- The variables of the OMT `pack` when the interior nodes `ns` have been
appended. -/
def omtPackState (items : List Item) (ns : List Interior) : Int × List Int × List F64 :=
  (((Layout.packState ⟨items, ns⟩).start : Nat),
    (Layout.packState ⟨items, ns⟩).refs, (Layout.packState ⟨items, ns⟩).boxes)

/-- A selection routine for the examples: it exchanges the first two items
of a slice. -/
def sampleBuckets : Nat → List F64 → Nat → List (Nat × Nat) :=
  fun _ boxes _ => if 2 ≤ boxes.length / 4 then [(0, 1)] else []

/-- The entry of least value of a list of queue entries. -/
def minEntry : List (Int × F64) → Int × F64
  | [] => (0, 0)
  | e :: rest => if rest = [] then e else if e.2 ≤ (minEntry rest).2 then e else minEntry rest

/-- Removal of the first occurrence of an entry. -/
def eraseEntry (e : Int × F64) : List (Int × F64) → List (Int × F64)
  | [] => []
  | x :: xs => if x = e then xs else x :: eraseEntry e xs

/-- A priority queue kept as a list of its entries, for the examples. -/
def listQueue : FlatQueue (List (Int × F64)) :=
  { new := []
    Len := fun q => q.length
    Push := fun q id v => (id, v) :: q
    Peek := fun q => (minEntry q).1
    PeekValue := fun q => (minEntry q).2
    Pop := fun q => ((minEntry q).1, eraseEntry (minEntry q) q) }

/-- The entries of a `listQueue`. -/
def listQueue.entries (q : List (Int × F64)) : Multiset (Int × F64) := (q : Multiset (Int × F64))

/-- The distance along one axis from `p` to the interval `[lo, hi]`, as
`PlanarBoxDist` computes it. -/
def axisDist (p lo hi : F64) : F64 :=
  if p < lo then lo - p else if p ≤ hi then 0 else p - hi

/-- The callback of the distance filter: it records the call and returns true
while `dist <= D`. -/
def thresholdCallback (D : F64) : Int → F64 → List (Int × F64) → Bool × List (Int × F64) :=
  fun ref dist s => (decide (dist ≤ D), s ++ [(ref, dist)])

/-- A callback whose state is the number of times it has been invoked;
`g n ref` is its answer when it is invoked with `ref` after `n` earlier
invocations. -/
def countingCallback (g : Nat → Int → Bool) : Int → Nat → Bool × Nat :=
  fun ref n => (g n ref, n + 1)

/-- The box stored for node `k`: the coordinates `boxes[4k .. 4k+3]`. -/
def RTree.boxAt (r : RTree) (k : Nat) : Option Box :=
  match r.boxes[4 * k]?, r.boxes[4 * k + 1]?, r.boxes[4 * k + 2]?, r.boxes[4 * k + 3]? with
  | some b0, some b1, some b2, some b3 => some ⟨b0, b1, b2, b3⟩
  | _, _, _, _ => none

/-- The leaf entry `i`: `refs[i]` with the box `boxes[4i .. 4i+3]`. -/
def RTree.leafEntry (r : RTree) (i : Nat) : Option Item :=
  match r.refs[i]?, r.boxAt i with
  | some ref, some box => some ⟨ref, box⟩
  | _, _ => none

/-! ## serialization.go -/

/-- The message `internal.RTree` of the wire format: `count` and `precision`
are uint32, `refs` and `boxes` are repeated int64.  The generated code of
the message is not part of the sources at hand; its encoder and decoder are
parameters of `Serialize` and `Deserialize`. -/
structure WireRTree where
  Count : Nat
  Refs : List Int
  Boxes : List Int
  Precision : Nat
deriving DecidableEq

/-- The function `math.Pow10`: for `0 <= n <= 308` the product of two table
entries, `pow10postab32[n/32] * pow10tab[n%32]`, for `-323 <= n <= 0` the
quotient `pow10negtab32[-n/32] / pow10tab[-n%32]`; the entries are the float64
values of the decimal literals `1e32`, `1e-32` and so on.  Outside these
ranges the result is `+Inf` for positive and `0` for negative `n`. -/
def Pow10 (n : Int) : F64 :=
  if 0 ≤ n ∧ n ≤ 308 then
    rnd ((10 : ℚ) ^ (32 * (n.toNat / 32))) * rnd ((10 : ℚ) ^ (n.toNat % 32))
  else if -323 ≤ n ∧ n ≤ 0 then
    rnd (1 / (10 : ℚ) ^ (32 * ((-n).toNat / 32))) / rnd ((10 : ℚ) ^ ((-n).toNat % 32))
  else if n > 0 then posInf
  else fin 0

/-- The function `math.Round`. -/
def F64.round : F64 → F64
  | fin q => fin (roundHalfAway q)
  | x => x

/-- The conversion `int64(f)`: truncation toward zero when int64 can hold the
result.  Go leaves the other cases to the implementation; the value taken
here is the one of amd64, the least int64. -/
def toInt64 : F64 → Int
  | fin q =>
    let t : Int := if 0 ≤ q then ⌊q⌋ else ⌈q⌉
    if -9223372036854775808 ≤ t ∧ t < 9223372036854775808 then t else -9223372036854775808
  | _ => -9223372036854775808

/-- Serialize; `marshal` stands for `proto.Marshal`. -/
def Serialize {W : Type} (marshal : WireRTree → Except String W) (index : RTree)
    (precision : Nat) : Except String W :=
  let count := index.count % 4294967296
  let scale := Pow10 (precision : Int)
  let boxes := index.boxes.map (fun b => toInt64 (F64.round (b * scale)))
  marshal { Count := count, Refs := index.refs, Boxes := boxes, Precision := precision }

/-- Deserialize; `unmarshal` stands for `UnmarshalVT`. -/
def Deserialize {W : Type} (unmarshal : W → Except String WireRTree) (b : W) :
    Except String RTree :=
  match unmarshal b with
  | .error e => .error e
  | .ok msg =>
    let count := msg.Count
    let scale := Pow10 (msg.Precision : Int)
    let boxes := msg.Boxes.map (fun (v : Int) => F64.rnd (v : ℚ) / scale)
    .ok { count := count, refs := msg.Refs, boxes := boxes }

/-- Two coordinates are within `10^-p` of each other. -/
def F64.Within (p : Nat) : F64 → F64 → Prop
  | fin a, fin b => |b - a| ≤ 1 / (10 : ℚ) ^ p
  | posInf, posInf => True
  | negInf, negInf => True
  | _, _ => False

/-- The round trip succeeds and gives a tree with the same count and refs and
with every coordinate within `10^-p` of the original. -/
def RoundTripWithin {W : Type} (marshal : WireRTree → Except String W)
    (unmarshal : W → Except String WireRTree) (t : RTree) (p : Nat) : Prop :=
  ∃ (w : W) (t' : RTree), Serialize marshal t p = .ok w ∧ Deserialize unmarshal w = .ok t' ∧
    t'.count = t.count ∧ t'.refs = t.refs ∧ t'.boxes.length = t.boxes.length ∧
    ∀ (i : Nat) (a b : F64), t.boxes[i]? = some a → t'.boxes[i]? = some b → F64.Within p a b

/-- The round trip succeeds and gives the tree back. -/
def RoundTripExact {W : Type} (marshal : WireRTree → Except String W)
    (unmarshal : W → Except String WireRTree) (t : RTree) (p : Nat) : Prop :=
  ∃ w : W, Serialize marshal t p = .ok w ∧ Deserialize unmarshal w = .ok t

/-- A lossless wire envelope: decoding an encoded message gives it back. -/
def Lossless {W : Type} (marshal : WireRTree → Except String W)
    (unmarshal : W → Except String WireRTree) : Prop :=
  ∀ m, ∃ w, marshal m = .ok w ∧ unmarshal w = .ok m

/-- The envelope of the examples: a message stands for itself. -/
def idMarshal : WireRTree → Except String WireRTree := fun m => .ok m

/-- The tree of the examples: one item with ref 7 and box (1/4, 1, 2, 3)
under a root. -/
def sampleTree : RTree :=
  { count := 1, refs := [7, 0, 4],
    boxes := [fin (1 / 4), fin 1, fin 2, fin 3, fin (1 / 4), fin 1, fin 2, fin 3] }

/-- A tree with a coordinate beyond the range of int64. -/
def wideTree : RTree :=
  { count := 1, refs := [7, 0, 4],
    boxes := [fin 0, fin 0, fin 18446744073709551616, fin 1,
      fin 0, fin 0, fin 18446744073709551616, fin 1] }

/-- The distance of every interior node but the root is a lower bound of the
distances of its children.  The root is queued with distance 0 and popped
before any item is handed out, so its own distance plays no part. -/
def Layout.DistMonoInner (ly : Layout) (dists : List F64) : Prop :=
  ∀ j n, ly.nodes[j]? = some n → j + 1 < ly.nodes.length → ∀ i < n.size,
    dists.getD (ly.leaves.length + j) 0 ≤ dists.getD (childStart ly.nodes j + i) 0

/-- No entry of the queue is the root. -/
def Layout.QueueInner (ly : Layout) (es : Multiset (Int × F64)) : Prop :=
  ∀ e ∈ es, e.1.toNat + 1 < ly.leaves.length + ly.nodes.length

/-- The two items of `TestNeighborsByItemDist`: ref 0 has the nearer box,
ref 1 the farther one. -/
def twoItems : List Item :=
  [⟨0, ⟨fin (-112108612 / 1000000), fin (33451423 / 1000000), fin (-112082519 / 1000000),
      fin (33473262 / 1000000)⟩⟩,
   ⟨1, ⟨fin (-112080888 / 1000000), fin (33472976 / 1000000), fin (-112073764 / 1000000),
      fin (33473048 / 1000000)⟩⟩]

/-- The `itemDist` of `TestNeighborsByItemDist`: `distances[ref]`. -/
def twoItemsDist : F64 → F64 → Int → F64 :=
  fun _ _ ref => if ref = 0 then fin 12040000 else fin 12030000

/-- Reading a coordinate array four values at a time. -/
def unflatBoxes : List F64 → List Box
  | a :: b :: c :: d :: rest => ⟨a, b, c, d⟩ :: unflatBoxes rest
  | _ => []

/-- The layout with the same refs and child counts whose boxes are read from a
coordinate array. -/
def Layout.rebox (ly : Layout) (boxes : List F64) : Layout :=
  { leaves := List.zipWith (fun (it : Item) (b : Box) => (⟨it.ref, b⟩ : Item)) ly.leaves
      (unflatBoxes boxes)
    nodes := List.zipWith (fun (n : Interior) (b : Box) => (⟨n.size, b⟩ : Interior)) ly.nodes
      ((unflatBoxes boxes).drop ly.leaves.length) }

/-- Both queries return on the tree, for every argument and every callback,
once the fuel is at least `len(refs)`: no index is out of range. -/
def RTree.QueriesReturn (t : RTree) : Prop :=
  (∀ (minX minY maxX maxY : F64) (σ : Type) (iterf : Int → σ → Bool × σ) (s : σ) (fuel : Nat),
    t.refs.length ≤ fuel → ∃ s', t.Search minX minY maxX maxY iterf fuel s = some s') ∧
  (∀ (Q : Type) (fq : FlatQueue Q) (entries : Q → Multiset (Int × F64)), fq.Lawful entries →
    ∀ (x y : F64) (boxDist : F64 → F64 → F64 → F64 → F64 → F64 → F64)
      (itemDist : Option (F64 → F64 → Int → F64)) (σ : Type)
      (iterf : Int → F64 → σ → Bool × σ) (s : σ) (fuel : Nat),
      t.refs.length ≤ fuel → ∃ s', t.Neighbors fq x y iterf boxDist itemDist fuel s = some s')

/-- A tree has the shape of another: the same count, the same refs and as
many coordinates. -/
def RTree.SameShape (t u : RTree) : Prop :=
  t.count = u.count ∧ t.refs = u.refs ∧ t.boxes.length = u.boxes.length

/-- The factor `xScale` computed at the start of `sort`. -/
def HilbertBuilder.xScale (b : HilbertBuilder) : F64 :=
  let hilbertMax : F64 := fin 65535
  let width := b.maxX - b.minX
  if width > 0 then hilbertMax / width else 0

/-- The factor `yScale` computed at the start of `sort`. -/
def HilbertBuilder.yScale (b : HilbertBuilder) : F64 :=
  let hilbertMax : F64 := fin 65535
  let height := b.maxY - b.minY
  if height > 0 then hilbertMax / height else 0

/-- The grid coordinates of item `i` in the loop of `sort`, before their
conversion to uint32: `math.Round(xScale * (midX - b.minX))` and
`math.Round(yScale * (midY - b.minY))`. -/
def HilbertBuilder.gridCoords (b : HilbertBuilder) (xScale yScale : F64) (i : Nat) :
    Option (F64 × F64) :=
  match b.boxes[i * 4]?, b.boxes[i * 4 + 2]?, b.boxes[i * 4 + 1]?, b.boxes[i * 4 + 3]? with
  | some x0, some x1, some y0, some y1 =>
    let midX := (x0 + x1) / fin 2
    let midY := (y0 + y1) / fin 2
    some (F64.round (xScale * (midX - b.minX)), F64.round (yScale * (midY - b.minY)))
  | _, _, _, _ => none

/-- The four coordinates of the box are finite numbers. -/
def Box.Finite (b : Box) : Prop :=
  ∃ x0 y0 x1 y1 : ℚ, b = ⟨fin x0, fin y0, fin x1, fin y1⟩

/-- The child counts `level` of the nodes put over a level of `c` nodes:
there are `ceil(c / d)` of them, together they take the `c` nodes and no
other, every node but the last takes exactly `d`, and every node takes
between 1 and `d`. -/
def LevelOver (d c : Nat) (level : List Nat) : Prop :=
  level.length = ceilDiv c d ∧ level.sum = c ∧ (∀ s ∈ level.dropLast, s = d) ∧
  ∀ s ∈ level, 1 ≤ s ∧ s ≤ d

/-- The child counts of a stack of levels over `c` leaves, bottom-up: each
level lies over the one below as in `LevelOver`, and the last level is a
single node. -/
def PackedSizes (d : Nat) : Nat → List (List Nat) → Prop
  | _, [] => False
  | c, [top] => LevelOver d c top ∧ top.length = 1
  | c, level :: next :: rest => LevelOver d c level ∧ PackedSizes d level.length (next :: rest)

/-- A callback for the body of `build` in place of the recursive call: it
records the range it is called with, as one more entry
`[childStart, childEnd]` of `nodeSizes`, and returns the empty box. -/
def recordCall : Nat → Nat → OMTBuilder → Option (OMTBuilder × Box) :=
  fun childStart childEnd b =>
    some ({ b with
      nodeSizes := b.nodeSizes ++ [[childStart, childEnd]]
      nodeBoxes := b.nodeBoxes ++ [Box.empty.coords ++ Box.empty.coords] }, Box.empty)

/-- The entry `recordCall` makes for a range, seen as a level of two nodes. -/
def callLevel (r : Nat × Nat) : List Interior := [⟨r.1, Box.empty⟩, ⟨r.2, Box.empty⟩]

/-- The child ranges of the inner loop of `build` for the loop values
`starts`. -/
def childRangesOf (end_ nodeCapacity : Nat) (starts : List Nat) : List (Nat × Nat) :=
  starts.map (fun childStart =>
    (childStart, if childStart + nodeCapacity > end_ then end_ else childStart + nodeCapacity))

/-- The ranges tile `[lo, hi)` without gap or overlap: each is non-empty and
starts where the one before it ends. -/
def Tiles : Nat → Nat → List (Nat × Nat) → Prop
  | lo, hi, [] => lo = hi
  | lo, hi, r :: rest => r.1 = lo ∧ r.1 < r.2 ∧ Tiles r.2 hi rest

/-- A child range of a call of `build` on `[start, end_)` with node capacity
`cap`: it starts a multiple of `cap` after `start` and holds `cap` items, or
what is left of the range. -/
def ChildRange (start end_ cap : Nat) (r : Nat × Nat) : Prop :=
  start ≤ r.1 ∧ cap ∣ (r.1 - start) ∧ r.1 < end_ ∧ r.2 = min (r.1 + cap) end_

/-- One bit position of the four words `a, b, c, d` of `hilbert`. -/
abbrev HBits : Type := Bool × Bool × Bool × Bool

/-- A step of the prefix scan of `hilbert` at one bit position: `w` are the
bits of `a, b, c, d` at the position and `w'` the bits `k` positions up. -/
def HBits.comp (w w' : HBits) : HBits :=
  ((w.1 && w'.1) ^^ (w.2.1 && w'.2.1),
   (w.1 && w'.2.1) ^^ (w.2.1 && (w'.1 ^^ w'.2.1)),
   w.2.2.1 ^^ ((w.1 && w'.2.2.1) ^^ (w.2.1 && w'.2.2.2)),
   w.2.2.2 ^^ ((w.2.1 && w'.2.2.1) ^^ ((w.1 ^^ w.2.1) && w'.2.2.2)))

/-- The bits of `c, d` a scan step gives when the position `k` up has the
bits `s` of `c, d`. -/
def HBits.act (w : HBits) (s : Bool × Bool) : Bool × Bool :=
  (w.2.2.1 ^^ ((w.1 && s.1) ^^ (w.2.1 && s.2)),
   w.2.2.2 ^^ ((w.2.1 && s.1) ^^ ((w.1 ^^ w.2.1) && s.2)))

/-- The bits of `c, d`. -/
def HBits.cd (w : HBits) : Bool × Bool := (w.2.2.1, w.2.2.2)

/-- The bits of `a, b, c, d` after the first step of `hilbert` at a position,
from the bits of `x, y` at the position and one up; `vk`, `vk1` tell whether
the positions are below 16. -/
def hilbertBits (xk yk xk1 yk1 vk vk1 : Bool) : HBits :=
  (((xk ^^ yk) || (vk1 ^^ (xk1 ^^ yk1))),
   ((xk1 ^^ yk1) ^^ (xk ^^ yk)),
   (((vk1 ^^ (xk1 || yk1)) ^^ ((vk ^^ (xk ^^ yk)) && (xk1 && (yk1 ^^ vk1)))) ^^
     (vk ^^ (xk || yk))),
   ((((xk ^^ yk) && (vk1 ^^ (xk1 || yk1))) ^^ (xk1 && (yk1 ^^ vk1))) ^^ (xk && (yk ^^ vk))))

/-- What the bits of `x, y` above a position contribute to the output at the
position: the bits of `x, y` one up, whether that position is below 16, and
the bits of the scanned `c, d` one and two up. -/
abbrev HState : Type := Bool × Bool × Bool × (Bool × Bool) × (Bool × Bool)

/-- The bits of the scanned `c, d` at a position. -/
def HState.scan (σ : HState) (xk yk : Bool) : Bool × Bool :=
  (hilbertBits xk yk σ.1 σ.2.1 true σ.2.2.1).act σ.2.2.2.2

/-- The state one position down. -/
def HState.next (σ : HState) (xk yk : Bool) : HState :=
  (xk, yk, true, σ.scan xk yk, σ.2.2.2.1)

/-- The two output bits `i0, i1` of `hilbert` at a position. -/
def HState.out (σ : HState) (xk yk : Bool) : Bool × Bool :=
  (xk ^^ yk,
   (((σ.scan xk yk).2 ^^ σ.2.2.2.1.2) ||
     (true ^^ ((xk ^^ yk) || ((σ.scan xk yk).1 ^^ σ.2.2.2.1.1)))))

/-- The states that occur. -/
def HState.reachable : List HState :=
  [(false, false, false, (false, false), (false, false)),
   (false, false, true, (false, false), (true, false)),
   (false, false, true, (false, true), (false, true)),
   (false, false, true, (true, false), (false, false)),
   (false, false, true, (true, true), (true, true)),
   (false, true, true, (false, false), (false, false)),
   (false, true, true, (false, true), (false, true)),
   (false, true, true, (true, false), (true, true)),
   (false, true, true, (true, true), (true, false)),
   (true, false, true, (false, false), (false, true)),
   (true, false, true, (false, true), (false, false)),
   (true, false, true, (true, false), (true, false)),
   (true, false, true, (true, true), (true, true)),
   (true, true, true, (false, false), (false, false)),
   (true, true, true, (false, true), (true, true)),
   (true, true, true, (true, false), (true, false)),
   (true, true, true, (true, true), (false, true))]

/-- The words `a, b, c, d` of `hilbert` after its first step. -/
def hilbertInit (x y : Nat) : Nat × Nat × Nat × Nat :=
  let a := x ^^^ y
  let b := 0xFFFF ^^^ a
  let c := 0xFFFF ^^^ (x ||| y)
  let d := x &&& (y ^^^ 0xFFFF)
  (a ||| (b >>> 1), (a >>> 1) ^^^ a, ((c >>> 1) ^^^ (b &&& (d >>> 1))) ^^^ c,
    ((a &&& (c >>> 1)) ^^^ (d >>> 1)) ^^^ d)

/-- A step of the prefix scan of `hilbert` with shift `k`. -/
def hilbertScan (k : Nat) (w : Nat × Nat × Nat × Nat) : Nat × Nat × Nat × Nat :=
  ((w.1 &&& (w.1 >>> k)) ^^^ (w.2.1 &&& (w.2.1 >>> k)),
   (w.1 &&& (w.2.1 >>> k)) ^^^ (w.2.1 &&& ((w.1 ^^^ w.2.1) >>> k)),
   w.2.2.1 ^^^ ((w.1 &&& (w.2.2.1 >>> k)) ^^^ (w.2.1 &&& (w.2.2.2 >>> k))),
   w.2.2.2 ^^^ ((w.2.1 &&& (w.2.2.1 >>> k)) ^^^ ((w.1 ^^^ w.2.1) &&& (w.2.2.2 >>> k))))

/-- The words `cc, dd` of `hilbert` at the end of the scan. -/
def hilbertState (x y : Nat) : Nat × Nat :=
  ((hilbertScan 8 (hilbertScan 4 (hilbertScan 2 (hilbertInit x y)))).2.2.1,
   (hilbertScan 8 (hilbertScan 4 (hilbertScan 2 (hilbertInit x y)))).2.2.2)

/-- The word `i1` of `hilbert` before its bits are spread. -/
def hilbertOdd (x y : Nat) : Nat :=
  ((hilbertState x y).2 ^^^ ((hilbertState x y).2 >>> 1)) |||
    (0xFFFF ^^^ ((x ^^^ y) ||| ((hilbertState x y).1 ^^^ ((hilbertState x y).1 >>> 1))))

/-- The four steps of `hilbert` that move bit `k` of a 16-bit word to bit
`2 * k`. -/
def spreadBits (i : Nat) : Nat :=
  let i := (i ||| shl32 i 8) &&& 0x00FF00FF
  let i := (i ||| shl32 i 4) &&& 0x0F0F0F0F
  let i := (i ||| shl32 i 2) &&& 0x33333333
  (i ||| shl32 i 1) &&& 0x55555555

/-- The bits of four words at position `j`. -/
def bitsAt (w : Nat × Nat × Nat × Nat) (j : Nat) : HBits :=
  (w.1.testBit j, w.2.1.testBit j, w.2.2.1.testBit j, w.2.2.2.testBit j)

/-- The bits of the scanned words `cc, dd` of `hilbert` at position `j`. -/
def hilbertStateBits (x y j : Nat) : Bool × Bool :=
  ((hilbertState x y).1.testBit j, (hilbertState x y).2.testBit j)

/-- The state of `hilbert` above position `k`. -/
def hilbertAbove (x y k : Nat) : HState :=
  (x.testBit (k + 1), y.testBit (k + 1), decide (k + 1 < 16), hilbertStateBits x y (k + 1),
    hilbertStateBits x y (k + 2))

/-! ## Definitions of the statements on rounding, on trees that are not covered
and on the height of the OMT tree -/

/-- The number `q` is a float64 value: rounding leaves it as it is. -/
def F64.IsFloat (q : ℚ) : Prop := F64.rnd q = F64.fin q

instance (q : ℚ) : Decidable (F64.IsFloat q) := by
  unfold F64.IsFloat
  infer_instance

/-- A tree with the coordinate 2^53 - 1, the largest odd float64 value. -/
def roundedTree : RTree :=
  { count := 1, refs := [7, 0, 4],
    boxes := [fin 0, fin 0, fin 9007199254740991, fin 1,
      fin 0, fin 0, fin 9007199254740991, fin 1] }

/-- The exact distance along one axis from `p` to the interval `[lo, hi]`. -/
def axisGap (p lo hi : ℚ) : ℚ := max (lo - p) (max 0 (p - hi))

/-- The four coordinates of the box are float64 values of magnitude at most
2^1022. -/
def Box.Moderate (b : Box) : Prop :=
  ∃ x0 y0 x1 y1 : ℚ, b = ⟨fin x0, fin y0, fin x1, fin y1⟩ ∧
    (F64.IsFloat x0 ∧ |x0| ≤ 2 ^ (1022 : Int)) ∧ (F64.IsFloat y0 ∧ |y0| ≤ 2 ^ (1022 : Int)) ∧
    (F64.IsFloat x1 ∧ |x1| ≤ 2 ^ (1022 : Int)) ∧ (F64.IsFloat y1 ∧ |y1| ≤ 2 ^ (1022 : Int))

/-- Two items far apart: a point at the origin and a point at `x = 2^1023`. -/
def farItems : List Item :=
  [⟨1, ⟨fin 0, fin 0, fin 0, fin 0⟩⟩,
   ⟨2, ⟨fin (2 ^ (1023 : Int)), fin 0, fin (2 ^ (1023 : Int)), fin 0⟩⟩]

/-- Two items close together: a point at the origin and a point at
`x = 2^-1060`. -/
def nearItems : List Item :=
  [⟨1, ⟨fin 0, fin 0, fin 0, fin 0⟩⟩,
   ⟨2, ⟨fin (2 ^ (-1060 : Int)), fin 0, fin (2 ^ (-1060 : Int)), fin 0⟩⟩]

/-- A tree of one item whose root box, `[5, 5, 6, 6]`, does not cover the box
`[0, 0, 1, 1]` of its leaf. -/
def uncoveredLayout : Layout :=
  { leaves := [⟨7, ⟨fin 0, fin 0, fin 1, fin 1⟩⟩],
    nodes := [⟨1, ⟨fin 5, fin 5, fin 6, fin 6⟩⟩] }

/-- One item and no interior node: a layout without a root. -/
def rootlessLayout : Layout :=
  { leaves := [⟨7, ⟨fin 0, fin 0, fin 1, fin 1⟩⟩], nodes := [] }

/-- The counts of the nodes a call of `build` records, level by level, for a
range of `n` items, whatever the level it starts at: a level holds nodes whose
sizes add up to `a + p`, where `p` is the number of nodes of the level below
(0 at the bottom) and `a` is the number of items that hang directly under the
nodes of this level; all `n` items are taken by some level, and the uppermost
level has `t` nodes. -/
def Forest : Nat → Nat → List (List Interior) → Nat → Prop
  | p, n, [], t => n = 0 ∧ t = p
  | p, n, l :: rest, t =>
    ∃ a, a ≤ n ∧ (l.map Interior.size).sum = a + p ∧ Forest l.length (n - a) rest t

/-- What a call of `build` records over the boxes `prev`, at whatever level
it starts: the node counts add up as in `Forest`, `tops` are the boxes the
calls return, and all boxes are valid when those of `prev` are. -/
def BuiltOver (prev : List Box) (news : List (List Interior)) (tops : List Box) : Prop :=
  Forest 0 prev.length news tops.length ∧
  ((∀ b ∈ prev, b.Valid) → (∀ l ∈ news, ∀ n ∈ l, n.box.Valid) ∧ ∀ b ∈ tops, b.Valid)

/-- What the recursive call of `build` at level `L` does for a range whose
length satisfies `Pre`, for a builder with `H` levels: the items of the range
are permuted in place, one node is recorded at level `L` and the nodes below
it at the levels under `L`, related to the items by `G`. -/
def RecurOver (G : List Box → List (List Interior) → List Box → Prop) (Pre : Nat → Prop)
    (recur : Nat → Nat → OMTBuilder → Option (OMTBuilder × Box)) (L H : Nat) : Prop :=
  ∀ (count : Nat) (A S C : List Item) (levels : List (List Interior)),
    levels.length = H → Pre S.length →
    ∃ (S' : List Item) (news : List (List Interior)) (root : Interior),
      S'.Perm S ∧ news.length = L ∧
      G (S'.map Item.box) (news ++ [[root]]) [root.box] ∧
      recur A.length (A.length + S.length) (OMTBuilder.repr count (A ++ S ++ C) levels) =
        some (OMTBuilder.repr count (A ++ S' ++ C) (appendLevels levels (news ++ [[root]])),
          root.box)

/-! ## Properties -/

theorem flatBoxes_length (bs : List Box) : (flatBoxes bs).length = 4 * bs.length := by
  induction bs with
  | nil => rfl
  | cons b bs ih =>
    simp only [flatBoxes, List.flatMap_cons, List.length_append, List.length_cons] at ih ⊢
    simp only [Box.coords, List.length_cons, List.length_nil]
    omega

theorem flatBoxes_append (as bs : List Box) :
    flatBoxes (as ++ bs) = flatBoxes as ++ flatBoxes bs := by
  simp [flatBoxes]

theorem flatBoxes_get (bs : List Box) (k : Nat) (b : Box) (h : bs[k]? = some b) :
    (flatBoxes bs)[4 * k]? = some b.minX ∧ (flatBoxes bs)[4 * k + 1]? = some b.minY ∧
    (flatBoxes bs)[4 * k + 2]? = some b.maxX ∧ (flatBoxes bs)[4 * k + 3]? = some b.maxY := by
  induction bs generalizing k with
  | nil => simp at h
  | cons a bs ih =>
    cases k with
    | zero =>
      simp at h
      subst h
      simp [flatBoxes, Box.coords]
    | succ k =>
      simp at h
      have := ih k h
      have e : ∀ c, 4 * (k + 1) + c = (4 * k + c) + 4 := by intro c; omega
      simp only [flatBoxes, List.flatMap_cons] at this ⊢
      have hl : (Box.coords a).length = 4 := rfl
      refine ⟨?_, ?_, ?_, ?_⟩
      · rw [show 4 * (k+1) = 4 * k + 4 by omega, List.getElem?_append_right (by omega)]; simpa [hl] using this.1
      · rw [e 1, List.getElem?_append_right (by omega)]; simpa [hl] using this.2.1
      · rw [e 2, List.getElem?_append_right (by omega)]; simpa [hl] using this.2.2.1
      · rw [e 3, List.getElem?_append_right (by omega)]; simpa [hl] using this.2.2.2

theorem index_natCast {β : Type} (s : List β) (k : Nat) : index s (k : Int) = s[k]? := by
  simp [index]

theorem index_natCast_add {β : Type} (s : List β) (k c : Nat) :
    index s ((k : Int) + (c : Int)) = s[k + c]? := by
  rw [← Nat.cast_add, index_natCast]

theorem tdiv_four (k : Nat) : Int.tdiv ((4 * k : Nat) : Int) 4 = (k : Int) := by
  rw [Int.tdiv_eq_ediv (by positivity) (by norm_num)]
  push_cast
  omega

theorem childStart_zero (nodes : List Interior) : childStart nodes 0 = 0 := by
  simp [childStart]

theorem childStart_succ (nodes : List Interior) (j : Nat) (n : Interior)
    (h : nodes[j]? = some n) : childStart nodes (j + 1) = childStart nodes j + n.size := by
  unfold childStart
  have hj : j < nodes.length := by
    rcases Nat.lt_or_ge j nodes.length with h' | h'
    · exact h'
    · rw [List.getElem?_eq_none h'] at h; cases h
  rw [List.take_succ, h]
  simp

theorem childStart_append_le (nodes more : List Interior) (j : Nat) (h : j ≤ nodes.length) :
    childStart (nodes ++ more) j = childStart nodes j := by
  unfold childStart
  rw [List.take_append_of_le_length h]

theorem childStart_mono (nodes : List Interior) (j : Nat) :
    childStart nodes j ≤ childStart nodes (j + 1) := by
  rcases Nat.lt_or_ge j nodes.length with h | h
  · have : nodes[j]? = some nodes[j] := List.getElem?_eq_getElem h
    rw [childStart_succ nodes j _ this]; omega
  · unfold childStart
    rw [List.take_of_length_le h, List.take_of_length_le (by omega)]

theorem take_drop_append {A : Type} (T X : List A) (P size : Nat) (h : P + size ≤ T.length) :
    ((T ++ X).drop P).take size = (T.drop P).take size := by
  rw [List.drop_append_of_le_length (by omega), List.take_append_of_le_length]
  simp; omega

theorem nodeTable_fold_snd {A : Type} (f : Interior → List A → A) (lv : List A)
    (nodes : List Interior) :
    (nodes.foldl (fun (acc : List A × Nat) n =>
      (acc.1 ++ [f n ((acc.1.drop acc.2).take n.size)], acc.2 + n.size)) (lv, 0)).2 =
      childStart nodes nodes.length := by
  induction nodes using List.reverseRecOn with
  | nil => simp [childStart]
  | append_singleton ns m ih =>
    rw [List.foldl_append]
    simp only [List.foldl_cons, List.foldl_nil]
    rw [ih]
    simp [childStart]

theorem nodeTable_nil {A : Type} (f : Interior → List A → A) (lv : List A) :
    nodeTable f lv [] = lv := rfl

theorem nodeTable_snoc {A : Type} (f : Interior → List A → A) (lv : List A)
    (nodes : List Interior) (n : Interior) :
    nodeTable f lv (nodes ++ [n]) = nodeTable f lv nodes ++
      [f n (((nodeTable f lv nodes).drop (childStart nodes nodes.length)).take n.size)] := by
  unfold nodeTable
  rw [List.foldl_append]
  simp only [List.foldl_cons, List.foldl_nil]
  rw [nodeTable_fold_snd]

theorem nodeTable_length {A : Type} (f : Interior → List A → A) (lv : List A)
    (nodes : List Interior) : (nodeTable f lv nodes).length = lv.length + nodes.length := by
  induction nodes using List.reverseRecOn with
  | nil => simp [nodeTable_nil]
  | append_singleton ns m ih =>
    rw [nodeTable_snoc]; simp [ih]; omega

theorem nodeTable_leaf {A : Type} (f : Interior → List A → A) (lv : List A)
    (nodes : List Interior) (k : Nat) (h : k < lv.length) :
    (nodeTable f lv nodes)[k]? = lv[k]? := by
  induction nodes using List.reverseRecOn with
  | nil => simp [nodeTable_nil]
  | append_singleton ns m ih =>
    rw [nodeTable_snoc, List.getElem?_append_left, ih]
    rw [nodeTable_length]; omega

theorem nodeTable_entry {A : Type} (f : Interior → List A → A) (lv : List A)
    (nodes : List Interior) (j : Nat) (n : Interior) (hn : nodes[j]? = some n)
    (hb : ∀ i < nodes.length, childStart nodes (i + 1) ≤ lv.length + i) :
    (nodeTable f lv nodes)[lv.length + j]? =
      some (f n (((nodeTable f lv nodes).drop (childStart nodes j)).take n.size)) := by
  induction nodes using List.reverseRecOn with
  | nil => simp at hn
  | append_singleton ns m ih =>
    have hlen := nodeTable_length f lv ns
    rw [nodeTable_snoc]
    have hj : j < (ns ++ [m]).length := by
      rcases Nat.lt_or_ge j (ns ++ [m]).length with h' | h'
      · exact h'
      · rw [List.getElem?_eq_none h'] at hn; cases hn
    simp only [List.length_append, List.length_cons, List.length_nil] at hj
    have hcs := childStart_succ (ns ++ [m]) j n hn
    have hbj := hb j (by simp; omega)
    rcases Nat.lt_or_ge j ns.length with h | h
    · have hn' : ns[j]? = some n := by
        rw [List.getElem?_append_left h] at hn; exact hn
      have hb' : ∀ i < ns.length, childStart ns (i + 1) ≤ lv.length + i := by
        intro i hi
        have := hb i (by simp; omega)
        rwa [childStart_append_le _ _ _ (by omega)] at this
      rw [List.getElem?_append_left (by omega), ih hn' hb']
      rw [childStart_append_le _ _ _ (by omega)]
      rw [take_drop_append]
      rw [hlen]
      have := hb' j h
      rw [childStart_succ ns j n hn'] at this
      omega
    · have hje : j = ns.length := by omega
      subst hje
      have hm : m = n := by
        rw [List.getElem?_append_right (le_refl _)] at hn
        simpa using hn
      subst hm
      rw [List.getElem?_append_right (by omega)]
      rw [childStart_append_le _ _ _ (le_refl _)]
      rw [take_drop_append]
      · simp [hlen]
      · rw [hlen]
        rw [childStart_append_le _ _ _ (le_refl _)] at hcs
        omega

theorem Layout.tree_count (ly : Layout) : ly.tree.count = ly.leaves.length := rfl

theorem Layout.tree_refs_leaf (ly : Layout) (k : Nat) (it : Item) (h : ly.leaves[k]? = some it) :
    index ly.tree.refs (k : Int) = some it.ref := by
  have hk : k < ly.leaves.length := by
    rcases Nat.lt_or_ge k ly.leaves.length with h' | h'
    · exact h'
    · rw [List.getElem?_eq_none h'] at h; cases h
  rw [index_natCast]
  simp only [Layout.tree]
  rw [List.getElem?_append_left (by simpa using hk)]
  simp [h]

theorem Layout.tree_refs_node (ly : Layout) (j : Nat) (h : j ≤ ly.nodes.length) :
    index ly.tree.refs ((ly.leaves.length + j : Nat) : Int) =
      some ((4 * childStart ly.nodes j : Nat) : Int) := by
  rw [index_natCast]
  simp only [Layout.tree]
  rw [List.getElem?_append_right (by simp)]
  simp only [List.length_map, Nat.add_sub_cancel_left]
  rw [List.getElem?_map, List.getElem?_range (by omega)]
  rfl

theorem Layout.tree_refs_length (ly : Layout) :
    ly.tree.refs.length = ly.leaves.length + ly.nodes.length + 1 := by
  simp [Layout.tree]; omega

theorem Layout.allBoxes_length (ly : Layout) :
    ly.allBoxes.length = ly.leaves.length + ly.nodes.length := by
  simp [Layout.allBoxes]

theorem Layout.tree_boxes_length (ly : Layout) :
    ly.tree.boxes.length = 4 * (ly.leaves.length + ly.nodes.length) := by
  simp only [Layout.tree, flatBoxes_length, Layout.allBoxes_length]

theorem Layout.tree_intersects (ly : Layout) (k : Nat) (b : Box) (h : ly.allBoxes[k]? = some b)
    (minX minY maxX maxY : F64) :
    ly.tree.intersects ((4 * k : Nat) : Int) minX minY maxX maxY =
      some (b.intersects minX minY maxX maxY) := by
  obtain ⟨h0, h1, h2, h3⟩ := flatBoxes_get ly.allBoxes k b h
  have e1 : (((4 * k : Nat) : Int) + 1) = ((4 * k + 1 : Nat) : Int) := by push_cast; ring
  have e2 : (((4 * k : Nat) : Int) + 2) = ((4 * k + 2 : Nat) : Int) := by push_cast; ring
  have e3 : (((4 * k : Nat) : Int) + 3) = ((4 * k + 3 : Nat) : Int) := by push_cast; ring
  unfold RTree.intersects
  rw [e1, e2, e3]
  simp only [index_natCast, Layout.tree, h0, h1, h2, h3, Box.intersects]
  by_cases c0 : maxX < b.minX
  · simp [c0]
  · by_cases c1 : maxY < b.minY
    · simp [c0, c1]
    · by_cases c2 : minX > b.maxX
      · simp [c0, c1, c2]
      · simp [c0, c1, c2]

theorem childIdxs_eq (a n : Nat) :
    childIdxs ((4 * a : Nat) : Int) ((4 * (a + n) : Nat) : Int) =
      (List.range n).map (fun i => ((4 * (a + i) : Nat) : Int)) := by
  unfold childIdxs
  have : ((((4 * (a + n) : Nat) : Int) - ((4 * a : Nat) : Int) + 3) / 4).toNat = n := by
    push_cast
    omega
  rw [this]
  apply List.map_congr_left
  intro i _
  push_cast; ring

theorem feed_append {β σ : Type} (iterf : β → σ → Bool × σ) (xs ys : List β) (s : σ) :
    feed iterf (xs ++ ys) s =
      if (feed iterf xs s).1 then feed iterf ys (feed iterf xs s).2 else feed iterf xs s := by
  induction xs generalizing s with
  | nil => simp [feed]
  | cons x xs ih =>
    simp only [List.cons_append, feed]
    rcases h : iterf x s with ⟨b, s'⟩
    cases b
    · simp
    · simp [ih]

theorem forChildren_feed {σ : Type} (iterf : Int → σ → Bool × σ)
    (body : Int → σ → Option (Bool × σ)) (cs : List Int) (vals : List (List Int))
    (hlen : vals.length = cs.length)
    (h : ∀ (i : Nat) (c : Int) (v : List Int), cs[i]? = some c → vals[i]? = some v →
      ∀ s, body c s = some (feed iterf v s)) (s : σ) :
    forChildren body cs s = some (feed iterf vals.flatten s) := by
  induction cs generalizing vals s with
  | nil =>
    cases vals with
    | nil => simp [forChildren, feed]
    | cons v vs => simp at hlen
  | cons c cs ih =>
    cases vals with
    | nil => simp at hlen
    | cons v vs =>
      simp only [List.length_cons, add_left_inj] at hlen
      have h0 := h 0 c v (by simp) (by simp) s
      simp only [forChildren, h0, List.flatten_cons]
      rw [feed_append]
      have ih' := ih vs hlen (fun i c' v' hc hv => h (i + 1) c' v' (by simpa using hc) (by simpa using hv))
      rcases hf : feed iterf v s with ⟨b, s'⟩
      cases b
      · simp
      · simp [ih']

theorem feed_singleton {β σ : Type} (iterf : β → σ → Bool × σ) (r : β) (s : σ) :
    feed iterf [r] s = iterf r s := by
  simp only [feed]
  rcases iterf r s with ⟨b, s'⟩
  cases b <;> rfl

theorem getElem?_lt_length {A : Type} {l : List A} {k : Nat} {a : A} (h : l[k]? = some a) :
    k < l.length := by
  rcases Nat.lt_or_ge k l.length with h' | h'
  · exact h'
  · rw [List.getElem?_eq_none h'] at h; cases h

theorem Layout.allBoxes_leaf (ly : Layout) (k : Nat) (it : Item) (h : ly.leaves[k]? = some it) :
    ly.allBoxes[k]? = some it.box := by
  unfold Layout.allBoxes
  rw [List.getElem?_append_left (by simpa using getElem?_lt_length h)]
  simp [h]

theorem Layout.allBoxes_node (ly : Layout) (j : Nat) (n : Interior) (h : ly.nodes[j]? = some n) :
    ly.allBoxes[ly.leaves.length + j]? = some n.box := by
  unfold Layout.allBoxes
  rw [List.getElem?_append_right (by simp)]
  simp [h]

theorem nodeTable_entry_len {A : Type} (f : Interior → List A → A) (lv : List A) (N : Nat)
    (hN : lv.length = N)
    (nodes : List Interior) (j : Nat) (n : Interior) (hn : nodes[j]? = some n)
    (hb : ∀ i < nodes.length, childStart nodes (i + 1) ≤ N + i) :
    (nodeTable f lv nodes)[N + j]? =
      some (f n (((nodeTable f lv nodes).drop (childStart nodes j)).take n.size)) := by
  subst hN
  exact nodeTable_entry f lv nodes j n hn hb

theorem search_layout (ly : Layout)
    (hb : ∀ j < ly.nodes.length, childStart ly.nodes (j + 1) ≤ ly.leaves.length + j)
    (minX minY maxX maxY : F64) {σ : Type} (iterf : Int → σ → Bool × σ) :
    ∀ (j : Nat) (n : Interior), ly.nodes[j]? = some n → ∀ fuel, j < fuel → ∀ s,
      ly.tree.search minX minY maxX maxY iterf fuel ((4 * (ly.leaves.length + j) : Nat) : Int) s =
        some (feed iterf
          (((hitTable ly minX minY maxX maxY).drop (childStart ly.nodes j)).take n.size).flatten s) := by
  intro j
  induction j using Nat.strong_induction_on with
  | _ j ih =>
    intro n hn fuel hfuel s
    have hj := getElem?_lt_length hn
    cases fuel with
    | zero => omega
    | succ f =>
      have hcs := childStart_succ ly.nodes j n hn
      have hbj := hb j hj
      have hTlen : (hitTable ly minX minY maxX maxY).length = ly.leaves.length + ly.nodes.length := by
        unfold hitTable; rw [nodeTable_length]; simp
      simp only [RTree.search]
      rw [tdiv_four]
      have e1 : ((ly.leaves.length + j : Nat) : Int) + 1 = ((ly.leaves.length + (j + 1) : Nat) : Int) := by
        push_cast; ring
      rw [e1, Layout.tree_refs_node ly j (by omega), Layout.tree_refs_node ly (j + 1) (by omega)]
      simp only
      rw [hcs, childIdxs_eq]
      apply forChildren_feed
      · simp; omega
      · intro i c v hc hv s
        have hi : i < n.size := by
          have := getElem?_lt_length hc
          simpa using this
        rw [List.getElem?_map, List.getElem?_range hi] at hc
        simp only [Option.map_some', Option.some.injEq] at hc
        subst hc
        rw [List.getElem?_take_of_lt hi, List.getElem?_drop] at hv
        rcases Nat.lt_or_ge (childStart ly.nodes j + i) ly.leaves.length with hk | hk
        · -- a leaf
          have hit : ly.leaves[childStart ly.nodes j + i]? =
              some ly.leaves[childStart ly.nodes j + i] := List.getElem?_eq_getElem hk
          generalize ly.leaves[childStart ly.nodes j + i] = it at hit
          unfold hitTable at hv
          rw [nodeTable_leaf _ _ _ _ (by simpa using hk)] at hv
          rw [List.getElem?_map, hit] at hv
          simp only [Option.map_some', Option.some.injEq] at hv
          rw [Layout.tree_intersects ly _ it.box (Layout.allBoxes_leaf ly _ it hit)]
          by_cases hint : it.box.intersects minX minY maxX maxY = true
          · simp only [hint, if_true] at hv ⊢
            subst hv
            rw [tdiv_four, Layout.tree_count]
            have : ((childStart ly.nodes j + i : Nat) : Int) < (ly.leaves.length : Int) := by
              exact_mod_cast hk
            simp only [this, if_true]
            rw [Layout.tree_refs_leaf ly _ it hit, feed_singleton]
          · simp only [Bool.not_eq_true] at hint
            simp only [hint] at hv ⊢
            subst hv
            simp [feed]
        · -- an interior node
          obtain ⟨j', hj'⟩ : ∃ j', childStart ly.nodes j + i = ly.leaves.length + j' :=
            ⟨childStart ly.nodes j + i - ly.leaves.length, by omega⟩
          have hj'lt : j' < j := by omega
          have hn' : ly.nodes[j']? = some ly.nodes[j'] := List.getElem?_eq_getElem (by omega)
          generalize ly.nodes[j'] = n' at hn'
          rw [hj'] at hv ⊢
          unfold hitTable at hv
          rw [nodeTable_entry_len _ _ ly.leaves.length (by simp) _ j' n' hn' hb] at hv
          · simp only [Option.some.injEq] at hv
            rw [Layout.tree_intersects ly _ n'.box (Layout.allBoxes_node ly _ n' hn')]
            by_cases hint : n'.box.intersects minX minY maxX maxY = true
            · simp only [hint, if_true] at hv ⊢
              subst hv
              rw [tdiv_four, Layout.tree_count]
              have : ¬ ((ly.leaves.length + j' : Nat) : Int) < (ly.leaves.length : Int) := by
                push_cast; omega
              simp only [this, if_false]
              rw [ih j' hj'lt n' hn' f (by omega) s]
              rfl
            · simp only [Bool.not_eq_true] at hint
              simp only [hint] at hv ⊢
              subst hv
              simp [feed]

theorem Box.intersects_of_contains {outer inner : Box} (h : outer.Contains inner)
    {minX minY maxX maxY : F64} (hi : inner.intersects minX minY maxX maxY = true) :
    outer.intersects minX minY maxX maxY = true := by
  obtain ⟨h1, h2, h3, h4⟩ := h
  simp only [Box.intersects, Bool.not_eq_true', Bool.or_eq_false_iff, decide_eq_false_iff_not,
    not_lt, gt_iff_lt] at hi ⊢
  obtain ⟨⟨⟨a, b⟩, c⟩, d⟩ := hi
  exact ⟨⟨⟨h1.trans a, h2.trans b⟩, c.trans h3⟩, d.trans h4⟩

theorem hitTable_length (ly : Layout) (minX minY maxX maxY : F64) :
    (hitTable ly minX minY maxX maxY).length = ly.leaves.length + ly.nodes.length := by
  unfold hitTable; rw [nodeTable_length]; simp

theorem hitTable_leaf (ly : Layout) (minX minY maxX maxY : F64) (k : Nat) (it : Item)
    (h : ly.leaves[k]? = some it) :
    (hitTable ly minX minY maxX maxY)[k]? =
      some (if it.box.intersects minX minY maxX maxY then [it.ref] else []) := by
  unfold hitTable
  rw [nodeTable_leaf _ _ _ _ (by simpa using getElem?_lt_length h)]
  simp [h]

theorem hitTable_node (ly : Layout)
    (hb : ∀ j < ly.nodes.length, childStart ly.nodes (j + 1) ≤ ly.leaves.length + j)
    (minX minY maxX maxY : F64) (j : Nat) (n : Interior) (h : ly.nodes[j]? = some n) :
    (hitTable ly minX minY maxX maxY)[ly.leaves.length + j]? =
      some (if n.box.intersects minX minY maxX maxY then
        (((hitTable ly minX minY maxX maxY).drop (childStart ly.nodes j)).take n.size).flatten
        else []) := by
  unfold hitTable
  rw [nodeTable_entry_len _ _ ly.leaves.length (by simp) _ j n h hb]

theorem hitTable_miss (ly : Layout)
    (hb : ∀ j < ly.nodes.length, childStart ly.nodes (j + 1) ≤ ly.leaves.length + j)
    (minX minY maxX maxY : F64) (k : Nat) (c : Box) (hc : ly.allBoxes[k]? = some c)
    (hmiss : c.intersects minX minY maxX maxY = false) :
    (hitTable ly minX minY maxX maxY)[k]? = some [] := by
  have hk := getElem?_lt_length hc
  rw [Layout.allBoxes_length] at hk
  rcases Nat.lt_or_ge k ly.leaves.length with h | h
  · have hit : ly.leaves[k]? = some ly.leaves[k] := List.getElem?_eq_getElem h
    generalize ly.leaves[k] = it at hit
    rw [Layout.allBoxes_leaf ly k it hit] at hc
    simp only [Option.some.injEq] at hc
    rw [hitTable_leaf ly _ _ _ _ k it hit, hc, hmiss]
    simp
  · obtain ⟨j, rfl⟩ : ∃ j, k = ly.leaves.length + j := ⟨k - ly.leaves.length, by omega⟩
    have hn : ly.nodes[j]? = some ly.nodes[j] := List.getElem?_eq_getElem (by omega)
    generalize ly.nodes[j] = n at hn
    rw [Layout.allBoxes_node ly j n hn] at hc
    simp only [Option.some.injEq] at hc
    rw [hitTable_node ly hb _ _ _ _ j n hn, hc, hmiss]
    simp

theorem hitTable_node_covers (ly : Layout)
    (hb : ∀ j < ly.nodes.length, childStart ly.nodes (j + 1) ≤ ly.leaves.length + j)
    (hc : ly.Covers)
    (minX minY maxX maxY : F64) (j : Nat) (n : Interior) (h : ly.nodes[j]? = some n) :
    (hitTable ly minX minY maxX maxY)[ly.leaves.length + j]? =
      some (((hitTable ly minX minY maxX maxY).drop (childStart ly.nodes j)).take n.size).flatten := by
  rw [hitTable_node ly hb _ _ _ _ j n h]
  by_cases hint : n.box.intersects minX minY maxX maxY = true
  · simp [hint]
  · simp only [hint, Bool.false_eq_true, if_false, Option.some.injEq]
    symm
    rw [List.flatten_eq_nil_iff]
    intro l hl
    obtain ⟨i, hi, rfl⟩ := List.getElem_of_mem hl
    have hi' : i < n.size := by
      simp only [List.length_take] at hi; omega
    have hj := getElem?_lt_length h
    have hcs := childStart_succ ly.nodes j n h
    have hbj := hb j hj
    have hkB : childStart ly.nodes j + i < ly.allBoxes.length := by
      rw [Layout.allBoxes_length]; omega
    have hbox : ly.allBoxes[childStart ly.nodes j + i]? =
        some ly.allBoxes[childStart ly.nodes j + i] := List.getElem?_eq_getElem hkB
    generalize ly.allBoxes[childStart ly.nodes j + i] = c at hbox
    have hcont := hc j n h (childStart ly.nodes j + i) c (by omega) (by omega) hbox
    have hmiss : c.intersects minX minY maxX maxY = false := by
      by_contra hcon
      simp only [Bool.not_eq_false] at hcon
      exact hint (Box.intersects_of_contains hcont hcon)
    have := hitTable_miss ly hb minX minY maxX maxY _ c hbox hmiss
    have h2 : (((hitTable ly minX minY maxX maxY).drop (childStart ly.nodes j)).take n.size)[i]? =
        some [] := by
      rw [List.getElem?_take_of_lt hi', List.getElem?_drop, this]
    rw [List.getElem?_eq_getElem hi] at h2
    simpa using h2

theorem frontier_perm {β : Type} (T : List (List β)) (N : Nat) (nodes : List Interior)
    (hlen : T.length = N + nodes.length)
    (hb : ∀ j < nodes.length, childStart nodes (j + 1) ≤ N + j)
    (hT : ∀ j n, nodes[j]? = some n → ∃ v, T[N + j]? = some v ∧
      v.Perm (((T.drop (childStart nodes j)).take n.size).flatten)) :
    ∀ j ≤ nodes.length,
      (((T.take (N + j)).drop (childStart nodes j)).flatten).Perm (T.take N).flatten := by
  intro j
  induction j with
  | zero => intro _; simp [childStart_zero]
  | succ j ih =>
    intro hj
    have hj' : j < nodes.length := by omega
    have hn : nodes[j]? = some nodes[j] := List.getElem?_eq_getElem hj'
    generalize nodes[j] = n at hn
    obtain ⟨v, hv, hperm⟩ := hT j n hn
    have hcs := childStart_succ nodes j n hn
    have hbj := hb j hj'
    refine List.Perm.trans ?_ (ih (by omega))
    have htake : T.take (N + (j + 1)) = T.take (N + j) ++ [v] := by
      rw [← Nat.add_assoc, List.take_succ, hv]; rfl
    rw [htake, List.drop_append_of_le_length (by simp; omega)]
    have hsplit : (T.take (N + j)).drop (childStart nodes j) =
        ((T.drop (childStart nodes j)).take n.size) ++
          (T.take (N + j)).drop (childStart nodes (j + 1)) := by
      conv_lhs => rw [← List.take_append_drop n.size ((T.take (N + j)).drop (childStart nodes j))]
      rw [List.drop_drop, hcs]
      congr 1
      · have : T = T.take (N + j) ++ T.drop (N + j) := (List.take_append_drop _ _).symm
        conv_rhs => rw [this]
        rw [take_drop_append]
        simp; omega
    rw [hsplit]
    simp only [List.flatten_append, List.flatten_cons, List.flatten_nil, List.append_nil]
    exact (List.Perm.append_left _ hperm).trans List.perm_append_comm

theorem frontier_root {β : Type} (T : List (List β)) (N : Nat) (nodes : List Interior)
    (hlen : T.length = N + nodes.length)
    (hb : ∀ j < nodes.length, childStart nodes (j + 1) ≤ N + j)
    (hcov : childStart nodes nodes.length + 1 = N + nodes.length)
    (hT : ∀ j n, nodes[j]? = some n → ∃ v, T[N + j]? = some v ∧
      v.Perm (((T.drop (childStart nodes j)).take n.size).flatten)) :
    ∃ v, T[childStart nodes nodes.length]? = some v ∧ v.Perm (T.take N).flatten := by
  have h := frontier_perm T N nodes hlen hb hT nodes.length (le_refl _)
  rw [← hlen, List.take_length] at h
  have hlt : childStart nodes nodes.length < T.length := by omega
  refine ⟨T[childStart nodes nodes.length], List.getElem?_eq_getElem hlt, ?_⟩
  have hd : T.drop (childStart nodes nodes.length) = [T[childStart nodes nodes.length]] := by
    rw [List.drop_eq_getElem_cons hlt, List.drop_of_length_le (by omega)]
  rw [hd] at h
  simpa using h

theorem nodeTable_take {A : Type} (f : Interior → List A → A) (lv : List A)
    (nodes : List Interior) : (nodeTable f lv nodes).take lv.length = lv := by
  induction nodes using List.reverseRecOn with
  | nil => simp [nodeTable_nil]
  | append_singleton ns m ih =>
    rw [nodeTable_snoc, List.take_append_of_le_length (by rw [nodeTable_length]; omega), ih]

theorem linearScan_eq_flatten (items : List Item) (minX minY maxX maxY : F64) :
    (items.map fun it => if it.box.intersects minX minY maxX maxY then [it.ref] else []).flatten =
      linearScan items minX minY maxX maxY := by
  induction items with
  | nil => rfl
  | cons it items ih =>
    simp only [List.map_cons, List.flatten_cons, ih, linearScan, List.filter_cons]
    by_cases h : it.box.intersects minX minY maxX maxY = true <;> simp [h]

theorem Search_layout (ly : Layout) (hwf : ly.WF) (hc : ly.Covers)
    (minX minY maxX maxY : F64) :
    ∃ hits : List Int, hits.Perm (linearScan ly.leaves minX minY maxX maxY) ∧
      ∀ {σ : Type} (iterf : Int → σ → Bool × σ) (fuel : Nat), ly.nodes.length ≤ fuel →
        ∀ s, ly.tree.Search minX minY maxX maxY iterf fuel s = some (feed iterf hits s).2 := by
  have hb := hwf.before
  have hcov := hwf.covered
  have hM : 0 < ly.nodes.length := List.length_pos.mpr hwf.nonempty
  have hTlen := hitTable_length ly minX minY maxX maxY
  obtain ⟨hits, hroot, hperm⟩ := frontier_root (hitTable ly minX minY maxX maxY) ly.leaves.length
    ly.nodes hTlen hb hcov (fun j n hn =>
      ⟨_, hitTable_node_covers ly hb hc minX minY maxX maxY j n hn, List.Perm.refl _⟩)
  have htake : (hitTable ly minX minY maxX maxY).take ly.leaves.length =
      ly.leaves.map fun it => if it.box.intersects minX minY maxX maxY then [it.ref] else [] := by
    have := nodeTable_take
      (fun (n : Interior) (kids : List (List Int)) =>
        if n.box.intersects minX minY maxX maxY then kids.flatten else [])
      (ly.leaves.map fun it => if it.box.intersects minX minY maxX maxY then [it.ref] else [])
      ly.nodes
    simpa [hitTable] using this
  rw [htake, linearScan_eq_flatten] at hperm
  refine ⟨hits, hperm, ?_⟩
  intro σ iterf fuel hfuel s
  unfold RTree.Search
  by_cases h0 : ly.tree.count = 0
  · rw [Layout.tree_count] at h0
    simp only [Layout.tree_count, h0, if_true]
    have : ly.leaves = [] := List.length_eq_zero.mp h0
    rw [this] at hperm
    simp only [linearScan, List.filter_nil, List.map_nil, List.perm_nil] at hperm
    rw [hperm]; rfl
  · simp only [h0, if_false]
    obtain ⟨j, hj⟩ : ∃ j, ly.nodes.length = j + 1 := ⟨ly.nodes.length - 1, by omega⟩
    have hroot_idx : ((ly.tree.boxes.length : Int) - 4) =
        ((4 * (ly.leaves.length + j) : Nat) : Int) := by
      rw [Layout.tree_boxes_length, hj]; push_cast; ring
    have hcs : childStart ly.nodes ly.nodes.length = ly.leaves.length + j := by omega
    have hn : ly.nodes[j]? = some ly.nodes[j] := List.getElem?_eq_getElem (by omega)
    generalize ly.nodes[j] = n at hn
    rw [hcs, hitTable_node ly hb _ _ _ _ j n hn] at hroot
    simp only [Option.some.injEq] at hroot
    rw [hroot_idx, Layout.tree_intersects ly _ n.box (Layout.allBoxes_node ly j n hn)]
    by_cases hint : n.box.intersects minX minY maxX maxY = true
    · simp only [hint, if_true] at hroot ⊢
      rw [search_layout ly hb _ _ _ _ iterf j n hn fuel (by omega) s, hroot]
      rfl
    · simp only [Bool.not_eq_true] at hint
      simp only [hint] at hroot ⊢
      rw [← hroot]; rfl

theorem swapAt_spec {β : Type} (s : List β) (i j : Nat) (hi : i < s.length) (hj : j < s.length) :
    ∃ s', swapAt s i j = some s' ∧ s'.length = s.length ∧
      ∀ m, s'[m]? = s[swapIdx i j m]? := by
  refine ⟨(s.set i s[j]).set j s[i], ?_, by simp, ?_⟩
  · simp [swapAt, List.getElem?_eq_getElem hi, List.getElem?_eq_getElem hj]
  · intro m
    simp only [List.getElem?_set, List.length_set, swapIdx]
    by_cases h1 : m = i
    · subst h1
      by_cases h2 : j = m
      · subst h2; simp [hi]
      · simp [h2, hi, List.getElem?_eq_getElem hj]
    · by_cases h2 : m = j
      · subst h2; simp [h1, hj, List.getElem?_eq_getElem hi]
      · have h1' : ¬ i = m := fun h => h1 h.symm
        have h2' : ¬ j = m := fun h => h2 h.symm
        simp [h1, h2, h1', h2']

theorem perm_cons_set {β : Type} (t : List β) (j : Nat) (a b : β) (h : t[j]? = some b) :
    (b :: t.set j a).Perm (a :: t) := by
  induction t generalizing j with
  | nil => simp at h
  | cons c t ih =>
    cases j with
    | zero =>
      simp at h; subst h
      simpa using List.Perm.swap a c t
    | succ j =>
      simp at h
      simp only [List.set_cons_succ]
      exact (List.Perm.swap c b _).trans (((ih j h).cons c).trans (List.Perm.swap a c t))

theorem swapAt_perm {β : Type} (s s' : List β) (i j : Nat) (h : swapAt s i j = some s') :
    s'.Perm s := by
  unfold swapAt at h
  split at h
  · rename_i a b ha hb
    simp only [Option.some.injEq] at h
    subst h
    induction s generalizing i j with
    | nil => simp at ha
    | cons c t ih =>
      cases i with
      | zero =>
        simp at ha; subst ha
        cases j with
        | zero => simp at hb; subst hb; simp
        | succ j =>
          simp at hb
          simpa using perm_cons_set t j c b hb
      | succ i =>
        simp at ha
        cases j with
        | zero =>
          simp at hb; subst hb
          simpa using (perm_cons_set t i c a ha).trans (List.Perm.refl _)
        | succ j =>
          simp at hb
          simpa using ih i j ha hb
  · cases h

theorem swapAt_length {β : Type} (s s' : List β) (i j : Nat) (h : swapAt s i j = some s') :
    s'.length = s.length := (swapAt_perm s s' i j h).length_eq

theorem swapAt_map {β γ : Type} (f : β → γ) (s s' : List β) (i j : Nat)
    (h : swapAt s i j = some s') : swapAt (s.map f) i j = some (s'.map f) := by
  unfold swapAt at h ⊢
  split at h
  · rename_i a b ha hb
    simp only [Option.some.injEq] at h
    subst h
    simp [List.getElem?_map, ha, hb, List.map_set]
  · cases h

theorem flatBoxes_getElem? (bs : List Box) (k c : Nat) (hc : c < 4) :
    (flatBoxes bs)[4 * k + c]? = (bs[k]?).bind (fun b => b.coords[c]?) := by
  induction bs generalizing k with
  | nil => simp [flatBoxes]
  | cons a bs ih =>
    cases k with
    | zero =>
      simp only [flatBoxes, List.flatMap_cons, Nat.mul_zero, Nat.zero_add, List.getElem?_cons_zero,
        Option.some_bind]
      rw [List.getElem?_append_left (by simpa [Box.coords] using hc)]
    | succ k =>
      simp only [flatBoxes, List.flatMap_cons, List.getElem?_cons_succ] at ih ⊢
      rw [show 4 * (k + 1) + c = (4 * k + c) + 4 by omega,
        List.getElem?_append_right (by simp [Box.coords])]
      simpa [Box.coords] using ih k

theorem swapIdx_lt {a b m n : Nat} (ha : a < n) (hb : b < n) (hm : m < n) : swapIdx a b m < n := by
  unfold swapIdx; split_ifs <;> omega

theorem swapIdx_ne {a b m : Nat} (h1 : m ≠ a) (h2 : m ≠ b) : swapIdx a b m = m := by
  unfold swapIdx; simp [h1, h2]

theorem swapIdx_same4 (i j k c x y : Nat) (hx : x = i * 4 + c) (hy : y = j * 4 + c) :
    swapIdx x y (4 * k + c) = 4 * swapIdx i j k + c := by
  subst hx hy
  unfold swapIdx
  split_ifs <;> omega

theorem swapIdx_flat (i j k c : Nat) (hc : c < 4) :
    swapIdx (i * 4) (j * 4) (swapIdx (i * 4 + 1) (j * 4 + 1)
      (swapIdx (i * 4 + 2) (j * 4 + 2) (swapIdx (i * 4 + 3) (j * 4 + 3) (4 * k + c)))) =
      4 * swapIdx i j k + c := by
  have h4 : c = 0 ∨ c = 1 ∨ c = 2 ∨ c = 3 := by omega
  have same := swapIdx_same4 i j k
  rcases h4 with rfl | rfl | rfl | rfl
  · rw [show swapIdx (i * 4 + 3) (j * 4 + 3) (4 * k + 0) = 4 * k + 0 from
        swapIdx_ne (by omega) (by omega),
      show swapIdx (i * 4 + 2) (j * 4 + 2) (4 * k + 0) = 4 * k + 0 from
        swapIdx_ne (by omega) (by omega),
      show swapIdx (i * 4 + 1) (j * 4 + 1) (4 * k + 0) = 4 * k + 0 from
        swapIdx_ne (by omega) (by omega)]
    exact same 0 _ _ rfl rfl
  · rw [show swapIdx (i * 4 + 3) (j * 4 + 3) (4 * k + 1) = 4 * k + 1 from
        swapIdx_ne (by omega) (by omega),
      show swapIdx (i * 4 + 2) (j * 4 + 2) (4 * k + 1) = 4 * k + 1 from
        swapIdx_ne (by omega) (by omega),
      same 1 _ _ rfl rfl]
    exact swapIdx_ne (by omega) (by omega)
  · rw [show swapIdx (i * 4 + 3) (j * 4 + 3) (4 * k + 2) = 4 * k + 2 from
        swapIdx_ne (by omega) (by omega),
      same 2 _ _ rfl rfl,
      show swapIdx (i * 4 + 1) (j * 4 + 1) (4 * swapIdx i j k + 2) = 4 * swapIdx i j k + 2 from
        swapIdx_ne (by omega) (by omega)]
    exact swapIdx_ne (by omega) (by omega)
  · rw [same 3 _ _ rfl rfl,
      show swapIdx (i * 4 + 2) (j * 4 + 2) (4 * swapIdx i j k + 3) = 4 * swapIdx i j k + 3 from
        swapIdx_ne (by omega) (by omega),
      show swapIdx (i * 4 + 1) (j * 4 + 1) (4 * swapIdx i j k + 3) = 4 * swapIdx i j k + 3 from
        swapIdx_ne (by omega) (by omega)]
    exact swapIdx_ne (by omega) (by omega)

theorem swapAt_flatBoxes (bs bs' : List Box) (i j : Nat) (h : swapAt bs i j = some bs') :
    ∃ b0 b1 b2, swapAt (flatBoxes bs) (i * 4) (j * 4) = some b0 ∧
      swapAt b0 (i * 4 + 1) (j * 4 + 1) = some b1 ∧
      swapAt b1 (i * 4 + 2) (j * 4 + 2) = some b2 ∧
      swapAt b2 (i * 4 + 3) (j * 4 + 3) = some (flatBoxes bs') := by
  have hi : i < bs.length := by
    unfold swapAt at h
    split at h
    · rename_i a b ha hb; exact getElem?_lt_length ha
    · cases h
  have hj : j < bs.length := by
    unfold swapAt at h
    split at h
    · rename_i a b ha hb; exact getElem?_lt_length hb
    · cases h
  obtain ⟨bs'', h', hlen', hget'⟩ := swapAt_spec bs i j hi hj
  rw [h] at h'
  simp only [Option.some.injEq] at h'
  subst h'
  have hL := flatBoxes_length bs
  obtain ⟨b0, e0, l0, g0⟩ := swapAt_spec (flatBoxes bs) (i * 4) (j * 4) (by omega) (by omega)
  obtain ⟨b1, e1, l1, g1⟩ := swapAt_spec b0 (i * 4 + 1) (j * 4 + 1) (by omega) (by omega)
  obtain ⟨b2, e2, l2, g2⟩ := swapAt_spec b1 (i * 4 + 2) (j * 4 + 2) (by omega) (by omega)
  obtain ⟨b3, e3, l3, g3⟩ := swapAt_spec b2 (i * 4 + 3) (j * 4 + 3) (by omega) (by omega)
  refine ⟨b0, b1, b2, e0, e1, e2, ?_⟩
  rw [e3]
  congr 1
  apply List.ext_getElem?
  intro m
  obtain ⟨k, c, hc, rfl⟩ : ∃ k c, c < 4 ∧ m = 4 * k + c :=
    ⟨m / 4, m % 4, Nat.mod_lt _ (by norm_num), by omega⟩
  rw [g3, g2, g1, g0, swapIdx_flat i j k c hc, flatBoxes_getElem? _ _ _ hc,
    flatBoxes_getElem? _ _ _ hc, hget']

theorem swapAt_some_lt {β : Type} (s s' : List β) (i j : Nat) (h : swapAt s i j = some s') :
    i < s.length ∧ j < s.length := by
  unfold swapAt at h
  split at h
  · rename_i a b ha hb; exact ⟨getElem?_lt_length ha, getElem?_lt_length hb⟩
  · cases h

theorem sortByValues.applySwaps_spec (swaps : List (Nat × Nat)) :
    ∀ (its : List Item) (vals : List Nat), vals.length = its.length →
      SwapsInRange swaps its.length →
      ∃ (its' : List Item) (vals' : List Nat), its'.Perm its ∧
        sortByValues.applySwaps swaps ⟨its.map Item.ref, flatBoxes (its.map Item.box), vals⟩ =
          some ⟨its'.map Item.ref, flatBoxes (its'.map Item.box), vals'⟩ := by
  induction swaps with
  | nil => intro its vals _ _; exact ⟨its, vals, List.Perm.refl _, rfl⟩
  | cons p swaps ih =>
    intro its vals hv hr
    obtain ⟨i, j⟩ := p
    have hij := hr (i, j) (by simp)
    simp only at hij
    obtain ⟨its₁, e1, l1, _⟩ := swapAt_spec its i j hij.1 hij.2
    obtain ⟨vals₁, e2, l2, _⟩ := swapAt_spec vals i j (by omega) (by omega)
    obtain ⟨b0, b1, b2, f0, f1, f2, f3⟩ :=
      swapAt_flatBoxes (its.map Item.box) (its₁.map Item.box) i j (swapAt_map _ _ _ _ _ e1)
    have hr' : SwapsInRange swaps its₁.length := by
      intro p hp
      rw [l1]
      exact hr p (by simp [hp])
    obtain ⟨its', vals', hperm, happ⟩ := ih its₁ vals₁ (by omega) hr'
    refine ⟨its', vals', hperm.trans (swapAt_perm _ _ _ _ e1), ?_⟩
    simp only [sortByValues.applySwaps, sortByValues.Swap, swapAt_map _ _ _ _ _ e1, f0, f1, f2, f3,
      e2]
    exact happ

theorem HilbertBuilder.addAll_spec (b : HilbertBuilder) (items : List Item) :
    (b.addAll items).count = b.count + items.length ∧
    (b.addAll items).refs = b.refs ++ items.map Item.ref ∧
    (b.addAll items).boxes = b.boxes ++ flatBoxes (items.map Item.box) := by
  induction items generalizing b with
  | nil => simp [HilbertBuilder.addAll, flatBoxes]
  | cons it items ih =>
    have := ih (b.Add it.ref it.box.minX it.box.minY it.box.maxX it.box.maxY)
    simp only [HilbertBuilder.addAll, List.foldl_cons] at this ⊢
    obtain ⟨h1, h2, h3⟩ := this
    refine ⟨?_, ?_, ?_⟩
    · rw [h1]; simp [HilbertBuilder.Add]; omega
    · rw [h2]; simp [HilbertBuilder.Add]
    · rw [h3]; simp [HilbertBuilder.Add, flatBoxes, Box.coords]

theorem HilbertBuilder.hilbertValues_some (b : HilbertBuilder) (xScale yScale : F64)
    (n : Nat) (hlen : b.boxes.length = 4 * n) (is : List Nat) (h : ∀ i ∈ is, i < n) :
    ∃ vs, b.hilbertValues xScale yScale is = some vs ∧ vs.length = is.length := by
  induction is with
  | nil => exact ⟨[], rfl, rfl⟩
  | cons i is ih =>
    obtain ⟨vs, hvs, hl⟩ := ih (fun a ha => h a (by simp [ha]))
    have hi := h i (by simp)
    have h0 : (i * 4) < b.boxes.length := by omega
    have h1 : (i * 4 + 1) < b.boxes.length := by omega
    have h2 : (i * 4 + 2) < b.boxes.length := by omega
    have h3 : (i * 4 + 3) < b.boxes.length := by omega
    simp only [HilbertBuilder.hilbertValues, HilbertBuilder.hilbertValue,
      List.getElem?_eq_getElem h0, List.getElem?_eq_getElem h1, List.getElem?_eq_getElem h2,
      List.getElem?_eq_getElem h3, hvs]
    exact ⟨_, rfl, by simp [hl]⟩

theorem HilbertBuilder.sort_spec (sorter : List Nat → List (Nat × Nat))
    (hs : ∀ vals, SwapsInRange (sorter vals) vals.length)
    (b : HilbertBuilder) (items : List Item)
    (hc : b.count = items.length) (hr : b.refs = items.map Item.ref)
    (hb : b.boxes = flatBoxes (items.map Item.box)) :
    ∃ items' : List Item, items'.Perm items ∧
      b.sort sorter = some { b with refs := items'.map Item.ref,
                                    boxes := flatBoxes (items'.map Item.box) } := by
  have hlen : b.boxes.length = 4 * items.length := by rw [hb, flatBoxes_length]; simp
  unfold HilbertBuilder.sort
  simp only
  obtain ⟨vs, hvs, hl⟩ := HilbertBuilder.hilbertValues_some b
    (if b.maxX - b.minX > 0 then fin 65535 / (b.maxX - b.minX) else 0)
    (if b.maxY - b.minY > 0 then fin 65535 / (b.maxY - b.minY) else 0)
    items.length hlen (List.range b.count) (by intro i hi; simpa [hc] using hi)
  rw [hvs]
  simp only
  have hvl : vs.length = items.length := by rw [hl]; simp [hc]
  obtain ⟨its', vals', hperm, happ⟩ := sortByValues.applySwaps_spec (sorter vs) items vs hvl
    (by rw [← hvl]; exact hs vs)
  rw [hr, hb, happ]
  exact ⟨its', hperm, rfl⟩

theorem Layout.Partial.snoc {P : Interior → List Box → Prop} {items : List Item}
    {ns : List Interior} (h : Layout.Partial P ⟨items, ns⟩) (n : Interior)
    (hsize : childStart ns ns.length + n.size ≤ items.length + ns.length)
    (hP : P n (((⟨items, ns⟩ : Layout).allBoxes.drop (childStart ns ns.length)).take n.size)) :
    Layout.Partial P ⟨items, ns ++ [n]⟩ := by
  have hA : (⟨items, ns ++ [n]⟩ : Layout).allBoxes = (⟨items, ns⟩ : Layout).allBoxes ++ [n.box] := by
    simp [Layout.allBoxes]
  have hAl : (⟨items, ns⟩ : Layout).allBoxes.length = items.length + ns.length := by
    simp [Layout.allBoxes]
  constructor
  · intro j hj
    simp only [List.length_append, List.length_cons, List.length_nil] at hj
    rcases Nat.lt_or_ge j ns.length with hlt | hge
    · rw [childStart_append_le _ _ _ (by omega)]
      exact h.before j hlt
    · have : j = ns.length := by omega
      subst this
      have hn : (ns ++ [n])[ns.length]? = some n := by
        rw [List.getElem?_append_right (le_refl _)]; simp
      rw [childStart_succ _ _ n hn, childStart_append_le _ _ _ (le_refl _)]
      exact hsize
  · intro j m hm
    have hj := getElem?_lt_length hm
    simp only [List.length_append, List.length_cons, List.length_nil] at hj
    unfold Layout.childBoxes
    simp only
    rw [hA]
    rcases Nat.lt_or_ge j ns.length with hlt | hge
    · have hm' : ns[j]? = some m := by rwa [List.getElem?_append_left hlt] at hm
      rw [childStart_append_le _ _ _ (by omega), take_drop_append]
      · exact h.holds j m hm'
      · have := h.before j hlt
        dsimp only at this
        rw [childStart_succ ns j m hm'] at this
        rw [hAl]; omega
    · have : j = ns.length := by omega
      subst this
      have : m = n := by
        rw [List.getElem?_append_right (le_refl _)] at hm
        simpa using hm.symm
      subst this
      rw [childStart_append_le _ _ _ (le_refl _), take_drop_append]
      · exact hP
      · rw [hAl]; exact hsize

theorem childStart_snoc (ns : List Interior) (n : Interior) :
    childStart (ns ++ [n]) (ns ++ [n]).length = childStart ns ns.length + n.size := by
  simp [childStart]

theorem Layout.Partial.level {P : Interior → List Box → Prop} {items : List Item} :
    ∀ (level ns : List Interior) (rem done : List Box),
      Layout.Partial P ⟨items, ns⟩ →
      childStart ns ns.length ≤ items.length + ns.length →
      (⟨items, ns⟩ : Layout).allBoxes.drop (childStart ns ns.length) = rem ++ done →
      AlignedBy P rem level →
      Layout.Partial P ⟨items, ns ++ level⟩ ∧
      childStart (ns ++ level) (ns ++ level).length ≤ items.length + (ns ++ level).length ∧
      (⟨items, ns ++ level⟩ : Layout).allBoxes.drop
        (childStart (ns ++ level) (ns ++ level).length) = done ++ level.map Interior.box := by
  intro level
  induction level with
  | nil =>
    intro ns rem done hp hle hdrop hal
    simp only [AlignedBy] at hal
    subst hal
    simpa using ⟨hp, hle, hdrop⟩
  | cons n rest ih =>
    intro ns rem done hp hle hdrop hal
    obtain ⟨hsz, hPn, hrest⟩ := hal
    have hAl : (⟨items, ns⟩ : Layout).allBoxes.length = items.length + ns.length := by
      simp [Layout.allBoxes]
    have hlen : (⟨items, ns⟩ : Layout).allBoxes.length - childStart ns ns.length =
        rem.length + done.length := by
      have := congrArg List.length hdrop
      simpa using this
    have hsize : childStart ns ns.length + n.size ≤ items.length + ns.length := by omega
    have hP' : P n (((⟨items, ns⟩ : Layout).allBoxes.drop (childStart ns ns.length)).take n.size) := by
      rw [hdrop, List.take_append_of_le_length hsz]; exact hPn
    have hp' := hp.snoc n hsize hP'
    have hA : (⟨items, ns ++ [n]⟩ : Layout).allBoxes =
        (⟨items, ns⟩ : Layout).allBoxes ++ [n.box] := by
      simp [Layout.allBoxes]
    have hdrop' : (⟨items, ns ++ [n]⟩ : Layout).allBoxes.drop
        (childStart (ns ++ [n]) (ns ++ [n]).length) = rem.drop n.size ++ (done ++ [n.box]) := by
      rw [childStart_snoc, hA, List.drop_append_of_le_length (by omega), ← List.drop_drop, hdrop,
        List.drop_append_of_le_length hsz]
      simp
    have hle' : childStart (ns ++ [n]) (ns ++ [n]).length ≤ items.length + (ns ++ [n]).length := by
      rw [childStart_snoc]; simp; omega
    have := ih (ns ++ [n]) (rem.drop n.size) (done ++ [n.box]) hp' hle' hdrop' hrest
    simpa using this

theorem Layout.Partial.levels {P : Interior → List Box → Prop} {items : List Item} :
    ∀ (levels : List (List Interior)) (ns : List Interior) (prev : List Box),
      Layout.Partial P ⟨items, ns⟩ →
      childStart ns ns.length ≤ items.length + ns.length →
      (⟨items, ns⟩ : Layout).allBoxes.drop (childStart ns ns.length) = prev →
      LevelsBy P prev levels →
      Layout.Partial P ⟨items, ns ++ levels.flatten⟩ ∧
      childStart (ns ++ levels.flatten) (ns ++ levels.flatten).length + 1 =
        items.length + (ns ++ levels.flatten).length ∧
      levels.flatten ≠ [] := by
  intro levels
  induction levels with
  | nil => intro ns prev _ _ _ h; exact absurd h (by simp [LevelsBy])
  | cons level rest ih =>
    intro ns prev hp hle hdrop hl
    cases rest with
    | nil =>
      obtain ⟨hal, h1⟩ := hl
      obtain ⟨hp', hle', hdrop'⟩ := Layout.Partial.level level ns prev [] hp hle
        (by simpa using hdrop) hal
      simp only [List.flatten_cons, List.flatten_nil, List.append_nil]
      refine ⟨hp', ?_, ?_⟩
      · have := congrArg List.length hdrop'
        simp only [List.length_drop, List.nil_append, List.length_map, h1] at this
        have hAl : (⟨items, ns ++ level⟩ : Layout).allBoxes.length =
            items.length + (ns ++ level).length := by
          simp [Layout.allBoxes]
        omega
      · intro h; rw [h] at h1; simp at h1
    | cons next rest =>
      obtain ⟨hal, hrest⟩ := hl
      obtain ⟨hp', hle', hdrop'⟩ := Layout.Partial.level level ns prev [] hp hle
        (by simpa using hdrop) hal
      have := ih (ns ++ level) (level.map Interior.box) hp' hle' (by simpa using hdrop') hrest
      simp only [List.flatten_cons, ← List.append_assoc] at this ⊢
      obtain ⟨h1, h2, h3⟩ := this
      refine ⟨h1, h2, ?_⟩
      intro h
      simp only [List.append_eq_nil] at h
      apply h3
      simp [h.1.2, h.2]

theorem Layout.of_levels {P : Interior → List Box → Prop} (items : List Item)
    (levels : List (List Interior)) (h : LevelsBy P (items.map Item.box) levels) :
    (⟨items, levels.flatten⟩ : Layout).WF ∧ Layout.Partial P ⟨items, levels.flatten⟩ := by
  have h0 : Layout.Partial P ⟨items, []⟩ :=
    ⟨fun j hj => by simp at hj, fun j n hn => by simp at hn⟩
  obtain ⟨h1, h2, h3⟩ := Layout.Partial.levels levels [] (items.map Item.box) h0
    (by simp [childStart]) (by simp [childStart, Layout.allBoxes]) h
  simp only [List.nil_append] at h1 h2
  exact ⟨⟨h3, h1.before, h2⟩, h1⟩

theorem ceilDiv_le_one {n d : Nat} (hn : n ≤ d) (h0 : 1 ≤ n) : ceilDiv n d = 1 := by
  unfold ceilDiv
  apply Nat.div_eq_of_lt_le <;> omega

theorem ceilDiv_sub {n d : Nat} (hd : 1 ≤ d) (hn : d ≤ n) : ceilDiv n d = ceilDiv (n - d) d + 1 := by
  unfold ceilDiv
  have : n + d - 1 = (n - d + d - 1) + d := by omega
  rw [this, Nat.add_div_right _ (by omega)]

theorem ceilDiv_lt {n d : Nat} (hd : 2 ≤ d) (hn : 2 ≤ n) : ceilDiv n d < n := by
  unfold ceilDiv
  rw [Nat.div_lt_iff_lt_mul (by omega)]
  obtain ⟨n', rfl⟩ : ∃ n', n = n' + 2 := ⟨n - 2, by omega⟩
  obtain ⟨d', rfl⟩ : ∃ d', d = d' + 2 := ⟨d - 2, by omega⟩
  have : (n' + 2) * (d' + 2) = n' * d' + 2 * n' + 2 * d' + 4 := by ring
  omega

theorem ceilDiv_zero {d : Nat} (hd : 1 ≤ d) : ceilDiv 0 d = 0 := by
  unfold ceilDiv
  apply Nat.div_eq_of_lt; omega

theorem ceilDiv_pos {n d : Nat} (hd : 1 ≤ d) (hn : 1 ≤ n) : 1 ≤ ceilDiv n d := by
  unfold ceilDiv
  rw [Nat.le_div_iff_mul_le (by omega)]
  omega

theorem chunkNodes_fuel (d : Nat) (hd : 1 ≤ d) :
    ∀ (f₁ f₂ : Nat) (bs : List Box), bs.length ≤ f₁ → bs.length ≤ f₂ →
      chunkNodes d f₁ bs = chunkNodes d f₂ bs := by
  intro f₁
  induction f₁ with
  | zero =>
    intro f₂ bs h1 _
    have : bs = [] := List.length_eq_zero.mp (by omega)
    subst this
    cases f₂ <;> simp [chunkNodes]
  | succ f₁ ih =>
    intro f₂ bs h1 h2
    cases f₂ with
    | zero =>
      have : bs = [] := List.length_eq_zero.mp (by omega)
      subst this
      simp [chunkNodes]
    | succ f₂ =>
      simp only [chunkNodes]
      by_cases hb : bs = []
      · simp [hb]
      · simp only [hb, if_false]
        have hl : 0 < bs.length := List.length_pos.mpr hb
        rw [ih f₂ (bs.drop d) (by simp; omega) (by simp; omega)]

theorem chunkNodes_length (d : Nat) (hd : 1 ≤ d) :
    ∀ (f : Nat) (bs : List Box), bs.length ≤ f →
      (chunkNodes d f bs).length = ceilDiv bs.length d := by
  intro f
  induction f with
  | zero =>
    intro bs h
    have : bs = [] := List.length_eq_zero.mp (by omega)
    subst this
    simp [chunkNodes, ceilDiv_zero hd]
  | succ f ih =>
    intro bs h
    simp only [chunkNodes]
    by_cases hb : bs = []
    · subst hb; simp [ceilDiv_zero hd]
    · simp only [hb, if_false, List.length_cons]
      have hl : 0 < bs.length := List.length_pos.mpr hb
      rw [ih (bs.drop d) (by simp; omega)]
      simp only [List.length_drop]
      rcases Nat.lt_or_ge bs.length d with h1 | h1
      · rw [show bs.length - d = 0 by omega, ceilDiv_zero hd,
          ceilDiv_le_one (n := bs.length) (by omega) (by omega)]
      · rw [ceilDiv_sub hd h1]

theorem chunkNodes_aligned (d : Nat) (hd : 1 ≤ d) :
    ∀ (f : Nat) (bs : List Box), bs.length ≤ f →
      AlignedBy (PackedNode d) bs (chunkNodes d f bs) := by
  intro f
  induction f with
  | zero =>
    intro bs h
    have : bs = [] := List.length_eq_zero.mp (by omega)
    subst this
    simp [chunkNodes, AlignedBy]
  | succ f ih =>
    intro bs h
    simp only [chunkNodes]
    by_cases hb : bs = []
    · subst hb; simp [AlignedBy]
    · simp only [hb, if_false]
      have hl : 0 < bs.length := List.length_pos.mpr hb
      have hm : (bs.take d).length = min d bs.length := by simp
      refine ⟨by simp, ⟨?_, ?_, ?_, ?_⟩, ?_⟩
      · simp only [hm]
        rcases Nat.lt_or_ge bs.length d with h1 | h1
        · rw [Nat.min_eq_right (by omega), List.take_of_length_le (le_refl _),
            List.take_of_length_le (by omega)]
        · rw [Nat.min_eq_left h1]
      · simp
      · simp only [hm]; omega
      · simp only [hm]; omega
      · simp only [hm]
        have : bs.drop (min d bs.length) = bs.drop d := by
          rcases Nat.lt_or_ge bs.length d with h1 | h1
          · rw [Nat.min_eq_right (by omega), List.drop_of_length_le (le_refl _),
              List.drop_of_length_le (by omega)]
          · rw [Nat.min_eq_left h1]
        rw [this]
        exact ih (bs.drop d) (by simp; omega)

theorem LevelsBy.cons {P : Interior → List Box → Prop} {prev : List Box} {level : List Interior}
    {rest : List (List Interior)} (h1 : AlignedBy P prev level)
    (h2 : LevelsBy P (level.map Interior.box) rest) : LevelsBy P prev (level :: rest) := by
  cases rest with
  | nil => simp [LevelsBy] at h2
  | cons next rest => exact ⟨h1, h2⟩

theorem packLevels_levels (d : Nat) (hd : 2 ≤ d) :
    ∀ (f : Nat) (bs : List Box), bs ≠ [] → bs.length ≤ f →
      LevelsBy (PackedNode d) bs (packLevels d f bs) := by
  intro f
  induction f with
  | zero =>
    intro bs hb h
    exact absurd (List.length_eq_zero.mp (by omega)) hb
  | succ f ih =>
    intro bs hb h
    have hl : 0 < bs.length := List.length_pos.mpr hb
    have hal := chunkNodes_aligned d (by omega) bs.length bs (le_refl _)
    have hlen := chunkNodes_length d (by omega) bs.length bs (le_refl _)
    simp only [packLevels]
    by_cases h1 : (chunkNodes d bs.length bs).length = 1
    · simp only [h1, if_true]
      exact ⟨hal, h1⟩
    · simp only [h1, if_false]
      apply LevelsBy.cons hal
      have hpos := ceilDiv_pos (n := bs.length) (d := d) (by omega) (by omega)
      have h2 : 2 ≤ bs.length := by
        by_contra hc
        have h3 : ceilDiv bs.length d = 1 := ceilDiv_le_one (by omega) (by omega)
        exact h1 (hlen.trans h3)
      have hlt := ceilDiv_lt hd h2
      apply ih
      · intro hc
        have := congrArg List.length hc
        simp only [List.length_map, List.length_nil] at this
        omega
      · simp only [List.length_map]; omega

theorem packLevels_fuel (d : Nat) (hd : 2 ≤ d) :
    ∀ (f₁ f₂ : Nat) (bs : List Box), bs ≠ [] → bs.length ≤ f₁ → bs.length ≤ f₂ →
      packLevels d f₁ bs = packLevels d f₂ bs := by
  intro f₁
  induction f₁ with
  | zero =>
    intro f₂ bs hb h
    exact absurd (List.length_eq_zero.mp (by omega)) hb
  | succ f₁ ih =>
    intro f₂ bs hb h1 h2
    have hl : 0 < bs.length := List.length_pos.mpr hb
    cases f₂ with
    | zero => omega
    | succ f₂ =>
      have hlen := chunkNodes_length d (by omega) bs.length bs (le_refl _)
      simp only [packLevels]
      by_cases h1' : (chunkNodes d bs.length bs).length = 1
      · simp [h1']
      · simp only [h1', if_false]
        have hpos := ceilDiv_pos (n := bs.length) (d := d) (by omega) (by omega)
        have h2' : 2 ≤ bs.length := by
          by_contra hc
          have h3 : ceilDiv bs.length d = 1 := ceilDiv_le_one (by omega) (by omega)
          exact h1' (hlen.trans h3)
        have hlt := ceilDiv_lt hd h2'
        rw [ih f₂ ((chunkNodes d bs.length bs).map Interior.box)
          (by
            intro hc
            have := congrArg List.length hc
            simp only [List.length_map, List.length_nil] at this
            omega)
          (by simp only [List.length_map]; omega) (by simp only [List.length_map]; omega)]

theorem packNode_spec (B : List Box) (e : Nat) (he : e ≤ B.length) :
    ∀ (n p : Nat) (node : Box), p ≤ e →
      packNode (flatBoxes B) (4 * e) n (4 * p) node =
        some (4 * (p + min n (e - p)),
          ((B.drop p).take (min n (e - p))).foldl
            (fun a b => a.extend b.minX b.minY b.maxX b.maxY) node) := by
  intro n
  induction n with
  | zero => intro p node _; simp [packNode]
  | succ n ih =>
    intro p node hp
    simp only [packNode]
    by_cases hlt : 4 * p < 4 * e
    · have hpe : p < e := by omega
      have hpB : p < B.length := by omega
      obtain ⟨h0, h1, h2, h3⟩ := flatBoxes_get B p B[p] (List.getElem?_eq_getElem hpB)
      simp only [hlt, if_true, h0, h1, h2, h3]
      rw [show 4 * p + 4 = 4 * (p + 1) by omega, ih (p + 1) _ (by omega)]
      have hmin : min (n + 1) (e - p) = min n (e - (p + 1)) + 1 := by omega
      rw [hmin, List.drop_eq_getElem_cons hpB]
      simp only [List.take_succ_cons, List.foldl_cons]
      congr 2
      omega
    · have hpe : p = e := by omega
      subst hpe
      simp [hlt]

theorem Layout.packState_snoc (items : List Item) (ns : List Interior) (n : Interior) :
    (⟨items, ns ++ [n]⟩ : Layout).packState =
      { refs := (⟨items, ns⟩ : Layout).packState.refs ++
          [((4 * (childStart ns ns.length + n.size) : Nat) : Int)]
        boxes := (⟨items, ns⟩ : Layout).packState.boxes ++
          [n.box.minX, n.box.minY, n.box.maxX, n.box.maxY]
        start := 4 * (childStart ns ns.length + n.size) } := by
  simp only [Layout.packState, Layout.tree, childStart_snoc, Layout.allBoxes, List.map_append,
    List.map_cons, List.map_nil, List.length_append, List.length_cons, List.length_nil]
  congr 1
  · rw [List.range_succ, List.map_append, ← List.append_assoc]
    congr 1
    · congr 1
      apply List.map_congr_left
      intro j hj
      simp only [List.mem_range] at hj
      rw [childStart_append_le _ _ _ (by omega)]
    · simp only [List.map_cons, List.map_nil]
      rw [show ns.length + 0 + 1 = (ns ++ [n]).length by simp, childStart_snoc]
  · rw [← List.append_assoc, flatBoxes_append, flatBoxes_append]
    simp [flatBoxes, Box.coords]
  · rw [show ns.length + (0 + 1) = (ns ++ [n]).length by simp, childStart_snoc]

theorem packLevel_spec (items : List Item) (d : Nat) (hd : 1 ≤ d) (e : Nat) :
    ∀ (fuel : Nat) (ns : List Interior),
      childStart ns ns.length ≤ e → e ≤ items.length + ns.length →
      e - childStart ns ns.length < fuel →
      packLevel d (4 * e) fuel (⟨items, ns⟩ : Layout).packState =
        some (⟨items, ns ++ chunkNodes d (e - childStart ns ns.length)
          (((⟨items, ns⟩ : Layout).allBoxes.drop (childStart ns ns.length)).take
            (e - childStart ns ns.length))⟩ : Layout).packState := by
  intro fuel
  induction fuel with
  | zero => intro ns _ _ h; omega
  | succ fuel ih =>
    intro ns hp he hf
    have hAl : (⟨items, ns⟩ : Layout).allBoxes.length = items.length + ns.length := by
      simp [Layout.allBoxes]
    simp only [packLevel]
    by_cases hlt : (⟨items, ns⟩ : Layout).packState.start < 4 * e
    · simp only [hlt, if_true]
      have hpe : childStart ns ns.length < e := by
        simp only [Layout.packState] at hlt; omega
      have hnode := packNode_spec (⟨items, ns⟩ : Layout).allBoxes e (by omega) d
        (childStart ns ns.length) Box.empty hp
      have hb : (⟨items, ns⟩ : Layout).packState.boxes =
          flatBoxes (⟨items, ns⟩ : Layout).allBoxes := rfl
      have hs : (⟨items, ns⟩ : Layout).packState.start = 4 * childStart ns ns.length := rfl
      rw [hb, hs, hnode]
      simp only
      set p := childStart ns ns.length with hpdef
      set A := (⟨items, ns⟩ : Layout).allBoxes with hAdef
      set m := min d (e - p) with hm
      have hm1 : 1 ≤ m := by omega
      let n : Interior := ⟨m, mbr ((A.drop p).take m)⟩
      have hsnoc := Layout.packState_snoc items ns n
      suffices hkey : ∀ st' : PackState, st' = (⟨items, ns ++ [n]⟩ : Layout).packState →
          packLevel d (4 * e) fuel st' = some (⟨items, ns ++ chunkNodes d (e - p)
            ((A.drop p).take (e - p))⟩ : Layout).packState from
        hkey _ (by rw [hsnoc]; rfl)
      intro st' hst'
      subst hst'
      have hp' : childStart (ns ++ [n]) (ns ++ [n]).length = p + m := by
        rw [childStart_snoc]
      rw [ih (ns ++ [n]) (by rw [hp']; omega) (by simp; omega) (by rw [hp']; omega)]
      congr 2
      rw [List.append_assoc]
      congr 1
      rw [hp']
      have hA' : (⟨items, ns ++ [n]⟩ : Layout).allBoxes = A ++ [n.box] := by
        simp [Layout.allBoxes, hAdef]
      rw [hA', take_drop_append _ _ _ _ (by omega)]
      obtain ⟨k, hk⟩ : ∃ k, e - p = k + 1 := ⟨e - p - 1, by omega⟩
      have hblk : ((A.drop p).take (e - p)) ≠ [] := by
        intro hc
        have := congrArg List.length hc
        simp at this
        omega
      rw [hk] at hblk ⊢
      simp only [chunkNodes, hblk, if_false, List.singleton_append]
      have htt : ((A.drop p).take (k + 1)).take d = (A.drop p).take m := by
        rw [List.take_take, ← hk]
      have hlen : (((A.drop p).take (k + 1)).take d).length = m := by
        rw [htt]; simp; omega
      rw [hlen, htt]
      have hrest : ((A.drop p).take (k + 1)).drop d = (A.drop (p + m)).take (e - (p + m)) := by
        rw [List.drop_take, List.drop_drop]
        rcases Nat.lt_or_ge (e - p) d with h1 | h1
        · have : m = e - p := by omega
          rw [show k + 1 - d = 0 by omega, show e - (p + m) = 0 by omega]
          simp
        · have : m = d := by omega
          rw [this, show k + 1 - d = e - (p + d) by omega]
      rw [hrest]
      refine congrArg (fun l => ns ++ n :: l) ?_
      apply chunkNodes_fuel d hd
      · simp
      · simp; omega
    · simp only [hlt, if_false]
      have hpe : childStart ns ns.length = e := by
        simp only [Layout.packState] at hlt; omega
      rw [hpe, Nat.sub_self]
      simp [chunkNodes]

theorem AlignedBy.sum_sizes {P : Interior → List Box → Prop} :
    ∀ (level : List Interior) (prev : List Box), AlignedBy P prev level →
      (level.map Interior.size).sum = prev.length := by
  intro level
  induction level with
  | nil => intro prev h; simp only [AlignedBy] at h; simp [h]
  | cons n rest ih =>
    intro prev h
    obtain ⟨h1, _, h3⟩ := h
    have := ih _ h3
    simp only [List.map_cons, List.sum_cons, this, List.length_drop]
    omega

theorem childStart_append_total (ns level : List Interior) :
    childStart (ns ++ level) (ns ++ level).length =
      childStart ns ns.length + (level.map Interior.size).sum := by
  unfold childStart
  rw [List.take_length, List.take_length, List.map_append, List.sum_append]

theorem packLoop_spec (items : List Item) (d : Nat) (hd : 2 ≤ d) :
    ∀ (fuel : Nat) (ns : List Interior) (count : Nat),
      childStart ns ns.length + count = items.length + ns.length → 1 ≤ count → count ≤ fuel →
      packLoop d fuel count (items.length + ns.length) (4 * (items.length + ns.length))
          (⟨items, ns⟩ : Layout).packState =
        some (⟨items, ns ++ (packLevels d count
          ((⟨items, ns⟩ : Layout).allBoxes.drop (childStart ns ns.length))).flatten⟩ :
            Layout).packState := by
  intro fuel
  induction fuel with
  | zero => intro ns count _ h1 h2; omega
  | succ fuel ih =>
    intro ns count hpc h1 hf
    have hAl : (⟨items, ns⟩ : Layout).allBoxes.length = items.length + ns.length := by
      simp [Layout.allBoxes]
    set p := childStart ns ns.length with hp
    set A := (⟨items, ns⟩ : Layout).allBoxes with hA
    have hdl : (A.drop p).length = count := by simp; omega
    have hne : A.drop p ≠ [] := by
      intro hc; rw [hc] at hdl; simp at hdl; omega
    simp only [packLoop]
    rw [packLevel_spec items d (by omega) (items.length + ns.length) _ ns (by omega) (le_refl _)
      (by omega)]
    simp only
    have hcnt : items.length + ns.length - p = count := by omega
    rw [← hp, ← hA, hcnt, List.take_of_length_le (by omega)]
    set level := chunkNodes d count (A.drop p) with hlevel
    have hlen : level.length = ceilDiv count d := by
      rw [hlevel, chunkNodes_length d (by omega) _ _ (by omega), hdl]
    have hal : AlignedBy (PackedNode d) (A.drop p) level :=
      chunkNodes_aligned d (by omega) _ _ (by omega)
    obtain ⟨c, hc⟩ : ∃ c, count = c + 1 := ⟨count - 1, by omega⟩
    have hspec : packLevels d count (A.drop p) =
        if level.length = 1 then [level]
        else level :: packLevels d c (level.map Interior.box) := by
      rw [hlevel, hc]
      simp only [packLevels]
      rw [← hc, hdl]
    rw [hspec]
    by_cases h1' : ceilDiv count d = 1
    · simp [h1', hlen]
    · simp only [h1', hlen, if_false, List.flatten_cons]
      have hpos := ceilDiv_pos (n := count) (d := d) (by omega) h1
      have h2 : 2 ≤ count := by
        by_contra hcon
        exact h1' (ceilDiv_le_one (by omega) (by omega))
      have hlt := ceilDiv_lt hd h2
      have hnn : items.length + ns.length + ceilDiv count d = items.length + (ns ++ level).length := by
        simp [hlen]; omega
      have hp' : childStart (ns ++ level) (ns ++ level).length = items.length + ns.length := by
        rw [childStart_append_total, hal.sum_sizes, hdl]; omega
      rw [show (items.length + ns.length + ceilDiv count d) * 4 =
        4 * (items.length + (ns ++ level).length) by rw [hnn]; ring, hnn,
        ih (ns ++ level) (ceilDiv count d) (by rw [hp', ← hnn]) hpos (by omega)]
      congr 2
      rw [List.append_assoc]
      congr 2
      rw [hp']
      have hA' : (⟨items, ns ++ level⟩ : Layout).allBoxes = A ++ level.map Interior.box := by
        simp [Layout.allBoxes, hA]
      rw [hA', ← hAl, List.drop_left]
      refine congrArg (fun l => level ++ List.flatten l) ?_
      apply packLevels_fuel d hd
      · intro hcon
        have := congrArg List.length hcon
        simp only [List.length_map, List.length_nil] at this
        omega
      · simp only [List.length_map]; omega
      · simp only [List.length_map]; omega

theorem HilbertBuilder.pack_spec (b : HilbertBuilder) (items : List Item)
    (hc : b.count = items.length) (hr : b.refs = items.map Item.ref)
    (hb : b.boxes = flatBoxes (items.map Item.box)) (hN : 1 ≤ items.length)
    (d : Nat) (hd : 2 ≤ d) :
    b.pack d = some { b with refs := (hilbertLayout items d).tree.refs,
                             boxes := (hilbertLayout items d).tree.boxes } := by
  have h := packLoop_spec items d hd (items.length + 1) [] items.length
    (by simp [childStart]) hN (by omega)
  have h0 : (⟨items, []⟩ : Layout).packState =
      { refs := b.refs ++ [0], boxes := b.boxes, start := 0 } := by
    simp [Layout.packState, Layout.tree, Layout.allBoxes, childStart, hr, hb]
  have hlen : b.boxes.length = 4 * items.length := by
    rw [hb, flatBoxes_length]; simp
  simp only [List.length_nil, Nat.add_zero, List.nil_append, childStart_zero, List.drop_zero,
    h0] at h
  have hA : (⟨items, []⟩ : Layout).allBoxes = items.map Item.box := by
    simp [Layout.allBoxes]
  rw [hA] at h
  unfold HilbertBuilder.pack
  rw [hc, hlen, h]
  rfl

theorem HilbertBuilder.Finish_empty (sorter : List Nat → List (Nat × Nat)) (degree : Int)
    (hd : 2 ≤ degree) :
    NewHilbertBuilder.Finish sorter degree = some (.ok ⟨0, [], []⟩, NewHilbertBuilder) := by
  unfold HilbertBuilder.Finish
  have : ¬ degree < 2 := by omega
  simp [this, NewHilbertBuilder]

theorem HilbertBuilder.Finish_spec (sorter : List Nat → List (Nat × Nat))
    (hs : ∀ vals, SwapsInRange (sorter vals) vals.length)
    (items : List Item) (hne : items ≠ []) (degree : Int) (hd : 2 ≤ degree) :
    ∃ items' : List Item, items'.Perm items ∧ ∃ b' : HilbertBuilder,
      (NewHilbertBuilder.addAll items).Finish sorter degree =
        some (.ok (hilbertLayout items' degree.toNat).tree, b') := by
  obtain ⟨hc, hr, hb⟩ := HilbertBuilder.addAll_spec NewHilbertBuilder items
  have hc0 : NewHilbertBuilder.count = 0 := rfl
  have hr0 : NewHilbertBuilder.refs = [] := rfl
  have hb0 : NewHilbertBuilder.boxes = [] := rfl
  rw [hc0, Nat.zero_add] at hc
  rw [hr0, List.nil_append] at hr
  rw [hb0, List.nil_append] at hb
  generalize NewHilbertBuilder.addAll items = b at hc hr hb ⊢
  have hpos : 0 < items.length := List.length_pos.mpr hne
  obtain ⟨items', hperm, hsort⟩ := HilbertBuilder.sort_spec sorter hs b items hc hr hb
  have hl : items'.length = items.length := hperm.length_eq
  have hpack := HilbertBuilder.pack_spec
    { b with refs := items'.map Item.ref, boxes := flatBoxes (items'.map Item.box) }
    items' (by simp only [hl]; exact hc) rfl rfl (by omega) degree.toNat (by omega)
  refine ⟨items', hperm,
    { b with refs := (hilbertLayout items' degree.toNat).tree.refs,
             boxes := (hilbertLayout items' degree.toNat).tree.boxes }, ?_⟩
  unfold HilbertBuilder.Finish
  have h1 : ¬ degree < 2 := by omega
  have h2 : ¬ b.count = 0 := by omega
  have h3 : ¬ b.refs.length ≠ b.count := by
    rw [hr, hc]; simp
  simp only [h1, h2, h3, if_false]
  rw [hsort]
  simp only
  rw [hpack]
  simp only
  congr 3
  simp only [Layout.tree, hilbertLayout]
  congr 1
  omega

theorem Box.extend_le (n : Box) (a b c d : F64) :
    (n.extend a b c d).minX ≤ n.minX ∧ (n.extend a b c d).minY ≤ n.minY ∧
    n.maxX ≤ (n.extend a b c d).maxX ∧ n.maxY ≤ (n.extend a b c d).maxY := by
  simp [Box.extend]

theorem foldl_extend_le (bs : List Box) (acc : Box) :
    (bs.foldl (fun a b => a.extend b.minX b.minY b.maxX b.maxY) acc).minX ≤ acc.minX ∧
    (bs.foldl (fun a b => a.extend b.minX b.minY b.maxX b.maxY) acc).minY ≤ acc.minY ∧
    acc.maxX ≤ (bs.foldl (fun a b => a.extend b.minX b.minY b.maxX b.maxY) acc).maxX ∧
    acc.maxY ≤ (bs.foldl (fun a b => a.extend b.minX b.minY b.maxX b.maxY) acc).maxY := by
  induction bs generalizing acc with
  | nil => simp
  | cons b bs ih =>
    obtain ⟨h1, h2, h3, h4⟩ := ih (acc.extend b.minX b.minY b.maxX b.maxY)
    obtain ⟨e1, e2, e3, e4⟩ := Box.extend_le acc b.minX b.minY b.maxX b.maxY
    exact ⟨h1.trans e1, h2.trans e2, e3.trans h3, e4.trans h4⟩

theorem foldl_extend_contains (bs : List Box) (acc : Box) (c : Box) (hc : c ∈ bs) :
    (bs.foldl (fun a b => a.extend b.minX b.minY b.maxX b.maxY) acc).Contains c := by
  induction bs generalizing acc with
  | nil => simp at hc
  | cons b bs ih =>
    rcases List.mem_cons.mp hc with h | h
    · subst h
      obtain ⟨h1, h2, h3, h4⟩ := foldl_extend_le bs (acc.extend c.minX c.minY c.maxX c.maxY)
      refine ⟨h1.trans ?_, h2.trans ?_, le_trans ?_ h3, le_trans ?_ h4⟩ <;> simp [Box.extend]
    · exact ih _ h

theorem mbr_contains (bs : List Box) (c : Box) (hc : c ∈ bs) : (mbr bs).Contains c :=
  foldl_extend_contains bs Box.empty c hc

theorem Layout.Partial.covers {P : Interior → List Box → Prop} {ly : Layout}
    (h : Layout.Partial P ly)
    (hP : ∀ n kids, P n kids → ∀ c ∈ kids, n.box.Contains c) : ly.Covers := by
  intro j n hn k c hk1 hk2 hc
  apply hP n _ (h.holds j n hn) c
  unfold Layout.childBoxes
  rw [childStart_succ _ _ n hn] at hk2
  rw [List.mem_iff_getElem?]
  refine ⟨k - childStart ly.nodes j, ?_⟩
  rw [List.getElem?_take_of_lt (by omega), List.getElem?_drop,
    show childStart ly.nodes j + (k - childStart ly.nodes j) = k by omega, hc]

theorem hilbertLayout_spec (items : List Item) (hne : items ≠ []) (d : Nat) (hd : 2 ≤ d) :
    (hilbertLayout items d).WF ∧ Layout.Partial (PackedNode d) (hilbertLayout items d) := by
  apply Layout.of_levels
  apply packLevels_levels d hd
  · simpa using hne
  · simp

theorem hilbertLayout_covers (items : List Item) (hne : items ≠ []) (d : Nat) (hd : 2 ≤ d) :
    (hilbertLayout items d).Covers :=
  (hilbertLayout_spec items hne d hd).2.covers
    (fun n kids hP c hc => by rw [hP.1]; exact mbr_contains kids c hc)

theorem feed_collect (xs s : List Int) : feed collect xs s = (true, s ++ xs) := by
  induction xs generalizing s with
  | nil => simp [feed]
  | cons x xs ih => simp [feed, collect, ih]

theorem linearScan_perm {items items' : List Item} (h : items'.Perm items)
    (minX minY maxX maxY : F64) :
    (linearScan items' minX minY maxX maxY).Perm (linearScan items minX minY maxX maxY) :=
  (h.filter _).map _

theorem HilbertBuilder.Finish_search (sorter : List Nat → List (Nat × Nat))
    (hs : ∀ vals, SwapsInRange (sorter vals) vals.length)
    (items : List Item) (degree : Int) (hd : 2 ≤ degree) (minX minY maxX maxY : F64) :
    ∃ (tree : RTree) (b' : HilbertBuilder) (hits : List Int),
      (NewHilbertBuilder.addAll items).Finish sorter degree = some (.ok tree, b') ∧
      hits.Perm (linearScan items minX minY maxX maxY) ∧
      ∀ {σ : Type} (iterf : Int → σ → Bool × σ) (fuel : Nat), tree.refs.length ≤ fuel →
        ∀ s, tree.Search minX minY maxX maxY iterf fuel s = some (feed iterf hits s).2 := by
  by_cases hne : items = []
  · subst hne
    refine ⟨⟨0, [], []⟩, NewHilbertBuilder, [], HilbertBuilder.Finish_empty sorter degree hd,
      by simp [linearScan], ?_⟩
    intro σ iterf fuel _ s
    simp [RTree.Search, feed]
  · obtain ⟨items', hperm, b', hfin⟩ := HilbertBuilder.Finish_spec sorter hs items hne degree hd
    have hne' : items' ≠ [] := by
      intro h; rw [h] at hperm; exact hne (List.Perm.eq_nil hperm.symm)
    obtain ⟨hwf, hpart⟩ := hilbertLayout_spec items' hne' degree.toNat (by omega)
    have hcov := hilbertLayout_covers items' hne' degree.toNat (by omega)
    obtain ⟨hits, hp, hsearch⟩ := Search_layout (hilbertLayout items' degree.toNat) hwf hcov
      minX minY maxX maxY
    refine ⟨_, b', hits, hfin, hp.trans (linearScan_perm hperm _ _ _ _), ?_⟩
    intro σ iterf fuel hfuel s
    apply hsearch
    rw [Layout.tree_refs_length] at hfuel
    omega

/-- C1: for every list of items, every degree >= 2 and every query rectangle,
`Finish` of the Hilbert builder returns a tree, and `Search` on it with a
callback that always returns true ends (given fuel for the depth of the tree)
having called the callback on a list of refs that is a permutation of the
refs a linear scan of the items finds with the test
`!(maxX < minX' || maxY < minY' || minX > maxX' || minY > maxY')`. -/
theorem hilbert_search_eq_linear_scan (sorter : List Nat → List (Nat × Nat))
    (hs : ∀ vals, SwapsInRange (sorter vals) vals.length)
    (items : List Item) (degree : Int) (hd : 2 ≤ degree) (minX minY maxX maxY : F64) :
    ∃ (tree : RTree) (b' : HilbertBuilder) (out : List Int),
      (NewHilbertBuilder.addAll items).Finish sorter degree = some (.ok tree, b') ∧
      (∀ fuel, tree.refs.length ≤ fuel →
        tree.Search minX minY maxX maxY collect fuel [] = some out) ∧
      out.Perm (linearScan items minX minY maxX maxY) := by
  obtain ⟨tree, b', hits, hfin, hperm, hsearch⟩ :=
    HilbertBuilder.Finish_search sorter hs items degree hd minX minY maxX maxY
  refine ⟨tree, b', hits, hfin, ?_, hperm⟩
  intro fuel hfuel
  rw [hsearch collect fuel hfuel [], feed_collect]
  rfl

theorem sampleSorter_inRange (vals : List Nat) :
    SwapsInRange (sampleSorter vals) vals.length := by
  intro p hp
  unfold sampleSorter at hp
  by_cases h : 2 ≤ vals.length
  · simp only [h, if_true, List.mem_singleton] at hp
    subst hp
    exact ⟨by simp; omega, by simp; omega⟩
  · simp [h] at hp

theorem hilbert_search_eq_linear_scan_witness :
    (∀ vals, SwapsInRange (sampleSorter vals) vals.length) ∧ (2 : Int) ≤ 2 ∧
    ∃ (tree : RTree) (b' : HilbertBuilder) (out : List Int),
      (NewHilbertBuilder.addAll sampleItems).Finish sampleSorter 2 = some (.ok tree, b') ∧
      (∀ fuel, tree.refs.length ≤ fuel →
        tree.Search (fin 0) (fin 0) (fin 1) (fin 1) collect fuel [] = some out) ∧
      out.Perm (linearScan sampleItems (fin 0) (fin 0) (fin 1) (fin 1)) :=
  ⟨sampleSorter_inRange, le_refl _,
    hilbert_search_eq_linear_scan sampleSorter sampleSorter_inRange sampleItems 2 (le_refl _)
      (fin 0) (fin 0) (fin 1) (fin 1)⟩

theorem Layout.distTable_length (ly : Layout) (x y : F64)
    (boxDist : F64 → F64 → F64 → F64 → F64 → F64 → F64)
    (itemDist : Option (F64 → F64 → Int → F64)) :
    (ly.distTable x y boxDist itemDist).length = ly.leaves.length + ly.nodes.length := by
  simp [Layout.distTable]

theorem Layout.tree_childDist (ly : Layout) (x y : F64)
    (boxDist : F64 → F64 → F64 → F64 → F64 → F64 → F64)
    (itemDist : Option (F64 → F64 → Int → F64)) (k : Nat)
    (hk : k < ly.leaves.length + ly.nodes.length) :
    ly.tree.childDist x y boxDist itemDist ((4 * k : Nat) : Int) =
      (ly.distTable x y boxDist itemDist)[k]? := by
  have hkB : k < ly.allBoxes.length := by rw [Layout.allBoxes_length]; exact hk
  have hbox : ly.allBoxes[k]? = some ly.allBoxes[k] := List.getElem?_eq_getElem hkB
  generalize ly.allBoxes[k] = c at hbox
  obtain ⟨h0, h1, h2, h3⟩ := flatBoxes_get ly.allBoxes k c hbox
  have e1 : (((4 * k : Nat) : Int) + 1) = ((4 * k + 1 : Nat) : Int) := by push_cast; ring
  have e2 : (((4 * k : Nat) : Int) + 2) = ((4 * k + 2 : Nat) : Int) := by push_cast; ring
  have e3 : (((4 * k : Nat) : Int) + 3) = ((4 * k + 3 : Nat) : Int) := by push_cast; ring
  have hb : ly.tree.boxes = flatBoxes ly.allBoxes := rfl
  unfold RTree.childDist
  simp only [e1, e2, e3, index_natCast, hb, h0, h1, h2, h3, tdiv_four, Layout.tree_count]
  rcases Nat.lt_or_ge k ly.leaves.length with hlt | hge
  · have hit : ly.leaves[k]? = some ly.leaves[k] := List.getElem?_eq_getElem hlt
    generalize ly.leaves[k] = it at hit
    have hc : c = it.box := by
      rw [Layout.allBoxes_leaf ly k it hit] at hbox
      exact (Option.some.inj hbox).symm
    have hlt' : (k : Int) < (ly.leaves.length : Int) := by exact_mod_cast hlt
    have hD : (ly.distTable x y boxDist itemDist)[k]? =
        some (itemDistance x y boxDist itemDist it) := by
      unfold Layout.distTable
      rw [List.getElem?_append_left (by simpa using hlt)]
      simp [hit]
    rw [hD]
    cases itemDist with
    | none => simp [itemDistance, hc]
    | some f =>
      have := Layout.tree_refs_leaf ly k it hit
      rw [index_natCast] at this
      simp [itemDistance, hlt', this]
  · obtain ⟨j, rfl⟩ : ∃ j, k = ly.leaves.length + j := ⟨k - ly.leaves.length, by omega⟩
    have hn : ly.nodes[j]? = some ly.nodes[j] := List.getElem?_eq_getElem (by omega)
    generalize ly.nodes[j] = n at hn
    have hc : c = n.box := by
      rw [Layout.allBoxes_node ly j n hn] at hbox
      exact (Option.some.inj hbox).symm
    have hlt' : ¬ ((ly.leaves.length + j : Nat) : Int) < (ly.leaves.length : Int) := by
      push_cast; omega
    have hD : (ly.distTable x y boxDist itemDist)[ly.leaves.length + j]? =
        some (boxDist x y n.box.minX n.box.minY n.box.maxX n.box.maxY) := by
      unfold Layout.distTable
      rw [List.getElem?_append_right (by simp)]
      simp [hn]
    rw [hD]
    cases itemDist with
    | none => simp [hc]
    | some f => simp [hlt', hc]

theorem pushChildren_layout {Q : Type} (fq : FlatQueue Q) (entries : Q → Multiset (Int × F64))
    (hl : fq.Lawful entries) (ly : Layout) (x y : F64)
    (boxDist : F64 → F64 → F64 → F64 → F64 → F64 → F64)
    (itemDist : Option (F64 → F64 → Int → F64)) :
    ∀ (ks : List Nat) (q : Q), (∀ k ∈ ks, k < ly.leaves.length + ly.nodes.length) →
      ∃ q', ly.tree.pushChildren fq x y boxDist itemDist
          (ks.map (fun k => ((4 * k : Nat) : Int))) q = some q' ∧
        entries q' = entries q +
          ((ks.map (fun (k : Nat) => ((k : Int), (ly.distTable x y boxDist itemDist).getD k 0)) :
            List (Int × F64)) : Multiset (Int × F64)) := by
  intro ks
  induction ks with
  | nil => intro q _; exact ⟨q, rfl, by simp⟩
  | cons k ks ih =>
    intro q hks
    have hk := hks k (by simp)
    have hD : (ly.distTable x y boxDist itemDist)[k]? =
        some ((ly.distTable x y boxDist itemDist).getD k 0) := by
      rw [List.getD_eq_getElem?_getD,
        List.getElem?_eq_getElem (by rw [Layout.distTable_length]; exact hk)]
      rfl
    obtain ⟨q', hq', he⟩ := ih (fq.Push q (k : Int) ((ly.distTable x y boxDist itemDist).getD k 0))
      (fun k' hk' => hks k' (by simp [hk']))
    refine ⟨q', ?_, ?_⟩
    · simp only [List.map_cons, RTree.pushChildren, Layout.tree_childDist ly x y boxDist itemDist k hk,
        hD, tdiv_four]
      exact hq'
    · rw [he, hl.entries_push]
      simp only [List.map_cons, ← Multiset.cons_coe]
      rw [Multiset.cons_add, Multiset.add_cons]

theorem drain_layout {Q : Type} (fq : FlatQueue Q) (entries : Q → Multiset (Int × F64))
    (hl : fq.Lawful entries) (ly : Layout) (dists : List F64) :
    ∀ (fuel : Nat) (q : Q), ly.QueueOK dists (entries q) →
      Multiset.card (entries q) < fuel →
      ∃ (ks : List Nat) (q' : Q),
        entries q = ((ks.map (nodeEntry dists) : List (Int × F64)) : Multiset (Int × F64)) +
          entries q' ∧
        (∀ k ∈ ks, k < ly.leaves.length) ∧
        (0 < fq.Len q' → ¬ fq.Peek q' < (ly.leaves.length : Int)) ∧
        (ks.map (fun k => dists.getD k 0)).Pairwise (· ≤ ·) ∧
        (∀ k ∈ ks, ∀ e ∈ entries q', dists.getD k 0 ≤ e.2) ∧
        ∀ {σ : Type} (iterf : Int → F64 → σ → Bool × σ) (s : σ),
          ∃ q'', ly.tree.drain fq iterf fuel q s =
              some ((feed (pairCallback iterf) (ks.map (ly.leafPair dists)) s).1, q'',
                (feed (pairCallback iterf) (ks.map (ly.leafPair dists)) s).2) ∧
            ((feed (pairCallback iterf) (ks.map (ly.leafPair dists)) s).1 = true → q'' = q') := by
  intro fuel
  induction fuel with
  | zero => intro q _ h; omega
  | succ fuel ih =>
    intro q hok hcard
    by_cases hcond : 0 < fq.Len q ∧ fq.Peek q < (ly.tree.count : Int)
    · obtain ⟨hlen, hpeek⟩ := hcond
      have hpop := hl.entries_pop q hlen
      have hfst := hl.pop_fst q hlen
      have hmem : (fq.Peek q, fq.PeekValue q) ∈ entries q := by
        rw [hpop]; exact Multiset.mem_cons_self _ _
      obtain ⟨k, hk1, hk2, hk3⟩ := hok _ hmem
      simp only at hk1 hk3
      rw [Layout.tree_count, hk1] at hpeek
      have hkN : k < ly.leaves.length := by exact_mod_cast hpeek
      have hsub : ∀ e ∈ entries (fq.Pop q).2, e ∈ entries q := by
        intro e he; rw [hpop]; exact Multiset.mem_cons_of_mem he
      have hok1 : ly.QueueOK dists (entries (fq.Pop q).2) := fun e he => hok e (hsub e he)
      have hcard1 : Multiset.card (entries (fq.Pop q).2) < fuel := by
        have := congrArg Multiset.card hpop
        rw [Multiset.card_cons] at this
        omega
      obtain ⟨ks, q', he, hks, hhead, hsorted, hle, hrun⟩ := ih (fq.Pop q).2 hok1 hcard1
      have hmin : ∀ e ∈ entries q, dists.getD k 0 ≤ e.2 := by
        intro e he'; rw [hk3]; exact hl.peek_min q e he'
      refine ⟨k :: ks, q', ?_, ?_, hhead, ?_, ?_, ?_⟩
      · rw [hpop, he, List.map_cons, ← Multiset.cons_coe, Multiset.cons_add]
        congr 1
        simp only [nodeEntry, hk1, hk3]
      · intro k' hk'
        rcases List.mem_cons.mp hk' with h | h
        · rw [h]; exact hkN
        · exact hks k' h
      · rw [List.map_cons, List.pairwise_cons]
        refine ⟨?_, hsorted⟩
        intro d hd
        obtain ⟨k', hk', rfl⟩ := List.mem_map.mp hd
        have : nodeEntry dists k' ∈ entries (fq.Pop q).2 := by
          rw [he]
          apply Multiset.mem_add.mpr
          left
          exact Multiset.mem_coe.mpr (List.mem_map.mpr ⟨k', hk', rfl⟩)
        exact hmin _ (hsub _ this)
      · intro k' hk' e he'
        rcases List.mem_cons.mp hk' with h | h
        · rw [h]
          apply hmin
          apply hsub
          rw [he]
          exact Multiset.mem_add.mpr (Or.inr he')
        · exact hle k' h e he'
      · intro σ iterf s
        have hit : ly.leaves[k]? = some ly.leaves[k] := List.getElem?_eq_getElem hkN
        generalize ly.leaves[k] = it at hit
        have href := Layout.tree_refs_leaf ly k it hit
        have hpair : ly.leafPair dists k = (it.ref, fq.PeekValue q) := by
          simp only [Layout.leafPair, hk3, List.getD_eq_getElem?_getD, List.getElem?_map, hit]
          rfl
        simp only [RTree.drain, hlen, Layout.tree_count, hk1, hpeek, and_self, if_true, hfst, href,
          List.map_cons, feed, hpair, pairCallback]
        rcases hcb : iterf it.ref (fq.PeekValue q) s with ⟨b, s'⟩
        cases b
        · exact ⟨(fq.Pop q).2, rfl, by simp⟩
        · obtain ⟨q'', h1, h2⟩ := hrun iterf s'
          exact ⟨q'', h1, h2⟩
    · refine ⟨[], q, by simp, by simp, ?_, by simp, by simp, ?_⟩
      · intro hlen hpeek
        apply hcond
        rw [Layout.tree_count]
        exact ⟨hlen, hpeek⟩
      · intro σ iterf s
        refine ⟨q, ?_, fun _ => rfl⟩
        simp only [RTree.drain, hcond, if_false, List.map_nil, feed]

theorem map_range_getD {A : Type} (T : List A) (d : A) (p size : Nat) (h : p + size ≤ T.length) :
    ((List.range size).map (fun i => T.getD (p + i) d)) = (T.drop p).take size := by
  apply List.ext_getElem?
  intro i
  rcases Nat.lt_or_ge i size with hi | hi
  · rw [List.getElem?_map, List.getElem?_range hi, List.getElem?_take_of_lt hi, List.getElem?_drop]
    simp only [Option.map_some', List.getD_eq_getElem?_getD]
    rw [List.getElem?_eq_getElem (by omega)]
    rfl
  · rw [List.getElem?_eq_none (by simpa using hi), List.getElem?_eq_none (by simp; omega)]

theorem Layout.weightTable_length (ly : Layout) :
    ly.weightTable.length = ly.leaves.length + ly.nodes.length := by
  unfold Layout.weightTable; rw [nodeTable_length]; simp

theorem Layout.weightTable_leaf (ly : Layout) (k : Nat) (hk : k < ly.leaves.length) :
    ly.weightTable[k]? = some 1 := by
  unfold Layout.weightTable
  rw [nodeTable_leaf _ _ _ _ (by simpa using hk)]
  simp [hk]

theorem Layout.weightTable_node (ly : Layout)
    (hb : ∀ j < ly.nodes.length, childStart ly.nodes (j + 1) ≤ ly.leaves.length + j)
    (j : Nat) (n : Interior) (hn : ly.nodes[j]? = some n) :
    ly.weightTable[ly.leaves.length + j]? =
      some (1 + ((ly.weightTable.drop (childStart ly.nodes j)).take n.size).sum) := by
  unfold Layout.weightTable
  rw [nodeTable_entry_len _ _ ly.leaves.length (by simp) _ j n hn hb]

theorem Layout.weightTable_pos (ly : Layout)
    (hb : ∀ j < ly.nodes.length, childStart ly.nodes (j + 1) ≤ ly.leaves.length + j)
    (k : Nat) (hk : k < ly.leaves.length + ly.nodes.length) : 1 ≤ ly.weightTable.getD k 0 := by
  rw [List.getD_eq_getElem?_getD]
  rcases Nat.lt_or_ge k ly.leaves.length with h | h
  · rw [Layout.weightTable_leaf ly k h]; simp
  · obtain ⟨j, rfl⟩ : ∃ j, k = ly.leaves.length + j := ⟨k - ly.leaves.length, by omega⟩
    have hn : ly.nodes[j]? = some ly.nodes[j] := List.getElem?_eq_getElem (by omega)
    rw [Layout.weightTable_node ly hb j _ hn]
    simp

theorem Layout.belowTable_length (ly : Layout) (x y : F64)
    (boxDist : F64 → F64 → F64 → F64 → F64 → F64 → F64)
    (itemDist : Option (F64 → F64 → Int → F64)) :
    (ly.belowTable x y boxDist itemDist).length = ly.leaves.length + ly.nodes.length := by
  unfold Layout.belowTable; rw [nodeTable_length]; simp

theorem Layout.belowTable_leaf (ly : Layout) (x y : F64)
    (boxDist : F64 → F64 → F64 → F64 → F64 → F64 → F64)
    (itemDist : Option (F64 → F64 → Int → F64)) (k : Nat) (hk : k < ly.leaves.length) :
    (ly.belowTable x y boxDist itemDist)[k]? =
      some [ly.leafPair (ly.distTable x y boxDist itemDist) k] := by
  unfold Layout.belowTable
  rw [nodeTable_leaf _ _ _ _ (by simpa using hk)]
  simp only [List.getElem?_map, List.getElem?_eq_getElem hk, Option.map_some', Layout.leafPair,
    Layout.distTable, List.getD_eq_getElem?_getD]
  rw [List.getElem?_append_left (by simpa using hk)]
  simp [hk]

theorem Layout.belowTable_node (ly : Layout)
    (hb : ∀ j < ly.nodes.length, childStart ly.nodes (j + 1) ≤ ly.leaves.length + j)
    (x y : F64) (boxDist : F64 → F64 → F64 → F64 → F64 → F64 → F64)
    (itemDist : Option (F64 → F64 → Int → F64)) (j : Nat) (n : Interior)
    (hn : ly.nodes[j]? = some n) :
    (ly.belowTable x y boxDist itemDist)[ly.leaves.length + j]? =
      some (((ly.belowTable x y boxDist itemDist).drop (childStart ly.nodes j)).take n.size).flatten := by
  unfold Layout.belowTable
  rw [nodeTable_entry_len _ _ ly.leaves.length (by simp) _ j n hn hb]

theorem Layout.below_lower_bound (ly : Layout)
    (hb : ∀ j < ly.nodes.length, childStart ly.nodes (j + 1) ≤ ly.leaves.length + j)
    (x y : F64) (boxDist : F64 → F64 → F64 → F64 → F64 → F64 → F64)
    (itemDist : Option (F64 → F64 → Int → F64))
    (hmono : ly.DistMono (ly.distTable x y boxDist itemDist)) :
    ∀ k, k < ly.leaves.length + ly.nodes.length →
      ∀ b ∈ (ly.belowTable x y boxDist itemDist).getD k [],
        (ly.distTable x y boxDist itemDist).getD k 0 ≤ b.2 := by
  intro k
  induction k using Nat.strong_induction_on with
  | _ k ih =>
    intro hk b hb'
    rw [List.getD_eq_getElem?_getD] at hb'
    rcases Nat.lt_or_ge k ly.leaves.length with h | h
    · rw [Layout.belowTable_leaf ly x y boxDist itemDist k h] at hb'
      simp only [Option.getD_some, List.mem_singleton] at hb'
      rw [hb']
      simp [Layout.leafPair]
    · obtain ⟨j, rfl⟩ : ∃ j, k = ly.leaves.length + j := ⟨k - ly.leaves.length, by omega⟩
      have hn : ly.nodes[j]? = some ly.nodes[j] := List.getElem?_eq_getElem (by omega)
      generalize ly.nodes[j] = n at hn
      rw [Layout.belowTable_node ly hb x y boxDist itemDist j n hn] at hb'
      simp only [Option.getD_some, List.mem_flatten] at hb'
      obtain ⟨l, hl, hbl⟩ := hb'
      obtain ⟨i, hi, rfl⟩ := List.getElem_of_mem hl
      have hi' : i < n.size := by
        simp only [List.length_take] at hi; omega
      have hcs := childStart_succ ly.nodes j n hn
      have hbj := hb j (by omega)
      have hlt : childStart ly.nodes j + i < ly.leaves.length + j := by omega
      have hget : (((ly.belowTable x y boxDist itemDist).drop (childStart ly.nodes j)).take n.size)[i] =
          (ly.belowTable x y boxDist itemDist).getD (childStart ly.nodes j + i) [] := by
        rw [List.getD_eq_getElem?_getD]
        have : (((ly.belowTable x y boxDist itemDist).drop (childStart ly.nodes j)).take n.size)[i]? =
            (ly.belowTable x y boxDist itemDist)[childStart ly.nodes j + i]? := by
          rw [List.getElem?_take_of_lt hi', List.getElem?_drop]
        rw [← this, List.getElem?_eq_getElem hi]
        rfl
      rw [hget] at hbl
      exact (hmono j n hn i hi').trans (ih _ hlt (by omega) b hbl)

theorem Layout.below_lower_bound_inner (ly : Layout)
    (hb : ∀ j < ly.nodes.length, childStart ly.nodes (j + 1) ≤ ly.leaves.length + j)
    (x y : F64) (boxDist : F64 → F64 → F64 → F64 → F64 → F64 → F64)
    (itemDist : Option (F64 → F64 → Int → F64))
    (hmono : ly.DistMonoInner (ly.distTable x y boxDist itemDist)) :
    ∀ k, k + 1 < ly.leaves.length + ly.nodes.length →
      ∀ b ∈ (ly.belowTable x y boxDist itemDist).getD k [],
        (ly.distTable x y boxDist itemDist).getD k 0 ≤ b.2 := by
  intro k
  induction k using Nat.strong_induction_on with
  | _ k ih =>
    intro hk b hb'
    rw [List.getD_eq_getElem?_getD] at hb'
    rcases Nat.lt_or_ge k ly.leaves.length with h | h
    · rw [Layout.belowTable_leaf ly x y boxDist itemDist k h] at hb'
      simp only [Option.getD_some, List.mem_singleton] at hb'
      rw [hb']
      simp [Layout.leafPair]
    · obtain ⟨j, rfl⟩ : ∃ j, k = ly.leaves.length + j := ⟨k - ly.leaves.length, by omega⟩
      have hn : ly.nodes[j]? = some ly.nodes[j] := List.getElem?_eq_getElem (by omega)
      generalize ly.nodes[j] = n at hn
      rw [Layout.belowTable_node ly hb x y boxDist itemDist j n hn] at hb'
      simp only [Option.getD_some, List.mem_flatten] at hb'
      obtain ⟨l, hl, hbl⟩ := hb'
      obtain ⟨i, hi, rfl⟩ := List.getElem_of_mem hl
      have hi' : i < n.size := by
        simp only [List.length_take] at hi; omega
      have hcs := childStart_succ ly.nodes j n hn
      have hbj := hb j (by omega)
      have hlt : childStart ly.nodes j + i < ly.leaves.length + j := by omega
      have hget : (((ly.belowTable x y boxDist itemDist).drop (childStart ly.nodes j)).take n.size)[i] =
          (ly.belowTable x y boxDist itemDist).getD (childStart ly.nodes j + i) [] := by
        rw [List.getD_eq_getElem?_getD]
        have : (((ly.belowTable x y boxDist itemDist).drop (childStart ly.nodes j)).take n.size)[i]? =
            (ly.belowTable x y boxDist itemDist)[childStart ly.nodes j + i]? := by
          rw [List.getElem?_take_of_lt hi', List.getElem?_drop]
        rw [← this, List.getElem?_eq_getElem hi]
        rfl
      rw [hget] at hbl
      exact (hmono j n hn (by omega) i hi').trans (ih _ hlt (by omega) b hbl)

theorem Layout.DistMono.inner {ly : Layout} {dists : List F64} (h : ly.DistMono dists) :
    ly.DistMonoInner dists :=
  fun j n hn _ i hi => h j n hn i hi

theorem queueWeight_zero (W : List Nat) : queueWeight W 0 = 0 := by simp [queueWeight]

theorem queueWeight_cons (W : List Nat) (e : Int × F64) (es : Multiset (Int × F64)) :
    queueWeight W (e ::ₘ es) = W.getD e.1.toNat 0 + queueWeight W es := by
  simp [queueWeight]

theorem queueWeight_add (W : List Nat) (es es' : Multiset (Int × F64)) :
    queueWeight W (es + es') = queueWeight W es + queueWeight W es' := by
  simp [queueWeight]

theorem queueBelow_zero (L : List (List (Int × F64))) : queueBelow L 0 = 0 := by
  simp [queueBelow]

theorem queueBelow_cons (L : List (List (Int × F64))) (e : Int × F64)
    (es : Multiset (Int × F64)) :
    queueBelow L (e ::ₘ es) = ((L.getD e.1.toNat [] : List (Int × F64)) : Multiset (Int × F64)) +
      queueBelow L es := by
  simp [queueBelow]

theorem queueBelow_add (L : List (List (Int × F64))) (es es' : Multiset (Int × F64)) :
    queueBelow L (es + es') = queueBelow L es + queueBelow L es' := by
  simp [queueBelow]

theorem queueWeight_nodes (W : List Nat) (dists : List F64) (ks : List Nat) :
    queueWeight W ((ks.map (nodeEntry dists) : List (Int × F64)) : Multiset (Int × F64)) =
      (ks.map (fun k => W.getD k 0)).sum := by
  induction ks with
  | nil => simp [queueWeight]
  | cons k ks ih =>
    rw [List.map_cons, ← Multiset.cons_coe, queueWeight_cons, ih]
    simp [nodeEntry]

theorem queueBelow_nodes (L : List (List (Int × F64))) (dists : List F64) (ks : List Nat) :
    queueBelow L ((ks.map (nodeEntry dists) : List (Int × F64)) : Multiset (Int × F64)) =
      (((ks.map (fun k => L.getD k [])).flatten : List (Int × F64)) : Multiset (Int × F64)) := by
  induction ks with
  | nil => simp [queueBelow]
  | cons k ks ih =>
    rw [List.map_cons, ← Multiset.cons_coe, queueBelow_cons, ih]
    simp [nodeEntry]

theorem queueWeight_card_le (ly : Layout)
    (hb : ∀ j < ly.nodes.length, childStart ly.nodes (j + 1) ≤ ly.leaves.length + j)
    (dists : List F64) (es : Multiset (Int × F64)) (hok : ly.QueueOK dists es) :
    Multiset.card es ≤ queueWeight ly.weightTable es := by
  induction es using Multiset.induction_on with
  | empty => simp
  | cons e es ih =>
    rw [queueWeight_cons, Multiset.card_cons]
    have h1 := ih (fun e' he' => hok e' (Multiset.mem_cons_of_mem he'))
    obtain ⟨k, hk1, hk2, _⟩ := hok e (Multiset.mem_cons_self _ _)
    have := Layout.weightTable_pos ly hb k hk2
    rw [hk1]
    simp only [Int.toNat_ofNat]
    omega

theorem flatten_map_singleton {A B : Type} (f : A → B) (l : List A) :
    (l.map (fun a => [f a])).flatten = l.map f := by
  induction l with
  | nil => rfl
  | cons a l ih => simp [ih]

theorem neighborsLoop_layout {Q : Type} (fq : FlatQueue Q)
    (entries : Q → Multiset (Int × F64)) (hl : fq.Lawful entries) (ly : Layout)
    (hM : 0 < ly.nodes.length)
    (hb : ∀ j < ly.nodes.length, childStart ly.nodes (j + 1) ≤ ly.leaves.length + j)
    (x y : F64) (boxDist : F64 → F64 → F64 → F64 → F64 → F64 → F64)
    (itemDist : Option (F64 → F64 → Int → F64)) :
    ∀ (fuel : Nat) (q : Q),
      ((ly.QueueOK (ly.distTable x y boxDist itemDist) (entries q) ∧
          ly.QueueInner (entries q)) ∨
        ∃ v, entries q = {(((ly.leaves.length + ly.nodes.length - 1 : Nat) : Int), v)}) →
      (0 < fq.Len q → ¬ fq.Peek q < (ly.leaves.length : Int)) →
      queueWeight ly.weightTable (entries q) < fuel →
      ∃ out : List (Int × F64),
        ((out : Multiset (Int × F64)) =
          queueBelow (ly.belowTable x y boxDist itemDist) (entries q)) ∧
        (ly.DistMonoInner (ly.distTable x y boxDist itemDist) →
          out.Pairwise (fun a b => a.2 ≤ b.2)) ∧
        ∀ {σ : Type} (iterf : Int → F64 → σ → Bool × σ) (s : σ),
          ly.tree.neighborsLoop fq x y iterf boxDist itemDist fuel q s =
            some (feed (pairCallback iterf) out s).2 := by
  intro fuel
  induction fuel with
  | zero => intro q _ _ h; omega
  | succ fuel ih =>
    intro q hinv hhead hw
    set D := ly.distTable x y boxDist itemDist with hD
    set L := ly.belowTable x y boxDist itemDist with hL
    set W := ly.weightTable with hW
    by_cases hlen : 0 < fq.Len q
    · have hpop := hl.entries_pop q hlen
      have hfst := hl.pop_fst q hlen
      have hmem : (fq.Peek q, fq.PeekValue q) ∈ entries q := by
        rw [hpop]; exact Multiset.mem_cons_self _ _
      -- the popped entry is a node, and the rest of the queue is in order
      have hfacts : ∃ k : Nat, fq.Peek q = (k : Int) ∧ k < ly.leaves.length + ly.nodes.length ∧
          ly.QueueOK D (entries (fq.Pop q).2) ∧ ly.QueueInner (entries (fq.Pop q).2) := by
        rcases hinv with ⟨hok, hin⟩ | ⟨v, hv⟩
        · obtain ⟨k, hk1, hk2, _⟩ := hok _ hmem
          exact ⟨k, hk1, hk2, fun e he => hok e (by rw [hpop]; exact Multiset.mem_cons_of_mem he),
            fun e he => hin e (by rw [hpop]; exact Multiset.mem_cons_of_mem he)⟩
        · have hcard : Multiset.card (entries (fq.Pop q).2) = 0 := by
            have := congrArg Multiset.card hpop
            rw [hv, Multiset.card_cons, Multiset.card_singleton] at this
            omega
          have h0 : entries (fq.Pop q).2 = 0 := Multiset.card_eq_zero.mp hcard
          rw [hv, Multiset.mem_singleton] at hmem
          refine ⟨ly.leaves.length + ly.nodes.length - 1, (Prod.ext_iff.mp hmem).1, by omega, ?_, ?_⟩
          · intro e he
            rw [h0] at he
            exact absurd he (Multiset.not_mem_zero e)
          · intro e he
            rw [h0] at he
            exact absurd he (Multiset.not_mem_zero e)
      obtain ⟨k, hk1, hk2, hok1, hin1⟩ := hfacts
      have hkN : ly.leaves.length ≤ k := by
        have := hhead hlen
        rw [hk1] at this
        exact_mod_cast not_lt.mp this
      obtain ⟨j, rfl⟩ : ∃ j, k = ly.leaves.length + j := ⟨k - ly.leaves.length, by omega⟩
      have hj : j < ly.nodes.length := by omega
      have hn : ly.nodes[j]? = some ly.nodes[j] := List.getElem?_eq_getElem hj
      generalize ly.nodes[j] = n at hn
      have hcs := childStart_succ ly.nodes j n hn
      have hbj := hb j hj
      -- the children pushed
      let ks : List Nat := (List.range n.size).map (fun i => childStart ly.nodes j + i)
      have hks : ∀ k' ∈ ks, k' < ly.leaves.length + ly.nodes.length := by
        intro k' hk'
        obtain ⟨i, hi, rfl⟩ := List.mem_map.mp hk'
        simp only [List.mem_range] at hi
        omega
      obtain ⟨q2, hpush, he2'⟩ := pushChildren_layout fq entries hl ly x y boxDist itemDist ks
        (fq.Pop q).2 hks
      have he2 : entries q2 = entries (fq.Pop q).2 +
          ((ks.map (nodeEntry D) : List (Int × F64)) : Multiset (Int × F64)) := he2'
      have hidx : childIdxs ((4 * childStart ly.nodes j : Nat) : Int)
          ((4 * childStart ly.nodes (j + 1) : Nat) : Int) =
          ks.map (fun k => ((4 * k : Nat) : Int)) := by
        rw [hcs, childIdxs_eq, List.map_map]
        rfl
      have hok2 : ly.QueueOK D (entries q2) := by
        intro e he
        rw [he2] at he
        rcases Multiset.mem_add.mp he with h | h
        · exact hok1 e h
        · obtain ⟨k', hk', rfl⟩ := List.mem_map.mp (Multiset.mem_coe.mp h)
          exact ⟨k', rfl, hks k' hk', rfl⟩
      have hin2 : ly.QueueInner (entries q2) := by
        intro e he
        rw [he2] at he
        rcases Multiset.mem_add.mp he with h | h
        · exact hin1 e h
        · obtain ⟨k', hk', rfl⟩ := List.mem_map.mp (Multiset.mem_coe.mp h)
          obtain ⟨i, hi, rfl⟩ := List.mem_map.mp hk'
          simp only [List.mem_range] at hi
          simp only [nodeEntry, Int.toNat_ofNat]
          omega
      -- weights
      have hWk : W.getD (ly.leaves.length + j) 0 =
          1 + (ks.map (fun k => W.getD k 0)).sum := by
        rw [List.getD_eq_getElem?_getD, hW, Layout.weightTable_node ly hb j n hn, Option.getD_some,
          ← map_range_getD ly.weightTable 0 _ _
            (by rw [Layout.weightTable_length]; omega), List.map_map]
        rfl
      have hLk : L.getD (ly.leaves.length + j) [] = (ks.map (fun k => L.getD k [])).flatten := by
        rw [List.getD_eq_getElem?_getD, hL, Layout.belowTable_node ly hb x y boxDist itemDist j n hn,
          Option.getD_some, ← map_range_getD (ly.belowTable x y boxDist itemDist) [] _ _
            (by rw [Layout.belowTable_length]; omega), List.map_map]
        rfl
      have hw1 : queueWeight W (entries q) =
          1 + queueWeight W (entries q2) := by
        rw [hpop, queueWeight_cons, he2, queueWeight_add, queueWeight_nodes, hk1]
        simp only [Int.toNat_ofNat]
        rw [hWk]; omega
      have hb1 : queueBelow L (entries q) = queueBelow L (entries q2) := by
        rw [hpop, queueBelow_cons, he2, queueBelow_add, queueBelow_nodes, hk1]
        simp only [Int.toNat_ofNat]
        rw [hLk, add_comm]
      have hcard2 : Multiset.card (entries q2) < fuel + 1 := by
        have : Multiset.card (entries q2) ≤ queueWeight W (entries q2) :=
          queueWeight_card_le ly hb D (entries q2) hok2
        omega
      obtain ⟨kd, q3, he3, hkd, hhead3, hsorted, hle, hrun⟩ :=
        drain_layout fq entries hl ly D (fuel + 1) q2 hok2 hcard2
      have hok3 : ly.QueueOK D (entries q3) := by
        intro e he
        apply hok2 e
        rw [he3]
        exact Multiset.mem_add.mpr (Or.inr he)
      have hin3 : ly.QueueInner (entries q3) := by
        intro e he
        apply hin2 e
        rw [he3]
        exact Multiset.mem_add.mpr (Or.inr he)
      have hkdW : queueWeight W ((kd.map (nodeEntry D) : List (Int × F64)) :
          Multiset (Int × F64)) = kd.length := by
        rw [queueWeight_nodes]
        have : kd.map (fun k => W.getD k 0) = kd.map (fun _ => 1) := by
          apply List.map_congr_left
          intro k' hk'
          rw [List.getD_eq_getElem?_getD, hW, Layout.weightTable_leaf ly k' (hkd k' hk')]
          rfl
        rw [this]
        simp
      have hw3 : queueWeight W (entries q3) < fuel := by
        have : queueWeight W (entries q2) = kd.length + queueWeight W (entries q3) := by
          rw [he3, queueWeight_add, hkdW]
        omega
      obtain ⟨out3, hout3, hsort3, hrun3⟩ := ih q3 (Or.inl ⟨hok3, hin3⟩) hhead3 hw3
      have hkdL : queueBelow L ((kd.map (nodeEntry D) : List (Int × F64)) :
          Multiset (Int × F64)) = ((kd.map (ly.leafPair D) : List (Int × F64)) :
            Multiset (Int × F64)) := by
        rw [queueBelow_nodes]
        have : kd.map (fun k => L.getD k []) = kd.map (fun k => [ly.leafPair D k]) := by
          apply List.map_congr_left
          intro k' hk'
          rw [List.getD_eq_getElem?_getD, hL,
            Layout.belowTable_leaf ly x y boxDist itemDist k' (hkd k' hk')]
          rfl
        rw [this, flatten_map_singleton]
      refine ⟨kd.map (ly.leafPair D) ++ out3, ?_, ?_, ?_⟩
      · rw [hb1, he3, queueBelow_add, hkdL, ← hout3, Multiset.coe_add]
      · intro hmono
        rw [List.pairwise_append]
        refine ⟨?_, hsort3 hmono, ?_⟩
        · rw [List.pairwise_map]
          rw [List.pairwise_map] at hsorted
          exact hsorted
        · intro a ha b hb'
          obtain ⟨k', hk', rfl⟩ := List.mem_map.mp ha
          have hb3 : b ∈ queueBelow L (entries q3) := by
            rw [← hout3]; exact Multiset.mem_coe.mpr hb'
          obtain ⟨e, he, hbe⟩ := Multiset.mem_bind.mp hb3
          obtain ⟨k'', hk1', hk2', hk3'⟩ := hok3 e he
          rw [hk1'] at hbe
          simp only [Int.toNat_ofNat, Multiset.mem_coe] at hbe
          have hk4' : k'' + 1 < ly.leaves.length + ly.nodes.length := by
            have := hin3 e he
            rw [hk1'] at this
            simpa using this
          have hlb := Layout.below_lower_bound_inner ly hb x y boxDist itemDist hmono k'' hk4' b
            hbe
          have h1 := hle k' hk' e he
          show (ly.leafPair D k').2 ≤ b.2
          simp only [Layout.leafPair]
          rw [← hk3'] at h1
          exact h1.trans hlb
      · intro σ iterf s
        have e1 : ((ly.leaves.length + j : Nat) : Int) + 1 =
            ((ly.leaves.length + (j + 1) : Nat) : Int) := by push_cast; ring
        obtain ⟨q'', hdr, hq''⟩ := hrun iterf s
        simp only [RTree.neighborsLoop, hlen, if_true, hfst, hk1, e1,
          Layout.tree_refs_node ly j (by omega), Layout.tree_refs_node ly (j + 1) (by omega), hidx,
          hpush, hdr]
        rw [feed_append]
        rcases hf : feed (pairCallback iterf) (kd.map (ly.leafPair D)) s with ⟨b, s'⟩
        rw [hf] at hq''
        cases b
        · simp
        · simp only [if_true]
          rw [hq'' rfl]
          exact hrun3 iterf s'
    · have hcard : Multiset.card (entries q) = 0 := by
        have := hl.len_eq q; omega
      have h0 : entries q = 0 := Multiset.card_eq_zero.mp hcard
      refine ⟨[], ?_, fun _ => List.Pairwise.nil, ?_⟩
      · rw [h0, queueBelow_zero]; rfl
      · intro σ iterf s
        simp only [RTree.neighborsLoop, hlen, if_false, feed]

theorem frontier_sum (T : List Nat) (N : Nat) (nodes : List Interior)
    (hlen : T.length = N + nodes.length)
    (hb : ∀ j < nodes.length, childStart nodes (j + 1) ≤ N + j)
    (hT : ∀ j n, nodes[j]? = some n →
      T[N + j]? = some (1 + ((T.drop (childStart nodes j)).take n.size).sum)) :
    ∀ j ≤ nodes.length,
      ((T.take (N + j)).drop (childStart nodes j)).sum = (T.take N).sum + j := by
  intro j
  induction j with
  | zero => intro _; simp [childStart_zero]
  | succ j ih =>
    intro hj
    have hj' : j < nodes.length := by omega
    have hn : nodes[j]? = some nodes[j] := List.getElem?_eq_getElem hj'
    generalize nodes[j] = n at hn
    have hv := hT j n hn
    have hcs := childStart_succ nodes j n hn
    have hbj := hb j hj'
    have htake : T.take (N + (j + 1)) =
        T.take (N + j) ++ [1 + ((T.drop (childStart nodes j)).take n.size).sum] := by
      rw [← Nat.add_assoc, List.take_succ, hv]; rfl
    have hsplit : (T.take (N + j)).drop (childStart nodes j) =
        ((T.drop (childStart nodes j)).take n.size) ++
          (T.take (N + j)).drop (childStart nodes (j + 1)) := by
      conv_lhs => rw [← List.take_append_drop n.size ((T.take (N + j)).drop (childStart nodes j))]
      rw [List.drop_drop, hcs]
      congr 1
      have : T = T.take (N + j) ++ T.drop (N + j) := (List.take_append_drop _ _).symm
      conv_rhs => rw [this]
      rw [take_drop_append]
      simp; omega
    have ih' := ih (by omega)
    rw [hsplit, List.sum_append] at ih'
    rw [htake, List.drop_append_of_le_length (by simp; omega), List.sum_append]
    simp only [List.sum_cons, List.sum_nil]
    omega

theorem Layout.weightTable_root (ly : Layout) (hwf : ly.WF) :
    ly.weightTable.getD (ly.leaves.length + ly.nodes.length - 1) 0 =
      ly.leaves.length + ly.nodes.length := by
  have hlen := Layout.weightTable_length ly
  have h := frontier_sum ly.weightTable ly.leaves.length ly.nodes hlen hwf.before
    (fun j n hn => Layout.weightTable_node ly hwf.before j n hn) ly.nodes.length (le_refl _)
  have hcov := hwf.covered
  rw [← hlen, List.take_length] at h
  have hlt : childStart ly.nodes ly.nodes.length < ly.weightTable.length := by omega
  have hd : ly.weightTable.drop (childStart ly.nodes ly.nodes.length) =
      [ly.weightTable[childStart ly.nodes ly.nodes.length]] := by
    rw [List.drop_eq_getElem_cons hlt, List.drop_of_length_le (by omega)]
  rw [hd] at h
  have htake : ly.weightTable.take ly.leaves.length = ly.leaves.map fun _ => 1 := by
    have := nodeTable_take (fun (_ : Interior) (kids : List Nat) => 1 + kids.sum)
      (ly.leaves.map fun _ => 1) ly.nodes
    simpa [Layout.weightTable] using this
  have hsum : (ly.leaves.map fun _ => 1).sum = ly.leaves.length := by simp
  rw [htake, hsum] at h
  simp only [List.sum_cons, List.sum_nil, Nat.add_zero] at h
  rw [show ly.leaves.length + ly.nodes.length - 1 = childStart ly.nodes ly.nodes.length by omega,
    List.getD_eq_getElem?_getD, List.getElem?_eq_getElem hlt]
  exact h

theorem Layout.belowTable_root (ly : Layout) (hwf : ly.WF) (x y : F64)
    (boxDist : F64 → F64 → F64 → F64 → F64 → F64 → F64)
    (itemDist : Option (F64 → F64 → Int → F64)) :
    ((ly.belowTable x y boxDist itemDist).getD (ly.leaves.length + ly.nodes.length - 1) []).Perm
      (ly.leaves.map fun it => (it.ref, itemDistance x y boxDist itemDist it)) := by
  obtain ⟨v, hv, hperm⟩ := frontier_root (ly.belowTable x y boxDist itemDist) ly.leaves.length
    ly.nodes (Layout.belowTable_length ly x y boxDist itemDist) hwf.before hwf.covered
    (fun j n hn => ⟨_, Layout.belowTable_node ly hwf.before x y boxDist itemDist j n hn,
      List.Perm.refl _⟩)
  have hcov := hwf.covered
  have htake : (ly.belowTable x y boxDist itemDist).take ly.leaves.length =
      ly.leaves.map fun it => [(it.ref, itemDistance x y boxDist itemDist it)] := by
    have := nodeTable_take (fun (_ : Interior) (kids : List (List (Int × F64))) => kids.flatten)
      (ly.leaves.map fun it => [(it.ref, itemDistance x y boxDist itemDist it)]) ly.nodes
    simpa [Layout.belowTable] using this
  rw [htake, flatten_map_singleton] at hperm
  rw [show ly.leaves.length + ly.nodes.length - 1 = childStart ly.nodes ly.nodes.length by omega,
    List.getD_eq_getElem?_getD, hv]
  exact hperm

theorem Neighbors_layout {Q : Type} (fq : FlatQueue Q)
    (entries : Q → Multiset (Int × F64)) (hl : fq.Lawful entries) (ly : Layout) (hwf : ly.WF)
    (x y : F64) (boxDist : F64 → F64 → F64 → F64 → F64 → F64 → F64)
    (itemDist : Option (F64 → F64 → Int → F64)) (fuel : Nat)
    (hfuel : ly.tree.refs.length ≤ fuel) :
    ∃ out : List (Int × F64),
      out.Perm (ly.leaves.map fun it => (it.ref, itemDistance x y boxDist itemDist it)) ∧
      (ly.DistMonoInner (ly.distTable x y boxDist itemDist) →
        out.Pairwise (fun a b => a.2 ≤ b.2)) ∧
      ∀ {σ : Type} (iterf : Int → F64 → σ → Bool × σ) (s : σ),
        ly.tree.Neighbors fq x y iterf boxDist itemDist fuel s =
          some (feed (pairCallback iterf) out s).2 := by
  have hM : 0 < ly.nodes.length := List.length_pos.mpr hwf.nonempty
  by_cases h0 : ly.leaves.length = 0
  · have hnil : ly.leaves = [] := List.length_eq_zero.mp h0
    refine ⟨[], by simp [hnil], fun _ => List.Pairwise.nil, ?_⟩
    intro σ iterf s
    simp [RTree.Neighbors, Layout.tree_count, h0, feed]
  · rw [Layout.tree_refs_length] at hfuel
    have hroot : ((ly.tree.refs.length : Int) - 2) =
        ((ly.leaves.length + ly.nodes.length - 1 : Nat) : Int) := by
      rw [Layout.tree_refs_length]
      omega
    have he0 : entries (fq.Push fq.new
        ((ly.leaves.length + ly.nodes.length - 1 : Nat) : Int) 0) =
        {(((ly.leaves.length + ly.nodes.length - 1 : Nat) : Int), (0 : F64))} := by
      rw [hl.entries_push, hl.entries_new]
      rfl
    have hhead : 0 < fq.Len (fq.Push fq.new
        ((ly.leaves.length + ly.nodes.length - 1 : Nat) : Int) 0) →
        ¬ fq.Peek (fq.Push fq.new ((ly.leaves.length + ly.nodes.length - 1 : Nat) : Int) 0) <
          (ly.leaves.length : Int) := by
      intro hlen
      have hpop := hl.entries_pop _ hlen
      have hmem : (fq.Peek (fq.Push fq.new
            ((ly.leaves.length + ly.nodes.length - 1 : Nat) : Int) 0),
          fq.PeekValue (fq.Push fq.new
            ((ly.leaves.length + ly.nodes.length - 1 : Nat) : Int) 0)) ∈
          entries (fq.Push fq.new ((ly.leaves.length + ly.nodes.length - 1 : Nat) : Int) 0) := by
        rw [hpop]; exact Multiset.mem_cons_self _ _
      rw [he0, Multiset.mem_singleton] at hmem
      have hpk := (Prod.ext_iff.mp hmem).1
      simp only at hpk
      rw [hpk]
      omega
    have hw : queueWeight ly.weightTable (entries (fq.Push fq.new
        ((ly.leaves.length + ly.nodes.length - 1 : Nat) : Int) 0)) < fuel := by
      rw [he0, ← Multiset.cons_zero, queueWeight_cons, queueWeight_zero]
      simp only [Int.toNat_ofNat, Nat.add_zero]
      rw [Layout.weightTable_root ly hwf]
      omega
    obtain ⟨out, hout, hsorted, hrun⟩ := neighborsLoop_layout fq entries hl ly hM hwf.before
      x y boxDist itemDist fuel _ (Or.inr ⟨0, he0⟩) hhead hw
    refine ⟨out, ?_, hsorted, ?_⟩
    · rw [he0, ← Multiset.cons_zero, queueBelow_cons, queueBelow_zero, add_zero] at hout
      simp only [Int.toNat_ofNat] at hout
      exact (Multiset.coe_eq_coe.mp hout).trans
        (Layout.belowTable_root ly hwf x y boxDist itemDist)
    · intro σ iterf s
      simp only [RTree.Neighbors, Layout.tree_count, h0, if_false, hroot]
      exact hrun iterf s

theorem AlignedBy.append {P : Interior → List Box → Prop} :
    ∀ (l₁ l₂ : List Interior) (p₁ p₂ : List Box), AlignedBy P p₁ l₁ → AlignedBy P p₂ l₂ →
      AlignedBy P (p₁ ++ p₂) (l₁ ++ l₂) := by
  intro l₁
  induction l₁ with
  | nil =>
    intro l₂ p₁ p₂ h1 h2
    simp only [AlignedBy] at h1
    subst h1
    simpa using h2
  | cons n rest ih =>
    intro l₂ p₁ p₂ h1 h2
    obtain ⟨hs, hP, hr⟩ := h1
    refine ⟨by simp; omega, ?_, ?_⟩
    · rw [List.take_append_of_le_length hs]; exact hP
    · rw [List.drop_append_of_le_length hs]
      exact ih l₂ _ p₂ hr h2

theorem appendLevels_nil_right (ls : List (List Interior)) : appendLevels ls [] = ls := by
  cases ls <;> rfl

theorem appendLevels_length (ls ns : List (List Interior)) (h : ns.length ≤ ls.length) :
    (appendLevels ls ns).length = ls.length := by
  induction ls generalizing ns with
  | nil => cases ns <;> simp [appendLevels]
  | cons l ls ih =>
    cases ns with
    | nil => simp [appendLevels]
    | cons n ns =>
      simp only [appendLevels, List.length_cons]
      rw [ih ns (by simpa using h)]

theorem appendLevels_assoc (ls n₁ n₂ : List (List Interior)) (h : n₁.length = n₂.length) :
    appendLevels (appendLevels ls n₁) n₂ = appendLevels ls (appendLevels n₁ n₂) := by
  induction ls generalizing n₁ n₂ with
  | nil => cases n₁ <;> cases n₂ <;> simp [appendLevels] at h ⊢
  | cons l ls ih =>
    cases n₁ with
    | nil =>
      cases n₂ with
      | nil => simp [appendLevels]
      | cons b n₂ => simp at h
    | cons a n₁ =>
      cases n₂ with
      | nil => simp at h
      | cons b n₂ =>
        simp only [appendLevels, List.append_assoc]
        rw [ih n₁ n₂ (by simpa using h)]

theorem appendLevels_length_eq (n₁ n₂ : List (List Interior)) (h : n₁.length = n₂.length) :
    (appendLevels n₁ n₂).length = n₁.length :=
  appendLevels_length n₁ n₂ (by omega)

theorem StackTo.appendStack {P : Interior → List Box → Prop} :
    ∀ (n₁ n₂ : List (List Interior)) (p₁ p₂ t₁ t₂ : List Box), n₁.length = n₂.length →
      StackTo P p₁ n₁ t₁ → StackTo P p₂ n₂ t₂ →
      StackTo P (p₁ ++ p₂) (appendLevels n₁ n₂) (t₁ ++ t₂) := by
  intro n₁
  induction n₁ with
  | nil =>
    intro n₂ p₁ p₂ t₁ t₂ hlen h1 h2
    cases n₂ with
    | nil =>
      simp only [StackTo] at h1 h2
      subst h1 h2
      simp [appendLevels, StackTo]
    | cons b n₂ => simp at hlen
  | cons a n₁ ih =>
    intro n₂ p₁ p₂ t₁ t₂ hlen h1 h2
    cases n₂ with
    | nil => simp at hlen
    | cons b n₂ =>
      obtain ⟨ha, hr1⟩ := h1
      obtain ⟨hb, hr2⟩ := h2
      refine ⟨AlignedBy.append a b p₁ p₂ ha hb, ?_⟩
      rw [List.map_append]
      exact ih n₂ _ _ t₁ t₂ (by simpa using hlen) hr1 hr2

theorem StackTo.snocLevel {P : Interior → List Box → Prop} :
    ∀ (news : List (List Interior)) (prev top : List Box) (level : List Interior),
      StackTo P prev news top → AlignedBy P top level →
      StackTo P prev (news ++ [level]) (level.map Interior.box) := by
  intro news
  induction news with
  | nil =>
    intro prev top level h1 h2
    simp only [StackTo] at h1
    subst h1
    exact ⟨h2, rfl⟩
  | cons a news ih =>
    intro prev top level h1 h2
    obtain ⟨ha, hr⟩ := h1
    exact ⟨ha, ih _ top level hr h2⟩

theorem StackTo.toLevelsBy {P : Interior → List Box → Prop} :
    ∀ (news : List (List Interior)) (prev : List Box) (root : Interior),
      StackTo P prev (news ++ [[root]]) [root.box] → LevelsBy P prev (news ++ [[root]]) := by
  intro news
  induction news with
  | nil =>
    intro prev root h
    exact ⟨h.1, rfl⟩
  | cons a news ih =>
    intro prev root h
    obtain ⟨ha, hr⟩ := h
    exact LevelsBy.cons ha (ih _ root hr)

theorem appendLevels_single (levels : List (List Interior)) (k : Nat) (n : Interior)
    (l : List Interior) (h : levels[k]? = some l) :
    appendLevels levels (List.replicate k [] ++ [[n]]) = levels.set k (l ++ [n]) := by
  induction levels generalizing k with
  | nil => simp at h
  | cons a levels ih =>
    cases k with
    | zero =>
      simp at h; subst h
      simp [appendLevels]
    | succ k =>
      simp at h
      have := ih k h
      simp only [List.replicate_succ, List.cons_append, appendLevels, List.append_nil,
        List.set_cons_succ]
      exact congrArg (fun t => a :: t) this

theorem OMTBuilder.repr_addNode (count : Nat) (items : List Item) (levels : List (List Interior))
    (level size : Nat) (box : Box) (h : level < levels.length) :
    (OMTBuilder.repr count items levels).addNode level size box =
      some (OMTBuilder.repr count items
        (appendLevels levels (List.replicate level [] ++ [[⟨size, box⟩]]))) := by
  have hl : levels[level]? = some levels[level] := List.getElem?_eq_getElem h
  generalize levels[level] = l at hl
  rw [appendLevels_single levels level ⟨size, box⟩ l hl]
  simp only [OMTBuilder.addNode, OMTBuilder.repr, List.getElem?_map, hl, Option.map_some',
    List.map_set, List.map_append, List.map_cons, List.map_nil, flatBoxes_append]
  simp [flatBoxes, Box.coords]

theorem OMTBuilder.repr_leafBounds (count : Nat) (A S C : List Item)
    (levels : List (List Interior)) :
    ∀ (done rest : List Item) (acc : Box), S = done ++ rest →
      (OMTBuilder.repr count (A ++ S ++ C) levels).leafBounds
          ((List.range rest.length).map (fun i => A.length + done.length + i)) acc =
        some ((rest.map Item.box).foldl
          (fun a b => a.extend b.minX b.minY b.maxX b.maxY) acc) := by
  intro done rest
  induction rest generalizing done with
  | nil => intro acc _; simp [OMTBuilder.leafBounds]
  | cons it rest ih =>
    intro acc hS
    have hget : ((A ++ S ++ C).map Item.box)[A.length + done.length]? = some it.box := by
      rw [hS]
      simp only [List.map_append, List.map_cons, List.append_assoc]
      rw [List.getElem?_append_right (by simp), List.getElem?_append_right (by simp)]
      simp
    obtain ⟨h0, h1, h2, h3⟩ := flatBoxes_get _ _ _ hget
    have hrange : (List.range (it :: rest).length).map (fun i => A.length + done.length + i) =
        (A.length + done.length) ::
          (List.range rest.length).map (fun i => A.length + (done ++ [it]).length + i) := by
      simp only [List.length_cons, List.range_succ_eq_map, List.map_cons, List.map_map,
        Nat.add_zero, List.length_append, List.length_nil]
      congr 1
      apply List.map_congr_left
      intro i _
      simp only [Function.comp]
      omega
    rw [hrange]
    simp only [OMTBuilder.leafBounds]
    have hb : (OMTBuilder.repr count (A ++ S ++ C) levels).boxes =
        flatBoxes ((A ++ S ++ C).map Item.box) := rfl
    rw [hb, Nat.mul_comm _ 4, h0, h1, h2, h3]
    simp only
    rw [ih (done ++ [it]) _ (by simp [hS])]
    simp

theorem sortByCoord.applySwaps_coord_spec (swaps : List (Nat × Nat)) :
    ∀ (its : List Item) (sortBy : Nat), SwapsInRange swaps its.length →
      ∃ its' : List Item, its'.Perm its ∧
        sortByCoord.applySwaps swaps ⟨sortBy, its.map Item.ref, flatBoxes (its.map Item.box)⟩ =
          some ⟨sortBy, its'.map Item.ref, flatBoxes (its'.map Item.box)⟩ := by
  induction swaps with
  | nil => intro its sortBy _; exact ⟨its, List.Perm.refl _, rfl⟩
  | cons p swaps ih =>
    intro its sortBy hr
    obtain ⟨i, j⟩ := p
    have hij := hr (i, j) (by simp)
    simp only at hij
    obtain ⟨its₁, e1, l1, _⟩ := swapAt_spec its i j hij.1 hij.2
    obtain ⟨b0, b1, b2, f0, f1, f2, f3⟩ :=
      swapAt_flatBoxes (its.map Item.box) (its₁.map Item.box) i j (swapAt_map _ _ _ _ _ e1)
    have hr' : SwapsInRange swaps its₁.length := by
      intro p hp
      rw [l1]
      exact hr p (by simp [hp])
    obtain ⟨its', hperm, happ⟩ := ih its₁ sortBy hr'
    refine ⟨its', hperm.trans (swapAt_perm _ _ _ _ e1), ?_⟩
    simp only [sortByCoord.applySwaps, sortByCoord.Swap, swapAt_map _ _ _ _ _ e1, f0, f1, f2, f3]
    exact happ

theorem OMTBuilder.repr_sortRange (buckets : Nat → List F64 → Nat → List (Nat × Nat))
    (hbk : BucketsInRange buckets) (count : Nat) (A S C : List Item)
    (levels : List (List Interior)) (sortBy n : Nat) :
    ∃ S' : List Item, S'.Perm S ∧
      (OMTBuilder.repr count (A ++ S ++ C) levels).sortRange buckets sortBy
          A.length (A.length + S.length) n =
        some (OMTBuilder.repr count (A ++ S' ++ C) levels) := by
  have hrefs : (((A ++ S ++ C).map Item.ref).drop A.length).take (A.length + S.length - A.length) =
      S.map Item.ref := by
    simp only [List.map_append, List.append_assoc, Nat.add_sub_cancel_left]
    rw [List.drop_append_of_le_length (by simp), List.drop_of_length_le (by simp),
      List.nil_append, List.take_append_of_le_length (by simp), List.take_of_length_le (by simp)]
  have hboxes : ((flatBoxes ((A ++ S ++ C).map Item.box)).drop (A.length * 4)).take
      ((A.length + S.length) * 4 - A.length * 4) = flatBoxes (S.map Item.box) := by
    simp only [List.map_append, List.append_assoc, flatBoxes_append]
    have hA : (flatBoxes (A.map Item.box)).length = A.length * 4 := by
      rw [flatBoxes_length]; simp; omega
    have hS : (flatBoxes (S.map Item.box)).length = (A.length + S.length) * 4 - A.length * 4 := by
      rw [flatBoxes_length]; simp; omega
    rw [← hS, ← hA, List.drop_left, List.take_left]
  have hlen : (flatBoxes (S.map Item.box)).length / 4 = S.length := by
    rw [flatBoxes_length]; simp
  obtain ⟨S', hperm, happ⟩ := sortByCoord.applySwaps_coord_spec
    (buckets sortBy (flatBoxes (S.map Item.box)) n) S sortBy (by
      have := hbk sortBy (flatBoxes (S.map Item.box)) n
      rwa [hlen] at this)
  refine ⟨S', hperm, ?_⟩
  have hcond : A.length ≤ A.length + S.length ∧
      A.length + S.length ≤ (OMTBuilder.repr count (A ++ S ++ C) levels).refs.length ∧
      (A.length + S.length) * 4 ≤ (OMTBuilder.repr count (A ++ S ++ C) levels).boxes.length := by
    simp only [OMTBuilder.repr, List.length_map, List.length_append, flatBoxes_length]
    omega
  unfold OMTBuilder.sortRange
  simp only [hcond, and_self, if_true]
  have hr : (OMTBuilder.repr count (A ++ S ++ C) levels).refs = (A ++ S ++ C).map Item.ref := rfl
  have hb : (OMTBuilder.repr count (A ++ S ++ C) levels).boxes =
      flatBoxes ((A ++ S ++ C).map Item.box) := rfl
  rw [hr, hb, hrefs, hboxes, happ]
  simp only [OMTBuilder.repr, Option.some.injEq, OMTBuilder.mk.injEq, true_and, and_true]
  constructor
  · simp only [List.map_append, List.append_assoc]
    rw [List.take_append_of_le_length (by simp), List.take_of_length_le (by simp)]
    congr 2
    rw [← List.append_assoc, List.drop_append_of_le_length (by simp),
      List.drop_of_length_le (by simp)]
    rfl
  · simp only [List.map_append, List.append_assoc, flatBoxes_append]
    have hA : (flatBoxes (A.map Item.box)).length = A.length * 4 := by
      rw [flatBoxes_length]; simp; omega
    have hAS : (flatBoxes (A.map Item.box) ++ flatBoxes (S.map Item.box)).length =
        (A.length + S.length) * 4 := by
      simp only [List.length_append, flatBoxes_length, List.length_map]; omega
    rw [← hA, List.take_left]
    congr 2
    rw [← List.append_assoc, ← hAS, List.drop_left]

theorem ceilDiv_mul_ge (a b : Nat) (hb : 1 ≤ b) : a ≤ ceilDiv a b * b := by
  unfold ceilDiv
  have h := Nat.div_add_mod (a + b - 1) b
  have h2 := Nat.mod_lt (a + b - 1) (show b > 0 by omega)
  have : b * ((a + b - 1) / b) = (a + b - 1) / b * b := Nat.mul_comm _ _
  omega

theorem ceilDiv_mul_lt (a b : Nat) (hb : 1 ≤ b) (ha : 1 ≤ a) : (ceilDiv a b - 1) * b < a := by
  unfold ceilDiv
  have h := Nat.div_add_mod (a + b - 1) b
  have hpos : 1 ≤ (a + b - 1) / b := by
    rw [Nat.le_div_iff_mul_le (by omega)]; omega
  obtain ⟨k, hk⟩ : ∃ k, (a + b - 1) / b = k + 1 := ⟨(a + b - 1) / b - 1, by omega⟩
  rw [hk] at h ⊢
  have : b * (k + 1) = k * b + b := by ring
  simp only [Nat.add_sub_cancel]
  omega

theorem ceilDiv_le_of_le_mul (a b c : Nat) (hb : 1 ≤ b) (h : a ≤ c * b) : ceilDiv a b ≤ c := by
  unfold ceilDiv
  have h1 : (a + b - 1) / b < c + 1 := by
    rw [Nat.div_lt_iff_lt_mul (by omega)]
    have : (c + 1) * b = c * b + b := by ring
    omega
  omega

theorem fits_zero_leaf (N : Nat) (d : Nat) : N ≤ ceilDiv N (d ^ 0) := by
  simp [ceilDiv]

theorem fits_step (d L N : Nat) (hd : 2 ≤ d) (h : Fits d (L + 1) N) :
    1 ≤ ceilDiv N (d ^ (L + 1)) ∧ ceilDiv N (d ^ (L + 1)) ≤ d ∧
    ¬ N ≤ ceilDiv N (d ^ (L + 1)) ∧
    1 ≤ ceilDiv N (ceilDiv N (d ^ (L + 1))) ∧
    ceilDiv N (ceilDiv N (ceilDiv N (d ^ (L + 1)))) ≤ ceilDiv N (d ^ (L + 1)) ∧
    ∀ r, 1 ≤ r → r ≤ N → ceilDiv N (ceilDiv N (d ^ (L + 1))) ∣ (N - r) →
      Fits d L (min (ceilDiv N (ceilDiv N (d ^ (L + 1)))) r) := by
  obtain ⟨h1, h2, h3⟩ := h
  have hN2 : 2 ≤ N := h3 (by omega)
  set D := d ^ (L + 1) with hD
  have hDd : d ≤ D := by
    rw [hD, pow_succ]
    exact Nat.le_mul_of_pos_left d (Nat.one_le_pow _ _ (by omega))
  have hD2 : 2 ≤ D := by omega
  set c := ceilDiv N D with hc
  have hc1 : 1 ≤ c := ceilDiv_pos (by omega) h1
  have hcd : c ≤ d := by
    apply ceilDiv_le_of_le_mul _ _ _ (by omega)
    rw [hD, ← pow_succ']
    exact h2
  have hcN : c < N := ceilDiv_lt hD2 hN2
  set cap := ceilDiv N c with hcap
  have hcap1 : 1 ≤ cap := ceilDiv_pos hc1 h1
  have hge := ceilDiv_mul_ge N c hc1
  have hlt := ceilDiv_mul_lt N c hc1 h1
  have hgeD := ceilDiv_mul_ge N D (by omega)
  have hltD := ceilDiv_mul_lt N D (by omega) h1
  rw [← hcap] at hge hlt
  rw [← hc] at hgeD hltD
  have hcap2 : 2 ≤ cap := by
    by_contra hcon
    have : cap = 1 := by omega
    rw [this] at hge
    omega
  have hcapD : cap ≤ D := by
    apply ceilDiv_le_of_le_mul _ _ _ hc1
    rw [Nat.mul_comm]; exact hgeD
  clear_value cap c D
  refine ⟨hc1, hcd, by omega, hcap1, ?_, ?_⟩
  · apply ceilDiv_le_of_le_mul _ _ _ hcap1
    rw [Nat.mul_comm]; exact hge
  · intro r hr1 hrN hdiv
    refine ⟨by omega, ?_, ?_⟩
    · have : min cap r ≤ cap := Nat.min_le_left _ _
      omega
    · intro hL
      by_contra hcon
      have hr : r = 1 := by omega
      subst hr
      obtain ⟨i, hi⟩ := hdiv
      -- N = cap * i + 1
      have hNi : N = cap * i + 1 := by omega
      have hL' : d * d ≤ D := by
        obtain ⟨L', rfl⟩ : ∃ L', L = L' + 1 := ⟨L - 1, by omega⟩
        rw [hD, pow_succ, pow_succ]
        have : 1 ≤ d ^ L' := Nat.one_le_pow _ _ (by omega)
        calc d * d = 1 * d * d := by ring
          _ ≤ d ^ L' * d * d := by
            apply Nat.mul_le_mul_right
            apply Nat.mul_le_mul_right
            exact this
      have hi1 : 1 ≤ i := by
        by_contra h0
        have : i = 0 := by omega
        rw [this] at hNi
        omega
      -- i < c
      have hic : i < c := by
        by_contra hcon2
        have := Nat.mul_le_mul_left cap (show c ≤ i by omega)
        omega
      obtain ⟨e, he⟩ : ∃ e, c = i + 1 + e := ⟨c - i - 1, by omega⟩
      -- cap ≤ c
      have hcapc : cap ≤ c := by
        by_contra hcon2
        obtain ⟨cap', hcap'⟩ : ∃ cap', cap = cap' + 1 := ⟨cap - 1, by omega⟩
        rw [hcap'] at hlt hNi
        simp only [Nat.add_sub_cancel] at hlt
        have hm1 : cap' * c = cap' * i + cap' + cap' * e := by rw [he]; ring
        have hm2 : (cap' + 1) * i = cap' * i + i := by ring
        omega
      have hc2 : 2 ≤ c := by omega
      have hDc : c < D := by
        have : d * 2 ≤ d * d := Nat.mul_le_mul_left d hd
        omega
      obtain ⟨c', hc'⟩ : ∃ c', c = c' + 1 := ⟨c - 1, by omega⟩
      rw [hc'] at hltD
      simp only [Nat.add_sub_cancel] at hltD
      have hm1 : cap * i ≤ c * c' := Nat.mul_le_mul hcapc (by omega)
      have hm2 : c' * (c' + 2) ≤ c' * D := Nat.mul_le_mul_left c' (by omega)
      have hm3 : c * c' = c' * c' + c' := by rw [hc']; ring
      have hm4 : c' * (c' + 2) = c' * c' + 2 * c' := by ring
      omega

theorem loopStarts_nil (lo hi step : Nat) (h : hi ≤ lo) : loopStarts lo hi step = some [] := by
  simp [loopStarts, h]

theorem loopStarts_cons (lo hi step : Nat) (h : lo < hi) (hs : 1 ≤ step) :
    ∃ rest, loopStarts (lo + step) hi step = some rest ∧
      loopStarts lo hi step = some (lo :: rest) := by
  have h1 : ¬ hi ≤ lo := by omega
  have h2 : ¬ step = 0 := by omega
  rcases Nat.lt_or_ge (lo + step) hi with h3 | h3
  · have h4 : ¬ hi ≤ lo + step := by omega
    refine ⟨_, by simp only [loopStarts, h4, h2, if_false]; rfl, ?_⟩
    simp only [loopStarts, h1, h2, if_false, Option.some.injEq]
    rw [ceilDiv_sub hs (show step ≤ hi - lo by omega), List.range_succ_eq_map, List.map_cons,
      List.map_map]
    rw [show hi - lo - step = hi - (lo + step) by omega]
    congr 1
    · simp
    · apply List.map_congr_left
      intro i _
      show lo + (i + 1) * step = _
      ring
  · refine ⟨[], loopStarts_nil _ _ _ h3, ?_⟩
    simp only [loopStarts, h1, h2, if_false, Option.some.injEq]
    rw [ceilDiv_le_one (show hi - lo ≤ step by omega) (by omega)]
    simp [List.range_succ]

theorem StackTo.replicate_nil (P : Interior → List Box → Prop) (k : Nat) :
    StackTo P [] (List.replicate k []) [] := by
  induction k with
  | zero => rfl
  | succ k ih => exact ⟨rfl, ih⟩

theorem appendLevels_replicate_nil (levels : List (List Interior)) (k : Nat) :
    appendLevels levels (List.replicate k []) = levels := by
  induction levels generalizing k with
  | nil => cases k <;> rfl
  | cons l levels ih =>
    cases k with
    | zero => rfl
    | succ k => simp [List.replicate_succ, appendLevels, ih]

theorem buildChildren_spec (d : Nat)
    (recur : Nat → Nat → OMTBuilder → Option (OMTBuilder × Box)) (L H : Nat)
    (hrec : RecurSpec d recur L H) (hLH : L < H) (cap : Nat) (hcap : 1 ≤ cap) (N : Nat)
    (hfit : ∀ r, 1 ≤ r → r ≤ N → cap ∣ (N - r) → Fits d L (min cap r)) (count : Nat) :
    ∀ (n : Nat) (A R1 R2 C : List Item) (levels : List (List Interior)) (box0 : Box) (k0 : Nat),
      R1.length ≤ n → levels.length = H → (cap ∣ R1.length ∨ R2 = []) →
      (R1 ≠ [] → cap ∣ (N - (R1.length + R2.length))) → R1.length + R2.length ≤ N →
      ∃ (R1' : List Item) (news : List (List Interior)) (tops : List Box) (starts : List Nat),
        R1'.Perm R1 ∧ news.length = L + 1 ∧
        StackTo (OMTNode d) (R1'.map Item.box) news tops ∧
        tops.length = ceilDiv R1.length cap ∧
        loopStarts A.length (A.length + R1.length) cap = some starts ∧
        buildChildren recur (A.length + R1.length + R2.length) cap starts
            ⟨OMTBuilder.repr count (A ++ R1 ++ R2 ++ C) levels, box0, k0⟩ =
          some ⟨OMTBuilder.repr count (A ++ R1' ++ R2 ++ C) (appendLevels levels news),
            tops.foldl (fun a b => a.extend b.minX b.minY b.maxX b.maxY) box0,
            k0 + tops.length⟩ := by
  intro n
  induction n with
  | zero =>
    intro A R1 R2 C levels box0 k0 hn hH _ _ _
    have hR1 : R1 = [] := List.length_eq_zero.mp (by omega)
    subst hR1
    refine ⟨[], List.replicate (L + 1) [], [], [], List.Perm.refl _, by simp,
      StackTo.replicate_nil _ _, by simp [ceilDiv_zero hcap],
        loopStarts_nil _ _ _ (by simp), ?_⟩
    rw [appendLevels_replicate_nil]
    simp [buildChildren]
  | succ n ih =>
    intro A R1 R2 C levels box0 k0 hn hH hdiv1 hdivN hle
    by_cases hR1 : R1 = []
    · subst hR1
      refine ⟨[], List.replicate (L + 1) [], [], [], List.Perm.refl _, by simp,
        StackTo.replicate_nil _ _, by simp [ceilDiv_zero hcap],
        loopStarts_nil _ _ _ (by simp), ?_⟩
      rw [appendLevels_replicate_nil]
      simp [buildChildren]
    · have hpos : 0 < R1.length := List.length_pos.mpr hR1
      -- the size of the first child
      have hm : min cap (R1.length + R2.length) = min cap R1.length := by
        rcases hdiv1 with h | h
        · have : cap ≤ R1.length := Nat.le_of_dvd hpos h
          omega
        · subst h; simp
      have hfitm : Fits d L (min cap R1.length) := by
        rw [← hm]
        exact hfit _ (by omega) hle (hdivN hR1)
      set m := min cap R1.length with hmdef
      clear_value m
      have hm1 : 1 ≤ m := by omega
      have hmle : m ≤ R1.length := by omega
      have hSlen : (R1.take m).length = m := by simp; omega
      have hsplit : A ++ R1 ++ R2 ++ C = A ++ R1.take m ++ (R1.drop m ++ R2 ++ C) := by
        conv_lhs => rw [← List.take_append_drop m R1]
        simp only [List.append_assoc]
      obtain ⟨S', newsS, root, hpermS, hlenS, hstackS, hrun⟩ :=
        hrec count A (R1.take m) (R1.drop m ++ R2 ++ C) levels hH (by rw [hSlen]; exact hfitm)
      rw [hSlen] at hrun
      have hS'len : S'.length = m := by rw [hpermS.length_eq, hSlen]
      -- the remaining children
      have hdiv1' : cap ∣ (R1.drop m).length ∨ R2 = [] := by
        rcases hdiv1 with h | h
        · left
          have hc : cap ≤ R1.length := Nat.le_of_dvd hpos h
          have : m = cap := by omega
          rw [List.length_drop, this]
          exact (Nat.dvd_sub' h (dvd_refl cap))
        · exact Or.inr h
      have hdivN' : R1.drop m ≠ [] → cap ∣ (N - ((R1.drop m).length + R2.length)) := by
        intro hne
        have hl : 0 < (R1.drop m).length := List.length_pos.mpr hne
        rw [List.length_drop] at hl ⊢
        have hmc : m = cap := by omega
        have h1 := hdivN hR1
        have : N - (R1.length - m + R2.length) = N - (R1.length + R2.length) + cap := by omega
        rw [this]
        exact Dvd.dvd.add h1 (dvd_refl cap)
      have hlen' : (appendLevels levels (newsS ++ [[root]])).length = H := by
        rw [appendLevels_length _ _ (by simp; omega), hH]
      obtain ⟨Rr', newsR, topsR, startsR, hpermR, hlenR, hstackR, htopsR, hstartsR, hrunR⟩ :=
        ih (A ++ S') (R1.drop m) R2 C (appendLevels levels (newsS ++ [[root]]))
          (box0.extend root.box.minX root.box.minY root.box.maxX root.box.maxY) (k0 + 1)
          (by rw [List.length_drop]; omega) hlen' hdiv1' hdivN'
          (by rw [List.length_drop]; omega)
      obtain ⟨rest, hrest1, hrest2⟩ := loopStarts_cons A.length (A.length + R1.length) cap
        (by omega) hcap
      have hrest : rest = startsR := by
        have hAS : (A ++ S').length = A.length + m := by simp [hS'len]
        have hAR : (A ++ S').length + (R1.drop m).length = A.length + R1.length := by
          rw [hAS, List.length_drop]; omega
        rw [hAR, hAS] at hstartsR
        rcases Nat.lt_or_ge R1.length cap with h | h
        · have hmR : m = R1.length := by omega
          rw [hmR, loopStarts_nil _ _ _ (le_refl _)] at hstartsR
          rw [loopStarts_nil _ _ _ (by omega)] at hrest1
          rw [← Option.some.injEq, ← hrest1, ← hstartsR]
        · have hmc : m = cap := by omega
          rw [hmc] at hstartsR
          rw [← Option.some.injEq, ← hrest1, ← hstartsR]
      subst hrest
      refine ⟨S' ++ Rr', appendLevels (newsS ++ [[root]]) newsR, root.box :: topsR,
        A.length :: rest, ?_, ?_, ?_, ?_, hrest2, ?_⟩
      · have := List.Perm.append hpermS hpermR
        rwa [List.take_append_drop] at this
      · rw [appendLevels_length_eq _ _ (by simp; omega)]; simp; omega
      · rw [List.map_append]
        exact StackTo.appendStack _ _ _ _ [root.box] topsR (by simp; omega) hstackS hstackR
      · rw [List.length_cons, htopsR, List.length_drop]
        rcases Nat.lt_or_ge R1.length cap with h | h
        · have hmR : m = R1.length := by omega
          rw [hmR, Nat.sub_self, ceilDiv_zero hcap, ceilDiv_le_one (by omega) (by omega)]
        · have hmc : m = cap := by omega
          rw [hmc, ← ceilDiv_sub hcap h]
      · have hend : A.length + R1.length + R2.length =
            (A ++ S').length + (R1.drop m).length + R2.length := by
          simp [hS'len]; omega
        have hce : (if A.length + cap > A.length + R1.length + R2.length then
            A.length + R1.length + R2.length else A.length + cap) = A.length + m := by
          rcases hdiv1 with h | h
          · have hc : cap ≤ R1.length := Nat.le_of_dvd hpos h
            have : ¬ A.length + cap > A.length + R1.length + R2.length := by omega
            simp only [this, if_false]; omega
          · have hR2 : R2.length = 0 := by rw [h]; rfl
            by_cases hc : A.length + cap > A.length + R1.length + R2.length
            · simp only [hc, if_true]; omega
            · simp only [hc, if_false]; omega
        simp only [buildChildren, hce]
        rw [hsplit, hrun]
        simp only
        rw [hend]
        have hassoc : A ++ S' ++ (R1.drop m ++ R2 ++ C) = A ++ S' ++ R1.drop m ++ R2 ++ C := by
          simp only [List.append_assoc]
        rw [hassoc, hrunR]
        simp only [Option.some.injEq, BuildState.mk.injEq, List.foldl_cons, List.length_cons,
          true_and]
        refine ⟨?_, by omega⟩
        rw [appendLevels_assoc _ _ _ (by simp; omega)]
        simp only [List.append_assoc]

theorem foldl_extend_append (xs ys : List Box) (b : Box) :
    (xs ++ ys).foldl (fun a b => a.extend b.minX b.minY b.maxX b.maxY) b =
      ys.foldl (fun a b => a.extend b.minX b.minY b.maxX b.maxY)
        (xs.foldl (fun a b => a.extend b.minX b.minY b.maxX b.maxY) b) :=
  List.foldl_append _ _ _ _

theorem ceilDiv_add_mul (a cap s : Nat) (hcap : 1 ≤ cap) :
    ceilDiv (cap * s + a) cap = s + ceilDiv a cap := by
  unfold ceilDiv
  rw [show cap * s + a + cap - 1 = (a + cap - 1) + cap * s by omega,
    Nat.add_mul_div_left _ _ (by omega)]
  omega

theorem buildSlices_spec (buckets : Nat → List F64 → Nat → List (Nat × Nat))
    (hbk : BucketsInRange buckets) (d : Nat)
    (recur : Nat → Nat → OMTBuilder → Option (OMTBuilder × Box)) (L H : Nat)
    (hrec : RecurSpec d recur L H) (hLH : L < H) (cap s : Nat) (hcap : 1 ≤ cap) (hs : 1 ≤ s)
    (N : Nat)
    (hfit : ∀ r, 1 ≤ r → r ≤ N → cap ∣ (N - r) → Fits d L (min cap r)) (count : Nat) :
    ∀ (n : Nat) (A R C : List Item) (levels : List (List Interior)) (box0 : Box) (k0 : Nat),
      R.length ≤ n → levels.length = H →
      (R ≠ [] → cap ∣ (N - R.length)) → R.length ≤ N →
      ∃ (R' : List Item) (news : List (List Interior)) (tops : List Box) (starts : List Nat),
        R'.Perm R ∧ news.length = L + 1 ∧
        StackTo (OMTNode d) (R'.map Item.box) news tops ∧
        tops.length = ceilDiv R.length cap ∧
        loopStarts A.length (A.length + R.length) (cap * s) = some starts ∧
        buildSlices buckets recur (A.length + R.length) (cap * s) cap starts
            ⟨OMTBuilder.repr count (A ++ R ++ C) levels, box0, k0⟩ =
          some ⟨OMTBuilder.repr count (A ++ R' ++ C) (appendLevels levels news),
            tops.foldl (fun a b => a.extend b.minX b.minY b.maxX b.maxY) box0,
            k0 + tops.length⟩ := by
  have hsc : 1 ≤ cap * s := Nat.mul_pos hcap hs
  intro n
  induction n with
  | zero =>
    intro A R C levels box0 k0 hn hH _ _
    have hR : R = [] := List.length_eq_zero.mp (by omega)
    subst hR
    refine ⟨[], List.replicate (L + 1) [], [], [], List.Perm.refl _, by simp,
      StackTo.replicate_nil _ _, by simp [ceilDiv_zero hcap],
      loopStarts_nil _ _ _ (by simp), ?_⟩
    rw [appendLevels_replicate_nil]
    simp [buildSlices]
  | succ n ih =>
    intro A R C levels box0 k0 hn hH hdivN hle
    by_cases hR : R = []
    · subst hR
      refine ⟨[], List.replicate (L + 1) [], [], [], List.Perm.refl _, by simp,
        StackTo.replicate_nil _ _, by simp [ceilDiv_zero hcap],
        loopStarts_nil _ _ _ (by simp), ?_⟩
      rw [appendLevels_replicate_nil]
      simp [buildSlices]
    · have hpos : 0 < R.length := List.length_pos.mpr hR
      obtain ⟨m, hmdef⟩ : ∃ m, m = min (cap * s) R.length := ⟨_, rfl⟩
      have hm1 : 1 ≤ m := by omega
      have hmle : m ≤ R.length := by omega
      have hSlen : (R.take m).length = m := by simp; omega
      have hDlen : (R.drop m).length = R.length - m := List.length_drop _ _
      have hsplit : A ++ R ++ C = A ++ R.take m ++ (R.drop m ++ C) := by
        conv_lhs => rw [← List.take_append_drop m R]
        simp only [List.append_assoc]
      -- the slice is sorted by Y
      obtain ⟨S1, hperm1, hsort⟩ := OMTBuilder.repr_sortRange buckets hbk count A (R.take m)
        (R.drop m ++ C) levels 1 cap
      rw [hSlen] at hsort
      have hS1len : S1.length = m := by rw [hperm1.length_eq, hSlen]
      -- its children
      have hdiv1 : cap ∣ S1.length ∨ R.drop m = [] := by
        rcases Nat.lt_or_ge R.length (cap * s) with h | h
        · right
          apply List.length_eq_zero.mp
          rw [hDlen]; omega
        · left
          rw [hS1len, show m = cap * s by omega]
          exact Dvd.intro _ rfl
      have hlenSD : S1.length + (R.drop m).length = R.length := by rw [hS1len, hDlen]; omega
      obtain ⟨S2, news1, tops1, starts1, hperm2, hlen1, hstack1, htops1, hstarts1, hrun1⟩ :=
        buildChildren_spec d recur L H hrec hLH cap hcap N hfit count S1.length A S1 (R.drop m) C
          levels box0 k0 (le_refl _) hH hdiv1 (by intro _; rw [hlenSD]; exact hdivN hR)
          (by rw [hlenSD]; exact hle)
      have hS2len : S2.length = m := by rw [hperm2.length_eq, hS1len]
      -- the remaining slices
      have hlen' : (appendLevels levels news1).length = H := by
        rw [appendLevels_length _ _ (by omega), hH]
      have hdivN' : R.drop m ≠ [] → cap ∣ (N - (R.drop m).length) := by
        intro hne
        have hl : 0 < (R.drop m).length := List.length_pos.mpr hne
        rw [hDlen] at hl ⊢
        have hmc : m = cap * s := by omega
        have h1 := hdivN hR
        have : N - (R.length - m) = N - R.length + cap * s := by omega
        rw [this]
        exact Dvd.dvd.add h1 (Dvd.intro _ rfl)
      obtain ⟨Rr, news2, tops2, starts2, hpermR, hlen2, hstack2, htops2, hstarts2, hrun2⟩ :=
        ih (A ++ S2) (R.drop m) C (appendLevels levels news1)
          (tops1.foldl (fun a b => a.extend b.minX b.minY b.maxX b.maxY) box0)
          (k0 + tops1.length)
          (by rw [hDlen]; omega) hlen' hdivN' (by rw [hDlen]; omega)
      obtain ⟨rest, hrest1, hrest2⟩ := loopStarts_cons A.length (A.length + R.length) (cap * s)
        (by omega) hsc
      have hAS : (A ++ S2).length = A.length + m := by simp [hS2len]
      have hAR : (A ++ S2).length + (R.drop m).length = A.length + R.length := by
        rw [hAS, hDlen]; omega
      have hrest : rest = starts2 := by
        rw [hAR, hAS] at hstarts2
        rcases Nat.lt_or_ge R.length (cap * s) with h | h
        · have hmR : m = R.length := by omega
          rw [hmR, loopStarts_nil _ _ _ (le_refl _)] at hstarts2
          rw [loopStarts_nil _ _ _ (by omega)] at hrest1
          rw [← Option.some.injEq, ← hrest1, ← hstarts2]
        · have hmc : m = cap * s := by omega
          rw [hmc] at hstarts2
          rw [← Option.some.injEq, ← hrest1, ← hstarts2]
      subst hrest
      refine ⟨S2 ++ Rr, appendLevels news1 news2, tops1 ++ tops2,
        A.length :: rest, ?_, ?_, ?_, ?_, hrest2, ?_⟩
      · have := List.Perm.append (hperm2.trans hperm1) hpermR
        rwa [List.take_append_drop] at this
      · rw [appendLevels_length_eq _ _ (by omega)]; omega
      · rw [List.map_append]
        exact StackTo.appendStack _ _ _ _ tops1 tops2 (by omega) hstack1 hstack2
      · rw [List.length_append, htops1, htops2, hS1len, hDlen]
        rcases Nat.lt_or_ge R.length (cap * s) with h | h
        · have hmR : m = R.length := by omega
          rw [hmR, Nat.sub_self, ceilDiv_zero hcap]; rfl
        · have hmc : m = cap * s := by omega
          rw [hmc]
          have h1 := ceilDiv_add_mul (R.length - cap * s) cap s hcap
          have h2 := ceilDiv_add_mul 0 cap s hcap
          rw [ceilDiv_zero hcap] at h2
          rw [show cap * s + (R.length - cap * s) = R.length by omega] at h1
          simp only [Nat.add_zero] at h2
          omega
      · have hce : (if A.length + cap * s > A.length + R.length then
            A.length + R.length else A.length + cap * s) = A.length + m := by
          by_cases hc : A.length + cap * s > A.length + R.length
          · simp only [hc, if_true]; omega
          · simp only [hc, if_false]; omega
        simp only [buildSlices, hce]
        rw [hsplit, hsort]
        simp only
        have hst : loopStarts A.length (A.length + m) cap = some starts1 := by
          rw [← hS1len]; exact hstarts1
        rw [hst]
        simp only
        have hassoc1 : A ++ S1 ++ (R.drop m ++ C) = A ++ S1 ++ R.drop m ++ C := by
          simp only [List.append_assoc]
        have hend : A.length + R.length = A.length + S1.length + (R.drop m).length := by
          omega
        rw [hassoc1]
        conv_lhs => rw [hend]
        rw [hrun1]
        simp only
        have hassoc2 : A ++ S2 ++ R.drop m ++ C = (A ++ S2) ++ R.drop m ++ C := by
          simp only [List.append_assoc]
        rw [show A.length + S1.length + (R.drop m).length =
          (A ++ S2).length + (R.drop m).length by rw [hAR]; omega]
        rw [hrun2]
        simp only [Option.some.injEq, BuildState.mk.injEq, List.foldl_append, List.length_append,
          true_and]
        refine ⟨?_, by omega⟩
        rw [appendLevels_assoc _ _ _ (by omega)]
        simp only [List.append_assoc]

theorem appendLevels_snoc (levels news : List (List Interior)) (x : List Interior) :
    appendLevels (appendLevels levels news) (List.replicate news.length [] ++ [x]) =
      appendLevels levels (news ++ [x]) := by
  induction levels generalizing news with
  | nil => cases news <;> simp [appendLevels]
  | cons l ls ih =>
    cases news with
    | nil => simp [appendLevels]
    | cons n ns =>
      simp only [appendLevels, List.length_cons, List.replicate_succ, List.cons_append,
        List.append_nil]
      exact congrArg (fun t => (l ++ n) :: t) (ih ns)

theorem ceilSqrt_pos (c : Nat) (h : 1 ≤ c) : 1 ≤ ceilSqrt c := by
  unfold ceilSqrt
  split
  · exact Nat.sqrt_pos.mpr h
  · omega

theorem alignedBy_single (d : Nat) (tops : List Box) (h1 : 1 ≤ tops.length)
    (hd : tops.length ≤ d) :
    AlignedBy (OMTNode d) tops [⟨tops.length, mbr tops⟩] := by
  refine ⟨le_refl _, ⟨?_, ?_, h1, hd⟩, ?_⟩
  · simp
  · simp
  · simp [AlignedBy]

theorem OMTBuilder.build_spec (buckets : Nat → List F64 → Nat → List (Nat × Nat))
    (hbk : BucketsInRange buckets) (d : Nat) (hd : 2 ≤ d) (H : Nat) :
    ∀ L, L < H → RecurSpec d (OMTBuilder.build buckets d L) L H := by
  intro L
  induction L with
  | zero =>
    intro hLH count A S C levels hH hfit
    obtain ⟨h1, h2, _⟩ := hfit
    simp only [Nat.zero_add, pow_one] at h2
    refine ⟨S, [], ⟨S.length, mbr (S.map Item.box)⟩, List.Perm.refl _, rfl, ?_, ?_⟩
    · refine ⟨?_, rfl⟩
      have := alignedBy_single d (S.map Item.box) (by simpa using h1) (by simpa using h2)
      simpa using this
    · have hlb := OMTBuilder.repr_leafBounds count A S C levels [] S Box.empty rfl
      simp only [List.length_nil, Nat.add_zero] at hlb
      simp only [OMTBuilder.build, OMTBuilder.buildBody, Nat.add_sub_cancel_left, pow_zero]
      have hc : S.length ≤ ceilDiv S.length 1 := by simp [ceilDiv]
      simp only [hc, if_true, hlb]
      rw [OMTBuilder.repr_addNode _ _ _ _ _ _ (by omega)]
      rfl
  | succ L ih =>
    intro hLH count A S C levels hH hfit
    have hrec := ih (by omega)
    obtain ⟨hc1, hcd, hnot, hcap1, hkids, hfit'⟩ := fits_step d L S.length hd hfit
    have hN1 : 1 ≤ S.length := hfit.1
    obtain ⟨c, hc⟩ : ∃ c, c = ceilDiv S.length (d ^ (L + 1)) := ⟨_, rfl⟩
    rw [← hc] at hc1 hcd hnot hcap1 hkids hfit'
    obtain ⟨cap, hcap⟩ : ∃ cap, cap = ceilDiv S.length c := ⟨_, rfl⟩
    rw [← hcap] at hcap1 hkids hfit'
    have hs1 := ceilSqrt_pos c hc1
    -- the range is sorted by X
    obtain ⟨S1, hperm1, hsort⟩ := OMTBuilder.repr_sortRange buckets hbk count A S C levels 0
      (cap * ceilSqrt c)
    have hS1len : S1.length = S.length := hperm1.length_eq
    obtain ⟨S2, news, tops, starts, hperm2, hlen, hstack, htops, hstarts, hrun⟩ :=
      buildSlices_spec buckets hbk d (OMTBuilder.build buckets d L) L H hrec (by omega) cap
        (ceilSqrt c) hcap1 hs1 S.length hfit' count S1.length A S1 C levels Box.empty 0
        (le_refl _) hH (by intro _; rw [hS1len, Nat.sub_self]; exact dvd_zero _)
        (by omega)
    rw [hS1len] at hstarts hrun htops
    have htop1 : 1 ≤ tops.length := by rw [htops]; exact ceilDiv_pos hcap1 hN1
    have htopd : tops.length ≤ d := by rw [htops]; omega
    refine ⟨S2, news, ⟨tops.length, mbr tops⟩, hperm2.trans hperm1, hlen, ?_, ?_⟩
    · have := StackTo.snocLevel news _ tops [⟨tops.length, mbr tops⟩] hstack
        (alignedBy_single d tops htop1 htopd)
      simpa using this
    · simp only [OMTBuilder.build, OMTBuilder.buildBody, Nat.add_sub_cancel_left, ← hc, ← hcap]
      simp only [hnot, if_false, hsort, hstarts, hrun, Nat.zero_add]
      rw [OMTBuilder.repr_addNode _ _ _ _ _ _
        (by rw [appendLevels_length _ _ (by omega)]; omega)]
      rw [← hlen, appendLevels_snoc]
      rfl

theorem omtPackLevel_spec (items : List Item) (ns lvl : List Interior) :
    ∀ (rest done : List Interior), lvl = done ++ rest →
      omtPackLevel (lvl.map Interior.size) (flatBoxes (lvl.map Interior.box))
          ((List.range rest.length).map (fun i => done.length + i))
          (omtPackState items (ns ++ done)) =
        some (omtPackState items (ns ++ done ++ rest)) := by
  intro rest
  induction rest with
  | nil => intro done _; simp [omtPackLevel]
  | cons n rest ih =>
    intro done hl
    have hget : lvl[done.length]? = some n := by
      rw [hl, List.getElem?_append_right (le_refl _)]; simp
    have hsz : (lvl.map Interior.size)[done.length]? = some n.size := by
      rw [List.getElem?_map, hget]; rfl
    obtain ⟨h0, h1, h2, h3⟩ := flatBoxes_get (lvl.map Interior.box) done.length n.box
      (by rw [List.getElem?_map, hget]; rfl)
    have hrange : (List.range (n :: rest).length).map (fun i => done.length + i) =
        done.length :: (List.range rest.length).map (fun i => (done ++ [n]).length + i) := by
      simp only [List.length_cons, List.range_succ_eq_map, List.map_cons, List.map_map,
        Nat.add_zero, List.length_append, List.length_nil]
      congr 1
      apply List.map_congr_left
      intro i _
      simp only [Function.comp]
      omega
    rw [hrange]
    have hst : omtPackState items (ns ++ done) =
        ((((Layout.packState ⟨items, ns ++ done⟩).start : Nat) : Int),
          (Layout.packState ⟨items, ns ++ done⟩).refs,
          (Layout.packState ⟨items, ns ++ done⟩).boxes) := rfl
    rw [hst]
    simp only [omtPackLevel, hsz, Nat.mul_comm _ 4, h0, h1, h2, h3]
    have hnext := ih (done ++ [n]) (by rw [hl]; simp)
    have hsnoc : omtPackState items (ns ++ (done ++ [n])) =
        ((((Layout.packState ⟨items, ns ++ done⟩).start : Nat) : Int) + ((4 * n.size : Nat) : Int),
          (Layout.packState ⟨items, ns ++ done⟩).refs ++
            [(((Layout.packState ⟨items, ns ++ done⟩).start : Nat) : Int) +
              ((4 * n.size : Nat) : Int)],
          (Layout.packState ⟨items, ns ++ done⟩).boxes ++
            [n.box.minX, n.box.minY, n.box.maxX, n.box.maxY]) := by
      have := Layout.packState_snoc items (ns ++ done) n
      rw [List.append_assoc] at this
      simp only [omtPackState, this]
      have hs : (Layout.packState ⟨items, ns ++ done⟩).start =
          4 * childStart (ns ++ done) (ns ++ done).length := rfl
      rw [hs]
      push_cast
      simp only [mul_add]
    rw [hsnoc] at hnext
    rw [hnext]
    simp only [List.append_assoc, List.singleton_append]

theorem omtPackLevels_spec (items : List Item) (levels : List (List Interior)) :
    ∀ (rest done : List (List Interior)), levels = done ++ rest →
      omtPackLevels (levels.map (fun l => l.map Interior.size))
          (levels.map (fun l => flatBoxes (l.map Interior.box)))
          ((List.range rest.length).map (fun i => done.length + i))
          (omtPackState items done.flatten) =
        some (omtPackState items (done ++ rest).flatten) := by
  intro rest
  induction rest with
  | nil => intro done _; simp [omtPackLevels]
  | cons l rest ih =>
    intro done hl
    have hget : levels[done.length]? = some l := by
      rw [hl, List.getElem?_append_right (le_refl _)]; simp
    have hrange : (List.range (l :: rest).length).map (fun i => done.length + i) =
        done.length :: (List.range rest.length).map (fun i => (done ++ [l]).length + i) := by
      simp only [List.length_cons, List.range_succ_eq_map, List.map_cons, List.map_map,
        Nat.add_zero, List.length_append, List.length_nil]
      congr 1
      apply List.map_congr_left
      intro i _
      simp only [Function.comp]
      omega
    rw [hrange]
    simp only [omtPackLevels, List.getElem?_map, hget, Option.map_some', List.length_map]
    have h1 := omtPackLevel_spec items done.flatten l l [] rfl
    simp only [List.length_nil, Nat.zero_add, List.append_nil, List.map_id_fun', id_eq] at h1
    rw [h1]
    simp only
    have h2 := ih (done ++ [l]) (by rw [hl]; simp)
    simp only [List.flatten_append, List.flatten_cons, List.flatten_nil, List.append_nil,
      List.append_assoc, List.singleton_append] at h2 ⊢
    exact h2

theorem OMTBuilder.repr_pack (count : Nat) (items : List Item) (levels : List (List Interior)) :
    (OMTBuilder.repr count items levels).pack =
      some { OMTBuilder.repr count items levels with
        refs := (Layout.tree ⟨items, levels.flatten⟩).refs
        boxes := (Layout.tree ⟨items, levels.flatten⟩).boxes } := by
  have h := omtPackLevels_spec items levels levels [] rfl
  simp only [List.length_nil, Nat.zero_add, List.flatten_nil, List.nil_append,
    List.map_id_fun', id_eq] at h
  have h0 : omtPackState items [] =
      (0, (OMTBuilder.repr count items levels).refs ++ [0],
        (OMTBuilder.repr count items levels).boxes) := by
    simp [omtPackState, Layout.packState, Layout.tree, childStart, OMTBuilder.repr,
      Layout.allBoxes]
  rw [h0] at h
  unfold OMTBuilder.pack
  have hlen : (OMTBuilder.repr count items levels).nodeSizes.length = levels.length := by
    simp [OMTBuilder.repr]
  rw [hlen]
  have hs : (OMTBuilder.repr count items levels).nodeSizes =
      levels.map (fun l => l.map Interior.size) := rfl
  have hb : (OMTBuilder.repr count items levels).nodeBoxes =
      levels.map (fun l => flatBoxes (l.map Interior.box)) := rfl
  rw [hs, hb, h]
  rfl

theorem OMTBuilder.addAll_spec_omt (b : OMTBuilder) (items : List Item) :
    b.addAll items =
      { b with
        count := b.count + items.length
        refs := b.refs ++ items.map Item.ref
        boxes := b.boxes ++ flatBoxes (items.map Item.box) } := by
  induction items generalizing b with
  | nil => simp [OMTBuilder.addAll, flatBoxes]
  | cons it items ih =>
    have := ih (b.Add it.ref it.box.minX it.box.minY it.box.maxX it.box.maxY)
    simp only [OMTBuilder.addAll, List.foldl_cons] at this ⊢
    rw [this]
    simp only [OMTBuilder.Add, List.length_cons, List.map_cons, List.append_assoc,
      List.singleton_append, flatBoxes, List.flatMap_cons, Box.coords, List.cons_append,
      List.nil_append, OMTBuilder.mk.injEq, and_true, true_and]
    omega

theorem OMTBuilder.addAll_new (items : List Item) :
    NewOMTBuilder.addAll items = OMTBuilder.repr items.length items [] := by
  rw [OMTBuilder.addAll_spec_omt]
  simp [NewOMTBuilder, OMTBuilder.repr]

theorem appendLevels_replicate_left (news : List (List Interior)) :
    appendLevels (List.replicate news.length []) news = news := by
  induction news with
  | nil => rfl
  | cons n ns ih => simp [List.replicate_succ, appendLevels, ih]

theorem fits_top (d N : Nat) (hd : 2 ≤ d) (hN : 1 ≤ N) :
    Fits d (max (Nat.clog d N) 1 - 1) N := by
  refine ⟨hN, ?_, ?_⟩
  · have h1 : max (Nat.clog d N) 1 - 1 + 1 = max (Nat.clog d N) 1 := by omega
    rw [h1]
    calc N ≤ d ^ Nat.clog d N := Nat.le_pow_clog (by omega) N
      _ ≤ d ^ max (Nat.clog d N) 1 := Nat.pow_le_pow_right (by omega) (le_max_left _ _)
  · intro h
    by_contra hcon
    have hN1 : N = 1 := by omega
    rw [hN1] at h
    simp at h

theorem OMTBuilder.Finish_empty_omt (buckets : Nat → List F64 → Nat → List (Nat × Nat))
    (logCeil : Nat → Int → Int) (degree : Int) (hd : 2 ≤ degree) :
    NewOMTBuilder.Finish buckets logCeil degree = some (.ok ⟨0, [], []⟩, NewOMTBuilder) := by
  unfold OMTBuilder.Finish
  have : ¬ degree < 2 := by omega
  simp [this, NewOMTBuilder]

theorem exactLogCeil_height (count : Nat) (degree : Int) :
    (max (exactLogCeil count degree) 1).toNat = max (Nat.clog degree.toNat count) 1 := by
  unfold exactLogCeil
  omega

theorem OMTBuilder.Finish_run (buckets : Nat → List F64 → Nat → List (Nat × Nat))
    (logCeil : Nat → Int → Int) (items : List Item) (hne : items ≠ []) (degree : Int)
    (hd : 2 ≤ degree) (H : Nat)
    (hH : H = (max (logCeil items.length degree) 1).toNat) :
    (NewOMTBuilder.addAll items).Finish buckets logCeil degree =
      match (OMTBuilder.repr items.length items (List.replicate H [])).build buckets
          degree.toNat (H - 1) 0 items.length with
      | none => none
      | some (b₁, _) =>
        match b₁.pack with
        | none => none
        | some b₂ => some (.ok ⟨b₂.count, b₂.refs, b₂.boxes⟩, b₂) := by
  have hpos : 0 < items.length := List.length_pos.mpr hne
  rw [OMTBuilder.addAll_new]
  unfold OMTBuilder.Finish
  have h1 : ¬ degree < 2 := by omega
  have h2 : ¬ (OMTBuilder.repr items.length items []).count = 0 := by
    show ¬ items.length = 0
    omega
  have h3 : ¬ (OMTBuilder.repr items.length items []).refs.length ≠
      (OMTBuilder.repr items.length items []).count := by
    simp [OMTBuilder.repr]
  simp only [h1, h2, h3, if_false]
  have hc : (OMTBuilder.repr items.length items []).count = items.length := rfl
  rw [hc, ← hH]
  have hb0 : OMTBuilder.repr items.length items (List.replicate H []) =
      { count := items.length
        refs := (OMTBuilder.repr items.length items []).refs
        boxes := (OMTBuilder.repr items.length items []).boxes
        nodeSizes := List.replicate H []
        nodeBoxes := List.replicate H [] } := by
    simp [OMTBuilder.repr, flatBoxes]
  rw [hb0]

theorem OMTBuilder.Finish_spec_omt (buckets : Nat → List F64 → Nat → List (Nat × Nat))
    (hbk : BucketsInRange buckets)
    (items : List Item) (hne : items ≠ []) (degree : Int) (hd : 2 ≤ degree) :
    ∃ (items' : List Item) (levels : List (List Interior)) (b' : OMTBuilder),
      items'.Perm items ∧ LevelsBy (OMTNode degree.toNat) (items'.map Item.box) levels ∧
      b'.count = items.length ∧
      (NewOMTBuilder.addAll items).Finish buckets exactLogCeil degree =
        some (.ok (Layout.tree ⟨items', levels.flatten⟩), b') := by
  have hpos : 0 < items.length := List.length_pos.mpr hne
  have hd' : 2 ≤ degree.toNat := by omega
  obtain ⟨H, hH⟩ : ∃ H, H = max (Nat.clog degree.toNat items.length) 1 := ⟨_, rfl⟩
  have hH1 : 1 ≤ H := by rw [hH]; exact le_max_right _ _
  have hfit : Fits degree.toNat (H - 1) items.length := by
    rw [hH]; exact fits_top _ _ hd' hpos
  have hspec := OMTBuilder.build_spec buckets hbk degree.toNat hd' H (H - 1) (by omega)
  obtain ⟨S', news, root, hperm, hlen, hstack, hrun⟩ :=
    hspec items.length [] items [] (List.replicate H []) (by simp) hfit
  simp only [List.length_nil, Nat.zero_add, List.nil_append, List.append_nil] at hrun
  have hlv : appendLevels (List.replicate H []) (news ++ [[root]]) = news ++ [[root]] := by
    have := appendLevels_replicate_left (news ++ [[root]])
    rw [List.length_append, hlen] at this
    simp only [List.length_singleton] at this
    rwa [show H - 1 + 1 = H by omega] at this
  rw [hlv] at hrun
  refine ⟨S', news ++ [[root]],
    { OMTBuilder.repr items.length S' (news ++ [[root]]) with
      refs := (Layout.tree ⟨S', (news ++ [[root]]).flatten⟩).refs
      boxes := (Layout.tree ⟨S', (news ++ [[root]]).flatten⟩).boxes },
    hperm, StackTo.toLevelsBy news _ root hstack, rfl, ?_⟩
  · rw [OMTBuilder.Finish_run buckets exactLogCeil items hne degree hd H
      (by rw [exactLogCeil_height, hH]), hrun]
    simp only
    rw [OMTBuilder.repr_pack]
    simp only [OMTBuilder.repr, Layout.tree, Option.some.injEq, Prod.mk.injEq,
      Except.ok.injEq, RTree.mk.injEq, true_and, and_true]
    exact hperm.length_eq.symm

theorem sampleBuckets_inRange : BucketsInRange sampleBuckets := by
  intro sortBy boxes n p hp
  unfold sampleBuckets at hp
  by_cases h : 2 ≤ boxes.length / 4
  · simp only [h, if_true, List.mem_singleton] at hp
    subst hp
    exact ⟨by simp; omega, by simp; omega⟩
  · simp [h] at hp

theorem HilbertBuilder.Finish_layout (sorter : List Nat → List (Nat × Nat))
    (hs : ∀ vals, SwapsInRange (sorter vals) vals.length)
    (items : List Item) (hne : items ≠ []) (degree : Int) (hd : 2 ≤ degree) :
    ∃ (ly : Layout) (b' : HilbertBuilder),
      (NewHilbertBuilder.addAll items).Finish sorter degree = some (.ok ly.tree, b') ∧
      ly.leaves.Perm items ∧ ly.WF ∧ Layout.Partial (PackedNode degree.toNat) ly := by
  obtain ⟨items', hperm, b', hfin⟩ := HilbertBuilder.Finish_spec sorter hs items hne degree hd
  have hne' : items' ≠ [] := by
    intro h; rw [h] at hperm; exact hne (List.Perm.eq_nil hperm.symm)
  obtain ⟨hwf, hpart⟩ := hilbertLayout_spec items' hne' degree.toNat (by omega)
  exact ⟨hilbertLayout items' degree.toNat, b', hfin, hperm, hwf, hpart⟩

theorem OMTBuilder.Finish_layout_omt (buckets : Nat → List F64 → Nat → List (Nat × Nat))
    (hbk : BucketsInRange buckets)
    (items : List Item) (hne : items ≠ []) (degree : Int) (hd : 2 ≤ degree) :
    ∃ (ly : Layout) (b' : OMTBuilder),
      (NewOMTBuilder.addAll items).Finish buckets exactLogCeil degree = some (.ok ly.tree, b') ∧
      ly.leaves.Perm items ∧ ly.WF ∧ Layout.Partial (OMTNode degree.toNat) ly := by
  obtain ⟨items', levels, b', hperm, hlev, _, hfin⟩ :=
    OMTBuilder.Finish_spec_omt buckets hbk items hne degree hd
  obtain ⟨hwf, hpart⟩ := Layout.of_levels items' levels hlev
  exact ⟨⟨items', levels.flatten⟩, b', hfin, hperm, hwf, hpart⟩

theorem OMTNode.layout_covers {d : Nat} {ly : Layout} (h : Layout.Partial (OMTNode d) ly) : ly.Covers :=
  h.covers (fun n kids hP c hc => by rw [hP.1]; exact mbr_contains kids c hc)

theorem PackedNode.packed_covers {d : Nat} {ly : Layout} (h : Layout.Partial (PackedNode d) ly) :
    ly.Covers :=
  h.covers (fun n kids hP c hc => by rw [hP.1]; exact mbr_contains kids c hc)

theorem OMTBuilder.Finish_search_omt (buckets : Nat → List F64 → Nat → List (Nat × Nat))
    (hbk : BucketsInRange buckets)
    (items : List Item) (degree : Int) (hd : 2 ≤ degree) (minX minY maxX maxY : F64) :
    ∃ (tree : RTree) (b' : OMTBuilder) (hits : List Int),
      (NewOMTBuilder.addAll items).Finish buckets exactLogCeil degree = some (.ok tree, b') ∧
      hits.Perm (linearScan items minX minY maxX maxY) ∧
      ∀ {σ : Type} (iterf : Int → σ → Bool × σ) (fuel : Nat), tree.refs.length ≤ fuel →
        ∀ s, tree.Search minX minY maxX maxY iterf fuel s = some (feed iterf hits s).2 := by
  by_cases hne : items = []
  · subst hne
    refine ⟨⟨0, [], []⟩, NewOMTBuilder, [], OMTBuilder.Finish_empty_omt buckets exactLogCeil degree hd,
      by simp [linearScan], ?_⟩
    intro σ iterf fuel _ s
    simp [RTree.Search, feed]
  · obtain ⟨ly, b', hfin, hperm, hwf, hpart⟩ :=
      OMTBuilder.Finish_layout_omt buckets hbk items hne degree hd
    obtain ⟨hits, hp, hsearch⟩ := Search_layout ly hwf (OMTNode.layout_covers hpart)
      minX minY maxX maxY
    refine ⟨_, b', hits, hfin, hp.trans (linearScan_perm hperm _ _ _ _), ?_⟩
    intro σ iterf fuel hfuel s
    apply hsearch
    rw [Layout.tree_refs_length] at hfuel
    omega

/-- C2: for every list of items, every degree >= 2 and every query rectangle,
`Finish` of the OMT builder (the selection routine being any sequence of
in-range `Swap` calls, which permutes refs and boxes together, and the height
being computed exactly, `exactLogCeil`) returns a tree,
and `Search` on it with a callback that always returns true ends having
called the callback on a permutation of the refs a linear scan of the items
finds; the Hilbert builder's tree for the same items gives a permutation of
the same list. -/
theorem omt_search_eq_linear_scan (buckets : Nat → List F64 → Nat → List (Nat × Nat))
    (hbk : BucketsInRange buckets) (sorter : List Nat → List (Nat × Nat))
    (hs : ∀ vals, SwapsInRange (sorter vals) vals.length)
    (items : List Item) (degree : Int) (hd : 2 ≤ degree) (minX minY maxX maxY : F64) :
    ∃ (tree : RTree) (b' : OMTBuilder) (out : List Int),
      (NewOMTBuilder.addAll items).Finish buckets exactLogCeil degree = some (.ok tree, b') ∧
      (∀ fuel, tree.refs.length ≤ fuel →
        tree.Search minX minY maxX maxY collect fuel [] = some out) ∧
      out.Perm (linearScan items minX minY maxX maxY) ∧
      ∃ (htree : RTree) (hb' : HilbertBuilder) (hout : List Int),
        (NewHilbertBuilder.addAll items).Finish sorter degree = some (.ok htree, hb') ∧
        (∀ fuel, htree.refs.length ≤ fuel →
          htree.Search minX minY maxX maxY collect fuel [] = some hout) ∧
        out.Perm hout := by
  obtain ⟨tree, b', hits, hfin, hperm, hsearch⟩ :=
    OMTBuilder.Finish_search_omt buckets hbk items degree hd minX minY maxX maxY
  obtain ⟨htree, hb', hhits, hhfin, hhperm, hhsearch⟩ :=
    HilbertBuilder.Finish_search sorter hs items degree hd minX minY maxX maxY
  refine ⟨tree, b', hits, hfin, ?_, hperm, htree, hb', hhits, hhfin, ?_, hperm.trans hhperm.symm⟩
  · intro fuel hfuel
    rw [hsearch collect fuel hfuel [], feed_collect]
    rfl
  · intro fuel hfuel
    rw [hhsearch collect fuel hfuel [], feed_collect]
    rfl

theorem omt_search_eq_linear_scan_witness :
    BucketsInRange sampleBuckets ∧ (∀ vals, SwapsInRange (sampleSorter vals) vals.length) ∧
    (2 : Int) ≤ 2 ∧
    ∃ (tree : RTree) (b' : OMTBuilder) (out : List Int),
      (NewOMTBuilder.addAll sampleItems).Finish sampleBuckets exactLogCeil 2 = some (.ok tree, b') ∧
      (∀ fuel, tree.refs.length ≤ fuel →
        tree.Search (fin 0) (fin 0) (fin 1) (fin 1) collect fuel [] = some out) ∧
      out.Perm (linearScan sampleItems (fin 0) (fin 0) (fin 1) (fin 1)) ∧
      ∃ (htree : RTree) (hb' : HilbertBuilder) (hout : List Int),
        (NewHilbertBuilder.addAll sampleItems).Finish sampleSorter 2 = some (.ok htree, hb') ∧
        (∀ fuel, htree.refs.length ≤ fuel →
          htree.Search (fin 0) (fin 0) (fin 1) (fin 1) collect fuel [] = some hout) ∧
        out.Perm hout :=
  ⟨sampleBuckets_inRange, sampleSorter_inRange, le_refl _,
    omt_search_eq_linear_scan sampleBuckets sampleBuckets_inRange sampleSorter
      sampleSorter_inRange sampleItems 2 (le_refl _) (fin 0) (fin 0) (fin 1) (fin 1)⟩

theorem minEntry_spec (q : List (Int × F64)) (h : q ≠ []) :
    minEntry q ∈ q ∧ ∀ e ∈ q, (minEntry q).2 ≤ e.2 := by
  induction q with
  | nil => exact absurd rfl h
  | cons e rest ih =>
    by_cases hr : rest = []
    · subst hr
      simp [minEntry]
    · obtain ⟨h1, h2⟩ := ih hr
      by_cases hle : e.2 ≤ (minEntry rest).2
      · simp only [minEntry, hr, if_false, hle, if_true]
        refine ⟨List.mem_cons_self _ _, ?_⟩
        intro x hx
        rcases List.mem_cons.mp hx with hx | hx
        · rw [hx]
        · exact le_trans hle (h2 x hx)
      · simp only [minEntry, hr, if_false, hle]
        refine ⟨List.mem_cons_of_mem _ h1, ?_⟩
        intro x hx
        rcases List.mem_cons.mp hx with hx | hx
        · rw [hx]; exact le_of_lt (not_le.mp hle)
        · exact h2 x hx

theorem eraseEntry_perm (e : Int × F64) (q : List (Int × F64)) (h : e ∈ q) :
    q.Perm (e :: eraseEntry e q) := by
  induction q with
  | nil => simp at h
  | cons x xs ih =>
    by_cases hx : x = e
    · subst hx
      simp [eraseEntry]
    · simp only [eraseEntry, hx, if_false]
      have hmem : e ∈ xs := by
        rcases List.mem_cons.mp h with h | h
        · exact absurd h.symm hx
        · exact h
      exact (List.Perm.cons x (ih hmem)).trans (List.Perm.swap e x _)

theorem listQueue_lawful : listQueue.Lawful listQueue.entries where
  entries_new := rfl
  len_eq := fun q => rfl
  entries_push := fun q id v => rfl
  peek_min := fun q e he => by
    have hne : q ≠ [] := by
      intro h; subst h; simp [listQueue.entries] at he
    exact (minEntry_spec q hne).2 e (by simpa [listQueue.entries] using he)
  pop_fst := fun q _ => rfl
  entries_pop := fun q hq => by
    have hne : q ≠ [] := by
      intro h; subst h; simp [listQueue] at hq
    have hmem := (minEntry_spec q hne).1
    show (q : Multiset (Int × F64)) = minEntry q ::ₘ ((eraseEntry (minEntry q) q : List (Int × F64)) :
      Multiset (Int × F64))
    rw [Multiset.cons_coe, Multiset.coe_eq_coe]
    exact eraseEntry_perm _ q hmem

theorem mbr_valid (kids : List Box) (hne : kids ≠ []) (hv : ∀ c ∈ kids, c.Valid) :
    (mbr kids).Valid := by
  obtain ⟨c, hc⟩ := List.exists_mem_of_ne_nil kids hne
  obtain ⟨h1, h2, h3, h4⟩ := mbr_contains kids c hc
  obtain ⟨v1, v2⟩ := hv c hc
  exact ⟨le_trans h1 (le_trans v1 h3), le_trans h2 (le_trans v2 h4)⟩

theorem Layout.Partial.valid {P : Interior → List Box → Prop} {ly : Layout}
    (h : Layout.Partial P ly)
    (hP : ∀ n kids, P n kids → n.box = mbr kids ∧ n.size = kids.length ∧ 1 ≤ n.size)
    (hv : ∀ it ∈ ly.leaves, it.box.Valid) :
    ∀ b ∈ ly.allBoxes, b.Valid := by
  have hnodes : ∀ (m j : Nat), j < m → ∀ n, ly.nodes[j]? = some n → n.box.Valid := by
    intro m
    induction m with
    | zero => intro j hj; omega
    | succ m ih =>
      intro j hj n hn
      have hjlen := getElem?_lt_length hn
      obtain ⟨hbox, hsize, hpos⟩ := hP n _ (h.holds j n hn)
      rw [hbox]
      apply mbr_valid
      · intro hnil
        rw [hnil] at hsize
        simp at hsize
        omega
      · intro c hc
        unfold Layout.childBoxes at hc hsize
        obtain ⟨i, hi⟩ := List.mem_iff_getElem?.mp hc
        have hilt : i < n.size := by
          have := getElem?_lt_length hi
          simp only [List.length_take] at this
          omega
        rw [List.getElem?_take_of_lt hilt, List.getElem?_drop] at hi
        have hbef := h.before j hjlen
        rw [childStart_succ _ _ n hn] at hbef
        rcases Nat.lt_or_ge (childStart ly.nodes j + i) ly.leaves.length with hk | hk
        · have hleaf : ly.leaves[childStart ly.nodes j + i]? =
              some ly.leaves[childStart ly.nodes j + i] := List.getElem?_eq_getElem hk
          have := Layout.allBoxes_leaf ly _ _ hleaf
          rw [this] at hi
          cases hi
          exact hv _ (List.getElem_mem _)
        · obtain ⟨j', hj'⟩ : ∃ j', childStart ly.nodes j + i = ly.leaves.length + j' :=
            ⟨childStart ly.nodes j + i - ly.leaves.length, by omega⟩
          have hj'lt : j' < j := by omega
          have hnode : ly.nodes[j']? = some ly.nodes[j'] :=
            List.getElem?_eq_getElem (by omega)
          have := Layout.allBoxes_node ly _ _ hnode
          rw [hj', this] at hi
          cases hi
          exact ih j' (by omega) _ hnode
  intro b hb
  unfold Layout.allBoxes at hb
  rcases List.mem_append.mp hb with hb | hb
  · obtain ⟨it, hit, rfl⟩ := List.mem_map.mp hb
    exact hv it hit
  · obtain ⟨n, hn, rfl⟩ := List.mem_map.mp hb
    obtain ⟨j, hj⟩ := List.mem_iff_getElem?.mp hn
    exact hnodes (j + 1) j (by omega) n hj

theorem Layout.distMono_of_covers (ly : Layout) (hwf : ly.WF) (hcov : ly.Covers)
    (hvalid : ∀ b ∈ ly.allBoxes, b.Valid) (x y : F64)
    (boxDist : F64 → F64 → F64 → F64 → F64 → F64 → F64)
    (itemDist : Option (F64 → F64 → Int → F64))
    (hmono : ∀ A B : Box, A.Valid → B.Valid → A.Contains B →
      boxDist x y A.minX A.minY A.maxX A.maxY ≤ boxDist x y B.minX B.minY B.maxX B.maxY)
    (hitem : ∀ f, itemDist = some f → ∀ it ∈ ly.leaves,
      boxDist x y it.box.minX it.box.minY it.box.maxX it.box.maxY ≤ f x y it.ref) :
    ly.DistMono (ly.distTable x y boxDist itemDist) := by
  intro j n hn i hi
  have hjlen := getElem?_lt_length hn
  have hbef := hwf.before j hjlen
  have hsucc := childStart_succ _ _ n hn
  rw [hsucc] at hbef
  have hnb : ly.allBoxes[ly.leaves.length + j]? = some n.box := Layout.allBoxes_node ly j n hn
  have hnv : n.box.Valid := hvalid _ (List.mem_iff_getElem?.mpr ⟨_, hnb⟩)
  have hdn : (ly.distTable x y boxDist itemDist).getD (ly.leaves.length + j) 0 =
      boxDist x y n.box.minX n.box.minY n.box.maxX n.box.maxY := by
    unfold Layout.distTable
    rw [List.getD_eq_getElem?_getD, List.getElem?_append_right (by simp)]
    simp [hn]
  rw [hdn]
  rcases Nat.lt_or_ge (childStart ly.nodes j + i) ly.leaves.length with hk | hk
  · have hleaf : ly.leaves[childStart ly.nodes j + i]? =
        some ly.leaves[childStart ly.nodes j + i] := List.getElem?_eq_getElem hk
    generalize ly.leaves[childStart ly.nodes j + i] = it at hleaf
    have hb := Layout.allBoxes_leaf ly _ _ hleaf
    have hc := hcov j n hn _ _ (by omega) (by rw [hsucc]; omega) hb
    have hiv : it.box.Valid := hvalid _ (List.mem_iff_getElem?.mpr ⟨_, hb⟩)
    have hdk : (ly.distTable x y boxDist itemDist).getD (childStart ly.nodes j + i) 0 =
        itemDistance x y boxDist itemDist it := by
      unfold Layout.distTable
      rw [List.getD_eq_getElem?_getD, List.getElem?_append_left (by simpa using hk)]
      simp [hleaf]
    rw [hdk]
    have h1 := hmono n.box it.box hnv hiv hc
    cases hid : itemDist with
    | none => simpa [itemDistance] using h1
    | some f =>
      simp only [itemDistance]
      exact le_trans h1 (hitem f hid it (List.mem_iff_getElem?.mpr ⟨_, hleaf⟩))
  · obtain ⟨j', hj'⟩ : ∃ j', childStart ly.nodes j + i = ly.leaves.length + j' :=
      ⟨childStart ly.nodes j + i - ly.leaves.length, by omega⟩
    have hnode : ly.nodes[j']? = some ly.nodes[j'] := List.getElem?_eq_getElem (by omega)
    generalize ly.nodes[j'] = m at hnode
    have hb := Layout.allBoxes_node ly _ _ hnode
    have hc := hcov j n hn (ly.leaves.length + j') _ (by omega) (by rw [hsucc]; omega) hb
    have hmv : m.box.Valid := hvalid _ (List.mem_iff_getElem?.mpr ⟨_, hb⟩)
    have hdk : (ly.distTable x y boxDist itemDist).getD (childStart ly.nodes j + i) 0 =
        boxDist x y m.box.minX m.box.minY m.box.maxX m.box.maxY := by
      unfold Layout.distTable
      rw [hj', List.getD_eq_getElem?_getD, List.getElem?_append_right (by simp)]
      simp [hnode]
    rw [hdk]
    exact hmono n.box m.box hnv hmv hc

theorem RTree.drain_fuel_mono {Q σ : Type} (fq : FlatQueue Q) (r : RTree)
    (iterf : Int → F64 → σ → Bool × σ) :
    ∀ (fuel fuel' : Nat) (q : Q) (s : σ) (res : Bool × Q × σ), fuel ≤ fuel' →
      r.drain fq iterf fuel q s = some res → r.drain fq iterf fuel' q s = some res := by
  intro fuel
  induction fuel with
  | zero => intro fuel' q s res _ h; simp [RTree.drain] at h
  | succ fuel ih =>
    intro fuel' q s res hle h
    obtain ⟨f, rfl⟩ : ∃ f, fuel' = f + 1 := ⟨fuel' - 1, by omega⟩
    simp only [RTree.drain] at h ⊢
    by_cases hc : 0 < fq.Len q ∧ fq.Peek q < (r.count : Int)
    · simp only [hc, and_self, if_true] at h ⊢
      cases hidx : index r.refs (fq.Pop q).1 with
      | none => rw [hidx] at h; simp at h
      | some ref =>
        rw [hidx] at h
        simp only at h ⊢
        rcases hit : iterf ref (fq.PeekValue q) s with ⟨b, s'⟩
        rw [hit] at h
        cases b with
        | false => exact h
        | true => exact ih f _ _ _ (by omega) h
    · simp only [hc, if_false] at h ⊢
      exact h

theorem RTree.neighborsLoop_fuel_mono {Q σ : Type} (fq : FlatQueue Q) (r : RTree) (x y : F64)
    (iterf : Int → F64 → σ → Bool × σ)
    (boxDist : F64 → F64 → F64 → F64 → F64 → F64 → F64)
    (itemDist : Option (F64 → F64 → Int → F64)) :
    ∀ (fuel fuel' : Nat) (q : Q) (s res : σ), fuel ≤ fuel' →
      r.neighborsLoop fq x y iterf boxDist itemDist fuel q s = some res →
      r.neighborsLoop fq x y iterf boxDist itemDist fuel' q s = some res := by
  intro fuel
  induction fuel with
  | zero => intro fuel' q s res _ h; simp [RTree.neighborsLoop] at h
  | succ fuel ih =>
    intro fuel' q s res hle h
    obtain ⟨f, rfl⟩ : ∃ f, fuel' = f + 1 := ⟨fuel' - 1, by omega⟩
    simp only [RTree.neighborsLoop] at h ⊢
    by_cases hc : 0 < fq.Len q
    · simp only [hc, if_true] at h ⊢
      cases h1 : index r.refs (fq.Pop q).1 with
      | none => rw [h1] at h; simp at h
      | some lo =>
        cases h2 : index r.refs ((fq.Pop q).1 + 1) with
        | none => rw [h1, h2] at h; simp at h
        | some hi =>
          rw [h1, h2] at h
          simp only at h ⊢
          cases h3 : r.pushChildren fq x y boxDist itemDist (childIdxs lo hi) (fq.Pop q).2 with
          | none => rw [h3] at h; simp at h
          | some q2 =>
            rw [h3] at h
            simp only at h ⊢
            cases h4 : r.drain fq iterf (fuel + 1) q2 s with
            | none => rw [h4] at h; simp at h
            | some d =>
              rw [h4] at h
              rw [RTree.drain_fuel_mono fq r iterf (fuel + 1) (f + 1) q2 s d (by omega) h4]
              obtain ⟨b, q3, s'⟩ := d
              cases b with
              | false => exact h
              | true => exact ih f _ _ _ (by omega) h
    · simp only [hc, if_false] at h ⊢
      exact h

theorem RTree.Neighbors_fuel_mono {Q σ : Type} (fq : FlatQueue Q) (r : RTree) (x y : F64)
    (iterf : Int → F64 → σ → Bool × σ)
    (boxDist : F64 → F64 → F64 → F64 → F64 → F64 → F64)
    (itemDist : Option (F64 → F64 → Int → F64)) (fuel fuel' : Nat) (s res : σ)
    (hle : fuel ≤ fuel')
    (h : r.Neighbors fq x y iterf boxDist itemDist fuel s = some res) :
    r.Neighbors fq x y iterf boxDist itemDist fuel' s = some res := by
  unfold RTree.Neighbors at h ⊢
  by_cases hc : r.count = 0
  · simp only [hc, if_true] at h ⊢; exact h
  · simp only [hc, if_false] at h ⊢
    exact RTree.neighborsLoop_fuel_mono fq r x y iterf boxDist itemDist fuel fuel' _ s res hle h

theorem feed_collectDist (xs s : List (Int × F64)) :
    feed (pairCallback collectDist) xs s = (true, s ++ xs) := by
  induction xs generalizing s with
  | nil => simp [feed]
  | cons x xs ih => simp [feed, pairCallback, collectDist, ih]

theorem Neighbors_layout_all {Q : Type} (fq : FlatQueue Q)
    (entries : Q → Multiset (Int × F64)) (hl : fq.Lawful entries) (ly : Layout) (hwf : ly.WF)
    (x y : F64) (boxDist : F64 → F64 → F64 → F64 → F64 → F64 → F64)
    (itemDist : Option (F64 → F64 → Int → F64)) :
    ∃ out : List (Int × F64),
      out.Perm (ly.leaves.map fun it => (it.ref, itemDistance x y boxDist itemDist it)) ∧
      (ly.DistMonoInner (ly.distTable x y boxDist itemDist) →
        out.Pairwise (fun a b => a.2 ≤ b.2)) ∧
      ∀ (fuel : Nat), ly.tree.refs.length ≤ fuel →
        ∀ {σ : Type} (iterf : Int → F64 → σ → Bool × σ) (s : σ),
          ly.tree.Neighbors fq x y iterf boxDist itemDist fuel s =
            some (feed (pairCallback iterf) out s).2 := by
  obtain ⟨out, hperm, hsorted, hrun⟩ := Neighbors_layout fq entries hl ly hwf x y boxDist itemDist
    ly.tree.refs.length (le_refl _)
  refine ⟨out, hperm, hsorted, ?_⟩
  intro fuel hfuel σ iterf s
  obtain ⟨out', _, _, hrun'⟩ := Neighbors_layout fq entries hl ly hwf x y boxDist itemDist
    fuel hfuel
  have h0 := hrun collectDist []
  have h1 := hrun' collectDist []
  rw [feed_collectDist] at h0 h1
  have h2 := RTree.Neighbors_fuel_mono fq ly.tree x y collectDist boxDist itemDist _ fuel [] _
    hfuel h0
  rw [h1] at h2
  simp only [List.nil_append, Option.some.injEq] at h2
  rw [hrun' iterf s, h2]

theorem F64.fin_le_fin (a b : ℚ) : (fin a ≤ fin b) ↔ a ≤ b := Iff.rfl

theorem F64.fin_lt_fin (a b : ℚ) : (fin a < fin b) ↔ a < b := by
  rw [lt_iff_not_le, lt_iff_not_le]
  exact not_congr (F64.fin_le_fin b a)

theorem F64.negInf_le (a : F64) : negInf ≤ a := by
  show le negInf a
  cases a <;> trivial

theorem F64.le_posInf (a : F64) : a ≤ posInf := by
  show le a posInf
  cases a <;> trivial

theorem F64.not_fin_le_negInf (a : ℚ) : ¬ fin a ≤ negInf := fun h => h

theorem F64.not_posInf_le_fin (a : ℚ) : ¬ posInf ≤ fin a := fun h => h

theorem F64.not_posInf_le_negInf : ¬ posInf ≤ negInf := fun h => h

theorem roundHalfEven_le (t : ℚ) : ((roundHalfEven t : Int) : ℚ) ≤ t + 1 / 2 := by
  have h1 := Int.floor_le t
  have h2 := Int.lt_floor_add_one t
  unfold roundHalfEven
  split_ifs <;> push_cast <;> linarith

theorem roundHalfEven_ge (t : ℚ) : t - 1 / 2 ≤ ((roundHalfEven t : Int) : ℚ) := by
  have h1 := Int.floor_le t
  have h2 := Int.lt_floor_add_one t
  unfold roundHalfEven
  split_ifs <;> push_cast <;> linarith

theorem roundHalfEven_intCast (k : Int) : roundHalfEven (k : ℚ) = k := by
  unfold roundHalfEven
  rw [Int.floor_intCast]
  simp

theorem roundHalfEven_floor_le (t : ℚ) : ⌊t⌋ ≤ roundHalfEven t := by
  unfold roundHalfEven
  split_ifs <;> omega

theorem roundHalfEven_le_floor (t : ℚ) : roundHalfEven t ≤ ⌊t⌋ + 1 := by
  unfold roundHalfEven
  split_ifs <;> omega

theorem roundHalfEven_mono (s t : ℚ) (h : s ≤ t) : roundHalfEven s ≤ roundHalfEven t := by
  have hf := Int.floor_le_floor h
  rcases lt_or_eq_of_le hf with hlt | heq
  · have := roundHalfEven_le_floor s
    have := roundHalfEven_floor_le t
    omega
  · unfold roundHalfEven
    rw [heq]
    have hd : s - ⌊t⌋ ≤ t - ⌊t⌋ := by linarith
    split_ifs <;> first | omega | (exfalso; linarith)

theorem two_zpow_pos (z : Int) : (0 : ℚ) < 2 ^ z := zpow_pos (by norm_num) z

theorem two_zpow_le {m n : Int} (h : m ≤ n) : (2 : ℚ) ^ m ≤ 2 ^ n :=
  zpow_le_zpow_right₀ (by norm_num) h

theorem two_zpow_log_le (q : ℚ) (hq : 0 < q) : (2 : ℚ) ^ Int.log 2 q ≤ q := by
  have := Int.zpow_log_le_self (b := 2) (by norm_num) hq
  simpa using this

theorem lt_two_zpow_log (q : ℚ) : q < (2 : ℚ) ^ (Int.log 2 q + 1) := by
  have := Int.lt_zpow_succ_log_self (b := 2) (by norm_num) q
  simpa using this

theorem F64.lt_ulpExp (q : ℚ) : q < 2 ^ (ulpExp q + 53) := by
  have h := lt_two_zpow_log q
  refine lt_of_lt_of_le h (two_zpow_le ?_)
  unfold ulpExp
  have := le_max_left (Int.log 2 q) (-1022)
  omega

theorem F64.ulpExp_le (q : ℚ) (hq : 0 < q) (hL : -1022 ≤ Int.log 2 q) :
    2 ^ (ulpExp q + 52) ≤ q := by
  have h := two_zpow_log_le q hq
  refine le_trans (le_of_eq ?_) h
  unfold ulpExp
  rw [max_eq_left hL]
  congr 1
  omega

theorem F64.ulpExp_mono (q r : ℚ) (hq : 0 < q) (h : q ≤ r) : ulpExp q ≤ ulpExp r := by
  unfold ulpExp
  have := Int.log_mono_right (b := 2) hq h
  have := max_le_max this (le_refl (-1022 : Int))
  omega

theorem div_two_zpow (q : ℚ) (x : Int) : q / 2 ^ x = q * 2 ^ (-x) := by
  rw [zpow_neg, div_eq_mul_inv]

theorem F64.scaled_lt (q : ℚ) : q / 2 ^ ulpExp q < 2 ^ (53 : ℕ) := by
  have h := F64.lt_ulpExp q
  rw [div_lt_iff₀ (two_zpow_pos _)]
  refine lt_of_lt_of_le h (le_of_eq ?_)
  rw [← zpow_natCast, ← zpow_add₀ (by norm_num)]
  congr 1
  push_cast
  ring

theorem F64.scaled_ge (q : ℚ) (hq : 0 < q) (hL : -1022 ≤ Int.log 2 q) :
    2 ^ (52 : ℕ) ≤ q / 2 ^ ulpExp q := by
  have h := F64.ulpExp_le q hq hL
  rw [le_div_iff₀ (two_zpow_pos _)]
  refine le_trans (le_of_eq ?_) h
  rw [← zpow_natCast, ← zpow_add₀ (by norm_num)]
  congr 1
  push_cast
  ring

theorem roundHalfEven_nonneg (t : ℚ) (h : 0 ≤ t) : 0 ≤ roundHalfEven t := by
  have := roundHalfEven_mono 0 t h
  have h0 : roundHalfEven (0 : ℚ) = 0 := by
    have := roundHalfEven_intCast 0
    simpa using this
  omega

theorem roundHalfEven_le_pow (t : ℚ) (n : ℕ) (h : t ≤ 2 ^ n) :
    ((roundHalfEven t : Int) : ℚ) ≤ 2 ^ n := by
  have := roundHalfEven_mono t ((2 ^ n : Int) : ℚ) (by push_cast; exact h)
  rw [roundHalfEven_intCast] at this
  exact_mod_cast this

theorem roundHalfEven_ge_pow (t : ℚ) (n : ℕ) (h : 2 ^ n ≤ t) :
    (2 : ℚ) ^ n ≤ ((roundHalfEven t : Int) : ℚ) := by
  have := roundHalfEven_mono ((2 ^ n : Int) : ℚ) t (by push_cast; exact h)
  rw [roundHalfEven_intCast] at this
  exact_mod_cast this

theorem F64.mag_nonneg (q : ℚ) (hq : 0 ≤ q) : 0 ≤ mag q := by
  unfold mag
  apply mul_nonneg _ (two_zpow_pos _).le
  have := roundHalfEven_nonneg (q / 2 ^ ulpExp q) (div_nonneg hq (two_zpow_pos _).le)
  exact_mod_cast this

theorem F64.mag_le (q : ℚ) : mag q ≤ 2 ^ (ulpExp q + 53) := by
  unfold mag
  have h := roundHalfEven_le_pow _ 53 (F64.scaled_lt q).le
  calc ((roundHalfEven (q / 2 ^ ulpExp q) : Int) : ℚ) * 2 ^ ulpExp q
      ≤ 2 ^ (53 : ℕ) * 2 ^ ulpExp q := mul_le_mul_of_nonneg_right h (two_zpow_pos _).le
    _ = 2 ^ (ulpExp q + 53) := by
      rw [← zpow_natCast, ← zpow_add₀ (by norm_num)]
      congr 1
      push_cast
      ring

theorem F64.mag_ge (q : ℚ) (hq : 0 < q) (hL : -1022 ≤ Int.log 2 q) :
    2 ^ (ulpExp q + 52) ≤ mag q := by
  unfold mag
  have h := roundHalfEven_ge_pow _ 52 (F64.scaled_ge q hq hL)
  calc (2 : ℚ) ^ (ulpExp q + 52) = 2 ^ (52 : ℕ) * 2 ^ ulpExp q := by
        rw [← zpow_natCast, ← zpow_add₀ (by norm_num)]
        congr 1
        push_cast
        ring
    _ ≤ ((roundHalfEven (q / 2 ^ ulpExp q) : Int) : ℚ) * 2 ^ ulpExp q :=
      mul_le_mul_of_nonneg_right h (two_zpow_pos _).le

theorem F64.mag_zero : mag 0 = 0 := by
  unfold mag
  rw [zero_div]
  have h0 : roundHalfEven (0 : ℚ) = 0 := by
    have := roundHalfEven_intCast 0
    simpa using this
  rw [h0]
  simp

theorem F64.mag_mono (q r : ℚ) (hq : 0 ≤ q) (h : q ≤ r) : mag q ≤ mag r := by
  rcases eq_or_lt_of_le hq with h0 | hpos
  · rw [← h0, F64.mag_zero]
    exact F64.mag_nonneg r (le_trans hq h)
  · have hr : 0 < r := lt_of_lt_of_le hpos h
    have hu := F64.ulpExp_mono q r hpos h
    rcases eq_or_lt_of_le hu with heq | hlt
    · unfold mag
      rw [heq]
      apply mul_le_mul_of_nonneg_right _ (two_zpow_pos _).le
      have := roundHalfEven_mono (q / 2 ^ ulpExp r) (r / 2 ^ ulpExp r)
        (div_le_div_of_nonneg_right h (two_zpow_pos _).le)
      exact_mod_cast this
    · have hL : -1022 ≤ Int.log 2 r := by
        by_contra hc
        have e1 : ulpExp r = -1022 - 52 := by
          unfold ulpExp
          rw [max_eq_right (by omega)]
        have e2 : -1022 - 52 ≤ ulpExp q := by
          unfold ulpExp
          have := le_max_right (Int.log 2 q) (-1022)
          omega
        omega
      calc mag q ≤ 2 ^ (ulpExp q + 53) := F64.mag_le q
        _ ≤ 2 ^ (ulpExp r + 52) := two_zpow_le (by omega)
        _ ≤ mag r := F64.mag_ge r hr hL

theorem F64.mag_err (q : ℚ) : |mag q - q| ≤ 2 ^ ulpExp q / 2 := by
  have hu := two_zpow_pos (ulpExp q)
  have h1 := roundHalfEven_le (q / 2 ^ ulpExp q)
  have h2 := roundHalfEven_ge (q / 2 ^ ulpExp q)
  have e : q = q / 2 ^ ulpExp q * 2 ^ ulpExp q := by
    field_simp
  unfold mag
  rw [abs_le]
  constructor
  · have := mul_le_mul_of_nonneg_right h2 hu.le
    nlinarith
  · have := mul_le_mul_of_nonneg_right h1 hu.le
    nlinarith

theorem F64.mag_rep (m : ℕ) (j : Int) (hm : m < 2 ^ 53) (hj : -1074 ≤ j) :
    mag ((m : ℚ) * 2 ^ j) = (m : ℚ) * 2 ^ j := by
  rcases Nat.eq_zero_or_pos m with h0 | hpos
  · rw [h0]; simp [F64.mag_zero]
  · have hq : (0 : ℚ) < (m : ℚ) * 2 ^ j :=
      mul_pos (by exact_mod_cast hpos) (two_zpow_pos j)
    have hlt : (m : ℚ) * 2 ^ j < 2 ^ (53 + j) := by
      rw [zpow_add₀ (by norm_num : (2 : ℚ) ≠ 0)]
      apply mul_lt_mul_of_pos_right _ (two_zpow_pos j)
      have : (m : ℚ) < 2 ^ (53 : ℕ) := by exact_mod_cast hm
      rw [← zpow_natCast] at this
      exact this
    have hlog : Int.log 2 ((m : ℚ) * 2 ^ j) < 53 + j := by
      have := (Int.lt_zpow_iff_log_lt (b := 2) (by norm_num) hq (x := 53 + j)).mp
        (by simpa using hlt)
      exact this
    have hx : ulpExp ((m : ℚ) * 2 ^ j) ≤ j := by
      unfold ulpExp
      have := max_le (show Int.log 2 ((m : ℚ) * 2 ^ j) ≤ j + 52 by omega)
        (show (-1022 : Int) ≤ j + 52 by omega)
      omega
    obtain ⟨n, hn⟩ : ∃ n : ℕ, j = ulpExp ((m : ℚ) * 2 ^ j) + n :=
      ⟨(j - ulpExp ((m : ℚ) * 2 ^ j)).toNat, by omega⟩
    have hdiv : (m : ℚ) * 2 ^ j / 2 ^ ulpExp ((m : ℚ) * 2 ^ j) =
        (((m * 2 ^ n : ℕ) : Int) : ℚ) := by
      rw [div_eq_iff (two_zpow_pos _).ne']
      push_cast
      rw [mul_assoc, ← zpow_natCast, ← zpow_add₀ (by norm_num : (2 : ℚ) ≠ 0)]
      congr 2
      omega
    unfold mag
    rw [hdiv, roundHalfEven_intCast, ← hdiv]
    field_simp

theorem F64.nearest_neg (q : ℚ) : nearest (-q) = -nearest q := by
  unfold nearest
  rcases lt_trichotomy q 0 with h | h | h
  · rw [if_pos (by linarith), if_neg (by linarith)]
    simp
  · rw [h]; simp [F64.mag_zero]
  · rw [if_neg (by linarith), if_pos (by linarith)]
    simp

theorem F64.nearest_nonneg (q : ℚ) (h : 0 ≤ q) : 0 ≤ nearest q := by
  unfold nearest
  rw [if_pos h]
  exact F64.mag_nonneg q h

theorem F64.nearest_nonpos (q : ℚ) (h : q ≤ 0) : nearest q ≤ 0 := by
  have := F64.nearest_nonneg (-q) (by linarith)
  rw [F64.nearest_neg] at this
  linarith

theorem F64.nearest_mono (q r : ℚ) (h : q ≤ r) : nearest q ≤ nearest r := by
  rcases le_total 0 q with hq | hq
  · unfold nearest
    rw [if_pos hq, if_pos (le_trans hq h)]
    exact F64.mag_mono q r hq h
  · rcases le_total 0 r with hr | hr
    · exact le_trans (F64.nearest_nonpos q hq) (F64.nearest_nonneg r hr)
    · have := F64.mag_mono (-r) (-q) (by linarith) (by linarith)
      have e1 : nearest (-r) = mag (-r) := by
        unfold nearest; rw [if_pos (by linarith)]
      have e2 : nearest (-q) = mag (-q) := by
        unfold nearest; rw [if_pos (by linarith)]
      rw [← e1, ← e2, F64.nearest_neg, F64.nearest_neg] at this
      linarith

theorem F64.nearest_rep (m j : Int) (hm : |m| < 2 ^ 53) (hj : -1074 ≤ j) :
    nearest ((m : ℚ) * 2 ^ j) = (m : ℚ) * 2 ^ j := by
  rcases le_total 0 m with h | h
  · obtain ⟨n, rfl⟩ := Int.eq_ofNat_of_zero_le h
    have hn : n < 2 ^ 53 := by
      rw [abs_of_nonneg h] at hm
      exact_mod_cast hm
    unfold nearest
    rw [if_pos (mul_nonneg (by exact_mod_cast h) (two_zpow_pos j).le)]
    have := F64.mag_rep n j hn hj
    simpa using this
  · obtain ⟨n, hn⟩ := Int.eq_ofNat_of_zero_le (show 0 ≤ -m by omega)
    have hn' : n < 2 ^ 53 := by
      rw [abs_of_nonpos h, hn] at hm
      exact_mod_cast hm
    have e : (m : ℚ) * 2 ^ j = -((n : ℚ) * 2 ^ j) := by
      have : (m : ℚ) = -(n : ℚ) := by
        have : m = -(n : Int) := by omega
        rw [this]; push_cast; ring
      rw [this]; ring
    rw [e, F64.nearest_neg]
    unfold nearest
    rw [if_pos (mul_nonneg (Nat.cast_nonneg n) (two_zpow_pos j).le), F64.mag_rep n j hn' hj]

theorem F64.ofRat_mono (q r : ℚ) (h : q ≤ r) : ofRat q ≤ ofRat r := by
  unfold ofRat
  have hpos : (0 : ℚ) < 2 ^ 1024 := pow_pos (by norm_num) 1024
  generalize (2 : ℚ) ^ 1024 = B at hpos ⊢
  split_ifs with h1 h2 h3 h4 h5 h6
  · exact le_refl _
  · exact absurd (le_trans h1 h) h2
  · exact absurd (le_trans h1 h) h2
  · exact F64.le_posInf _
  · exact le_refl _
  · exact F64.negInf_le _
  · exact F64.le_posInf _
  · exfalso; linarith
  · exact (F64.fin_le_fin _ _).mpr h

theorem F64.rnd_mono (q r : ℚ) (h : q ≤ r) : rnd q ≤ rnd r :=
  F64.ofRat_mono _ _ (F64.nearest_mono q r h)

theorem F64.rn_mono (a b : F64) (h : a ≤ b) : rn a ≤ rn b := by
  cases a with
  | negInf => exact F64.negInf_le _
  | posInf =>
    cases b with
    | posInf => exact le_refl _
    | negInf => exact absurd h F64.not_posInf_le_negInf
    | fin r => exact absurd h (F64.not_posInf_le_fin r)
  | fin q =>
    cases b with
    | posInf => exact F64.le_posInf _
    | negInf => exact absurd h (F64.not_fin_le_negInf q)
    | fin r => exact F64.rnd_mono q r ((F64.fin_le_fin q r).mp h)

theorem F64.ofRat_fin (r : ℚ) (h : |r| < 2 ^ 1024) : ofRat r = fin r := by
  unfold ofRat
  generalize (2 : ℚ) ^ 1024 = B at h ⊢
  obtain ⟨h1, h2⟩ := abs_lt.mp h
  rw [if_neg (by linarith), if_neg (by linarith)]

theorem F64.rnd_rep (m j : Int) (hm : |m| < 2 ^ 53) (hj : -1074 ≤ j)
    (hlt : |(m : ℚ) * 2 ^ j| < 2 ^ 1024) : rnd ((m : ℚ) * 2 ^ j) = fin ((m : ℚ) * 2 ^ j) := by
  unfold rnd
  rw [F64.nearest_rep m j hm hj, F64.ofRat_fin _ hlt]

theorem F64.rnd_zero : rnd 0 = fin 0 := by
  have := F64.rnd_rep 0 0 (by norm_num) (by norm_num)
    (by rw [Int.cast_zero, zero_mul, abs_zero]; exact pow_pos (by norm_num) 1024)
  rw [Int.cast_zero, zero_mul] at this
  exact this

theorem F64.mag_err_bound (q : ℚ) (hq : 0 ≤ q) :
    |mag q - q| ≤ max (q * 2 ^ (-53 : Int)) (2 ^ (-1075 : Int)) := by
  rcases eq_or_lt_of_le hq with hz | hpos
  · rw [← hz, F64.mag_zero, sub_zero, abs_zero]
    exact le_trans (two_zpow_pos _).le (le_max_right _ _)
  have herr := F64.mag_err q
  have e2 : (2 : ℚ) ^ ulpExp q / 2 = 2 ^ (ulpExp q - 1) := by
    rw [zpow_sub₀ (by norm_num : (2 : ℚ) ≠ 0), zpow_one]
  rw [e2] at herr
  by_cases hL : -1022 ≤ Int.log 2 q
  · have h1 := F64.ulpExp_le q hpos hL
    refine le_trans herr (le_trans ?_ (le_max_left _ _))
    have e3 : (2 : ℚ) ^ (ulpExp q - 1) = 2 ^ (ulpExp q + 52) * 2 ^ (-53 : Int) := by
      rw [← zpow_add₀ (by norm_num : (2 : ℚ) ≠ 0)]
      congr 1
      ring
    rw [e3]
    exact mul_le_mul_of_nonneg_right h1 (two_zpow_pos _).le
  · refine le_trans herr (le_trans (le_of_eq ?_) (le_max_right _ _))
    congr 1
    unfold ulpExp
    rw [max_eq_right (by omega)]
    norm_num

theorem F64.nearest_err_bound (q : ℚ) :
    |nearest q - q| ≤ max (|q| * 2 ^ (-53 : Int)) (2 ^ (-1075 : Int)) := by
  rcases le_total 0 q with h | h
  · have e : nearest q = mag q := by unfold nearest; rw [if_pos h]
    rw [e, abs_of_nonneg h]
    exact F64.mag_err_bound q h
  · have h' : 0 ≤ -q := by linarith
    have e : nearest (-q) = mag (-q) := by unfold nearest; rw [if_pos h']
    have := F64.mag_err_bound (-q) h'
    rw [← e, F64.nearest_neg] at this
    rw [abs_of_nonpos h]
    have e2 : |(-nearest q) - (-q)| = |nearest q - q| := by
      rw [← abs_neg]; congr 1; ring
    rw [e2] at this
    exact this

theorem roundHalfEven_small (t : ℚ) (h0 : 0 ≤ t) (h1 : t ≤ 1 / 2) : roundHalfEven t = 0 := by
  have hf : ⌊t⌋ = 0 := by
    rw [Int.floor_eq_iff]
    constructor
    · simpa using h0
    · push_cast; linarith
  unfold roundHalfEven
  rw [hf]
  push_cast
  split_ifs with a b
  · rfl
  · exfalso; linarith
  · rfl

theorem F64.rnd_underflow (q : ℚ) (h0 : 0 ≤ q) (h1 : q ≤ 2 ^ (-1075 : Int)) : rnd q = fin 0 := by
  rcases eq_or_lt_of_le h0 with hz | hpos
  · rw [← hz]
    exact F64.rnd_zero
  have hlt : q < 2 ^ (-1022 : Int) :=
    lt_of_le_of_lt h1 (zpow_lt_zpow_right₀ (by norm_num) (by norm_num))
  have hx : ulpExp q = -1074 := by
    unfold ulpExp
    have := (Int.lt_zpow_iff_log_lt (b := 2) (by norm_num) hpos (x := -1022)).mp
      (by simpa using hlt)
    rw [max_eq_right (by omega)]
    norm_num
  have hm : mag q = 0 := by
    unfold mag
    rw [hx, roundHalfEven_small]
    · simp
    · exact div_nonneg h0 (two_zpow_pos _).le
    · rw [div_le_iff₀ (two_zpow_pos _)]
      refine le_trans h1 (le_of_eq ?_)
      rw [show (1 / 2 : ℚ) = 2 ^ (-1 : Int) by norm_num,
        ← zpow_add₀ (by norm_num : (2 : ℚ) ≠ 0)]
      norm_num
  unfold rnd nearest
  rw [if_pos h0, hm]
  exact F64.ofRat_fin 0 (by rw [abs_zero]; exact pow_pos (by norm_num) 1024)

theorem F64.rnd_two_zpow (z : Int) (h1 : -1074 ≤ z) (h2 : z < 1024) :
    rnd (2 ^ z) = fin (2 ^ z) := by
  have hlt : |((1 : Int) : ℚ) * 2 ^ z| < 2 ^ 1024 := by
    rw [Int.cast_one, one_mul, abs_of_pos (two_zpow_pos z), ← zpow_natCast]
    exact zpow_lt_zpow_right₀ (by norm_num) (by push_cast; omega)
  have := F64.rnd_rep 1 z (by norm_num) h1 hlt
  rw [Int.cast_one, one_mul] at this
  exact this

theorem F64.rnd_overflow (q : ℚ) (h : 2 ^ 1024 ≤ q) : rnd q = posInf := by
  have h1 : nearest ((1 : Int) * 2 ^ (1024 : Int)) = (1 : Int) * 2 ^ (1024 : Int) :=
    F64.nearest_rep 1 1024 (by norm_num) (by norm_num)
  have e : ((1 : Int) : ℚ) * 2 ^ (1024 : Int) = 2 ^ 1024 := by
    rw [Int.cast_one, one_mul, ← zpow_natCast]
    rfl
  rw [e] at h1
  have hmono := F64.nearest_mono _ _ h
  rw [h1] at hmono
  unfold rnd ofRat
  rw [if_pos hmono]

theorem F64.rnd_intCast (k : Int) (hk : |k| ≤ 2 ^ 53) : rnd (k : ℚ) = fin (k : ℚ) := by
  have hB : (2 : ℚ) ^ (53 : ℕ) < 2 ^ 1024 := pow_lt_pow_right₀ (by norm_num) (by norm_num)
  have hkq : |(k : ℚ)| ≤ 2 ^ (53 : ℕ) := by
    have : ((|k| : Int) : ℚ) ≤ ((2 ^ 53 : Int) : ℚ) := by exact_mod_cast hk
    simpa using this
  rcases lt_or_eq_of_le hk with hlt | heq
  · have := F64.rnd_rep k 0 hlt (by norm_num)
      (by rw [zpow_zero, mul_one]; exact lt_of_le_of_lt hkq hB)
    rw [zpow_zero, mul_one] at this
    exact this
  · rcases abs_eq (by norm_num : (0 : Int) ≤ 2 ^ 53) |>.mp heq with h | h
    · have := F64.rnd_two_zpow 53 (by norm_num) (by norm_num)
      have e : ((k : Int) : ℚ) = 2 ^ (53 : Int) := by
        rw [h]; norm_num
      rw [e]
      exact this
    · have e : ((k : Int) : ℚ) = ((-1 : Int) : ℚ) * 2 ^ (53 : Int) := by
        rw [h]; norm_num
      rw [e]
      apply F64.rnd_rep (-1) 53 (by norm_num) (by norm_num)
      rw [← e]
      exact lt_of_le_of_lt hkq hB

theorem F64.rnd_nonneg (q : ℚ) (h : 0 ≤ q) : fin 0 ≤ rnd q := by
  rw [← F64.rnd_zero]
  exact F64.rnd_mono 0 q h

theorem F64.fin_add_fin (a b : ℚ) : fin a + fin b = rnd (a + b) := rfl

theorem F64.fin_mul_fin (a b : ℚ) : fin a * fin b = rnd (a * b) := rfl

theorem F64.fin_div_fin (a b : ℚ) (hb : b ≠ 0) : fin a / fin b = rnd (a / b) := by
  show F64.div (fin a) (fin b) = _
  simp [F64.div, hb]

theorem F64.sub_fin (a b : ℚ) : fin a - fin b = rnd (a - b) := by
  show add (fin a) (neg (fin b)) = _
  simp [add, neg, sub_eq_add_neg]

theorem F64.zero_def : (0 : F64) = fin 0 := rfl

theorem F64.sub_nonneg_of_lt (p a : F64) (h : p < a) : 0 ≤ a - p := by
  rw [F64.zero_def]
  cases p <;> cases a
  all_goals first
    | exact absurd h (lt_irrefl _)
    | exact absurd (le_of_lt h) (F64.not_fin_le_negInf _)
    | exact absurd (le_of_lt h) (F64.not_posInf_le_fin _)
    | exact absurd (le_of_lt h) F64.not_posInf_le_negInf
    | exact F64.le_posInf _
    | skip
  rw [F64.sub_fin]
  rw [F64.fin_lt_fin] at h
  exact F64.rnd_nonneg _ (by linarith)

theorem F64.sub_le_sub_right_of_lt (p a b : F64) (hp : p < a) (hab : a ≤ b) :
    a - p ≤ b - p := by
  have hpb : p < b := lt_of_lt_of_le hp hab
  cases p <;> cases a <;> cases b
  all_goals first
    | exact absurd hp (lt_irrefl _)
    | exact absurd hpb (lt_irrefl _)
    | exact absurd (le_of_lt hp) (F64.not_fin_le_negInf _)
    | exact absurd (le_of_lt hp) (F64.not_posInf_le_fin _)
    | exact absurd (le_of_lt hp) F64.not_posInf_le_negInf
    | exact absurd hab (F64.not_fin_le_negInf _)
    | exact absurd hab (F64.not_posInf_le_fin _)
    | exact absurd hab F64.not_posInf_le_negInf
    | exact F64.le_posInf _
    | exact le_refl _
    | skip
  rw [F64.sub_fin, F64.sub_fin]
  rw [F64.fin_le_fin] at hab
  exact F64.rnd_mono _ _ (by linarith)

theorem F64.sub_le_sub_left_of_lt (p a b : F64) (hp : a < p) (hba : b ≤ a) :
    p - a ≤ p - b := by
  have hpb : b < p := lt_of_le_of_lt hba hp
  cases p <;> cases a <;> cases b
  all_goals first
    | exact absurd hp (lt_irrefl _)
    | exact absurd hpb (lt_irrefl _)
    | exact absurd (le_of_lt hp) (F64.not_fin_le_negInf _)
    | exact absurd (le_of_lt hp) (F64.not_posInf_le_fin _)
    | exact absurd (le_of_lt hp) F64.not_posInf_le_negInf
    | exact absurd hba (F64.not_fin_le_negInf _)
    | exact absurd hba (F64.not_posInf_le_fin _)
    | exact absurd hba F64.not_posInf_le_negInf
    | exact F64.le_posInf _
    | exact le_refl _
    | skip
  rw [F64.sub_fin, F64.sub_fin]
  rw [F64.fin_le_fin] at hba
  exact F64.rnd_mono _ _ (by linarith)

theorem F64.mul_self_mono (a b : F64) (ha : 0 ≤ a) (hab : a ≤ b) : 0 ≤ a * a ∧ a * a ≤ b * b := by
  rw [F64.zero_def] at ha ⊢
  cases a <;> cases b
  all_goals first
    | exact absurd ha (F64.not_fin_le_negInf _)
    | exact absurd hab (F64.not_fin_le_negInf _)
    | exact absurd hab (F64.not_posInf_le_fin _)
    | exact ⟨F64.le_posInf _, F64.le_posInf _⟩
    | skip
  · rename_i a b
    rw [F64.fin_le_fin] at ha hab
    rw [F64.fin_mul_fin, F64.fin_mul_fin]
    exact ⟨F64.rnd_nonneg _ (mul_nonneg ha ha),
      F64.rnd_mono _ _ (mul_le_mul hab hab ha (le_trans ha hab))⟩
  · rename_i a
    rw [F64.fin_le_fin] at ha
    rw [F64.fin_mul_fin]
    exact ⟨F64.rnd_nonneg _ (mul_nonneg ha ha), F64.le_posInf _⟩

theorem F64.add_mono_nonneg (a a' b b' : F64) (ha : 0 ≤ a) (haa : a ≤ a') (hb : 0 ≤ b)
    (hbb : b ≤ b') : a + b ≤ a' + b' := by
  rw [F64.zero_def] at ha hb
  have ha' := le_trans ha haa
  have hb' := le_trans hb hbb
  cases a <;> cases a' <;> cases b <;> cases b'
  all_goals first
    | exact absurd ha (F64.not_fin_le_negInf _)
    | exact absurd hb (F64.not_fin_le_negInf _)
    | exact absurd ha' (F64.not_fin_le_negInf _)
    | exact absurd hb' (F64.not_fin_le_negInf _)
    | exact absurd haa (F64.not_posInf_le_fin _)
    | exact absurd hbb (F64.not_posInf_le_fin _)
    | exact F64.le_posInf _
    | skip
  rename_i a a' b b'
  rw [F64.fin_add_fin, F64.fin_add_fin]
  rw [F64.fin_le_fin] at haa hbb
  exact F64.rnd_mono _ _ (by linarith)

theorem axisDist_nonneg (p lo hi : F64) : 0 ≤ axisDist p lo hi := by
  unfold axisDist
  split_ifs with h1 h2
  · exact F64.sub_nonneg_of_lt p lo h1
  · exact le_refl _
  · exact F64.sub_nonneg_of_lt hi p (not_le.mp h2)

theorem axisDist_mono (p alo ahi blo bhi : F64) (h1 : alo ≤ blo) (h2 : blo ≤ bhi)
    (h3 : bhi ≤ ahi) : axisDist p alo ahi ≤ axisDist p blo bhi := by
  by_cases ha : p < alo
  · have hb : p < blo := lt_of_lt_of_le ha h1
    simp only [axisDist, ha, hb, if_true]
    exact F64.sub_le_sub_right_of_lt p alo blo ha h1
  · by_cases ha2 : p ≤ ahi
    · have : axisDist p alo ahi = 0 := by simp only [axisDist, ha, ha2, if_true, if_false]
      rw [this]
      exact axisDist_nonneg p blo bhi
    · have hgt : ahi < p := not_le.mp ha2
      have hb1 : ¬ p < blo := not_lt.mpr (le_trans h2 (le_trans h3 (le_of_lt hgt)))
      have hb2 : ¬ p ≤ bhi := not_le.mpr (lt_of_le_of_lt h3 hgt)
      simp only [axisDist, ha, ha2, hb1, hb2, if_false]
      exact F64.sub_le_sub_left_of_lt p ahi bhi hgt h3

theorem PlanarBoxDist_eq (pX pY minX minY maxX maxY : F64) :
    PlanarBoxDist pX pY minX minY maxX maxY =
      axisDist pX minX maxX * axisDist pX minX maxX +
        axisDist pY minY maxY * axisDist pY minY maxY := rfl

theorem PlanarBoxDist_mono (x y : F64) (A B : Box) (_ : A.Valid) (hB : B.Valid)
    (h : A.Contains B) :
    PlanarBoxDist x y A.minX A.minY A.maxX A.maxY ≤
      PlanarBoxDist x y B.minX B.minY B.maxX B.maxY := by
  obtain ⟨c1, c2, c3, c4⟩ := h
  obtain ⟨v1, v2⟩ := hB
  rw [PlanarBoxDist_eq, PlanarBoxDist_eq]
  obtain ⟨x0, x1⟩ := F64.mul_self_mono _ _ (axisDist_nonneg x A.minX A.maxX)
    (axisDist_mono x _ _ _ _ c1 v1 c3)
  obtain ⟨y0, y1⟩ := F64.mul_self_mono _ _ (axisDist_nonneg y A.minY A.maxY)
    (axisDist_mono y _ _ _ _ c2 v2 c4)
  exact F64.add_mono_nonneg _ _ _ _ x0 x1 y0 y1

theorem sampleItems_valid : ∀ it ∈ sampleItems, it.box.Valid := by
  intro it hit
  simp only [sampleItems, List.mem_cons, List.mem_singleton, List.not_mem_nil, or_false] at hit
  rcases hit with rfl | rfl | rfl <;> exact ⟨by decide, by decide⟩

theorem Neighbors_layout_sorted {Q : Type} (fq : FlatQueue Q)
    (entries : Q → Multiset (Int × F64)) (hl : fq.Lawful entries) (ly : Layout) (hwf : ly.WF)
    (P : Interior → List Box → Prop) (hpart : Layout.Partial P ly)
    (hP : ∀ n kids, P n kids → n.box = mbr kids ∧ n.size = kids.length ∧ 1 ≤ n.size)
    (x y : F64) (boxDist : F64 → F64 → F64 → F64 → F64 → F64 → F64)
    (itemDist : Option (F64 → F64 → Int → F64)) :
    ∃ out : List (Int × F64),
      out.Perm (ly.leaves.map fun it => (it.ref, itemDistance x y boxDist itemDist it)) ∧
      ((∀ it ∈ ly.leaves, it.box.Valid) →
        (∀ A B : Box, A.Valid → B.Valid → A.Contains B →
          boxDist x y A.minX A.minY A.maxX A.maxY ≤ boxDist x y B.minX B.minY B.maxX B.maxY) →
        (∀ f, itemDist = some f → ∀ it ∈ ly.leaves,
          boxDist x y it.box.minX it.box.minY it.box.maxX it.box.maxY ≤ f x y it.ref) →
        out.Pairwise (fun a b => a.2 ≤ b.2)) ∧
      ∀ (fuel : Nat), ly.tree.refs.length ≤ fuel →
        ∀ {σ : Type} (iterf : Int → F64 → σ → Bool × σ) (s : σ),
          ly.tree.Neighbors fq x y iterf boxDist itemDist fuel s =
            some (feed (pairCallback iterf) out s).2 := by
  obtain ⟨out, hperm, hsorted, hrun⟩ :=
    Neighbors_layout_all fq entries hl ly hwf x y boxDist itemDist
  refine ⟨out, hperm, ?_, hrun⟩
  intro hv hmono hitem
  apply hsorted
  have hcov : ly.Covers := hpart.covers (fun n kids h c hc => by
    rw [(hP n kids h).1]; exact mbr_contains kids c hc)
  exact (Layout.distMono_of_covers ly hwf hcov (hpart.valid hP hv) x y boxDist itemDist hmono
    hitem).inner

theorem perm_map_pairs {items items' : List Item} (h : items'.Perm items)
    (f : Item → Int × F64) : (items'.map f).Perm (items.map f) := h.map f

theorem HilbertBuilder.Finish_neighbors {Q : Type} (fq : FlatQueue Q)
    (entries : Q → Multiset (Int × F64)) (hl : fq.Lawful entries)
    (sorter : List Nat → List (Nat × Nat))
    (hs : ∀ vals, SwapsInRange (sorter vals) vals.length)
    (items : List Item) (degree : Int) (hd : 2 ≤ degree)
    (x y : F64) (boxDist : F64 → F64 → F64 → F64 → F64 → F64 → F64)
    (itemDist : Option (F64 → F64 → Int → F64)) :
    ∃ (tree : RTree) (b' : HilbertBuilder) (out : List (Int × F64)),
      (NewHilbertBuilder.addAll items).Finish sorter degree = some (.ok tree, b') ∧
      out.Perm (items.map fun it => (it.ref, itemDistance x y boxDist itemDist it)) ∧
      ((∀ it ∈ items, it.box.Valid) →
        (∀ A B : Box, A.Valid → B.Valid → A.Contains B →
          boxDist x y A.minX A.minY A.maxX A.maxY ≤ boxDist x y B.minX B.minY B.maxX B.maxY) →
        (∀ f, itemDist = some f → ∀ it ∈ items,
          boxDist x y it.box.minX it.box.minY it.box.maxX it.box.maxY ≤ f x y it.ref) →
        out.Pairwise (fun a b => a.2 ≤ b.2)) ∧
      ∀ (fuel : Nat), tree.refs.length ≤ fuel →
        ∀ {σ : Type} (iterf : Int → F64 → σ → Bool × σ) (s : σ),
          tree.Neighbors fq x y iterf boxDist itemDist fuel s =
            some (feed (pairCallback iterf) out s).2 := by
  by_cases hne : items = []
  · subst hne
    refine ⟨⟨0, [], []⟩, NewHilbertBuilder, [], HilbertBuilder.Finish_empty sorter degree hd,
      by simp, fun _ _ _ => List.Pairwise.nil, ?_⟩
    intro fuel _ σ iterf s
    simp [RTree.Neighbors, feed]
  · obtain ⟨ly, b', hfin, hperm, hwf, hpart⟩ :=
      HilbertBuilder.Finish_layout sorter hs items hne degree hd
    obtain ⟨out, hp, hsorted, hrun⟩ := Neighbors_layout_sorted fq entries hl ly hwf _ hpart
      (fun n kids h => ⟨h.1, h.2.1, h.2.2.1⟩) x y boxDist itemDist
    refine ⟨ly.tree, b', out, hfin, hp.trans (perm_map_pairs hperm _), ?_, hrun⟩
    intro hv hmono hitem
    exact hsorted (fun it hit => hv it (hperm.subset hit)) hmono
      (fun f hf it hit => hitem f hf it (hperm.subset hit))

theorem buildChildren_over (G : List Box → List (List Interior) → List Box → Prop)
    (hG0 : ∀ k, G [] (List.replicate k []) [])
    (hGapp : ∀ (n₁ n₂ : List (List Interior)) (p₁ p₂ t₁ t₂ : List Box), n₁.length = n₂.length →
      G p₁ n₁ t₁ → G p₂ n₂ t₂ → G (p₁ ++ p₂) (appendLevels n₁ n₂) (t₁ ++ t₂))
    (Pre : Nat → Prop)
    (recur : Nat → Nat → OMTBuilder → Option (OMTBuilder × Box)) (L H : Nat)
    (hrec : RecurOver G Pre recur L H) (hLH : L < H) (cap : Nat) (hcap : 1 ≤ cap) (N : Nat)
    (hfit : ∀ r, 1 ≤ r → r ≤ N → cap ∣ (N - r) → Pre (min cap r)) (count : Nat) :
    ∀ (n : Nat) (A R1 R2 C : List Item) (levels : List (List Interior)) (box0 : Box) (k0 : Nat),
      R1.length ≤ n → levels.length = H → (cap ∣ R1.length ∨ R2 = []) →
      (R1 ≠ [] → cap ∣ (N - (R1.length + R2.length))) → R1.length + R2.length ≤ N →
      ∃ (R1' : List Item) (news : List (List Interior)) (tops : List Box) (starts : List Nat),
        R1'.Perm R1 ∧ news.length = L + 1 ∧
        G (R1'.map Item.box) news tops ∧
        tops.length = ceilDiv R1.length cap ∧
        loopStarts A.length (A.length + R1.length) cap = some starts ∧
        buildChildren recur (A.length + R1.length + R2.length) cap starts
            ⟨OMTBuilder.repr count (A ++ R1 ++ R2 ++ C) levels, box0, k0⟩ =
          some ⟨OMTBuilder.repr count (A ++ R1' ++ R2 ++ C) (appendLevels levels news),
            tops.foldl (fun a b => a.extend b.minX b.minY b.maxX b.maxY) box0,
            k0 + tops.length⟩ := by
  intro n
  induction n with
  | zero =>
    intro A R1 R2 C levels box0 k0 hn hH _ _ _
    have hR1 : R1 = [] := List.length_eq_zero.mp (by omega)
    subst hR1
    refine ⟨[], List.replicate (L + 1) [], [], [], List.Perm.refl _, by simp,
      hG0 _, by simp [ceilDiv_zero hcap],
        loopStarts_nil _ _ _ (by simp), ?_⟩
    rw [appendLevels_replicate_nil]
    simp [buildChildren]
  | succ n ih =>
    intro A R1 R2 C levels box0 k0 hn hH hdiv1 hdivN hle
    by_cases hR1 : R1 = []
    · subst hR1
      refine ⟨[], List.replicate (L + 1) [], [], [], List.Perm.refl _, by simp,
        hG0 _, by simp [ceilDiv_zero hcap],
        loopStarts_nil _ _ _ (by simp), ?_⟩
      rw [appendLevels_replicate_nil]
      simp [buildChildren]
    · have hpos : 0 < R1.length := List.length_pos.mpr hR1
      -- the size of the first child
      have hm : min cap (R1.length + R2.length) = min cap R1.length := by
        rcases hdiv1 with h | h
        · have : cap ≤ R1.length := Nat.le_of_dvd hpos h
          omega
        · subst h; simp
      have hfitm : Pre (min cap R1.length) := by
        rw [← hm]
        exact hfit _ (by omega) hle (hdivN hR1)
      set m := min cap R1.length with hmdef
      clear_value m
      have hm1 : 1 ≤ m := by omega
      have hmle : m ≤ R1.length := by omega
      have hSlen : (R1.take m).length = m := by simp; omega
      have hsplit : A ++ R1 ++ R2 ++ C = A ++ R1.take m ++ (R1.drop m ++ R2 ++ C) := by
        conv_lhs => rw [← List.take_append_drop m R1]
        simp only [List.append_assoc]
      obtain ⟨S', newsS, root, hpermS, hlenS, hstackS, hrun⟩ :=
        hrec count A (R1.take m) (R1.drop m ++ R2 ++ C) levels hH (by rw [hSlen]; exact hfitm)
      rw [hSlen] at hrun
      have hS'len : S'.length = m := by rw [hpermS.length_eq, hSlen]
      -- the remaining children
      have hdiv1' : cap ∣ (R1.drop m).length ∨ R2 = [] := by
        rcases hdiv1 with h | h
        · left
          have hc : cap ≤ R1.length := Nat.le_of_dvd hpos h
          have : m = cap := by omega
          rw [List.length_drop, this]
          exact (Nat.dvd_sub' h (dvd_refl cap))
        · exact Or.inr h
      have hdivN' : R1.drop m ≠ [] → cap ∣ (N - ((R1.drop m).length + R2.length)) := by
        intro hne
        have hl : 0 < (R1.drop m).length := List.length_pos.mpr hne
        rw [List.length_drop] at hl ⊢
        have hmc : m = cap := by omega
        have h1 := hdivN hR1
        have : N - (R1.length - m + R2.length) = N - (R1.length + R2.length) + cap := by omega
        rw [this]
        exact Dvd.dvd.add h1 (dvd_refl cap)
      have hlen' : (appendLevels levels (newsS ++ [[root]])).length = H := by
        rw [appendLevels_length _ _ (by simp; omega), hH]
      obtain ⟨Rr', newsR, topsR, startsR, hpermR, hlenR, hstackR, htopsR, hstartsR, hrunR⟩ :=
        ih (A ++ S') (R1.drop m) R2 C (appendLevels levels (newsS ++ [[root]]))
          (box0.extend root.box.minX root.box.minY root.box.maxX root.box.maxY) (k0 + 1)
          (by rw [List.length_drop]; omega) hlen' hdiv1' hdivN'
          (by rw [List.length_drop]; omega)
      obtain ⟨rest, hrest1, hrest2⟩ := loopStarts_cons A.length (A.length + R1.length) cap
        (by omega) hcap
      have hrest : rest = startsR := by
        have hAS : (A ++ S').length = A.length + m := by simp [hS'len]
        have hAR : (A ++ S').length + (R1.drop m).length = A.length + R1.length := by
          rw [hAS, List.length_drop]; omega
        rw [hAR, hAS] at hstartsR
        rcases Nat.lt_or_ge R1.length cap with h | h
        · have hmR : m = R1.length := by omega
          rw [hmR, loopStarts_nil _ _ _ (le_refl _)] at hstartsR
          rw [loopStarts_nil _ _ _ (by omega)] at hrest1
          rw [← Option.some.injEq, ← hrest1, ← hstartsR]
        · have hmc : m = cap := by omega
          rw [hmc] at hstartsR
          rw [← Option.some.injEq, ← hrest1, ← hstartsR]
      subst hrest
      refine ⟨S' ++ Rr', appendLevels (newsS ++ [[root]]) newsR, root.box :: topsR,
        A.length :: rest, ?_, ?_, ?_, ?_, hrest2, ?_⟩
      · have := List.Perm.append hpermS hpermR
        rwa [List.take_append_drop] at this
      · rw [appendLevels_length_eq _ _ (by simp; omega)]; simp; omega
      · rw [List.map_append]
        exact hGapp _ _ _ _ [root.box] topsR (by simp; omega) hstackS hstackR
      · rw [List.length_cons, htopsR, List.length_drop]
        rcases Nat.lt_or_ge R1.length cap with h | h
        · have hmR : m = R1.length := by omega
          rw [hmR, Nat.sub_self, ceilDiv_zero hcap, ceilDiv_le_one (by omega) (by omega)]
        · have hmc : m = cap := by omega
          rw [hmc, ← ceilDiv_sub hcap h]
      · have hend : A.length + R1.length + R2.length =
            (A ++ S').length + (R1.drop m).length + R2.length := by
          simp [hS'len]; omega
        have hce : (if A.length + cap > A.length + R1.length + R2.length then
            A.length + R1.length + R2.length else A.length + cap) = A.length + m := by
          rcases hdiv1 with h | h
          · have hc : cap ≤ R1.length := Nat.le_of_dvd hpos h
            have : ¬ A.length + cap > A.length + R1.length + R2.length := by omega
            simp only [this, if_false]; omega
          · have hR2 : R2.length = 0 := by rw [h]; rfl
            by_cases hc : A.length + cap > A.length + R1.length + R2.length
            · simp only [hc, if_true]; omega
            · simp only [hc, if_false]; omega
        simp only [buildChildren, hce]
        rw [hsplit, hrun]
        simp only
        rw [hend]
        have hassoc : A ++ S' ++ (R1.drop m ++ R2 ++ C) = A ++ S' ++ R1.drop m ++ R2 ++ C := by
          simp only [List.append_assoc]
        rw [hassoc, hrunR]
        simp only [Option.some.injEq, BuildState.mk.injEq, List.foldl_cons, List.length_cons,
          true_and]
        refine ⟨?_, by omega⟩
        rw [appendLevels_assoc _ _ _ (by simp; omega)]
        simp only [List.append_assoc]

theorem buildSlices_over (buckets : Nat → List F64 → Nat → List (Nat × Nat))
    (hbk : BucketsInRange buckets) (G : List Box → List (List Interior) → List Box → Prop)
    (hG0 : ∀ k, G [] (List.replicate k []) [])
    (hGapp : ∀ (n₁ n₂ : List (List Interior)) (p₁ p₂ t₁ t₂ : List Box), n₁.length = n₂.length →
      G p₁ n₁ t₁ → G p₂ n₂ t₂ → G (p₁ ++ p₂) (appendLevels n₁ n₂) (t₁ ++ t₂))
    (Pre : Nat → Prop)
    (recur : Nat → Nat → OMTBuilder → Option (OMTBuilder × Box)) (L H : Nat)
    (hrec : RecurOver G Pre recur L H) (hLH : L < H) (cap s : Nat) (hcap : 1 ≤ cap) (hs : 1 ≤ s)
    (N : Nat)
    (hfit : ∀ r, 1 ≤ r → r ≤ N → cap ∣ (N - r) → Pre (min cap r)) (count : Nat) :
    ∀ (n : Nat) (A R C : List Item) (levels : List (List Interior)) (box0 : Box) (k0 : Nat),
      R.length ≤ n → levels.length = H →
      (R ≠ [] → cap ∣ (N - R.length)) → R.length ≤ N →
      ∃ (R' : List Item) (news : List (List Interior)) (tops : List Box) (starts : List Nat),
        R'.Perm R ∧ news.length = L + 1 ∧
        G (R'.map Item.box) news tops ∧
        tops.length = ceilDiv R.length cap ∧
        loopStarts A.length (A.length + R.length) (cap * s) = some starts ∧
        buildSlices buckets recur (A.length + R.length) (cap * s) cap starts
            ⟨OMTBuilder.repr count (A ++ R ++ C) levels, box0, k0⟩ =
          some ⟨OMTBuilder.repr count (A ++ R' ++ C) (appendLevels levels news),
            tops.foldl (fun a b => a.extend b.minX b.minY b.maxX b.maxY) box0,
            k0 + tops.length⟩ := by
  have hsc : 1 ≤ cap * s := Nat.mul_pos hcap hs
  intro n
  induction n with
  | zero =>
    intro A R C levels box0 k0 hn hH _ _
    have hR : R = [] := List.length_eq_zero.mp (by omega)
    subst hR
    refine ⟨[], List.replicate (L + 1) [], [], [], List.Perm.refl _, by simp,
      hG0 _, by simp [ceilDiv_zero hcap],
      loopStarts_nil _ _ _ (by simp), ?_⟩
    rw [appendLevels_replicate_nil]
    simp [buildSlices]
  | succ n ih =>
    intro A R C levels box0 k0 hn hH hdivN hle
    by_cases hR : R = []
    · subst hR
      refine ⟨[], List.replicate (L + 1) [], [], [], List.Perm.refl _, by simp,
        hG0 _, by simp [ceilDiv_zero hcap],
        loopStarts_nil _ _ _ (by simp), ?_⟩
      rw [appendLevels_replicate_nil]
      simp [buildSlices]
    · have hpos : 0 < R.length := List.length_pos.mpr hR
      obtain ⟨m, hmdef⟩ : ∃ m, m = min (cap * s) R.length := ⟨_, rfl⟩
      have hm1 : 1 ≤ m := by omega
      have hmle : m ≤ R.length := by omega
      have hSlen : (R.take m).length = m := by simp; omega
      have hDlen : (R.drop m).length = R.length - m := List.length_drop _ _
      have hsplit : A ++ R ++ C = A ++ R.take m ++ (R.drop m ++ C) := by
        conv_lhs => rw [← List.take_append_drop m R]
        simp only [List.append_assoc]
      -- the slice is sorted by Y
      obtain ⟨S1, hperm1, hsort⟩ := OMTBuilder.repr_sortRange buckets hbk count A (R.take m)
        (R.drop m ++ C) levels 1 cap
      rw [hSlen] at hsort
      have hS1len : S1.length = m := by rw [hperm1.length_eq, hSlen]
      -- its children
      have hdiv1 : cap ∣ S1.length ∨ R.drop m = [] := by
        rcases Nat.lt_or_ge R.length (cap * s) with h | h
        · right
          apply List.length_eq_zero.mp
          rw [hDlen]; omega
        · left
          rw [hS1len, show m = cap * s by omega]
          exact Dvd.intro _ rfl
      have hlenSD : S1.length + (R.drop m).length = R.length := by rw [hS1len, hDlen]; omega
      obtain ⟨S2, news1, tops1, starts1, hperm2, hlen1, hstack1, htops1, hstarts1, hrun1⟩ :=
        buildChildren_over G hG0 hGapp Pre recur L H hrec hLH cap hcap N hfit count S1.length A S1 (R.drop m) C
          levels box0 k0 (le_refl _) hH hdiv1 (by intro _; rw [hlenSD]; exact hdivN hR)
          (by rw [hlenSD]; exact hle)
      have hS2len : S2.length = m := by rw [hperm2.length_eq, hS1len]
      -- the remaining slices
      have hlen' : (appendLevels levels news1).length = H := by
        rw [appendLevels_length _ _ (by omega), hH]
      have hdivN' : R.drop m ≠ [] → cap ∣ (N - (R.drop m).length) := by
        intro hne
        have hl : 0 < (R.drop m).length := List.length_pos.mpr hne
        rw [hDlen] at hl ⊢
        have hmc : m = cap * s := by omega
        have h1 := hdivN hR
        have : N - (R.length - m) = N - R.length + cap * s := by omega
        rw [this]
        exact Dvd.dvd.add h1 (Dvd.intro _ rfl)
      obtain ⟨Rr, news2, tops2, starts2, hpermR, hlen2, hstack2, htops2, hstarts2, hrun2⟩ :=
        ih (A ++ S2) (R.drop m) C (appendLevels levels news1)
          (tops1.foldl (fun a b => a.extend b.minX b.minY b.maxX b.maxY) box0)
          (k0 + tops1.length)
          (by rw [hDlen]; omega) hlen' hdivN' (by rw [hDlen]; omega)
      obtain ⟨rest, hrest1, hrest2⟩ := loopStarts_cons A.length (A.length + R.length) (cap * s)
        (by omega) hsc
      have hAS : (A ++ S2).length = A.length + m := by simp [hS2len]
      have hAR : (A ++ S2).length + (R.drop m).length = A.length + R.length := by
        rw [hAS, hDlen]; omega
      have hrest : rest = starts2 := by
        rw [hAR, hAS] at hstarts2
        rcases Nat.lt_or_ge R.length (cap * s) with h | h
        · have hmR : m = R.length := by omega
          rw [hmR, loopStarts_nil _ _ _ (le_refl _)] at hstarts2
          rw [loopStarts_nil _ _ _ (by omega)] at hrest1
          rw [← Option.some.injEq, ← hrest1, ← hstarts2]
        · have hmc : m = cap * s := by omega
          rw [hmc] at hstarts2
          rw [← Option.some.injEq, ← hrest1, ← hstarts2]
      subst hrest
      refine ⟨S2 ++ Rr, appendLevels news1 news2, tops1 ++ tops2,
        A.length :: rest, ?_, ?_, ?_, ?_, hrest2, ?_⟩
      · have := List.Perm.append (hperm2.trans hperm1) hpermR
        rwa [List.take_append_drop] at this
      · rw [appendLevels_length_eq _ _ (by omega)]; omega
      · rw [List.map_append]
        exact hGapp _ _ _ _ tops1 tops2 (by omega) hstack1 hstack2
      · rw [List.length_append, htops1, htops2, hS1len, hDlen]
        rcases Nat.lt_or_ge R.length (cap * s) with h | h
        · have hmR : m = R.length := by omega
          rw [hmR, Nat.sub_self, ceilDiv_zero hcap]; rfl
        · have hmc : m = cap * s := by omega
          rw [hmc]
          have h1 := ceilDiv_add_mul (R.length - cap * s) cap s hcap
          have h2 := ceilDiv_add_mul 0 cap s hcap
          rw [ceilDiv_zero hcap] at h2
          rw [show cap * s + (R.length - cap * s) = R.length by omega] at h1
          simp only [Nat.add_zero] at h2
          omega
      · have hce : (if A.length + cap * s > A.length + R.length then
            A.length + R.length else A.length + cap * s) = A.length + m := by
          by_cases hc : A.length + cap * s > A.length + R.length
          · simp only [hc, if_true]; omega
          · simp only [hc, if_false]; omega
        simp only [buildSlices, hce]
        rw [hsplit, hsort]
        simp only
        have hst : loopStarts A.length (A.length + m) cap = some starts1 := by
          rw [← hS1len]; exact hstarts1
        rw [hst]
        simp only
        have hassoc1 : A ++ S1 ++ (R.drop m ++ C) = A ++ S1 ++ R.drop m ++ C := by
          simp only [List.append_assoc]
        have hend : A.length + R.length = A.length + S1.length + (R.drop m).length := by
          omega
        rw [hassoc1]
        conv_lhs => rw [hend]
        rw [hrun1]
        simp only
        have hassoc2 : A ++ S2 ++ R.drop m ++ C = (A ++ S2) ++ R.drop m ++ C := by
          simp only [List.append_assoc]
        rw [show A.length + S1.length + (R.drop m).length =
          (A ++ S2).length + (R.drop m).length by rw [hAR]; omega]
        rw [hrun2]
        simp only [Option.some.injEq, BuildState.mk.injEq, List.foldl_append, List.length_append,
          true_and]
        refine ⟨?_, by omega⟩
        rw [appendLevels_assoc _ _ _ (by omega)]
        simp only [List.append_assoc]

theorem Forest.emptyLevels (k : Nat) : Forest 0 0 (List.replicate k []) 0 := by
  induction k with
  | zero => exact ⟨rfl, rfl⟩
  | succ k ih => exact ⟨0, le_refl _, rfl, ih⟩

theorem Forest.appendLevels : ∀ (n₁ n₂ : List (List Interior)) (p₁ p₂ m₁ m₂ t₁ t₂ : Nat),
    n₁.length = n₂.length → Forest p₁ m₁ n₁ t₁ → Forest p₂ m₂ n₂ t₂ →
    Forest (p₁ + p₂) (m₁ + m₂) (appendLevels n₁ n₂) (t₁ + t₂) := by
  intro n₁
  induction n₁ with
  | nil =>
    intro n₂ p₁ p₂ m₁ m₂ t₁ t₂ hlen h1 h2
    cases n₂ with
    | nil =>
      obtain ⟨a1, a2⟩ := h1
      obtain ⟨b1, b2⟩ := h2
      subst a1 a2 b1 b2
      exact ⟨rfl, rfl⟩
    | cons b n₂ => simp at hlen
  | cons a n₁ ih =>
    intro n₂ p₁ p₂ m₁ m₂ t₁ t₂ hlen h1 h2
    cases n₂ with
    | nil => simp at hlen
    | cons b n₂ =>
      obtain ⟨x1, hx1, hs1, hr1⟩ := h1
      obtain ⟨x2, hx2, hs2, hr2⟩ := h2
      refine ⟨x1 + x2, by omega, ?_, ?_⟩
      · rw [List.map_append, List.sum_append, hs1, hs2]
        omega
      · have := ih n₂ _ _ _ _ t₁ t₂ (by simpa using hlen) hr1 hr2
        rw [List.length_append, show m₁ + m₂ - (x1 + x2) = (m₁ - x1) + (m₂ - x2) by omega]
        exact this

theorem Forest.snocForest : ∀ (news : List (List Interior)) (p m t : Nat) (x : Interior),
    Forest p m news t → x.size = t → Forest p m (news ++ [[x]]) 1 := by
  intro news
  induction news with
  | nil =>
    intro p m t x h hx
    obtain ⟨h1, h2⟩ := h
    subst h1 h2
    exact ⟨0, le_refl _, by simp [hx], ⟨rfl, rfl⟩⟩
  | cons a news ih =>
    intro p m t x h hx
    obtain ⟨y, hy, hs, hr⟩ := h
    exact ⟨y, hy, hs, ih _ _ t x hr hx⟩

theorem Forest.leafNode : ∀ (L m : Nat) (x : Interior), x.size = m →
    Forest 0 m (List.replicate L [] ++ [[x]]) 1 := by
  intro L
  induction L with
  | zero =>
    intro m x hx
    exact ⟨m, le_refl _, by simp [hx], ⟨by omega, rfl⟩⟩
  | succ L ih =>
    intro m x hx
    exact ⟨0, Nat.zero_le _, rfl, ih m x hx⟩

theorem mem_appendLevels : ∀ (n₁ n₂ : List (List Interior)), n₁.length = n₂.length →
    ∀ l ∈ appendLevels n₁ n₂, ∀ x ∈ l, (∃ l₁ ∈ n₁, x ∈ l₁) ∨ (∃ l₂ ∈ n₂, x ∈ l₂) := by
  intro n₁
  induction n₁ with
  | nil =>
    intro n₂ hlen l hl
    cases n₂ with
    | nil => simp [appendLevels] at hl
    | cons b n₂ => simp at hlen
  | cons a n₁ ih =>
    intro n₂ hlen l hl x hx
    cases n₂ with
    | nil => simp at hlen
    | cons b n₂ =>
      simp only [appendLevels, List.mem_cons] at hl
      rcases hl with rfl | hl
      · rcases List.mem_append.mp hx with h | h
        · exact Or.inl ⟨a, List.mem_cons_self _ _, h⟩
        · exact Or.inr ⟨b, List.mem_cons_self _ _, h⟩
      · rcases ih n₂ (by simpa using hlen) l hl x hx with ⟨l₁, h1, h2⟩ | ⟨l₂, h1, h2⟩
        · exact Or.inl ⟨l₁, List.mem_cons_of_mem _ h1, h2⟩
        · exact Or.inr ⟨l₂, List.mem_cons_of_mem _ h1, h2⟩

theorem BuiltOver.emptyBuilt (k : Nat) : BuiltOver [] (List.replicate k []) [] := by
  refine ⟨Forest.emptyLevels k, fun _ => ⟨?_, ?_⟩⟩
  · intro l hl n hn
    rw [List.eq_of_mem_replicate hl] at hn
    cases hn
  · intro b hb
    cases hb

theorem BuiltOver.appendBuilt (n₁ n₂ : List (List Interior)) (p₁ p₂ t₁ t₂ : List Box)
    (hlen : n₁.length = n₂.length) (h1 : BuiltOver p₁ n₁ t₁) (h2 : BuiltOver p₂ n₂ t₂) :
    BuiltOver (p₁ ++ p₂) (appendLevels n₁ n₂) (t₁ ++ t₂) := by
  obtain ⟨f1, v1⟩ := h1
  obtain ⟨f2, v2⟩ := h2
  refine ⟨?_, ?_⟩
  · have := Forest.appendLevels n₁ n₂ 0 0 _ _ _ _ hlen f1 f2
    rw [List.length_append, List.length_append]
    exact this
  · intro hv
    obtain ⟨a1, b1⟩ := v1 (fun b hb => hv b (List.mem_append_left _ hb))
    obtain ⟨a2, b2⟩ := v2 (fun b hb => hv b (List.mem_append_right _ hb))
    refine ⟨?_, ?_⟩
    · intro l hl n hn
      rcases mem_appendLevels n₁ n₂ hlen l hl n hn with ⟨l₁, h1, h2⟩ | ⟨l₂, h1, h2⟩
      · exact a1 l₁ h1 n h2
      · exact a2 l₂ h1 n h2
    · intro b hb
      rcases List.mem_append.mp hb with h | h
      · exact b1 b h
      · exact b2 b h

theorem BuiltOver.leafBuilt (L : Nat) (prev : List Box) (hne : prev ≠ []) :
    BuiltOver prev (List.replicate L [] ++ [[⟨prev.length, mbr prev⟩]]) [mbr prev] := by
  refine ⟨Forest.leafNode L prev.length _ rfl, ?_⟩
  intro hv
  have hm := mbr_valid prev hne hv
  refine ⟨?_, ?_⟩
  · intro l hl n hn
    rcases List.mem_append.mp hl with h | h
    · rw [List.eq_of_mem_replicate h] at hn
      cases hn
    · rw [List.mem_singleton] at h
      subst h
      rw [List.mem_singleton] at hn
      subst hn
      exact hm
  · intro b hb
    rw [List.mem_singleton] at hb
    subst hb
    exact hm

theorem BuiltOver.snocBuilt (prev : List Box) (news : List (List Interior)) (tops : List Box)
    (h : BuiltOver prev news tops) (hne : tops ≠ []) :
    BuiltOver prev (news ++ [[⟨tops.length, mbr tops⟩]]) [mbr tops] := by
  obtain ⟨f, v⟩ := h
  refine ⟨Forest.snocForest news 0 _ _ _ f rfl, ?_⟩
  intro hv
  obtain ⟨a, b⟩ := v hv
  have hm := mbr_valid tops hne b
  refine ⟨?_, ?_⟩
  · intro l hl n hn
    rcases List.mem_append.mp hl with h | h
    · exact a l h n hn
    · rw [List.mem_singleton] at h
      subst h
      rw [List.mem_singleton] at hn
      subst hn
      exact hm
  · intro b hb
    rw [List.mem_singleton] at hb
    subst hb
    exact hm

theorem OMTBuilder.build_over (buckets : Nat → List F64 → Nat → List (Nat × Nat))
    (hbk : BucketsInRange buckets) (d : Nat) (hd : 2 ≤ d) (H : Nat) :
    ∀ L, L < H → RecurOver BuiltOver (fun n => 1 ≤ n) (OMTBuilder.build buckets d L) L H := by
  have hleaf : ∀ (L : Nat) (recur : Nat → Nat → OMTBuilder → Option (OMTBuilder × Box)),
      L < H → ∀ (count : Nat) (A S C : List Item) (levels : List (List Interior)),
      levels.length = H → 1 ≤ S.length → S.length ≤ ceilDiv S.length (d ^ L) →
      ∃ (S' : List Item) (news : List (List Interior)) (root : Interior),
        S'.Perm S ∧ news.length = L ∧
        BuiltOver (S'.map Item.box) (news ++ [[root]]) [root.box] ∧
        OMTBuilder.buildBody buckets d L recur A.length (A.length + S.length)
            (OMTBuilder.repr count (A ++ S ++ C) levels) =
          some (OMTBuilder.repr count (A ++ S' ++ C) (appendLevels levels (news ++ [[root]])),
            root.box) := by
    intro L recur hLH count A S C levels hH h1 hc
    have hne : S.map Item.box ≠ [] := by
      intro h
      rw [List.map_eq_nil_iff] at h
      rw [h] at h1
      simp at h1
    refine ⟨S, List.replicate L [], ⟨S.length, mbr (S.map Item.box)⟩, List.Perm.refl _,
      by simp, ?_, ?_⟩
    · have := BuiltOver.leafBuilt L (S.map Item.box) hne
      simpa using this
    · have hlb := OMTBuilder.repr_leafBounds count A S C levels [] S Box.empty rfl
      simp only [List.length_nil, Nat.add_zero] at hlb
      simp only [OMTBuilder.buildBody, Nat.add_sub_cancel_left]
      simp only [hc, if_true, hlb]
      rw [OMTBuilder.repr_addNode _ _ _ _ _ _ (by omega)]
      rfl
  intro L
  induction L with
  | zero =>
    intro hLH count A S C levels hH h1
    exact hleaf 0 _ hLH count A S C levels hH h1 (by simp [ceilDiv])
  | succ L ih =>
    intro hLH count A S C levels hH h1
    have hrec := ih (by omega)
    by_cases hc0 : S.length ≤ ceilDiv S.length (d ^ (L + 1))
    · exact hleaf (L + 1) _ hLH count A S C levels hH h1 hc0
    · have hN1 : 1 ≤ S.length := h1
      obtain ⟨c, hc⟩ : ∃ c, c = ceilDiv S.length (d ^ (L + 1)) := ⟨_, rfl⟩
      rw [← hc] at hc0
      have hc1 : 1 ≤ c := by
        rw [hc]
        exact ceilDiv_pos (Nat.one_le_pow _ _ (by omega)) hN1
      obtain ⟨cap, hcap⟩ : ∃ cap, cap = ceilDiv S.length c := ⟨_, rfl⟩
      have hcap1 : 1 ≤ cap := by rw [hcap]; exact ceilDiv_pos hc1 hN1
      have hs1 := ceilSqrt_pos c hc1
      obtain ⟨S1, hperm1, hsort⟩ := OMTBuilder.repr_sortRange buckets hbk count A S C levels 0
        (cap * ceilSqrt c)
      have hS1len : S1.length = S.length := hperm1.length_eq
      obtain ⟨S2, news, tops, starts, hperm2, hlen, hstack, htops, hstarts, hrun⟩ :=
        buildSlices_over buckets hbk BuiltOver BuiltOver.emptyBuilt BuiltOver.appendBuilt
          (fun n => 1 ≤ n) (OMTBuilder.build buckets d L) L H hrec (by omega) cap
          (ceilSqrt c) hcap1 hs1 S.length (fun r hr _ _ => by
            show 1 ≤ min cap r
            omega) count S1.length A S1 C levels Box.empty 0
          (le_refl _) hH (by intro _; rw [hS1len, Nat.sub_self]; exact dvd_zero _)
          (by omega)
      rw [hS1len] at hstarts hrun htops
      have htop1 : 1 ≤ tops.length := by rw [htops]; exact ceilDiv_pos hcap1 hN1
      have htne : tops ≠ [] := by
        intro h
        rw [h] at htop1
        simp at htop1
      refine ⟨S2, news, ⟨tops.length, mbr tops⟩, hperm2.trans hperm1, hlen, ?_, ?_⟩
      · exact BuiltOver.snocBuilt _ news tops hstack htne
      · simp only [OMTBuilder.build, OMTBuilder.buildBody, Nat.add_sub_cancel_left, ← hc, ← hcap]
        simp only [hc0, if_false, hsort, hstarts, hrun, Nat.zero_add]
        rw [OMTBuilder.repr_addNode _ _ _ _ _ _
          (by rw [appendLevels_length _ _ (by omega)]; omega)]
        rw [← hlen, appendLevels_snoc]
        rfl

theorem sum_take_size_le (l : List Interior) (k : Nat) :
    ((l.take k).map Interior.size).sum ≤ (l.map Interior.size).sum := by
  conv_rhs => rw [← List.take_append_drop k l]
  rw [List.map_append, List.sum_append]
  omega

theorem Forest.no_nodes : ∀ (levels : List (List Interior)) (p n t : Nat),
    Forest p n levels t → levels.flatten = [] → t = p := by
  intro levels
  induction levels with
  | nil =>
    intro p n t h _
    exact h.2
  | cons l rest ih =>
    intro p n t h hnil
    obtain ⟨a, ha, hs, hr⟩ := h
    rw [List.flatten_cons, List.append_eq_nil] at hnil
    obtain ⟨hl, hrest⟩ := hnil
    subst hl
    have := ih _ _ _ hr hrest
    simp only [List.map_nil, List.sum_nil, List.length_nil] at hs this
    omega

theorem Forest.bounds : ∀ (levels : List (List Interior)) (p n t : Nat),
    Forest p n levels t →
    (levels.flatten.map Interior.size).sum + t = n + p + levels.flatten.length ∧
    ∀ j, j < levels.flatten.length → childStart levels.flatten (j + 1) ≤ n + p + j := by
  intro levels
  induction levels with
  | nil =>
    intro p n t h
    obtain ⟨h1, h2⟩ := h
    subst h1 h2
    refine ⟨by simp, ?_⟩
    intro j hj
    simp at hj
  | cons l rest ih =>
    intro p n t h
    obtain ⟨a, ha, hs, hr⟩ := h
    obtain ⟨e1, e2⟩ := ih _ _ _ hr
    refine ⟨?_, ?_⟩
    · rw [List.flatten_cons, List.map_append, List.sum_append, List.length_append, hs]
      omega
    · intro j hj
      rw [List.flatten_cons, List.length_append] at hj
      unfold childStart
      rw [List.flatten_cons]
      rcases Nat.lt_or_ge j l.length with hlt | hge
      · rw [List.take_append_of_le_length (by omega)]
        have := sum_take_size_le l (j + 1)
        omega
      · obtain ⟨i, hi⟩ : ∃ i, j = l.length + i := ⟨j - l.length, by omega⟩
        subst hi
        rw [show l.length + i + 1 = l.length + (i + 1) by omega, List.take_append,
          List.map_append, List.sum_append, hs]
        have := e2 i (by omega)
        unfold childStart at this
        omega

theorem Forest.wf (items : List Item) (levels : List (List Interior))
    (h : Forest 0 items.length levels 1) : (⟨items, levels.flatten⟩ : Layout).WF := by
  obtain ⟨e1, e2⟩ := Forest.bounds levels 0 items.length 1 h
  refine ⟨?_, ?_, ?_⟩
  · intro hnil
    have := Forest.no_nodes levels 0 items.length 1 h hnil
    omega
  · intro j hj
    have := e2 j hj
    simpa using this
  · show childStart levels.flatten levels.flatten.length + 1 = items.length + levels.flatten.length
    unfold childStart
    rw [List.take_length]
    omega

theorem OMTBuilder.Finish_over (buckets : Nat → List F64 → Nat → List (Nat × Nat))
    (hbk : BucketsInRange buckets) (logCeil : Nat → Int → Int)
    (items : List Item) (hne : items ≠ []) (degree : Int) (hd : 2 ≤ degree) :
    ∃ (ly : Layout) (b' : OMTBuilder),
      (NewOMTBuilder.addAll items).Finish buckets logCeil degree = some (.ok ly.tree, b') ∧
      ly.leaves.Perm items ∧ ly.WF ∧
      ((∀ it ∈ items, it.box.Valid) → ∀ b ∈ ly.allBoxes, b.Valid) := by
  have hpos : 0 < items.length := List.length_pos.mpr hne
  have hd' : 2 ≤ degree.toNat := by omega
  obtain ⟨H, hH⟩ : ∃ H, H = (max (logCeil items.length degree) 1).toNat := ⟨_, rfl⟩
  have hH1 : 1 ≤ H := by
    rw [hH]
    have := le_max_right (logCeil items.length degree) 1
    omega
  have hspec := OMTBuilder.build_over buckets hbk degree.toNat hd' H (H - 1) (by omega)
  obtain ⟨S', news, root, hperm, hlen, hbuilt, hrun⟩ :=
    hspec items.length [] items [] (List.replicate H []) (by simp) hpos
  simp only [List.length_nil, Nat.zero_add, List.nil_append, List.append_nil] at hrun
  have hlv : appendLevels (List.replicate H []) (news ++ [[root]]) = news ++ [[root]] := by
    have := appendLevels_replicate_left (news ++ [[root]])
    rw [List.length_append, hlen] at this
    simp only [List.length_singleton] at this
    rwa [show H - 1 + 1 = H by omega] at this
  rw [hlv] at hrun
  obtain ⟨hforest, hvalid⟩ := hbuilt
  rw [List.length_map, hperm.length_eq] at hforest
  have hwf : (⟨S', (news ++ [[root]]).flatten⟩ : Layout).WF := by
    apply Forest.wf
    rw [hperm.length_eq]
    exact hforest
  refine ⟨⟨S', (news ++ [[root]]).flatten⟩,
    { OMTBuilder.repr items.length S' (news ++ [[root]]) with
      refs := (Layout.tree ⟨S', (news ++ [[root]]).flatten⟩).refs
      boxes := (Layout.tree ⟨S', (news ++ [[root]]).flatten⟩).boxes },
    ?_, hperm, hwf, ?_⟩
  · rw [OMTBuilder.Finish_run buckets logCeil items hne degree hd H hH, hrun]
    simp only
    rw [OMTBuilder.repr_pack]
    simp only [OMTBuilder.repr, Layout.tree, Option.some.injEq, Prod.mk.injEq,
      Except.ok.injEq, RTree.mk.injEq, true_and, and_true]
    exact hperm.length_eq.symm
  · intro hv
    have hv' : ∀ b ∈ S'.map Item.box, b.Valid := by
      intro b hb
      obtain ⟨it, hit, rfl⟩ := List.mem_map.mp hb
      exact hv it (hperm.subset hit)
    obtain ⟨hn, _⟩ := hvalid hv'
    intro b hb
    unfold Layout.allBoxes at hb
    rcases List.mem_append.mp hb with hb | hb
    · exact hv' b hb
    · obtain ⟨n, hnmem, rfl⟩ := List.mem_map.mp hb
      obtain ⟨l, hl, hnl⟩ := List.mem_flatten.mp hnmem
      exact hn l hl n hnl

theorem OMTBuilder.Finish_neighbors_omt {Q : Type} (fq : FlatQueue Q)
    (entries : Q → Multiset (Int × F64)) (hl : fq.Lawful entries)
    (buckets : Nat → List F64 → Nat → List (Nat × Nat)) (hbk : BucketsInRange buckets)
    (items : List Item) (degree : Int) (hd : 2 ≤ degree)
    (x y : F64) (boxDist : F64 → F64 → F64 → F64 → F64 → F64 → F64)
    (itemDist : Option (F64 → F64 → Int → F64)) :
    ∃ (tree : RTree) (b' : OMTBuilder) (out : List (Int × F64)),
      (NewOMTBuilder.addAll items).Finish buckets exactLogCeil degree = some (.ok tree, b') ∧
      out.Perm (items.map fun it => (it.ref, itemDistance x y boxDist itemDist it)) ∧
      ((∀ it ∈ items, it.box.Valid) →
        (∀ A B : Box, A.Valid → B.Valid → A.Contains B →
          boxDist x y A.minX A.minY A.maxX A.maxY ≤ boxDist x y B.minX B.minY B.maxX B.maxY) →
        (∀ f, itemDist = some f → ∀ it ∈ items,
          boxDist x y it.box.minX it.box.minY it.box.maxX it.box.maxY ≤ f x y it.ref) →
        out.Pairwise (fun a b => a.2 ≤ b.2)) ∧
      ∀ (fuel : Nat), tree.refs.length ≤ fuel →
        ∀ {σ : Type} (iterf : Int → F64 → σ → Bool × σ) (s : σ),
          tree.Neighbors fq x y iterf boxDist itemDist fuel s =
            some (feed (pairCallback iterf) out s).2 := by
  by_cases hne : items = []
  · subst hne
    refine ⟨⟨0, [], []⟩, NewOMTBuilder, [], OMTBuilder.Finish_empty_omt buckets exactLogCeil degree hd,
      by simp, fun _ _ _ => List.Pairwise.nil, ?_⟩
    intro fuel _ σ iterf s
    simp [RTree.Neighbors, feed]
  · obtain ⟨ly, b', hfin, hperm, hwf, hpart⟩ :=
      OMTBuilder.Finish_layout_omt buckets hbk items hne degree hd
    obtain ⟨out, hp, hsorted, hrun⟩ := Neighbors_layout_sorted fq entries hl ly hwf _ hpart
      (fun n kids h => ⟨h.1, h.2.1, h.2.2.1⟩) x y boxDist itemDist
    refine ⟨ly.tree, b', out, hfin, hp.trans (perm_map_pairs hperm _), ?_, hrun⟩
    intro hv hmono hitem
    exact hsorted (fun it hit => hv it (hperm.subset hit)) hmono
      (fun f hf it hit => hitem f hf it (hperm.subset hit))

theorem OMTBuilder.Finish_neighbors_over {Q : Type} (fq : FlatQueue Q)
    (entries : Q → Multiset (Int × F64)) (hl : fq.Lawful entries)
    (buckets : Nat → List F64 → Nat → List (Nat × Nat)) (hbk : BucketsInRange buckets)
    (logCeil : Nat → Int → Int)
    (items : List Item) (degree : Int) (hd : 2 ≤ degree)
    (x y : F64) (boxDist : F64 → F64 → F64 → F64 → F64 → F64 → F64)
    (itemDist : Option (F64 → F64 → Int → F64)) :
    ∃ (tree : RTree) (b' : OMTBuilder) (out : List (Int × F64)),
      (NewOMTBuilder.addAll items).Finish buckets logCeil degree = some (.ok tree, b') ∧
      out.Perm (items.map fun it => (it.ref, itemDistance x y boxDist itemDist it)) ∧
      ∀ (fuel : Nat), tree.refs.length ≤ fuel →
        ∀ {σ : Type} (iterf : Int → F64 → σ → Bool × σ) (s : σ),
          tree.Neighbors fq x y iterf boxDist itemDist fuel s =
            some (feed (pairCallback iterf) out s).2 := by
  by_cases hne : items = []
  · subst hne
    refine ⟨⟨0, [], []⟩, NewOMTBuilder, [], OMTBuilder.Finish_empty_omt buckets logCeil degree hd,
      by simp, ?_⟩
    intro fuel _ σ iterf s
    simp [RTree.Neighbors, feed]
  · obtain ⟨ly, b', hfin, hperm, hwf, _⟩ :=
      OMTBuilder.Finish_over buckets hbk logCeil items hne degree hd
    obtain ⟨out, hp, _, hrun⟩ := Neighbors_layout_all fq entries hl ly hwf x y boxDist itemDist
    exact ⟨ly.tree, b', out, hfin, hp.trans (perm_map_pairs hperm _), hrun⟩

/-- C3: for every tree the Hilbert builder returns for valid items, every
query point, every `boxDist` that is monotone under containment of valid
boxes and every optional `itemDist` that is at least the `boxDist` of the
item's own box, `Neighbors` ends (given fuel for the nodes of the tree) and
the (ref, dist) pairs it hands to the callback, whatever the callback, are fed
from one list `out` whose distances are non-decreasing; a callback that never
stops receives all of `out`. -/
theorem hilbert_neighbors_nondecreasing {Q : Type} (fq : FlatQueue Q)
    (entries : Q → Multiset (Int × F64)) (hl : fq.Lawful entries)
    (sorter : List Nat → List (Nat × Nat))
    (hs : ∀ vals, SwapsInRange (sorter vals) vals.length)
    (items : List Item) (hv : ∀ it ∈ items, it.box.Valid) (degree : Int) (hd : 2 ≤ degree)
    (x y : F64) (boxDist : F64 → F64 → F64 → F64 → F64 → F64 → F64)
    (itemDist : Option (F64 → F64 → Int → F64))
    (hmono : ∀ A B : Box, A.Valid → B.Valid → A.Contains B →
      boxDist x y A.minX A.minY A.maxX A.maxY ≤ boxDist x y B.minX B.minY B.maxX B.maxY)
    (hitem : ∀ f, itemDist = some f → ∀ it ∈ items,
      boxDist x y it.box.minX it.box.minY it.box.maxX it.box.maxY ≤ f x y it.ref) :
    ∃ (tree : RTree) (b' : HilbertBuilder) (out : List (Int × F64)),
      (NewHilbertBuilder.addAll items).Finish sorter degree = some (.ok tree, b') ∧
      out.Pairwise (fun a b => a.2 ≤ b.2) ∧
      ∀ (fuel : Nat), tree.refs.length ≤ fuel →
        tree.Neighbors fq x y collectDist boxDist itemDist fuel [] = some out ∧
        ∀ {σ : Type} (iterf : Int → F64 → σ → Bool × σ) (s : σ),
          tree.Neighbors fq x y iterf boxDist itemDist fuel s =
            some (feed (pairCallback iterf) out s).2 := by
  obtain ⟨tree, b', out, hfin, _, hsorted, hrun⟩ := HilbertBuilder.Finish_neighbors fq entries hl
    sorter hs items degree hd x y boxDist itemDist
  refine ⟨tree, b', out, hfin, hsorted hv hmono hitem, ?_⟩
  intro fuel hfuel
  refine ⟨?_, fun iterf s => hrun fuel hfuel iterf s⟩
  rw [hrun fuel hfuel collectDist [], feed_collectDist]
  rfl

theorem hilbert_neighbors_nondecreasing_witness :
    listQueue.Lawful listQueue.entries ∧
    (∀ vals, SwapsInRange (sampleSorter vals) vals.length) ∧
    (∀ it ∈ sampleItems, it.box.Valid) ∧ (2 : Int) ≤ 2 ∧
    ∃ (tree : RTree) (b' : HilbertBuilder) (out : List (Int × F64)),
      (NewHilbertBuilder.addAll sampleItems).Finish sampleSorter 2 = some (.ok tree, b') ∧
      out.Pairwise (fun a b => a.2 ≤ b.2) ∧
      ∀ (fuel : Nat), tree.refs.length ≤ fuel →
        tree.Neighbors listQueue (fin 3) (fin 3) collectDist PlanarBoxDist none fuel [] =
          some out ∧
        ∀ {σ : Type} (iterf : Int → F64 → σ → Bool × σ) (s : σ),
          tree.Neighbors listQueue (fin 3) (fin 3) iterf PlanarBoxDist none fuel s =
            some (feed (pairCallback iterf) out s).2 :=
  ⟨listQueue_lawful, sampleSorter_inRange, sampleItems_valid, le_refl _,
    hilbert_neighbors_nondecreasing listQueue listQueue.entries listQueue_lawful sampleSorter
      sampleSorter_inRange sampleItems sampleItems_valid 2 (le_refl _) (fin 3) (fin 3)
      PlanarBoxDist none (PlanarBoxDist_mono (fin 3) (fin 3)) (fun f hf => by cases hf)⟩

/-- C4: for the tree returned by `Finish` of the Hilbert builder and for the
tree returned by `Finish` of the OMT builder (whatever height `logCeil` the
OMT builder derives from its float64 logarithms), and every `boxDist` and
optional `itemDist` (nothing is assumed of either), `Neighbors` with a
callback that always returns true ends (given fuel for the nodes of the tree)
and the (ref, dist) pairs it has handed to the callback are a permutation of
the input items, each paired with `itemDist(x, y, ref)` when `itemDist` is
supplied and with `boxDist` of the item's own box otherwise. -/
theorem neighbors_exhaustive {Q : Type} (fq : FlatQueue Q)
    (entries : Q → Multiset (Int × F64)) (hl : fq.Lawful entries)
    (sorter : List Nat → List (Nat × Nat))
    (hs : ∀ vals, SwapsInRange (sorter vals) vals.length)
    (buckets : Nat → List F64 → Nat → List (Nat × Nat)) (hbk : BucketsInRange buckets)
    (logCeil : Nat → Int → Int)
    (items : List Item) (degree : Int) (hd : 2 ≤ degree)
    (x y : F64) (boxDist : F64 → F64 → F64 → F64 → F64 → F64 → F64)
    (itemDist : Option (F64 → F64 → Int → F64)) :
    (∃ (tree : RTree) (b' : HilbertBuilder) (out : List (Int × F64)),
      (NewHilbertBuilder.addAll items).Finish sorter degree = some (.ok tree, b') ∧
      (∀ (fuel : Nat), tree.refs.length ≤ fuel →
        tree.Neighbors fq x y collectDist boxDist itemDist fuel [] = some out) ∧
      out.Perm (items.map fun it => (it.ref, itemDistance x y boxDist itemDist it)) ∧
      (out.map Prod.fst).Perm (items.map Item.ref)) ∧
    (∃ (tree : RTree) (b' : OMTBuilder) (out : List (Int × F64)),
      (NewOMTBuilder.addAll items).Finish buckets logCeil degree = some (.ok tree, b') ∧
      (∀ (fuel : Nat), tree.refs.length ≤ fuel →
        tree.Neighbors fq x y collectDist boxDist itemDist fuel [] = some out) ∧
      out.Perm (items.map fun it => (it.ref, itemDistance x y boxDist itemDist it)) ∧
      (out.map Prod.fst).Perm (items.map Item.ref)) := by
  constructor
  · obtain ⟨tree, b', out, hfin, hperm, _, hrun⟩ := HilbertBuilder.Finish_neighbors fq entries hl
      sorter hs items degree hd x y boxDist itemDist
    refine ⟨tree, b', out, hfin, ?_, hperm, ?_⟩
    · intro fuel hfuel
      rw [hrun fuel hfuel collectDist [], feed_collectDist]
      rfl
    · have := hperm.map Prod.fst
      simpa [List.map_map, Function.comp] using this
  · obtain ⟨tree, b', out, hfin, hperm, hrun⟩ := OMTBuilder.Finish_neighbors_over fq entries hl
      buckets hbk logCeil items degree hd x y boxDist itemDist
    refine ⟨tree, b', out, hfin, ?_, hperm, ?_⟩
    · intro fuel hfuel
      rw [hrun fuel hfuel collectDist [], feed_collectDist]
      rfl
    · have := hperm.map Prod.fst
      simpa [List.map_map, Function.comp] using this

theorem neighbors_exhaustive_witness :
    listQueue.Lawful listQueue.entries ∧
    (∀ vals, SwapsInRange (sampleSorter vals) vals.length) ∧
    BucketsInRange sampleBuckets ∧ (2 : Int) ≤ 2 ∧
    (∃ (tree : RTree) (b' : HilbertBuilder) (out : List (Int × F64)),
      (NewHilbertBuilder.addAll sampleItems).Finish sampleSorter 2 = some (.ok tree, b') ∧
      (∀ (fuel : Nat), tree.refs.length ≤ fuel →
        tree.Neighbors listQueue (fin 3) (fin 3) collectDist PlanarBoxDist none fuel [] =
          some out) ∧
      out.Perm (sampleItems.map fun it =>
        (it.ref, itemDistance (fin 3) (fin 3) PlanarBoxDist none it)) ∧
      (out.map Prod.fst).Perm (sampleItems.map Item.ref)) ∧
    (∃ (tree : RTree) (b' : OMTBuilder) (out : List (Int × F64)),
      (NewOMTBuilder.addAll sampleItems).Finish sampleBuckets exactLogCeil 2 = some (.ok tree, b') ∧
      (∀ (fuel : Nat), tree.refs.length ≤ fuel →
        tree.Neighbors listQueue (fin 3) (fin 3) collectDist PlanarBoxDist none fuel [] =
          some out) ∧
      out.Perm (sampleItems.map fun it =>
        (it.ref, itemDistance (fin 3) (fin 3) PlanarBoxDist none it)) ∧
      (out.map Prod.fst).Perm (sampleItems.map Item.ref)) :=
  ⟨listQueue_lawful, sampleSorter_inRange, sampleBuckets_inRange, le_refl _,
    neighbors_exhaustive listQueue listQueue.entries listQueue_lawful sampleSorter
      sampleSorter_inRange sampleBuckets sampleBuckets_inRange exactLogCeil sampleItems 2
      (le_refl _)
      (fin 3) (fin 3) PlanarBoxDist none⟩

theorem feed_threshold (D : F64) (out : List (Int × F64))
    (hsorted : out.Pairwise (fun a b => a.2 ≤ b.2)) (s : List (Int × F64)) :
    (feed (pairCallback (thresholdCallback D)) out s).2 =
      s ++ out.filter (fun c => decide (c.2 ≤ D)) ++
        (out.filter (fun c => !decide (c.2 ≤ D))).take 1 := by
  induction out generalizing s with
  | nil => simp [feed]
  | cons a rest ih =>
    obtain ⟨ha, hrest⟩ := List.pairwise_cons.mp hsorted
    by_cases h : a.2 ≤ D
    · have hcb : pairCallback (thresholdCallback D) a s = (true, s ++ [a]) := by
        simp [pairCallback, thresholdCallback, h]
      simp only [feed, hcb]
      rw [ih hrest]
      simp [List.filter_cons, h]
    · have hcb : pairCallback (thresholdCallback D) a s = (false, s ++ [a]) := by
        simp [pairCallback, thresholdCallback, h]
      simp only [feed, hcb]
      have hnil : rest.filter (fun c => decide (c.2 ≤ D)) = [] := by
        rw [List.filter_eq_nil_iff]
        intro b hb
        have := ha b hb
        simp only [decide_eq_true_eq]
        intro hbD
        exact h (le_trans this hbD)
      simp [List.filter_cons, h, hnil]

/-- C5: for the tree the Hilbert builder returns for valid items, every query
point and every threshold `D`, `Neighbors` with `PlanarBoxDist`, no
`itemDist` and the callback that returns true exactly while `dist <= D` ends,
and its calls are `within ++ over`: `within` has non-decreasing distances, all
`<= D`, and is a permutation of the input items whose `PlanarBoxDist` to the
point is `<= D`; `over` holds at most one call, with distance `> D`. -/
theorem hilbert_neighbors_threshold {Q : Type} (fq : FlatQueue Q)
    (entries : Q → Multiset (Int × F64)) (hl : fq.Lawful entries)
    (sorter : List Nat → List (Nat × Nat))
    (hs : ∀ vals, SwapsInRange (sorter vals) vals.length)
    (items : List Item) (hv : ∀ it ∈ items, it.box.Valid) (degree : Int) (hd : 2 ≤ degree)
    (x y D : F64) :
    ∃ (tree : RTree) (b' : HilbertBuilder) (within over : List (Int × F64)),
      (NewHilbertBuilder.addAll items).Finish sorter degree = some (.ok tree, b') ∧
      (∀ (fuel : Nat), tree.refs.length ≤ fuel →
        tree.Neighbors fq x y (thresholdCallback D) PlanarBoxDist none fuel [] =
          some (within ++ over)) ∧
      within.Perm ((items.map fun it =>
          (it.ref, PlanarBoxDist x y it.box.minX it.box.minY it.box.maxX it.box.maxY)).filter
        (fun c => decide (c.2 ≤ D))) ∧
      within.Pairwise (fun a b => a.2 ≤ b.2) ∧
      (∀ c ∈ within, c.2 ≤ D) ∧
      over.length ≤ 1 ∧ (∀ c ∈ over, D < c.2) := by
  obtain ⟨tree, b', out, hfin, hperm, hsorted, hrun⟩ := HilbertBuilder.Finish_neighbors fq
    entries hl sorter hs items degree hd x y PlanarBoxDist none
  have hso := hsorted hv (PlanarBoxDist_mono x y) (fun f hf => by cases hf)
  refine ⟨tree, b', out.filter (fun c => decide (c.2 ≤ D)),
    (out.filter (fun c => !decide (c.2 ≤ D))).take 1, hfin, ?_, ?_, ?_, ?_, ?_, ?_⟩
  · intro fuel hfuel
    rw [hrun fuel hfuel (thresholdCallback D) [], feed_threshold D out hso]
    simp
  · exact hperm.filter _
  · exact hso.sublist (List.filter_sublist _)
  · intro c hc
    simpa using (List.mem_filter.mp hc).2
  · rw [List.length_take]
    exact Nat.min_le_left _ _
  · intro c hc
    have := (List.mem_filter.mp (List.mem_of_mem_take hc)).2
    simpa using this

theorem hilbert_neighbors_threshold_witness :
    listQueue.Lawful listQueue.entries ∧
    (∀ vals, SwapsInRange (sampleSorter vals) vals.length) ∧
    (∀ it ∈ sampleItems, it.box.Valid) ∧ (2 : Int) ≤ 2 ∧
    ∃ (tree : RTree) (b' : HilbertBuilder) (within over : List (Int × F64)),
      (NewHilbertBuilder.addAll sampleItems).Finish sampleSorter 2 = some (.ok tree, b') ∧
      (∀ (fuel : Nat), tree.refs.length ≤ fuel →
        tree.Neighbors listQueue (fin 3) (fin 3) (thresholdCallback (fin 4)) PlanarBoxDist
          none fuel [] = some (within ++ over)) ∧
      within.Perm ((sampleItems.map fun it =>
          (it.ref, PlanarBoxDist (fin 3) (fin 3) it.box.minX it.box.minY it.box.maxX
            it.box.maxY)).filter
        (fun c => decide (c.2 ≤ fin 4))) ∧
      within.Pairwise (fun a b => a.2 ≤ b.2) ∧
      (∀ c ∈ within, c.2 ≤ fin 4) ∧
      over.length ≤ 1 ∧ (∀ c ∈ over, fin 4 < c.2) :=
  ⟨listQueue_lawful, sampleSorter_inRange, sampleItems_valid, le_refl _,
    hilbert_neighbors_threshold listQueue listQueue.entries listQueue_lawful sampleSorter
      sampleSorter_inRange sampleItems sampleItems_valid 2 (le_refl _) (fin 3) (fin 3) (fin 4)⟩

theorem feed_counting (g : Nat → Int → Bool) (K : Nat)
    (hfalse : ∀ ref, g K ref = false) :
    ∀ (hits : List Int) (n : Nat), n ≤ K → K - n < hits.length →
      (∀ i, n ≤ i → i < K → ∀ ref, g i ref = true) →
      feed (countingCallback g) hits n = (false, K + 1) := by
  intro hits
  induction hits with
  | nil => intro n _ h; simp at h
  | cons a rest ih =>
    intro n hn hlen htrue
    by_cases hK : n = K
    · subst hK
      simp [feed, countingCallback, hfalse]
    · have hcb : countingCallback g a n = (true, n + 1) := by
        simp [countingCallback, htrue n (le_refl _) (by omega) a]
      simp only [feed, hcb]
      apply ih (n + 1) (by omega)
      · simp only [List.length_cons] at hlen; omega
      · intro i hi hiK ref
        exact htrue i (by omega) hiK ref

/-- C6: for every well-formed tree in which the box of every interior node
covers the boxes of its children (a well-formed layout with the containment
invariant), every query rectangle and every k >= 1: if at least k items match
the query and the callback answers true to its first k-1 invocations and
false to its k-th, then `Search` ends (given fuel for the depth of the tree)
with the callback invoked exactly k times. -/
theorem search_early_termination (ly : Layout) (hwf : ly.WF) (hcov : ly.Covers)
    (minX minY maxX maxY : F64) (k : Nat) (hk : 1 ≤ k)
    (hmatch : k ≤ (linearScan ly.leaves minX minY maxX maxY).length)
    (g : Nat → Int → Bool) (htrue : ∀ i, i < k - 1 → ∀ ref, g i ref = true)
    (hfalse : ∀ ref, g (k - 1) ref = false) (fuel : Nat) (hfuel : ly.nodes.length ≤ fuel) :
    ly.tree.Search minX minY maxX maxY (countingCallback g) fuel 0 = some k := by
  obtain ⟨hits, hperm, hsearch⟩ := Search_layout ly hwf hcov minX minY maxX maxY
  rw [hsearch (countingCallback g) fuel hfuel 0]
  have hlen : k ≤ hits.length := by rw [hperm.length_eq]; exact hmatch
  rw [feed_counting g (k - 1) hfalse hits 0 (Nat.zero_le _) (by omega)
    (fun i _ hi ref => htrue i hi ref)]
  simp only [Option.some.injEq]
  omega

theorem search_early_termination_witness :
    (hilbertLayout sampleItems 2).WF ∧ (hilbertLayout sampleItems 2).Covers ∧ 1 ≤ 1 ∧
    1 ≤ (linearScan (hilbertLayout sampleItems 2).leaves (fin 0) (fin 0) (fin 1)
      (fin 1)).length ∧
    (hilbertLayout sampleItems 2).nodes.length ≤ 3 ∧
    (hilbertLayout sampleItems 2).tree.Search (fin 0) (fin 0) (fin 1) (fin 1)
      (countingCallback (fun _ _ => false)) 3 0 = some 1 :=
  have hne : sampleItems ≠ [] := by simp [sampleItems]
  have hmatch : 1 ≤ (linearScan (hilbertLayout sampleItems 2).leaves (fin 0) (fin 0) (fin 1)
      (fin 1)).length := by decide
  have hnodes : (hilbertLayout sampleItems 2).nodes.length ≤ 3 := by decide
  ⟨(hilbertLayout_spec sampleItems hne 2 (le_refl _)).1,
    hilbertLayout_covers sampleItems hne 2 (le_refl _), le_refl _, hmatch, hnodes,
    search_early_termination (hilbertLayout sampleItems 2)
      (hilbertLayout_spec sampleItems hne 2 (le_refl _)).1
      (hilbertLayout_covers sampleItems hne 2 (le_refl _)) (fin 0) (fin 0) (fin 1) (fin 1) 1
      (le_refl _) hmatch (fun _ _ => false) (fun i hi => absurd hi (by omega)) (fun _ => rfl)
      3 hnodes⟩

/-- C6, as stated for every tree, fails: in the tree with count 1, refs
`[7, 0, 4]` and boxes `[0, 0, 1, 1, 5, 5, 6, 6]` (one leaf under a root whose
box does not cover it) the item matches the query `(0, 0, 1, 1)`, yet `Search`
stops at the root and returns with the callback invoked 0 times, not 1,
whatever the callback answers and whatever the fuel.  The same happens in the
tree with count 1, refs `[7, 0]` and boxes `[0, 0, 1, 1]`, which has no root:
`Search` takes the leaf for the root and finds no child under it. -/
theorem search_skips_uncovered_leaf :
    (uncoveredLayout.WF ∧ ¬ uncoveredLayout.Covers ∧
      uncoveredLayout.tree =
        ⟨1, [7, 0, 4], [fin 0, fin 0, fin 1, fin 1, fin 5, fin 5, fin 6, fin 6]⟩ ∧
      linearScan uncoveredLayout.leaves (fin 0) (fin 0) (fin 1) (fin 1) = [7] ∧
      ∀ (g : Nat → Int → Bool) (fuel : Nat),
        uncoveredLayout.tree.Search (fin 0) (fin 0) (fin 1) (fin 1) (countingCallback g)
          fuel 0 = some 0) ∧
    (¬ rootlessLayout.WF ∧ rootlessLayout.Covers ∧
      rootlessLayout.tree = ⟨1, [7, 0], [fin 0, fin 0, fin 1, fin 1]⟩ ∧
      linearScan rootlessLayout.leaves (fin 0) (fin 0) (fin 1) (fin 1) = [7] ∧
      ∀ (g : Nat → Int → Bool) (fuel : Nat),
        rootlessLayout.tree.Search (fin 0) (fin 0) (fin 1) (fin 1) (countingCallback g)
          (fuel + 1) 0 = some 0) := by
  have htree : uncoveredLayout.tree =
      ⟨1, [7, 0, 4], [fin 0, fin 0, fin 1, fin 1, fin 5, fin 5, fin 6, fin 6]⟩ := by
    decide
  have htree' : rootlessLayout.tree = ⟨1, [7, 0], [fin 0, fin 0, fin 1, fin 1]⟩ := by
    decide
  refine ⟨⟨⟨by simp [uncoveredLayout], ?_, by decide⟩, ?_, htree, by decide, ?_⟩,
    fun h => h.nonempty rfl, ?_, htree', by decide, ?_⟩
  · intro j hj
    have : j = 0 := by simp [uncoveredLayout] at hj; omega
    subst this
    decide
  · intro h
    have := h 0 ⟨1, ⟨fin 5, fin 5, fin 6, fin 6⟩⟩ rfl 0 ⟨fin 0, fin 0, fin 1, fin 1⟩
      (by decide) (by decide) rfl
    have h5 := (F64.fin_le_fin _ _).mp this.1
    norm_num at h5
  · intro g fuel
    have h15 : (fin 1 : F64) < fin 5 := (F64.fin_lt_fin _ _).mpr (by norm_num)
    rw [htree]
    simp [RTree.Search, RTree.intersects, index, h15]
  · intro j n hn
    simp [rootlessLayout] at hn
  · intro g fuel
    have h10 : ¬ (fin 1 : F64) < fin 0 := by
      rw [F64.fin_lt_fin]; norm_num
    have h01 : ¬ (fin 0 : F64) > fin 1 := by
      show ¬ (fin 1 : F64) < fin 0
      exact h10
    rw [htree']
    simp [RTree.Search, RTree.intersects, index, h10, h01, RTree.search, childIdxs, forChildren]

/-- C7: for a builder (Hilbert or OMT) to which nothing was added and every
degree >= 2 (and every height function `logCeil` of the OMT builder, which
is not consulted), `Finish` returns a tree with `Count() = 0`, and on that tree
`Search` (every rectangle) and `Neighbors` (every point, metric and queue)
return at once, whatever the fuel, with the state of the callback unchanged:
the callback is never invoked. -/
theorem empty_builder_finish (sorter : List Nat → List (Nat × Nat))
    (buckets : Nat → List F64 → Nat → List (Nat × Nat)) (logCeil : Nat → Int → Int)
    (degree : Int) (hd : 2 ≤ degree) :
    (∃ (tree : RTree) (b' : HilbertBuilder),
      NewHilbertBuilder.Finish sorter degree = some (.ok tree, b') ∧ tree.Count = 0 ∧
      (∀ {σ : Type} (iterf : Int → σ → Bool × σ) (minX minY maxX maxY : F64) (fuel : Nat)
        (s : σ), tree.Search minX minY maxX maxY iterf fuel s = some s) ∧
      (∀ {Q σ : Type} (fq : FlatQueue Q) (x y : F64) (iterf : Int → F64 → σ → Bool × σ)
        (boxDist : F64 → F64 → F64 → F64 → F64 → F64 → F64)
        (itemDist : Option (F64 → F64 → Int → F64)) (fuel : Nat) (s : σ),
        tree.Neighbors fq x y iterf boxDist itemDist fuel s = some s)) ∧
    (∃ (tree : RTree) (b' : OMTBuilder),
      NewOMTBuilder.Finish buckets logCeil degree = some (.ok tree, b') ∧ tree.Count = 0 ∧
      (∀ {σ : Type} (iterf : Int → σ → Bool × σ) (minX minY maxX maxY : F64) (fuel : Nat)
        (s : σ), tree.Search minX minY maxX maxY iterf fuel s = some s) ∧
      (∀ {Q σ : Type} (fq : FlatQueue Q) (x y : F64) (iterf : Int → F64 → σ → Bool × σ)
        (boxDist : F64 → F64 → F64 → F64 → F64 → F64 → F64)
        (itemDist : Option (F64 → F64 → Int → F64)) (fuel : Nat) (s : σ),
        tree.Neighbors fq x y iterf boxDist itemDist fuel s = some s)) := by
  constructor
  · refine ⟨⟨0, [], []⟩, NewHilbertBuilder, HilbertBuilder.Finish_empty sorter degree hd, rfl,
      ?_, ?_⟩
    · intro σ iterf minX minY maxX maxY fuel s
      simp [RTree.Search]
    · intro Q σ fq x y iterf boxDist itemDist fuel s
      simp [RTree.Neighbors]
  · refine ⟨⟨0, [], []⟩, NewOMTBuilder, OMTBuilder.Finish_empty_omt buckets logCeil degree hd, rfl,
      ?_, ?_⟩
    · intro σ iterf minX minY maxX maxY fuel s
      simp [RTree.Search]
    · intro Q σ fq x y iterf boxDist itemDist fuel s
      simp [RTree.Neighbors]

theorem empty_builder_finish_witness :
    (2 : Int) ≤ 2 ∧
    (∃ (tree : RTree) (b' : HilbertBuilder),
      NewHilbertBuilder.Finish sampleSorter 2 = some (.ok tree, b') ∧ tree.Count = 0 ∧
      (∀ {σ : Type} (iterf : Int → σ → Bool × σ) (minX minY maxX maxY : F64) (fuel : Nat)
        (s : σ), tree.Search minX minY maxX maxY iterf fuel s = some s) ∧
      (∀ {Q σ : Type} (fq : FlatQueue Q) (x y : F64) (iterf : Int → F64 → σ → Bool × σ)
        (boxDist : F64 → F64 → F64 → F64 → F64 → F64 → F64)
        (itemDist : Option (F64 → F64 → Int → F64)) (fuel : Nat) (s : σ),
        tree.Neighbors fq x y iterf boxDist itemDist fuel s = some s)) ∧
    (∃ (tree : RTree) (b' : OMTBuilder),
      NewOMTBuilder.Finish sampleBuckets exactLogCeil 2 = some (.ok tree, b') ∧ tree.Count = 0 ∧
      (∀ {σ : Type} (iterf : Int → σ → Bool × σ) (minX minY maxX maxY : F64) (fuel : Nat)
        (s : σ), tree.Search minX minY maxX maxY iterf fuel s = some s) ∧
      (∀ {Q σ : Type} (fq : FlatQueue Q) (x y : F64) (iterf : Int → F64 → σ → Bool × σ)
        (boxDist : F64 → F64 → F64 → F64 → F64 → F64 → F64)
        (itemDist : Option (F64 → F64 → Int → F64)) (fuel : Nat) (s : σ),
        tree.Neighbors fq x y iterf boxDist itemDist fuel s = some s)) :=
  ⟨le_refl _, empty_builder_finish sampleSorter sampleBuckets exactLogCeil 2 (le_refl _)⟩

theorem Layout.tree_boxAt (ly : Layout) (k : Nat) (b : Box) (h : ly.allBoxes[k]? = some b) :
    ly.tree.boxAt k = some b := by
  obtain ⟨h0, h1, h2, h3⟩ := flatBoxes_get ly.allBoxes k b h
  have hb : ly.tree.boxes = flatBoxes ly.allBoxes := rfl
  simp only [RTree.boxAt, hb, h0, h1, h2, h3]

theorem Layout.tree_leafEntry (ly : Layout) (k : Nat) (it : Item) (h : ly.leaves[k]? = some it) :
    ly.tree.leafEntry k = some it := by
  have hk := getElem?_lt_length h
  have hr : ly.tree.refs[k]? = some it.ref := by
    simp only [Layout.tree]
    rw [List.getElem?_append_left (by simpa using hk)]
    simp [h]
  simp only [RTree.leafEntry, hr, Layout.tree_boxAt ly k it.box (Layout.allBoxes_leaf ly k it h)]

theorem Layout.tree_leafEntries (ly : Layout) :
    (List.range ly.tree.Count).map ly.tree.leafEntry = ly.leaves.map some := by
  apply List.ext_getElem?
  intro k
  simp only [RTree.Count, Layout.tree_count, List.getElem?_map]
  rcases Nat.lt_or_ge k ly.leaves.length with hk | hk
  · rw [List.getElem?_range hk, List.getElem?_eq_getElem hk]
    simp only [Option.map_some']
    rw [Layout.tree_leafEntry ly k _ (List.getElem?_eq_getElem hk)]
  · rw [List.getElem?_eq_none (by simpa using hk), List.getElem?_eq_none hk]
    rfl

theorem Layout.tree_refs_at (ly : Layout) (j : Nat) (h : j ≤ ly.nodes.length) :
    ly.tree.refs[ly.leaves.length + j]? = some ((4 * childStart ly.nodes j : Nat) : Int) := by
  simp only [Layout.tree]
  rw [List.getElem?_append_right (by simp)]
  simp only [List.length_map, Nat.add_sub_cancel_left]
  rw [List.getElem?_map, List.getElem?_range (by omega)]
  rfl

theorem foldl_extend_attained (bs : List Box) (acc : Box) :
    ((bs.foldl (fun a b => a.extend b.minX b.minY b.maxX b.maxY) acc).minX = acc.minX ∨
      ∃ c ∈ bs, (bs.foldl (fun a b => a.extend b.minX b.minY b.maxX b.maxY) acc).minX = c.minX) ∧
    ((bs.foldl (fun a b => a.extend b.minX b.minY b.maxX b.maxY) acc).minY = acc.minY ∨
      ∃ c ∈ bs, (bs.foldl (fun a b => a.extend b.minX b.minY b.maxX b.maxY) acc).minY = c.minY) ∧
    ((bs.foldl (fun a b => a.extend b.minX b.minY b.maxX b.maxY) acc).maxX = acc.maxX ∨
      ∃ c ∈ bs, (bs.foldl (fun a b => a.extend b.minX b.minY b.maxX b.maxY) acc).maxX = c.maxX) ∧
    ((bs.foldl (fun a b => a.extend b.minX b.minY b.maxX b.maxY) acc).maxY = acc.maxY ∨
      ∃ c ∈ bs, (bs.foldl (fun a b => a.extend b.minX b.minY b.maxX b.maxY) acc).maxY = c.maxY) := by
  induction bs generalizing acc with
  | nil => simp
  | cons b bs ih =>
    obtain ⟨h1, h2, h3, h4⟩ := ih (acc.extend b.minX b.minY b.maxX b.maxY)
    simp only [List.foldl_cons, List.mem_cons, exists_eq_or_imp]
    refine ⟨?_, ?_, ?_, ?_⟩
    · rcases h1 with h | ⟨c, hc, h⟩
      · rw [h]
        simp only [Box.extend]
        rcases min_choice acc.minX b.minX with hm | hm
        · exact Or.inl hm
        · exact Or.inr (Or.inl hm)
      · exact Or.inr (Or.inr ⟨c, hc, h⟩)
    · rcases h2 with h | ⟨c, hc, h⟩
      · rw [h]
        simp only [Box.extend]
        rcases min_choice acc.minY b.minY with hm | hm
        · exact Or.inl hm
        · exact Or.inr (Or.inl hm)
      · exact Or.inr (Or.inr ⟨c, hc, h⟩)
    · rcases h3 with h | ⟨c, hc, h⟩
      · rw [h]
        simp only [Box.extend]
        rcases max_choice acc.maxX b.maxX with hm | hm
        · exact Or.inl hm
        · exact Or.inr (Or.inl hm)
      · exact Or.inr (Or.inr ⟨c, hc, h⟩)
    · rcases h4 with h | ⟨c, hc, h⟩
      · rw [h]
        simp only [Box.extend]
        rcases max_choice acc.maxY b.maxY with hm | hm
        · exact Or.inl hm
        · exact Or.inr (Or.inl hm)
      · exact Or.inr (Or.inr ⟨c, hc, h⟩)

theorem mbr_attained (kids : List Box) (hne : kids ≠ []) :
    (∃ c ∈ kids, (mbr kids).minX = c.minX) ∧ (∃ c ∈ kids, (mbr kids).minY = c.minY) ∧
    (∃ c ∈ kids, (mbr kids).maxX = c.maxX) ∧ (∃ c ∈ kids, (mbr kids).maxY = c.maxY) := by
  obtain ⟨c, hc⟩ := List.exists_mem_of_ne_nil kids hne
  obtain ⟨c1, c2, c3, c4⟩ := mbr_contains kids c hc
  obtain ⟨h1, h2, h3, h4⟩ := foldl_extend_attained kids Box.empty
  refine ⟨?_, ?_, ?_, ?_⟩
  · rcases h1 with h | h
    · refine ⟨c, hc, le_antisymm c1 ?_⟩
      change (mbr kids).minX = posInf at h
      rw [h]; exact F64.le_posInf _
    · exact h
  · rcases h2 with h | h
    · refine ⟨c, hc, le_antisymm c2 ?_⟩
      change (mbr kids).minY = posInf at h
      rw [h]; exact F64.le_posInf _
    · exact h
  · rcases h3 with h | h
    · refine ⟨c, hc, le_antisymm ?_ c3⟩
      change (mbr kids).maxX = negInf at h
      rw [h]; exact F64.negInf_le _
    · exact h
  · rcases h4 with h | h
    · refine ⟨c, hc, le_antisymm ?_ c4⟩
      change (mbr kids).maxY = negInf at h
      rw [h]; exact F64.negInf_le _
    · exact h

theorem Layout.node_children {P : Interior → List Box → Prop} (ly : Layout) (hwf : ly.WF)
    (hpart : Layout.Partial P ly)
    (hP : ∀ n kids, P n kids → n.box = mbr kids ∧ n.size = kids.length ∧ 1 ≤ n.size)
    (j : Nat) (hj : ly.leaves.length + j + 1 < ly.tree.refs.length) :
    ∃ (lo hi : Nat) (node : Box) (kids : List Box),
      ly.tree.refs[ly.leaves.length + j]? = some ((4 * lo : Nat) : Int) ∧
      ly.tree.refs[ly.leaves.length + j + 1]? = some ((4 * hi : Nat) : Int) ∧
      lo < hi ∧ hi ≤ ly.leaves.length + j ∧
      ly.tree.boxAt (ly.leaves.length + j) = some node ∧
      kids.length = hi - lo ∧
      (∀ i, i < hi - lo → ly.tree.boxAt (lo + i) = kids[i]?) ∧
      node = mbr kids := by
  rw [Layout.tree_refs_length] at hj
  have hjlt : j < ly.nodes.length := by omega
  have hn : ly.nodes[j]? = some ly.nodes[j] := List.getElem?_eq_getElem hjlt
  generalize ly.nodes[j] = n at hn
  obtain ⟨hbox, hsize, hpos⟩ := hP n _ (hpart.holds j n hn)
  have hsucc := childStart_succ _ _ n hn
  have hbef := hwf.before j hjlt
  rw [hsucc] at hbef
  refine ⟨childStart ly.nodes j, childStart ly.nodes j + n.size, n.box, ly.childBoxes j n,
    Layout.tree_refs_at ly j (by omega), ?_, by omega, hbef,
    Layout.tree_boxAt ly _ _ (Layout.allBoxes_node ly j n hn), by omega, ?_, hbox⟩
  · have := Layout.tree_refs_at ly (j + 1) (by omega)
    rw [hsucc] at this
    exact this
  · intro i hi
    have hi' : i < n.size := by omega
    unfold Layout.childBoxes
    rw [List.getElem?_take_of_lt hi', List.getElem?_drop]
    have hlt : childStart ly.nodes j + i < ly.allBoxes.length := by
      rw [Layout.allBoxes_length]; omega
    rw [List.getElem?_eq_getElem hlt]
    exact Layout.tree_boxAt ly _ _ (List.getElem?_eq_getElem hlt)

theorem HilbertBuilder.Finish_leaves (sorter : List Nat → List (Nat × Nat))
    (hs : ∀ vals, SwapsInRange (sorter vals) vals.length)
    (items : List Item) (degree : Int) (hd : 2 ≤ degree) :
    ∃ (tree : RTree) (b' : HilbertBuilder) (leaves : List Item),
      (NewHilbertBuilder.addAll items).Finish sorter degree = some (.ok tree, b') ∧
      tree.Count = items.length ∧ leaves.Perm items ∧
      (List.range tree.Count).map tree.leafEntry = leaves.map some := by
  by_cases hne : items = []
  · subst hne
    exact ⟨⟨0, [], []⟩, NewHilbertBuilder, [], HilbertBuilder.Finish_empty sorter degree hd,
      rfl, List.Perm.refl _, rfl⟩
  · obtain ⟨ly, b', hfin, hperm, _, _⟩ :=
      HilbertBuilder.Finish_layout sorter hs items hne degree hd
    exact ⟨ly.tree, b', ly.leaves, hfin, hperm.length_eq, hperm, Layout.tree_leafEntries ly⟩

theorem OMTBuilder.Finish_leaves_omt (buckets : Nat → List F64 → Nat → List (Nat × Nat))
    (hbk : BucketsInRange buckets) (logCeil : Nat → Int → Int)
    (items : List Item) (degree : Int) (hd : 2 ≤ degree) :
    ∃ (tree : RTree) (b' : OMTBuilder) (leaves : List Item),
      (NewOMTBuilder.addAll items).Finish buckets logCeil degree = some (.ok tree, b') ∧
      tree.Count = items.length ∧ leaves.Perm items ∧
      (List.range tree.Count).map tree.leafEntry = leaves.map some := by
  by_cases hne : items = []
  · subst hne
    exact ⟨⟨0, [], []⟩, NewOMTBuilder, [], OMTBuilder.Finish_empty_omt buckets logCeil degree hd,
      rfl, List.Perm.refl _, rfl⟩
  · obtain ⟨ly, b', hfin, hperm, _, _⟩ :=
      OMTBuilder.Finish_over buckets hbk logCeil items hne degree hd
    exact ⟨ly.tree, b', ly.leaves, hfin, hperm.length_eq, hperm, Layout.tree_leafEntries ly⟩

/-- C8: for every sequence of `Add` calls and every degree >= 2, the tree
`Finish` returns (Hilbert builder, and OMT builder, whatever height `logCeil`
it derives from its float64 logarithms) has `Count()` equal to the
number N of added items, and its leaf entries `(refs[i], boxes[4i..4i+3])`,
`0 <= i < N`, are a permutation of the added `(ref, minX, minY, maxX, maxY)`
tuples. -/
theorem finish_leaves_permutation (sorter : List Nat → List (Nat × Nat))
    (hs : ∀ vals, SwapsInRange (sorter vals) vals.length)
    (buckets : Nat → List F64 → Nat → List (Nat × Nat)) (hbk : BucketsInRange buckets)
    (logCeil : Nat → Int → Int) (items : List Item) (degree : Int) (hd : 2 ≤ degree) :
    (∃ (tree : RTree) (b' : HilbertBuilder) (leaves : List Item),
      (NewHilbertBuilder.addAll items).Finish sorter degree = some (.ok tree, b') ∧
      tree.Count = items.length ∧ leaves.Perm items ∧
      (List.range tree.Count).map tree.leafEntry = leaves.map some) ∧
    (∃ (tree : RTree) (b' : OMTBuilder) (leaves : List Item),
      (NewOMTBuilder.addAll items).Finish buckets logCeil degree = some (.ok tree, b') ∧
      tree.Count = items.length ∧ leaves.Perm items ∧
      (List.range tree.Count).map tree.leafEntry = leaves.map some) :=
  ⟨HilbertBuilder.Finish_leaves sorter hs items degree hd,
    OMTBuilder.Finish_leaves_omt buckets hbk logCeil items degree hd⟩

theorem finish_leaves_permutation_witness :
    (∀ vals, SwapsInRange (sampleSorter vals) vals.length) ∧ BucketsInRange sampleBuckets ∧
    (2 : Int) ≤ 2 ∧
    (∃ (tree : RTree) (b' : HilbertBuilder) (leaves : List Item),
      (NewHilbertBuilder.addAll sampleItems).Finish sampleSorter 2 = some (.ok tree, b') ∧
      tree.Count = sampleItems.length ∧ leaves.Perm sampleItems ∧
      (List.range tree.Count).map tree.leafEntry = leaves.map some) ∧
    (∃ (tree : RTree) (b' : OMTBuilder) (leaves : List Item),
      (NewOMTBuilder.addAll sampleItems).Finish sampleBuckets exactLogCeil 2 = some (.ok tree, b') ∧
      tree.Count = sampleItems.length ∧ leaves.Perm sampleItems ∧
      (List.range tree.Count).map tree.leafEntry = leaves.map some) :=
  ⟨sampleSorter_inRange, sampleBuckets_inRange, le_refl _,
    finish_leaves_permutation sampleSorter sampleSorter_inRange sampleBuckets
      sampleBuckets_inRange exactLogCeil sampleItems 2 (le_refl _)⟩

theorem Layout.node_mbr {P : Interior → List Box → Prop} (ly : Layout) (hwf : ly.WF)
    (hpart : Layout.Partial P ly)
    (hP : ∀ n kids, P n kids → n.box = mbr kids ∧ n.size = kids.length ∧ 1 ≤ n.size)
    (j : Nat) (hj : ly.leaves.length + j + 1 < ly.tree.refs.length) :
    ∃ (lo hi : Nat) (node : Box) (kids : List Box),
      ly.tree.refs[ly.leaves.length + j]? = some ((4 * lo : Nat) : Int) ∧
      ly.tree.refs[ly.leaves.length + j + 1]? = some ((4 * hi : Nat) : Int) ∧
      lo < hi ∧ hi ≤ ly.leaves.length + j ∧
      ly.tree.boxAt (ly.leaves.length + j) = some node ∧
      kids.length = hi - lo ∧
      (∀ i, i < hi - lo → ly.tree.boxAt (lo + i) = kids[i]?) ∧
      node = mbr kids ∧ (∀ c ∈ kids, node.Contains c) ∧
      (∃ c ∈ kids, node.minX = c.minX) ∧ (∃ c ∈ kids, node.minY = c.minY) ∧
      (∃ c ∈ kids, node.maxX = c.maxX) ∧ (∃ c ∈ kids, node.maxY = c.maxY) := by
  obtain ⟨lo, hi, node, kids, h1, h2, h3, h4, h5, h6, h7, h8⟩ :=
    Layout.node_children ly hwf hpart hP j hj
  have hne : kids ≠ [] := by
    intro h; rw [h] at h6; simp at h6; omega
  obtain ⟨a1, a2, a3, a4⟩ := mbr_attained kids hne
  rw [← h8] at a1 a2 a3 a4
  exact ⟨lo, hi, node, kids, h1, h2, h3, h4, h5, h6, h7, h8,
    fun c hc => by rw [h8]; exact mbr_contains kids c hc, a1, a2, a3, a4⟩

/-- C9: the tree the Hilbert builder returns for N >= 1 items and degree >= 2
has at least one interior node, and for every interior node j the entries
`refs[N+j] = 4*lo` and `refs[N+j+1] = 4*hi` delimit a non-empty range of
earlier nodes, its children, and the box stored for j is exactly the
componentwise bound of the children's boxes: it contains every child's box,
and each of its four coordinates is attained by a child (the minimum of the
children's minX and minY, the maximum of their maxX and maxY). -/
theorem hilbert_node_box_is_mbr (sorter : List Nat → List (Nat × Nat))
    (hs : ∀ vals, SwapsInRange (sorter vals) vals.length)
    (items : List Item) (hne : items ≠ []) (degree : Int) (hd : 2 ≤ degree) :
    ∃ (tree : RTree) (b' : HilbertBuilder),
      (NewHilbertBuilder.addAll items).Finish sorter degree = some (.ok tree, b') ∧
      tree.Count = items.length ∧ items.length + 1 < tree.refs.length ∧
      ∀ j, items.length + j + 1 < tree.refs.length →
        ∃ (lo hi : Nat) (node : Box) (kids : List Box),
          tree.refs[items.length + j]? = some ((4 * lo : Nat) : Int) ∧
          tree.refs[items.length + j + 1]? = some ((4 * hi : Nat) : Int) ∧
          lo < hi ∧ hi ≤ items.length + j ∧
          tree.boxAt (items.length + j) = some node ∧
          kids.length = hi - lo ∧
          (∀ i, i < hi - lo → tree.boxAt (lo + i) = kids[i]?) ∧
          node = mbr kids ∧ (∀ c ∈ kids, node.Contains c) ∧
          (∃ c ∈ kids, node.minX = c.minX) ∧ (∃ c ∈ kids, node.minY = c.minY) ∧
          (∃ c ∈ kids, node.maxX = c.maxX) ∧ (∃ c ∈ kids, node.maxY = c.maxY) := by
  obtain ⟨ly, b', hfin, hperm, hwf, hpart⟩ :=
    HilbertBuilder.Finish_layout sorter hs items hne degree hd
  have hlen : ly.leaves.length = items.length := hperm.length_eq
  have hM : 0 < ly.nodes.length := List.length_pos.mpr hwf.nonempty
  refine ⟨ly.tree, b', hfin, hlen, ?_, ?_⟩
  · rw [Layout.tree_refs_length]; omega
  · intro j hj
    rw [← hlen] at hj ⊢
    exact Layout.node_mbr ly hwf hpart (fun n kids h => ⟨h.1, h.2.1, h.2.2.1⟩) j hj

theorem hilbert_node_box_is_mbr_witness :
    (∀ vals, SwapsInRange (sampleSorter vals) vals.length) ∧ sampleItems ≠ [] ∧
    (2 : Int) ≤ 2 ∧
    ∃ (tree : RTree) (b' : HilbertBuilder),
      (NewHilbertBuilder.addAll sampleItems).Finish sampleSorter 2 = some (.ok tree, b') ∧
      tree.Count = sampleItems.length ∧ sampleItems.length + 1 < tree.refs.length ∧
      ∀ j, sampleItems.length + j + 1 < tree.refs.length →
        ∃ (lo hi : Nat) (node : Box) (kids : List Box),
          tree.refs[sampleItems.length + j]? = some ((4 * lo : Nat) : Int) ∧
          tree.refs[sampleItems.length + j + 1]? = some ((4 * hi : Nat) : Int) ∧
          lo < hi ∧ hi ≤ sampleItems.length + j ∧
          tree.boxAt (sampleItems.length + j) = some node ∧
          kids.length = hi - lo ∧
          (∀ i, i < hi - lo → tree.boxAt (lo + i) = kids[i]?) ∧
          node = mbr kids ∧ (∀ c ∈ kids, node.Contains c) ∧
          (∃ c ∈ kids, node.minX = c.minX) ∧ (∃ c ∈ kids, node.minY = c.minY) ∧
          (∃ c ∈ kids, node.maxX = c.maxX) ∧ (∃ c ∈ kids, node.maxY = c.maxY) :=
  ⟨sampleSorter_inRange, by simp [sampleItems], le_refl _,
    hilbert_node_box_is_mbr sampleSorter sampleSorter_inRange sampleItems
      (by simp [sampleItems]) 2 (le_refl _)⟩

/-- C10: the tree the OMT builder returns for N >= 1 items and degree >= 2
(the selection routine being any sequence of in-range `Swap` calls, the
height being computed exactly, `exactLogCeil`) has at
least one interior node, and for every interior node j the entries
`refs[N+j] = 4*lo` and `refs[N+j+1] = 4*hi` written by `pack` delimit a
non-empty range of earlier nodes, and the box stored for j contains,
componentwise, the box of every node in that range. -/
theorem omt_node_box_contains_children (buckets : Nat → List F64 → Nat → List (Nat × Nat))
    (hbk : BucketsInRange buckets)
    (items : List Item) (hne : items ≠ []) (degree : Int) (hd : 2 ≤ degree) :
    ∃ (tree : RTree) (b' : OMTBuilder),
      (NewOMTBuilder.addAll items).Finish buckets exactLogCeil degree = some (.ok tree, b') ∧
      tree.Count = items.length ∧ items.length + 1 < tree.refs.length ∧
      ∀ j, items.length + j + 1 < tree.refs.length →
        ∃ (lo hi : Nat) (node : Box) (kids : List Box),
          tree.refs[items.length + j]? = some ((4 * lo : Nat) : Int) ∧
          tree.refs[items.length + j + 1]? = some ((4 * hi : Nat) : Int) ∧
          lo < hi ∧ hi ≤ items.length + j ∧
          tree.boxAt (items.length + j) = some node ∧
          kids.length = hi - lo ∧
          (∀ i, i < hi - lo → tree.boxAt (lo + i) = kids[i]?) ∧
          (∀ c ∈ kids, node.Contains c) := by
  obtain ⟨ly, b', hfin, hperm, hwf, hpart⟩ :=
    OMTBuilder.Finish_layout_omt buckets hbk items hne degree hd
  have hlen : ly.leaves.length = items.length := hperm.length_eq
  have hM : 0 < ly.nodes.length := List.length_pos.mpr hwf.nonempty
  refine ⟨ly.tree, b', hfin, hlen, ?_, ?_⟩
  · rw [Layout.tree_refs_length]; omega
  · intro j hj
    rw [← hlen] at hj ⊢
    obtain ⟨lo, hi, node, kids, h1, h2, h3, h4, h5, h6, h7, _, h9, _⟩ :=
      Layout.node_mbr ly hwf hpart (fun n kids h => ⟨h.1, h.2.1, h.2.2.1⟩) j hj
    exact ⟨lo, hi, node, kids, h1, h2, h3, h4, h5, h6, h7, h9⟩

theorem omt_node_box_contains_children_witness :
    BucketsInRange sampleBuckets ∧ sampleItems ≠ [] ∧ (2 : Int) ≤ 2 ∧
    ∃ (tree : RTree) (b' : OMTBuilder),
      (NewOMTBuilder.addAll sampleItems).Finish sampleBuckets exactLogCeil 2 = some (.ok tree, b') ∧
      tree.Count = sampleItems.length ∧ sampleItems.length + 1 < tree.refs.length ∧
      ∀ j, sampleItems.length + j + 1 < tree.refs.length →
        ∃ (lo hi : Nat) (node : Box) (kids : List Box),
          tree.refs[sampleItems.length + j]? = some ((4 * lo : Nat) : Int) ∧
          tree.refs[sampleItems.length + j + 1]? = some ((4 * hi : Nat) : Int) ∧
          lo < hi ∧ hi ≤ sampleItems.length + j ∧
          tree.boxAt (sampleItems.length + j) = some node ∧
          kids.length = hi - lo ∧
          (∀ i, i < hi - lo → tree.boxAt (lo + i) = kids[i]?) ∧
          (∀ c ∈ kids, node.Contains c) :=
  ⟨sampleBuckets_inRange, by simp [sampleItems], le_refl _,
    omt_node_box_contains_children sampleBuckets sampleBuckets_inRange sampleItems
      (by simp [sampleItems]) 2 (le_refl _)⟩

theorem Box.empty_not_valid : ¬ Box.empty.Valid := fun h => F64.not_posInf_le_negInf h.1

theorem Layout.tree_nodes_valid {P : Interior → List Box → Prop} (ly : Layout)
    (hpart : Layout.Partial P ly)
    (hP : ∀ n kids, P n kids → n.box = mbr kids ∧ n.size = kids.length ∧ 1 ≤ n.size)
    (hv : ∀ it ∈ ly.leaves, it.box.Valid) (k : Nat) (hk : k + 1 < ly.tree.refs.length) :
    ∃ b, ly.tree.boxAt k = some b ∧ b.Valid ∧ b ≠ Box.empty := by
  rw [Layout.tree_refs_length] at hk
  have hlt : k < ly.allBoxes.length := by rw [Layout.allBoxes_length]; omega
  have hget : ly.allBoxes[k]? = some ly.allBoxes[k] := List.getElem?_eq_getElem hlt
  have hval := hpart.valid hP hv _ (List.getElem_mem hlt)
  refine ⟨ly.allBoxes[k], Layout.tree_boxAt ly k _ hget, hval, ?_⟩
  intro h
  rw [h] at hval
  exact Box.empty_not_valid hval

theorem Layout.tree_boxes_valid (ly : Layout) (hv : ∀ b ∈ ly.allBoxes, b.Valid) (k : Nat)
    (hk : k + 1 < ly.tree.refs.length) :
    ∃ b, ly.tree.boxAt k = some b ∧ b.Valid ∧ b ≠ Box.empty := by
  rw [Layout.tree_refs_length] at hk
  have hlt : k < ly.allBoxes.length := by rw [Layout.allBoxes_length]; omega
  have hget : ly.allBoxes[k]? = some ly.allBoxes[k] := List.getElem?_eq_getElem hlt
  have hval := hv _ (List.getElem_mem hlt)
  refine ⟨ly.allBoxes[k], Layout.tree_boxAt ly k _ hget, hval, ?_⟩
  intro h
  rw [h] at hval
  exact Box.empty_not_valid hval

/-- C11: for items that all satisfy `minX <= maxX` and `minY <= maxY`
(N >= 1, degree >= 2), every node of the tree returned by `Finish` of the
Hilbert builder, and of the OMT builder (whatever height `logCeil` it derives
from its float64 logarithms), leaf or interior, has a box with
`minX <= maxX` and `minY <= maxY`; in particular no node keeps the initial
box `(+Inf, +Inf, -Inf, -Inf)`. -/
theorem built_tree_boxes_valid (sorter : List Nat → List (Nat × Nat))
    (hs : ∀ vals, SwapsInRange (sorter vals) vals.length)
    (buckets : Nat → List F64 → Nat → List (Nat × Nat)) (hbk : BucketsInRange buckets)
    (logCeil : Nat → Int → Int) (items : List Item) (hne : items ≠ []) (hv : ∀ it ∈ items, it.box.Valid)
    (degree : Int) (hd : 2 ≤ degree) :
    (∃ (tree : RTree) (b' : HilbertBuilder),
      (NewHilbertBuilder.addAll items).Finish sorter degree = some (.ok tree, b') ∧
      tree.boxes.length = 4 * (tree.refs.length - 1) ∧
      ∀ k, k + 1 < tree.refs.length →
        ∃ b, tree.boxAt k = some b ∧ b.Valid ∧ b ≠ Box.empty) ∧
    (∃ (tree : RTree) (b' : OMTBuilder),
      (NewOMTBuilder.addAll items).Finish buckets logCeil degree = some (.ok tree, b') ∧
      tree.boxes.length = 4 * (tree.refs.length - 1) ∧
      ∀ k, k + 1 < tree.refs.length →
        ∃ b, tree.boxAt k = some b ∧ b.Valid ∧ b ≠ Box.empty) := by
  constructor
  · obtain ⟨ly, b', hfin, hperm, _, hpart⟩ :=
      HilbertBuilder.Finish_layout sorter hs items hne degree hd
    refine ⟨ly.tree, b', hfin, ?_, ?_⟩
    · rw [Layout.tree_boxes_length, Layout.tree_refs_length]; omega
    · exact Layout.tree_nodes_valid ly hpart (fun n kids h => ⟨h.1, h.2.1, h.2.2.1⟩)
        (fun it hit => hv it (hperm.subset hit))
  · obtain ⟨ly, b', hfin, _, _, hval⟩ :=
      OMTBuilder.Finish_over buckets hbk logCeil items hne degree hd
    refine ⟨ly.tree, b', hfin, ?_, ?_⟩
    · rw [Layout.tree_boxes_length, Layout.tree_refs_length]; omega
    · exact Layout.tree_boxes_valid ly (hval hv)

theorem built_tree_boxes_valid_witness :
    (∀ vals, SwapsInRange (sampleSorter vals) vals.length) ∧ BucketsInRange sampleBuckets ∧
    sampleItems ≠ [] ∧ (∀ it ∈ sampleItems, it.box.Valid) ∧ (2 : Int) ≤ 2 ∧
    (∃ (tree : RTree) (b' : HilbertBuilder),
      (NewHilbertBuilder.addAll sampleItems).Finish sampleSorter 2 = some (.ok tree, b') ∧
      tree.boxes.length = 4 * (tree.refs.length - 1) ∧
      ∀ k, k + 1 < tree.refs.length →
        ∃ b, tree.boxAt k = some b ∧ b.Valid ∧ b ≠ Box.empty) ∧
    (∃ (tree : RTree) (b' : OMTBuilder),
      (NewOMTBuilder.addAll sampleItems).Finish sampleBuckets exactLogCeil 2 = some (.ok tree, b') ∧
      tree.boxes.length = 4 * (tree.refs.length - 1) ∧
      ∀ k, k + 1 < tree.refs.length →
        ∃ b, tree.boxAt k = some b ∧ b.Valid ∧ b ≠ Box.empty) :=
  ⟨sampleSorter_inRange, sampleBuckets_inRange, by simp [sampleItems], sampleItems_valid,
    le_refl _,
    built_tree_boxes_valid sampleSorter sampleSorter_inRange sampleBuckets
      sampleBuckets_inRange exactLogCeil sampleItems (by simp [sampleItems]) sampleItems_valid 2
      (le_refl _)⟩

theorem idMarshal_lossless : Lossless idMarshal idMarshal := fun m => ⟨m, rfl, rfl⟩

theorem roundHalfAway_abs (y : ℚ) : |((roundHalfAway y : Int) : ℚ) - y| ≤ 1 / 2 := by
  unfold roundHalfAway
  split_ifs with h
  · have h1 := Int.floor_le (y + 1 / 2)
    have h2 := Int.lt_floor_add_one (y + 1 / 2)
    rw [abs_le]
    constructor <;> linarith
  · have h1 := Int.floor_le (-y + 1 / 2)
    have h2 := Int.lt_floor_add_one (-y + 1 / 2)
    rw [abs_le]
    push_cast
    constructor <;> linarith

theorem roundHalfAway_intCast (k : Int) : roundHalfAway (k : ℚ) = k := by
  unfold roundHalfAway
  split_ifs with h
  · have : ⌊(k : ℚ) + 1 / 2⌋ = k := by
      rw [Int.floor_eq_iff]
      constructor <;> norm_num
    exact this
  · have : ⌊-(k : ℚ) + 1 / 2⌋ = -k := by
      rw [Int.floor_eq_iff]
      push_cast
      constructor <;> norm_num
    rw [this]; ring

theorem F64.isFloat_intCast (k : Int) (hk : |k| ≤ 2 ^ 53) : F64.IsFloat (k : ℚ) :=
  F64.rnd_intCast k hk

theorem F64.nearest_two_zpow (z : Int) (h1 : -1074 ≤ z) : nearest (2 ^ z) = 2 ^ z := by
  have := F64.nearest_rep 1 z (by norm_num) h1
  rw [Int.cast_one, one_mul] at this
  exact this

theorem F64.nearest_abs_le (q : ℚ) (z : Int) (h1 : -1074 ≤ z) (h : |q| ≤ 2 ^ z) :
    |nearest q| ≤ 2 ^ z := by
  obtain ⟨ha, hb⟩ := abs_le.mp h
  have m1 := F64.nearest_mono _ _ ha
  have m2 := F64.nearest_mono _ _ hb
  rw [F64.nearest_neg, F64.nearest_two_zpow z h1] at m1
  rw [F64.nearest_two_zpow z h1] at m2
  exact abs_le.mpr ⟨m1, m2⟩

theorem F64.rnd_bounded (q : ℚ) (z : Int) (h1 : -1074 ≤ z) (h2 : z < 1024) (h : |q| ≤ 2 ^ z) :
    ∃ r : ℚ, rnd q = fin r ∧ |r| ≤ 2 ^ z ∧
      |r - q| ≤ max (|q| * 2 ^ (-53 : Int)) (2 ^ (-1075 : Int)) := by
  have hb := F64.nearest_abs_le q z h1 h
  refine ⟨nearest q, ?_, hb, F64.nearest_err_bound q⟩
  unfold rnd
  apply F64.ofRat_fin
  refine lt_of_le_of_lt hb ?_
  rw [← zpow_natCast]
  exact zpow_lt_zpow_right₀ (by norm_num) (by push_cast; omega)

theorem F64.rnd_pow10 (p : Nat) (hp : p ≤ 22) : rnd ((10 : ℚ) ^ p) = fin ((10 : ℚ) ^ p) := by
  have h5 : (5 : Int) ^ p < 2 ^ 53 :=
    lt_of_le_of_lt (pow_le_pow_right₀ (by norm_num) hp) (by norm_num)
  have e : (10 : ℚ) ^ p = ((5 ^ p : Int) : ℚ) * 2 ^ (p : Int) := by
    rw [zpow_natCast, show (10 : ℚ) = 5 * 2 by norm_num, mul_pow]
    push_cast
    ring
  rw [e]
  apply F64.rnd_rep _ _ (by rw [abs_of_nonneg (by positivity)]; exact h5) (by omega)
  rw [← e, abs_of_pos (by positivity)]
  calc (10 : ℚ) ^ p ≤ 10 ^ 22 := pow_le_pow_right₀ (by norm_num) hp
    _ < 2 ^ 1024 := by
      calc (10 : ℚ) ^ 22 ≤ 16 ^ 22 := by norm_num
        _ = 2 ^ 88 := by norm_num
        _ < 2 ^ 1024 := pow_lt_pow_right₀ (by norm_num) (by norm_num)

theorem F64.rnd_one : rnd 1 = fin 1 := by
  have := F64.rnd_intCast 1 (by norm_num)
  simpa using this

theorem Pow10_natCast (p : Nat) (hp : p ≤ 22) : Pow10 (p : Int) = fin ((10 : ℚ) ^ p) := by
  unfold Pow10
  have h1 : (0 : Int) ≤ (p : Int) ∧ (p : Int) ≤ 308 := by omega
  have h2 : (p : Int).toNat / 32 = 0 := by
    rw [Int.toNat_ofNat]; omega
  have h3 : (p : Int).toNat % 32 = p := by
    rw [Int.toNat_ofNat]; omega
  rw [if_pos h1, h2, h3, Nat.mul_zero, pow_zero, F64.rnd_one, F64.rnd_pow10 p hp,
    F64.fin_mul_fin, one_mul, F64.rnd_pow10 p hp]

theorem Pow10_large (p : Nat) (hp : 308 < p) : Pow10 (p : Int) = posInf := by
  unfold Pow10
  have h1 : ¬ ((0 : Int) ≤ (p : Int) ∧ (p : Int) ≤ 308) := by omega
  have h2 : ¬ ((-323 : Int) ≤ (p : Int) ∧ (p : Int) ≤ 0) := by omega
  have h3 : (p : Int) > 0 := by omega
  rw [if_neg h1, if_neg h2, if_pos h3]

theorem toInt64_intCast (r : Int) (h1 : -9223372036854775808 ≤ r)
    (h2 : r < 9223372036854775808) : toInt64 (fin (r : ℚ)) = r := by
  unfold toInt64
  have ht : (if 0 ≤ (r : ℚ) then ⌊(r : ℚ)⌋ else ⌈(r : ℚ)⌉) = r := by
    split_ifs
    · exact Int.floor_intCast r
    · exact Int.ceil_intCast r
  simp only [ht, h1, h2, and_self, if_true]

theorem toInt64_intCast_out (r : Int) (h : 9223372036854775808 ≤ r) :
    toInt64 (fin (r : ℚ)) = -9223372036854775808 := by
  unfold toInt64
  have ht : (if 0 ≤ (r : ℚ) then ⌊(r : ℚ)⌋ else ⌈(r : ℚ)⌉) = r := by
    split_ifs
    · exact Int.floor_intCast r
    · exact Int.ceil_intCast r
  have h2 : ¬ r < 9223372036854775808 := by omega
  simp only [ht, h2, and_false, if_false]

theorem toInt64_range (x : F64) :
    -9223372036854775808 ≤ toInt64 x ∧ toInt64 x ≤ 9223372036854775808 := by
  unfold toInt64
  cases x with
  | negInf => decide
  | posInf => decide
  | fin q =>
    simp only
    split_ifs with h h' h'
    · omega
    · decide
    · omega
    · decide

theorem F64.rnd_int64 (k : Int) (h1 : -9223372036854775808 ≤ k) (h2 : k ≤ 9223372036854775808) :
    ∃ r : ℚ, rnd (k : ℚ) = fin r := by
  have hk : |(k : ℚ)| ≤ 2 ^ (63 : Int) := by
    rw [abs_le]
    constructor
    · have : ((-9223372036854775808 : Int) : ℚ) ≤ (k : ℚ) := by exact_mod_cast h1
      refine le_trans (le_of_eq ?_) this
      norm_num
    · have : (k : ℚ) ≤ ((9223372036854775808 : Int) : ℚ) := by exact_mod_cast h2
      refine le_trans this (le_of_eq ?_)
      norm_num
  obtain ⟨r, hr, _, _⟩ := F64.rnd_bounded (k : ℚ) 63 (by norm_num) (by norm_num) hk
  exact ⟨r, hr⟩

theorem Serialize_Deserialize {W : Type} (marshal : WireRTree → Except String W)
    (unmarshal : W → Except String WireRTree) (hcodec : Lossless marshal unmarshal)
    (t : RTree) (p : Nat) :
    ∃ w, Serialize marshal t p = .ok w ∧
      Deserialize unmarshal w = .ok
        { count := t.count % 4294967296
          refs := t.refs
          boxes := t.boxes.map (fun b =>
            F64.rnd ((toInt64 (F64.round (b * Pow10 (p : Int))) : Int) : ℚ) / Pow10 (p : Int)) } := by
  obtain ⟨w, hm, hu⟩ := hcodec
    { Count := t.count % 4294967296, Refs := t.refs,
      Boxes := t.boxes.map (fun b => toInt64 (F64.round (b * Pow10 (p : Int)))),
      Precision := p }
  refine ⟨w, hm, ?_⟩
  simp only [Deserialize, hu, List.map_map]
  rfl

theorem roundTrip_of_run {W : Type} (marshal : WireRTree → Except String W)
    (unmarshal : W → Except String WireRTree) (hcodec : Lossless marshal unmarshal)
    (t : RTree) (p : Nat) (w : W) (t' : RTree) (hs : Serialize marshal t p = .ok w)
    (hd : Deserialize unmarshal w = .ok t') :
    t' = { count := t.count % 4294967296
           refs := t.refs
           boxes := t.boxes.map (fun b =>
             F64.rnd ((toInt64 (F64.round (b * Pow10 (p : Int))) : Int) : ℚ) /
               Pow10 (p : Int)) } := by
  obtain ⟨w0, hs0, hd0⟩ := Serialize_Deserialize marshal unmarshal hcodec t p
  rw [hs] at hs0
  cases hs0
  rw [hd] at hd0
  cases hd0
  rfl

theorem roundTrip_large_precision (t : RTree) (p : Nat) (hp : 308 < p) (w : WireRTree)
    (t' : RTree) (hs : Serialize idMarshal t p = .ok w) (hd : Deserialize idMarshal w = .ok t') :
    t'.boxes = t.boxes.map (fun _ => fin 0) := by
  rw [roundTrip_of_run idMarshal idMarshal idMarshal_lossless t p w t' hs hd]
  simp only [Pow10_large p hp]
  apply List.map_congr_left
  intro b _
  obtain ⟨h1, h2⟩ := toInt64_range (F64.round (b * posInf))
  obtain ⟨r, hr⟩ := F64.rnd_int64 _ h1 h2
  rw [hr]
  rfl

theorem roundHalfAway_abs_le (y : ℚ) (B : Int) (h : |y| ≤ (B : ℚ)) : |roundHalfAway y| ≤ B := by
  have h1 := roundHalfAway_abs y
  obtain ⟨a1, a2⟩ := abs_le.mp h1
  obtain ⟨b1, b2⟩ := abs_le.mp h
  rw [abs_le]
  constructor
  · have : ((-B - 1 : Int) : ℚ) < ((roundHalfAway y : Int) : ℚ) := by
      push_cast; linarith
    have := Int.cast_lt.mp this
    omega
  · have : ((roundHalfAway y : Int) : ℚ) < ((B + 1 : Int) : ℚ) := by
      push_cast; linarith
    have := Int.cast_lt.mp this
    omega

theorem F64.tiny_le (s : ℚ) (hs : s ≤ 10 ^ 22) (hpos : 0 < s) :
    (2 : ℚ) ^ (-1075 : Int) ≤ 1 / (4 * s) := by
  have h1 : (2 : ℚ) ^ (-1075 : Int) ≤ 2 ^ (-90 : Int) :=
    zpow_le_zpow_right₀ (by norm_num) (by norm_num)
  have h2 : (2 : ℚ) ^ (-90 : Int) = 1 / 2 ^ 90 := by
    rw [zpow_neg, one_div]
    norm_num
  have h3 : 4 * s ≤ 2 ^ 90 := by
    calc 4 * s ≤ 4 * 10 ^ 22 := by linarith
      _ ≤ 2 ^ 90 := by norm_num
  rw [h2] at h1
  refine le_trans h1 ?_
  exact one_div_le_one_div_of_le (by linarith) h3

theorem roundTrip_coord_within (p : Nat) (hp : p ≤ 22) (q : ℚ)
    (hq : |q| * (10 : ℚ) ^ p ≤ 2 ^ 51) :
    ∃ z : ℚ, F64.rnd ((toInt64 (F64.round (fin q * Pow10 (p : Int))) : Int) : ℚ) /
        Pow10 (p : Int) = fin z ∧ |z - q| ≤ 1 / (10 : ℚ) ^ p := by
  have hs1 : (1 : ℚ) ≤ (10 : ℚ) ^ p := one_le_pow₀ (by norm_num)
  have hs2 : (10 : ℚ) ^ p ≤ 10 ^ 22 := pow_le_pow_right₀ (by norm_num) hp
  have hspos : (0 : ℚ) < (10 : ℚ) ^ p := by positivity
  have e51 : (2 : ℚ) ^ (51 : Int) = 2 ^ 51 := by
    rw [← zpow_natCast]; rfl
  have e53 : (2 : ℚ) ^ (-53 : Int) = 1 / 2 ^ 53 := by
    rw [zpow_neg, one_div]
    norm_num
  generalize hsd : (10 : ℚ) ^ p = s at hq hs1 hs2 hspos
  rw [Pow10_natCast p hp, hsd, F64.fin_mul_fin]
  have hqs : |q * s| ≤ 2 ^ (51 : Int) := by
    rw [e51, abs_mul, abs_of_pos hspos]
    exact hq
  obtain ⟨y, hy, hyb, hye⟩ := F64.rnd_bounded (q * s) 51 (by norm_num) (by norm_num) hqs
  rw [hy]
  have hye' : |y - q * s| ≤ 1 / 4 := by
    refine le_trans hye (max_le ?_ ?_)
    · rw [e53]
      rw [e51] at hqs
      calc |q * s| * (1 / 2 ^ 53) ≤ 2 ^ 51 * (1 / 2 ^ 53) :=
            mul_le_mul_of_nonneg_right hqs (by positivity)
        _ = 1 / 4 := by norm_num
    · refine le_trans (F64.tiny_le 1 (by norm_num) (by norm_num)) ?_
      norm_num
  have hround : F64.round (fin y) = fin ((roundHalfAway y : Int) : ℚ) := rfl
  rw [hround]
  have hkb : |roundHalfAway y| ≤ 2 ^ 51 := by
    apply roundHalfAway_abs_le
    rw [e51] at hyb
    push_cast
    exact hyb
  obtain ⟨k1, k2⟩ := abs_le.mp hkb
  rw [toInt64_intCast _ (by omega) (by omega), F64.rnd_intCast _ (le_trans hkb (by norm_num)),
    F64.fin_div_fin _ _ (ne_of_gt hspos)]
  generalize hk : roundHalfAway y = k at hkb k1 k2
  have hky : |(k : ℚ) - y| ≤ 1 / 2 := by
    rw [← hk]; exact roundHalfAway_abs y
  have hkq : |(k : ℚ)| ≤ 2 ^ 51 := by
    have : ((|k| : Int) : ℚ) ≤ ((2 ^ 51 : Int) : ℚ) := by exact_mod_cast hkb
    simpa using this
  have hks : |(k : ℚ) / s| ≤ 2 ^ (51 : Int) := by
    rw [e51, abs_div, abs_of_pos hspos]
    calc |(k : ℚ)| / s ≤ |(k : ℚ)| := div_le_self (abs_nonneg _) hs1
      _ ≤ 2 ^ 51 := hkq
  obtain ⟨z, hz, _, hze⟩ := F64.rnd_bounded ((k : ℚ) / s) 51 (by norm_num) (by norm_num) hks
  refine ⟨z, hz, ?_⟩
  have hze' : |z - (k : ℚ) / s| ≤ 1 / (4 * s) := by
    refine le_trans hze (max_le ?_ (F64.tiny_le s hs2 hspos))
    rw [e53, abs_div, abs_of_pos hspos]
    calc |(k : ℚ)| / s * (1 / 2 ^ 53) ≤ 2 ^ 51 / s * (1 / 2 ^ 53) := by
          apply mul_le_mul_of_nonneg_right _ (by positivity)
          exact div_le_div_of_nonneg_right hkq hspos.le
      _ = 1 / (4 * s) := by
          field_simp
          ring
  have hmid : |(k : ℚ) / s - q| ≤ 3 / (4 * s) := by
    have e : (k : ℚ) / s - q = ((k : ℚ) - q * s) / s := by
      field_simp
      ring
    rw [e, abs_div, abs_of_pos hspos]
    have h3 : |(k : ℚ) - q * s| ≤ 3 / 4 := by
      have := abs_add ((k : ℚ) - y) (y - q * s)
      rw [show (k : ℚ) - y + (y - q * s) = (k : ℚ) - q * s by ring] at this
      linarith
    calc |(k : ℚ) - q * s| / s ≤ (3 / 4) / s := div_le_div_of_nonneg_right h3 hspos.le
      _ = 3 / (4 * s) := by field_simp
  have htri := abs_add (z - (k : ℚ) / s) ((k : ℚ) / s - q)
  rw [show z - (k : ℚ) / s + ((k : ℚ) / s - q) = z - q by ring] at htri
  have hsum : 1 / (4 * s) + 3 / (4 * s) = 1 / s := by
    field_simp
    norm_num
  linarith

/-- C12: with a lossless wire envelope, for every tree with `count < 2^32`
and every precision `p <= 22` (up to which `10^p` is a float64 value) such
that every coordinate `x` satisfies `|x| * 10^p <= 2^51`,
`Deserialize(Serialize(t, p))` succeeds and returns a tree with the same
count, the same refs, as many coordinates, and each coordinate within `10^-p`
of the original, the product, the conversion and the quotient being rounded
as float64 operations are. -/
theorem serialize_roundtrip_within {W : Type} (marshal : WireRTree → Except String W)
    (unmarshal : W → Except String WireRTree) (hcodec : Lossless marshal unmarshal)
    (t : RTree) (p : Nat) (hcount : t.count < 4294967296) (hp : p ≤ 22)
    (hrange : ∀ b ∈ t.boxes, ∃ q : ℚ, b = fin q ∧ |q| * (10 : ℚ) ^ p ≤ 2 ^ 51) :
    RoundTripWithin marshal unmarshal t p := by
  obtain ⟨w, hs, hd⟩ := Serialize_Deserialize marshal unmarshal hcodec t p
  refine ⟨w, _, hs, hd, Nat.mod_eq_of_lt hcount, rfl, by simp, ?_⟩
  intro i a b ha hb
  simp only [List.getElem?_map, ha, Option.map_some', Option.some.injEq] at hb
  obtain ⟨q, rfl, h1⟩ := hrange a (List.mem_iff_getElem?.mpr ⟨i, ha⟩)
  obtain ⟨z, hz, hzq⟩ := roundTrip_coord_within p hp q h1
  rw [hz] at hb
  subst hb
  exact hzq

theorem sampleTree_range : ∀ b ∈ sampleTree.boxes, ∃ q : ℚ, b = fin q ∧
    |q| * (10 : ℚ) ^ 1 ≤ 2 ^ 51 := by
  intro b hb
  simp only [sampleTree, List.mem_cons, List.mem_singleton, List.not_mem_nil, or_false] at hb
  rcases hb with rfl | rfl | rfl | rfl | rfl | rfl | rfl | rfl
  · exact ⟨1 / 4, rfl, by norm_num [abs_of_pos]⟩
  · exact ⟨1, rfl, by norm_num⟩
  · exact ⟨2, rfl, by norm_num⟩
  · exact ⟨3, rfl, by norm_num⟩
  · exact ⟨1 / 4, rfl, by norm_num [abs_of_pos]⟩
  · exact ⟨1, rfl, by norm_num⟩
  · exact ⟨2, rfl, by norm_num⟩
  · exact ⟨3, rfl, by norm_num⟩

theorem serialize_roundtrip_within_witness :
    Lossless idMarshal idMarshal ∧ sampleTree.count < 4294967296 ∧ 1 ≤ 22 ∧
    RoundTripWithin idMarshal idMarshal sampleTree 1 :=
  ⟨idMarshal_lossless, by decide, by decide,
    serialize_roundtrip_within idMarshal idMarshal idMarshal_lossless sampleTree 1 (by decide)
      (by decide) sampleTree_range⟩


theorem roundHalfEven_eq (t : ℚ) (k : Int) (h1 : (k : ℚ) - 1 / 2 < t) (h2 : t < (k : ℚ) + 1 / 2) :
    roundHalfEven t = k := by
  unfold roundHalfEven
  rcases lt_or_le t (k : ℚ) with h | h
  · have hf : ⌊t⌋ = k - 1 := by
      rw [Int.floor_eq_iff]
      push_cast
      constructor <;> linarith
    rw [hf]
    push_cast
    rw [if_neg (by linarith), if_pos (by linarith)]
    ring
  · have hf : ⌊t⌋ = k := by
      rw [Int.floor_eq_iff]
      constructor <;> linarith
    rw [hf, if_pos (by linarith)]

theorem F64.rnd_eval (q : ℚ) (e k : Int) (he : -1022 ≤ e) (h1 : 2 ^ e ≤ q)
    (h2 : q < 2 ^ (e + 1)) (hk1 : (k : ℚ) - 1 / 2 < q / 2 ^ (e - 52))
    (hk2 : q / 2 ^ (e - 52) < (k : ℚ) + 1 / 2) (hfin : (k : ℚ) * 2 ^ (e - 52) < 2 ^ 1024) :
    rnd q = fin ((k : ℚ) * 2 ^ (e - 52)) := by
  have hq : 0 < q := lt_of_lt_of_le (two_zpow_pos e) h1
  have hlog : Int.log 2 q = e := by
    have a := (Int.zpow_le_iff_le_log (b := 2) (by norm_num) hq (x := e)).mp (by simpa using h1)
    have b := (Int.lt_zpow_iff_log_lt (b := 2) (by norm_num) hq (x := e + 1)).mp
      (by simpa using h2)
    omega
  have hu : ulpExp q = e - 52 := by
    unfold ulpExp
    rw [hlog, max_eq_left he]
  have hm : mag q = (k : ℚ) * 2 ^ (e - 52) := by
    unfold mag
    rw [hu, roundHalfEven_eq _ k hk1 hk2]
  have hk0 : (0 : ℚ) ≤ (k : ℚ) * 2 ^ (e - 52) := by
    rw [← hm]; exact F64.mag_nonneg q hq.le
  unfold rnd nearest
  rw [if_pos hq.le, hm]
  apply F64.ofRat_fin
  rw [abs_of_nonneg hk0]
  exact hfin

theorem roundedTree_product :
    fin 9007199254740991 * fin ((10 : ℚ) ^ 1) = fin 90071992547409904 := by
  rw [F64.fin_mul_fin]
  have h := F64.rnd_eval (9007199254740991 * (10 : ℚ) ^ 1) 56 5629499534213119 (by norm_num)
    (by norm_num) (by norm_num) (by norm_num) (by norm_num)
    (by
      have : (5629499534213119 : ℚ) * 2 ^ ((56 : Int) - 52) < 2 ^ (60 : ℕ) := by norm_num
      exact lt_trans (by exact_mod_cast this) (pow_lt_pow_right₀ (by norm_num) (by norm_num)))
  rw [h]
  congr 1
  norm_num

theorem roundedTree_quotient :
    F64.rnd (((90071992547409904 : Int) : ℚ)) / fin ((10 : ℚ) ^ 1) = fin 9007199254740990 := by
  have h0 : F64.rnd (((90071992547409904 : Int) : ℚ)) = fin (90071992547409904 : ℚ) := by
    have := F64.rnd_rep 5629499534213119 4 (by norm_num) (by norm_num)
      (by
        have : |((5629499534213119 : Int) : ℚ) * 2 ^ (4 : Int)| < 2 ^ (60 : ℕ) := by
          norm_num [abs_of_pos]
        exact lt_trans this (pow_lt_pow_right₀ (by norm_num) (by norm_num)))
    have e : ((5629499534213119 : Int) : ℚ) * 2 ^ (4 : Int) = (90071992547409904 : ℚ) := by
      norm_num
    rw [e] at this
    rw [← this]
    congr 1
  rw [h0, F64.fin_div_fin _ _ (by norm_num)]
  have h := F64.rnd_eval ((90071992547409904 : ℚ) / (10 : ℚ) ^ 1) 52 9007199254740990
    (by norm_num) (by norm_num) (by norm_num) (by norm_num) (by norm_num)
    (by
      have : (9007199254740990 : ℚ) * 2 ^ ((52 : Int) - 52) < 2 ^ (60 : ℕ) := by norm_num
      exact lt_trans (by exact_mod_cast this) (pow_lt_pow_right₀ (by norm_num) (by norm_num)))
  rw [h]
  congr 1
  norm_num

theorem roundedTree_coord :
    F64.rnd ((toInt64 (F64.round (fin 9007199254740991 * Pow10 ((1 : Nat) : Int))) : Int) : ℚ) /
      Pow10 ((1 : Nat) : Int) = fin 9007199254740990 := by
  rw [Pow10_natCast 1 (by decide), roundedTree_product]
  have hround : F64.round (fin 90071992547409904) =
      fin ((roundHalfAway ((90071992547409904 : Int) : ℚ) : Int) : ℚ) := by
    show fin _ = fin _
    congr 3
  rw [hround, roundHalfAway_intCast, toInt64_intCast _ (by decide) (by decide)]
  exact roundedTree_quotient

theorem wideTree_coord :
    F64.rnd ((toInt64 (F64.round (fin 18446744073709551616 * Pow10 ((0 : Nat) : Int))) : Int) : ℚ) /
      Pow10 ((0 : Nat) : Int) = fin (-9223372036854775808) := by
  rw [Pow10_natCast 0 (by decide), F64.fin_mul_fin]
  have h1 : (18446744073709551616 : ℚ) * (10 : ℚ) ^ 0 = ((1 : Int) : ℚ) * 2 ^ (64 : Int) := by
    norm_num
  have h2 : F64.rnd (((1 : Int) : ℚ) * 2 ^ (64 : Int)) = fin (((1 : Int) : ℚ) * 2 ^ (64 : Int)) :=
    F64.rnd_rep 1 64 (by norm_num) (by norm_num) (by
      rw [Int.cast_one, one_mul, abs_of_pos (two_zpow_pos 64), ← zpow_natCast]
      exact zpow_lt_zpow_right₀ (by norm_num) (by norm_num))
  have h3 : ((1 : Int) : ℚ) * 2 ^ (64 : Int) = ((18446744073709551616 : Int) : ℚ) := by norm_num
  rw [h1, h2, h3]
  have hround : F64.round (fin ((18446744073709551616 : Int) : ℚ)) =
      fin ((roundHalfAway ((18446744073709551616 : Int) : ℚ) : Int) : ℚ) := rfl
  rw [hround, roundHalfAway_intCast, toInt64_intCast_out _ (by decide)]
  have h4 : (((-9223372036854775808 : Int) : Int) : ℚ) = ((-1 : Int) : ℚ) * 2 ^ (63 : Int) := by
    norm_num
  have h5 : F64.rnd (((-1 : Int) : ℚ) * 2 ^ (63 : Int)) = fin (((-1 : Int) : ℚ) * 2 ^ (63 : Int)) :=
    F64.rnd_rep (-1) 63 (by norm_num) (by norm_num) (by
      rw [Int.cast_neg, Int.cast_one, neg_one_mul, abs_neg, abs_of_pos (two_zpow_pos 63),
        ← zpow_natCast]
      exact zpow_lt_zpow_right₀ (by norm_num) (by norm_num))
  rw [h4, h5, F64.fin_div_fin _ _ (by norm_num), pow_zero, div_one, h5]
  congr 1
  norm_num

/-- C12, as stated, fails: with precision 309 the scale `math.Pow10(309)` is
`+Inf` and every coordinate comes back as 0, so the coordinate 1/4 of
`sampleTree` is not within `10^-309` of its round trip; with precision 0 the
coordinate 2^64 of `wideTree` does not fit int64 and comes back as -2^63; a
count of 2^32 comes back as 0; and with precision 1 the coordinate 2^53 - 1
of `roundedTree` comes back as 2^53 - 2, because the float64 product
`(2^53 - 1) * 10` rounds to a multiple of 16. -/
theorem serialize_roundtrip_within_fails :
    ¬ RoundTripWithin idMarshal idMarshal sampleTree 309 ∧
    ¬ RoundTripWithin idMarshal idMarshal wideTree 0 ∧
    ¬ RoundTripWithin idMarshal idMarshal ⟨4294967296, [], []⟩ 0 ∧
    ¬ RoundTripWithin idMarshal idMarshal roundedTree 1 := by
  refine ⟨?_, ?_, ?_, ?_⟩
  · rintro ⟨w, t', hs, hd, _, _, _, hw⟩
    have hb := roundTrip_large_precision sampleTree 309 (by decide) w t' hs hd
    have h0 := hw 0 (fin (1 / 4)) (fin 0) rfl (by rw [hb]; rfl)
    change |(0 : ℚ) - 1 / 4| ≤ 1 / (10 : ℚ) ^ 309 at h0
    have h1 : (1 : ℚ) / (10 : ℚ) ^ 309 ≤ 1 / 10 := by
      apply div_le_div_of_nonneg_left (by norm_num) (by norm_num)
      calc (10 : ℚ) = 10 ^ 1 := by norm_num
        _ ≤ 10 ^ 309 := pow_le_pow_right₀ (by norm_num) (by decide)
    have h2 : |(0 : ℚ) - 1 / 4| = 1 / 4 := by norm_num [abs_of_pos]
    rw [h2] at h0
    linarith
  · rintro ⟨w, t', hs, hd, _, _, _, hw⟩
    have ht := roundTrip_of_run idMarshal idMarshal idMarshal_lossless wideTree 0 w t' hs hd
    have hget : t'.boxes[2]? = some (fin (-9223372036854775808)) := by
      rw [ht]
      simp only [wideTree, List.map_cons, List.getElem?_cons_succ, List.getElem?_cons_zero,
        Option.some.injEq]
      exact wideTree_coord
    have h0 := hw 2 (fin 18446744073709551616) _ rfl hget
    change |(-9223372036854775808 : ℚ) - 18446744073709551616| ≤ 1 / (10 : ℚ) ^ 0 at h0
    rw [abs_le] at h0
    norm_num at h0
  · rintro ⟨w, t', hs, hd, hc, _, _, _⟩
    have ht := roundTrip_of_run idMarshal idMarshal idMarshal_lossless ⟨4294967296, [], []⟩ 0
      w t' hs hd
    rw [ht] at hc
    simp at hc
  · rintro ⟨w, t', hs, hd, _, _, _, hw⟩
    have ht := roundTrip_of_run idMarshal idMarshal idMarshal_lossless roundedTree 1 w t' hs hd
    have hget : t'.boxes[2]? = some (fin 9007199254740990) := by
      rw [ht]
      simp only [roundedTree, List.map_cons, List.getElem?_cons_succ, List.getElem?_cons_zero,
        Option.some.injEq]
      exact roundedTree_coord
    have h0 := hw 2 (fin 9007199254740991) _ rfl hget
    change |(9007199254740990 : ℚ) - 9007199254740991| ≤ 1 / (10 : ℚ) ^ 1 at h0
    rw [abs_le] at h0
    norm_num at h0

theorem roundTrip_coord_exact (p : Nat) (hp : p ≤ 22) (k : Int) (hk : |k| ≤ 2 ^ 53)
    (hfl : F64.IsFloat ((k : ℚ) / (10 : ℚ) ^ p)) :
    F64.rnd ((toInt64 (F64.round (fin ((k : ℚ) / (10 : ℚ) ^ p) * Pow10 (p : Int))) : Int) : ℚ) /
      Pow10 (p : Int) = fin ((k : ℚ) / (10 : ℚ) ^ p) := by
  have hpos : (10 : ℚ) ^ p ≠ 0 := by positivity
  obtain ⟨k1, k2⟩ := abs_le.mp hk
  rw [Pow10_natCast p hp, F64.fin_mul_fin, div_mul_cancel₀ _ hpos, F64.rnd_intCast k hk]
  have hround : F64.round (fin (k : ℚ)) = fin ((roundHalfAway (k : ℚ) : Int) : ℚ) := rfl
  rw [hround, roundHalfAway_intCast, toInt64_intCast _ (by omega) (by omega),
    F64.rnd_intCast k hk, F64.fin_div_fin _ _ hpos]
  exact hfl

/-- C13: with a lossless wire envelope, for every tree with `count < 2^32`
and every precision `p <= 22` (up to which `10^p` is a float64 value) such
that every coordinate is a float64 value `k / 10^p` for an integer `k` with
`|k| <= 2^53`, `Deserialize(Serialize(t, p))` succeeds and returns exactly
`t`: same count, same refs, every coordinate equal, the product, the
conversion and the quotient being rounded as float64 operations are. -/
theorem serialize_roundtrip_exact {W : Type} (marshal : WireRTree → Except String W)
    (unmarshal : W → Except String WireRTree) (hcodec : Lossless marshal unmarshal)
    (t : RTree) (p : Nat) (hcount : t.count < 4294967296) (hp : p ≤ 22)
    (hmult : ∀ b ∈ t.boxes, ∃ k : Int, b = fin ((k : ℚ) / (10 : ℚ) ^ p) ∧
      F64.IsFloat ((k : ℚ) / (10 : ℚ) ^ p) ∧ |k| ≤ 2 ^ 53) :
    RoundTripExact marshal unmarshal t p := by
  obtain ⟨w, hs, hd⟩ := Serialize_Deserialize marshal unmarshal hcodec t p
  refine ⟨w, hs, ?_⟩
  rw [hd, Nat.mod_eq_of_lt hcount]
  have hboxes : t.boxes.map (fun b =>
      F64.rnd ((toInt64 (F64.round (b * Pow10 (p : Int))) : Int) : ℚ) / Pow10 (p : Int)) =
      t.boxes := by
    conv_rhs => rw [← List.map_id t.boxes]
    apply List.map_congr_left
    intro b hb
    obtain ⟨k, rfl, hfl, hk⟩ := hmult b hb
    rw [roundTrip_coord_exact p hp k hk hfl]
    rfl
  rw [hboxes]

theorem F64.isFloat_quarter : F64.IsFloat ((25 : Int) / (10 : ℚ) ^ 2) := by
  have e : (((25 : Int) : ℚ)) / (10 : ℚ) ^ 2 = 2 ^ (-2 : Int) := by norm_num
  unfold F64.IsFloat
  rw [e]
  exact F64.rnd_two_zpow (-2) (by norm_num) (by norm_num)

theorem F64.isFloat_hundreds (m : Int) (hm : |m| ≤ 2 ^ 53) :
    F64.IsFloat (((m * 100 : Int) : ℚ) / (10 : ℚ) ^ 2) := by
  have e : (((m * 100 : Int) : ℚ)) / (10 : ℚ) ^ 2 = (m : ℚ) := by
    push_cast
    norm_num
  rw [e]
  exact F64.isFloat_intCast m hm

theorem sampleTree_multiples : ∀ b ∈ sampleTree.boxes,
    ∃ k : Int, b = fin ((k : ℚ) / (10 : ℚ) ^ 2) ∧ F64.IsFloat ((k : ℚ) / (10 : ℚ) ^ 2) ∧
      |k| ≤ 2 ^ 53 := by
  have h1 := F64.isFloat_hundreds 1 (by norm_num)
  have h2 := F64.isFloat_hundreds 2 (by norm_num)
  have h3 := F64.isFloat_hundreds 3 (by norm_num)
  intro b hb
  simp only [sampleTree, List.mem_cons, List.mem_singleton, List.not_mem_nil, or_false] at hb
  rcases hb with rfl | rfl | rfl | rfl | rfl | rfl | rfl | rfl
  · exact ⟨25, by norm_num, F64.isFloat_quarter, by norm_num⟩
  · exact ⟨1 * 100, by norm_num, h1, by norm_num⟩
  · exact ⟨2 * 100, by norm_num, h2, by norm_num⟩
  · exact ⟨3 * 100, by norm_num, h3, by norm_num⟩
  · exact ⟨25, by norm_num, F64.isFloat_quarter, by norm_num⟩
  · exact ⟨1 * 100, by norm_num, h1, by norm_num⟩
  · exact ⟨2 * 100, by norm_num, h2, by norm_num⟩
  · exact ⟨3 * 100, by norm_num, h3, by norm_num⟩

theorem serialize_roundtrip_exact_witness :
    Lossless idMarshal idMarshal ∧ sampleTree.count < 4294967296 ∧ 2 ≤ 22 ∧
    RoundTripExact idMarshal idMarshal sampleTree 2 :=
  ⟨idMarshal_lossless, by decide, by decide,
    serialize_roundtrip_exact idMarshal idMarshal idMarshal_lossless sampleTree 2 (by decide)
      (by decide) sampleTree_multiples⟩

/-- C13, as stated, fails: every coordinate of `sampleTree` is an integer
multiple of `10^-309`, every coordinate of `wideTree` is an integer, and
every coordinate of `roundedTree` is an integer and a float64 value, yet with
precision 309 the coordinates of `sampleTree` come back as 0, with precision
0 the coordinate 2^64 of `wideTree` comes back as -2^63, and with precision 1
the coordinate 2^53 - 1 of `roundedTree` comes back as 2^53 - 2, because the
float64 product `(2^53 - 1) * 10` rounds to a multiple of 16. -/
theorem serialize_roundtrip_exact_fails :
    ((∀ b ∈ sampleTree.boxes, ∃ k : Int, b = fin ((k : ℚ) / (10 : ℚ) ^ 309)) ∧
      ¬ RoundTripExact idMarshal idMarshal sampleTree 309) ∧
    ((∀ b ∈ wideTree.boxes, ∃ k : Int, b = fin ((k : ℚ) / (10 : ℚ) ^ 0)) ∧
      ¬ RoundTripExact idMarshal idMarshal wideTree 0) ∧
    ((∀ b ∈ roundedTree.boxes, ∃ k : Int, b = fin ((k : ℚ) / (10 : ℚ) ^ 1) ∧
        F64.IsFloat ((k : ℚ) / (10 : ℚ) ^ 1)) ∧
      ¬ RoundTripExact idMarshal idMarshal roundedTree 1) := by
  refine ⟨⟨?_, ?_⟩, ⟨?_, ?_⟩, ⟨?_, ?_⟩⟩
  · intro b hb
    simp only [sampleTree, List.mem_cons, List.mem_singleton, List.not_mem_nil, or_false] at hb
    have hpos : (10 : ℚ) ^ 309 ≠ 0 := by positivity
    have h4 : (1 / 4 : ℚ) = (((25 * 10 ^ 307 : Int) : Int) : ℚ) / (10 : ℚ) ^ 309 := by
      have e : (10 : ℚ) ^ 309 = 10 ^ 307 * 10 ^ 2 := by rw [← pow_add]
      rw [eq_div_iff hpos, e, Int.cast_mul, Int.cast_pow, Int.cast_ofNat, Int.cast_ofNat]
      generalize (10 : ℚ) ^ 307 = x
      ring
    rcases hb with rfl | rfl | rfl | rfl | rfl | rfl | rfl | rfl
    · exact ⟨25 * 10 ^ 307, congrArg F64.fin h4⟩
    · exact ⟨10 ^ 309, by rw [Int.cast_pow, Int.cast_ofNat, div_self hpos]⟩
    · exact ⟨2 * 10 ^ 309, by
        rw [Int.cast_mul, Int.cast_pow, Int.cast_ofNat, Int.cast_ofNat, mul_div_assoc,
          div_self hpos, mul_one]⟩
    · exact ⟨3 * 10 ^ 309, by
        rw [Int.cast_mul, Int.cast_pow, Int.cast_ofNat, Int.cast_ofNat, mul_div_assoc,
          div_self hpos, mul_one]⟩
    · exact ⟨25 * 10 ^ 307, congrArg F64.fin h4⟩
    · exact ⟨10 ^ 309, by rw [Int.cast_pow, Int.cast_ofNat, div_self hpos]⟩
    · exact ⟨2 * 10 ^ 309, by
        rw [Int.cast_mul, Int.cast_pow, Int.cast_ofNat, Int.cast_ofNat, mul_div_assoc,
          div_self hpos, mul_one]⟩
    · exact ⟨3 * 10 ^ 309, by
        rw [Int.cast_mul, Int.cast_pow, Int.cast_ofNat, Int.cast_ofNat, mul_div_assoc,
          div_self hpos, mul_one]⟩
  · rintro ⟨w, hs, hd⟩
    have hb := roundTrip_large_precision sampleTree 309 (by decide) w sampleTree hs hd
    have : sampleTree.boxes[1]? = (sampleTree.boxes.map (fun _ => fin 0))[1]? := by rw [← hb]
    simp [sampleTree] at this
  · intro b hb
    simp only [wideTree, List.mem_cons, List.mem_singleton, List.not_mem_nil, or_false] at hb
    rcases hb with rfl | rfl | rfl | rfl | rfl | rfl | rfl | rfl
    · exact ⟨0, by norm_num⟩
    · exact ⟨0, by norm_num⟩
    · exact ⟨18446744073709551616, by norm_num⟩
    · exact ⟨1, by norm_num⟩
    · exact ⟨0, by norm_num⟩
    · exact ⟨0, by norm_num⟩
    · exact ⟨18446744073709551616, by norm_num⟩
    · exact ⟨1, by norm_num⟩
  · rintro ⟨w, hs, hd⟩
    have ht := roundTrip_of_run idMarshal idMarshal idMarshal_lossless wideTree 0 w wideTree hs hd
    have hget : wideTree.boxes[2]? = some (fin (-9223372036854775808)) := by
      conv_lhs => rw [ht]
      simp only [wideTree, List.map_cons, List.getElem?_cons_succ, List.getElem?_cons_zero,
        Option.some.injEq]
      exact wideTree_coord
    simp only [wideTree, List.getElem?_cons_succ, List.getElem?_cons_zero, Option.some.injEq,
      F64.fin.injEq] at hget
    norm_num at hget
  · have hi : ∀ m : Int, |m| ≤ 2 ^ 53 → F64.IsFloat (((m * 10 : Int) : ℚ) / (10 : ℚ) ^ 1) := by
      intro m hm
      have e : (((m * 10 : Int) : ℚ)) / (10 : ℚ) ^ 1 = (m : ℚ) := by
        push_cast
        norm_num
      rw [e]
      exact F64.isFloat_intCast m hm
    have h0 := hi 0 (by norm_num)
    have h1 := hi 1 (by norm_num)
    have h2 := hi 9007199254740991 (by norm_num)
    intro b hb
    simp only [roundedTree, List.mem_cons, List.mem_singleton, List.not_mem_nil, or_false] at hb
    rcases hb with rfl | rfl | rfl | rfl | rfl | rfl | rfl | rfl
    · exact ⟨0 * 10, by norm_num, h0⟩
    · exact ⟨0 * 10, by norm_num, h0⟩
    · exact ⟨9007199254740991 * 10, by norm_num, h2⟩
    · exact ⟨1 * 10, by norm_num, h1⟩
    · exact ⟨0 * 10, by norm_num, h0⟩
    · exact ⟨0 * 10, by norm_num, h0⟩
    · exact ⟨9007199254740991 * 10, by norm_num, h2⟩
    · exact ⟨1 * 10, by norm_num, h1⟩
  · rintro ⟨w, hs, hd⟩
    have ht := roundTrip_of_run idMarshal idMarshal idMarshal_lossless roundedTree 1 w
      roundedTree hs hd
    have hget : roundedTree.boxes[2]? = some (fin 9007199254740990) := by
      conv_lhs => rw [ht]
      simp only [roundedTree, List.map_cons, List.getElem?_cons_succ, List.getElem?_cons_zero,
        Option.some.injEq]
      exact roundedTree_coord
    simp only [roundedTree, List.getElem?_cons_succ, List.getElem?_cons_zero, Option.some.injEq,
      F64.fin.injEq] at hget
    norm_num at hget

/-- C14: the 32-bit function `hilbert` reproduces the golden vectors of the
test suite, all arithmetic being on unsigned 32-bit words. -/
theorem hilbert_golden_vectors :
    hilbert 0 0 = 0 ∧ hilbert 1 0 = 1 ∧ hilbert 1 1 = 2 ∧ hilbert 0 1 = 3 ∧
    hilbert 0 2 = 4 ∧ hilbert 0 3 = 5 ∧ hilbert 1 3 = 6 ∧ hilbert 1 2 = 7 ∧
    hilbert 65535 0 = 4294967295 ∧ hilbert 0 65535 = 1431655765 ∧
    hilbert 65535 65535 = 2863311530 ∧
    hilbert 2971 17497 = 980776996 ∧ hilbert 62026 27915 = 3277697163 ∧
    hilbert 13890 60206 = 1534664434 ∧ hilbert 43827 27885 = 3525267956 ∧
    hilbert 2794 32229 = 1058908279 ∧ hilbert 8443 33752 = 1141222447 ∧
    hilbert 13931 24390 = 876709497 ∧ hilbert 63456 10643 = 4219223461 ∧
    hilbert 18084 14710 = 534213004 ∧ hilbert 11890 39641 = 1194905159 := by
  refine ⟨?_, ?_, ?_, ?_, ?_, ?_, ?_, ?_, ?_, ?_, ?_, ?_, ?_, ?_, ?_, ?_, ?_, ?_, ?_, ?_, ?_⟩ <;>
    rfl

theorem HilbertBuilder.Finish_small_degree (sorter : List Nat → List (Nat × Nat))
    (b : HilbertBuilder) (degree : Int) (h : degree < 2) :
    b.Finish sorter degree = some (.error "degree < 2", b) := by
  simp [HilbertBuilder.Finish, h]

theorem OMTBuilder.Finish_small_degree_omt (buckets : Nat → List F64 → Nat → List (Nat × Nat))
    (logCeil : Nat → Int → Int) (b : OMTBuilder) (degree : Int) (h : degree < 2) :
    b.Finish buckets logCeil degree = some (.error "degree < 2", b) := by
  simp [OMTBuilder.Finish, h]

/-- C15: for every builder (Hilbert or OMT) in every state and every degree
below 2, `Finish` returns the error "degree < 2" and no tree, and leaves the
builder as it was. -/
theorem finish_rejects_small_degree (sorter : List Nat → List (Nat × Nat))
    (buckets : Nat → List F64 → Nat → List (Nat × Nat)) (hb : HilbertBuilder)
    (ob : OMTBuilder) (logCeil : Nat → Int → Int) (degree : Int) (h : degree < 2) :
    hb.Finish sorter degree = some (.error "degree < 2", hb) ∧
    ob.Finish buckets logCeil degree = some (.error "degree < 2", ob) :=
  ⟨HilbertBuilder.Finish_small_degree sorter hb degree h,
    OMTBuilder.Finish_small_degree_omt buckets logCeil ob degree h⟩

theorem finish_rejects_small_degree_witness :
    (-3 : Int) < 2 ∧
    (NewHilbertBuilder.addAll sampleItems).Finish sampleSorter (-3) =
      some (.error "degree < 2", NewHilbertBuilder.addAll sampleItems) ∧
    (NewOMTBuilder.addAll sampleItems).Finish sampleBuckets exactLogCeil (-3) =
      some (.error "degree < 2", NewOMTBuilder.addAll sampleItems) :=
  ⟨by decide, finish_rejects_small_degree sampleSorter sampleBuckets
    (NewHilbertBuilder.addAll sampleItems) (NewOMTBuilder.addAll sampleItems) exactLogCeil
    (-3) (by decide)⟩

theorem HilbertBuilder.Finish_state (sorter : List Nat → List (Nat × Nat)) (b : HilbertBuilder)
    (degree : Int) (tree : RTree) (b' : HilbertBuilder) (h0 : b.count ≠ 0)
    (h : b.Finish sorter degree = some (.ok tree, b')) :
    b'.count = tree.count ∧ b'.refs = tree.refs ∧ b'.boxes = tree.boxes := by
  unfold HilbertBuilder.Finish at h
  split_ifs at h with h1 h2
  · cases h
  · cases h
  · cases hs : b.sort sorter with
    | none => rw [hs] at h; cases h
    | some b₁ =>
      rw [hs] at h
      cases hp : b₁.pack degree.toNat with
      | none => simp only [hp] at h; cases h
      | some b₂ =>
        simp only [hp, Option.some.injEq, Prod.mk.injEq, Except.ok.injEq] at h
        obtain ⟨rfl, rfl⟩ := h
        exact ⟨rfl, rfl, rfl⟩

theorem OMTBuilder.Finish_state_omt (buckets : Nat → List F64 → Nat → List (Nat × Nat))
    (logCeil : Nat → Int → Int) (b : OMTBuilder) (degree : Int) (tree : RTree) (b' : OMTBuilder) (h0 : b.count ≠ 0)
    (h : b.Finish buckets logCeil degree = some (.ok tree, b')) :
    b'.count = tree.count ∧ b'.refs = tree.refs ∧ b'.boxes = tree.boxes := by
  unfold OMTBuilder.Finish at h
  split_ifs at h with h1 h2
  · cases h
  · cases h
  · simp only at h
    split at h
    · cases h
    · split at h
      · cases h
      · simp only [Option.some.injEq, Prod.mk.injEq, Except.ok.injEq] at h
        obtain ⟨rfl, rfl⟩ := h
        exact ⟨rfl, rfl, rfl⟩

theorem HilbertBuilder.Finish_again (sorter : List Nat → List (Nat × Nat))
    (hs : ∀ vals, SwapsInRange (sorter vals) vals.length)
    (items : List Item) (hne : items ≠ []) (degree : Int) (hd : 2 ≤ degree) :
    ∃ (tree : RTree) (b' : HilbertBuilder),
      (NewHilbertBuilder.addAll items).Finish sorter degree = some (.ok tree, b') ∧
      ∀ (more : List Item) (sorter' : List Nat → List (Nat × Nat)) (degree' : Int),
        2 ≤ degree' →
        (b'.addAll more).Finish sorter' degree' =
          some (.error "Finish called more than once", b'.addAll more) := by
  obtain ⟨ly, b', hfin, hperm, hwf, _⟩ := HilbertBuilder.Finish_layout sorter hs items hne degree hd
  have hpos : 0 < items.length := List.length_pos.mpr hne
  have hc0 : (NewHilbertBuilder.addAll items).count ≠ 0 := by
    rw [(HilbertBuilder.addAll_spec NewHilbertBuilder items).1]
    show 0 + items.length ≠ 0
    omega
  obtain ⟨hc, hr, _⟩ := HilbertBuilder.Finish_state sorter _ degree _ b' hc0 hfin
  refine ⟨ly.tree, b', hfin, ?_⟩
  intro more sorter' degree' hd'
  obtain ⟨ac, ar, _⟩ := HilbertBuilder.addAll_spec b' more
  have hlen : ly.leaves.length = items.length := hperm.length_eq
  have h1 : ¬ degree' < 2 := by omega
  have h2 : ¬ (b'.addAll more).count = 0 := by
    rw [ac, hc, Layout.tree_count]; omega
  have h3 : (b'.addAll more).refs.length ≠ (b'.addAll more).count := by
    rw [ac, ar, hc, hr, List.length_append, Layout.tree_refs_length, Layout.tree_count,
      List.length_map]
    omega
  simp only [HilbertBuilder.Finish, h1, h2, h3, if_false, if_true, ne_eq, not_false_eq_true]

theorem OMTBuilder.Finish_again_omt (buckets : Nat → List F64 → Nat → List (Nat × Nat))
    (hbk : BucketsInRange buckets) (logCeil : Nat → Int → Int)
    (items : List Item) (hne : items ≠ []) (degree : Int) (hd : 2 ≤ degree) :
    ∃ (tree : RTree) (b' : OMTBuilder),
      (NewOMTBuilder.addAll items).Finish buckets logCeil degree = some (.ok tree, b') ∧
      ∀ (more : List Item) (buckets' : Nat → List F64 → Nat → List (Nat × Nat))
        (logCeil' : Nat → Int → Int) (degree' : Int), 2 ≤ degree' →
        (b'.addAll more).Finish buckets' logCeil' degree' =
          some (.error "Finish called more than once", b'.addAll more) := by
  obtain ⟨ly, b', hfin, hperm, hwf, _⟩ :=
    OMTBuilder.Finish_over buckets hbk logCeil items hne degree hd
  have hpos : 0 < items.length := List.length_pos.mpr hne
  have hc0 : (NewOMTBuilder.addAll items).count ≠ 0 := by
    rw [OMTBuilder.addAll_new]
    show items.length ≠ 0
    omega
  obtain ⟨hc, hr, _⟩ := OMTBuilder.Finish_state_omt buckets logCeil _ degree _ b' hc0 hfin
  refine ⟨ly.tree, b', hfin, ?_⟩
  intro more buckets' logCeil' degree' hd'
  have hlen : ly.leaves.length = items.length := hperm.length_eq
  have h1 : ¬ degree' < 2 := by omega
  have ac : (b'.addAll more).count = b'.count + more.length := by
    rw [OMTBuilder.addAll_spec_omt]
  have ar : (b'.addAll more).refs = b'.refs ++ more.map Item.ref := by
    rw [OMTBuilder.addAll_spec_omt]
  have h2 : ¬ (b'.addAll more).count = 0 := by
    rw [ac, hc, Layout.tree_count]; omega
  have h3 : (b'.addAll more).refs.length ≠ (b'.addAll more).count := by
    rw [ac, ar, hc, hr, List.length_append, Layout.tree_refs_length, Layout.tree_count,
      List.length_map]
    omega
  simp only [OMTBuilder.Finish, h1, h2, h3, if_false, if_true, ne_eq, not_false_eq_true]

/-- C16: for every builder (Hilbert or OMT) holding at least one item, once
`Finish` has returned a tree (whatever height `logCeil` the OMT builder
derives from its float64 logarithms, in this call and in the later ones),
every further call of `Finish` with degree >= 2 on the same builder returns
the error
"Finish called more than once" and no tree, and leaves the builder as it was
(so the call after it is rejected as well); a builder holding no item returns
the empty tree again. -/
theorem finish_twice_rejected (sorter : List Nat → List (Nat × Nat))
    (hs : ∀ vals, SwapsInRange (sorter vals) vals.length)
    (buckets : Nat → List F64 → Nat → List (Nat × Nat)) (hbk : BucketsInRange buckets)
    (logCeil : Nat → Int → Int) (items : List Item) (hne : items ≠ []) (degree : Int) (hd : 2 ≤ degree) :
    (∃ (tree : RTree) (b' : HilbertBuilder),
      (NewHilbertBuilder.addAll items).Finish sorter degree = some (.ok tree, b') ∧
      ∀ (sorter' : List Nat → List (Nat × Nat)) (degree' : Int), 2 ≤ degree' →
        b'.Finish sorter' degree' = some (.error "Finish called more than once", b')) ∧
    (∃ (tree : RTree) (b' : OMTBuilder),
      (NewOMTBuilder.addAll items).Finish buckets logCeil degree = some (.ok tree, b') ∧
      ∀ (buckets' : Nat → List F64 → Nat → List (Nat × Nat)) (logCeil' : Nat → Int → Int)
        (degree' : Int), 2 ≤ degree' →
        b'.Finish buckets' logCeil' degree' =
          some (.error "Finish called more than once", b')) ∧
    (∀ (sorter' : List Nat → List (Nat × Nat)) (degree' : Int), 2 ≤ degree' →
      NewHilbertBuilder.Finish sorter' degree' = some (.ok ⟨0, [], []⟩, NewHilbertBuilder)) ∧
    (∀ (buckets' : Nat → List F64 → Nat → List (Nat × Nat)) (logCeil' : Nat → Int → Int)
      (degree' : Int), 2 ≤ degree' →
      NewOMTBuilder.Finish buckets' logCeil' degree' =
        some (.ok ⟨0, [], []⟩, NewOMTBuilder)) := by
  refine ⟨?_, ?_, fun sorter' degree' h => HilbertBuilder.Finish_empty sorter' degree' h,
    fun buckets' logCeil' degree' h => OMTBuilder.Finish_empty_omt buckets' logCeil' degree' h⟩
  · obtain ⟨tree, b', hfin, hagain⟩ := HilbertBuilder.Finish_again sorter hs items hne degree hd
    exact ⟨tree, b', hfin, fun sorter' degree' h => hagain [] sorter' degree' h⟩
  · obtain ⟨tree, b', hfin, hagain⟩ :=
      OMTBuilder.Finish_again_omt buckets hbk logCeil items hne degree hd
    exact ⟨tree, b', hfin, fun buckets' logCeil' degree' h =>
      hagain [] buckets' logCeil' degree' h⟩

theorem finish_twice_rejected_witness :
    (∀ vals, SwapsInRange (sampleSorter vals) vals.length) ∧ BucketsInRange sampleBuckets ∧
    sampleItems ≠ [] ∧ (2 : Int) ≤ 2 ∧
    (∃ (tree : RTree) (b' : HilbertBuilder),
      (NewHilbertBuilder.addAll sampleItems).Finish sampleSorter 2 = some (.ok tree, b') ∧
      ∀ (sorter' : List Nat → List (Nat × Nat)) (degree' : Int), 2 ≤ degree' →
        b'.Finish sorter' degree' = some (.error "Finish called more than once", b')) ∧
    (∃ (tree : RTree) (b' : OMTBuilder),
      (NewOMTBuilder.addAll sampleItems).Finish sampleBuckets exactLogCeil 2 = some (.ok tree, b') ∧
      ∀ (buckets' : Nat → List F64 → Nat → List (Nat × Nat)) (logCeil' : Nat → Int → Int)
        (degree' : Int), 2 ≤ degree' →
        b'.Finish buckets' logCeil' degree' =
          some (.error "Finish called more than once", b')) ∧
    (∀ (sorter' : List Nat → List (Nat × Nat)) (degree' : Int), 2 ≤ degree' →
      NewHilbertBuilder.Finish sorter' degree' = some (.ok ⟨0, [], []⟩, NewHilbertBuilder)) ∧
    (∀ (buckets' : Nat → List F64 → Nat → List (Nat × Nat)) (logCeil' : Nat → Int → Int)
      (degree' : Int), 2 ≤ degree' →
      NewOMTBuilder.Finish buckets' logCeil' degree' =
        some (.ok ⟨0, [], []⟩, NewOMTBuilder)) :=
  ⟨sampleSorter_inRange, sampleBuckets_inRange, by simp [sampleItems], le_refl _,
    finish_twice_rejected sampleSorter sampleSorter_inRange sampleBuckets
      sampleBuckets_inRange exactLogCeil sampleItems (by simp [sampleItems]) 2 (le_refl _)⟩

/-- C16, as stated, fails for a builder holding no item: `Finish` on a fresh
builder returns the empty tree, and the next call of `Finish` with degree 2 on
the builder it leaves returns the empty tree again instead of an error, for
the Hilbert builder and for the OMT builder (whatever its height function
`logCeil`, which is not consulted). -/
theorem finish_twice_on_empty_succeeds :
    (∃ (tree : RTree) (b' : HilbertBuilder),
      NewHilbertBuilder.Finish sampleSorter 2 = some (.ok tree, b') ∧
      b'.Finish sampleSorter 2 = some (.ok ⟨0, [], []⟩, b')) ∧
    (∀ logCeil : Nat → Int → Int, ∃ (tree : RTree) (b' : OMTBuilder),
      NewOMTBuilder.Finish sampleBuckets logCeil 2 = some (.ok tree, b') ∧
      b'.Finish sampleBuckets logCeil 2 = some (.ok ⟨0, [], []⟩, b')) :=
  ⟨⟨⟨0, [], []⟩, NewHilbertBuilder, HilbertBuilder.Finish_empty sampleSorter 2 (le_refl _),
      HilbertBuilder.Finish_empty sampleSorter 2 (le_refl _)⟩,
    fun logCeil => ⟨⟨0, [], []⟩, NewOMTBuilder,
      OMTBuilder.Finish_empty_omt sampleBuckets logCeil 2 (le_refl _),
      OMTBuilder.Finish_empty_omt sampleBuckets logCeil 2 (le_refl _)⟩⟩

/-- C17: for every builder (Hilbert or OMT) holding at least one item and
every degree >= 2 (and whatever height `logCeil` the OMT builder derives from
its float64 logarithms): after `Finish` has returned a tree, `Finish` with any
degree >= 2, called after any number of further `Add` calls, returns no tree
and the error "Finish called more than once", and leaves the builder as the
`Add` calls left it; so every later call is rejected in the same way. -/
theorem finish_again_after_add (sorter : List Nat → List (Nat × Nat))
    (hs : ∀ vals, SwapsInRange (sorter vals) vals.length)
    (buckets : Nat → List F64 → Nat → List (Nat × Nat)) (hbk : BucketsInRange buckets)
    (logCeil : Nat → Int → Int) (items : List Item) (hne : items ≠ []) (degree : Int) (hd : 2 ≤ degree) :
    (∃ (tree : RTree) (b' : HilbertBuilder),
      (NewHilbertBuilder.addAll items).Finish sorter degree = some (.ok tree, b') ∧
      ∀ (more : List Item) (sorter' : List Nat → List (Nat × Nat)) (degree' : Int),
        2 ≤ degree' →
        (b'.addAll more).Finish sorter' degree' =
          some (.error "Finish called more than once", b'.addAll more)) ∧
    (∃ (tree : RTree) (b' : OMTBuilder),
      (NewOMTBuilder.addAll items).Finish buckets logCeil degree = some (.ok tree, b') ∧
      ∀ (more : List Item) (buckets' : Nat → List F64 → Nat → List (Nat × Nat))
        (logCeil' : Nat → Int → Int) (degree' : Int), 2 ≤ degree' →
        (b'.addAll more).Finish buckets' logCeil' degree' =
          some (.error "Finish called more than once", b'.addAll more)) :=
  ⟨HilbertBuilder.Finish_again sorter hs items hne degree hd,
    OMTBuilder.Finish_again_omt buckets hbk logCeil items hne degree hd⟩

theorem finish_again_after_add_witness :
    (∀ vals, SwapsInRange (sampleSorter vals) vals.length) ∧ BucketsInRange sampleBuckets ∧
    sampleItems ≠ [] ∧ (2 : Int) ≤ 2 ∧
    (∃ (tree : RTree) (b' : HilbertBuilder),
      (NewHilbertBuilder.addAll sampleItems).Finish sampleSorter 2 = some (.ok tree, b') ∧
      ∀ (more : List Item) (sorter' : List Nat → List (Nat × Nat)) (degree' : Int),
        2 ≤ degree' →
        (b'.addAll more).Finish sorter' degree' =
          some (.error "Finish called more than once", b'.addAll more)) ∧
    (∃ (tree : RTree) (b' : OMTBuilder),
      (NewOMTBuilder.addAll sampleItems).Finish sampleBuckets exactLogCeil 2 = some (.ok tree, b') ∧
      ∀ (more : List Item) (buckets' : Nat → List F64 → Nat → List (Nat × Nat))
        (logCeil' : Nat → Int → Int) (degree' : Int), 2 ≤ degree' →
        (b'.addAll more).Finish buckets' logCeil' degree' =
          some (.error "Finish called more than once", b'.addAll more)) :=
  ⟨sampleSorter_inRange, sampleBuckets_inRange, by simp [sampleItems], le_refl _,
    finish_again_after_add sampleSorter sampleSorter_inRange sampleBuckets
      sampleBuckets_inRange exactLogCeil sampleItems (by simp [sampleItems]) 2 (le_refl _)⟩

theorem HilbertBuilder.Finish_error_state (sorter : List Nat → List (Nat × Nat))
    (b : HilbertBuilder) (degree : Int) (e : String) (b' : HilbertBuilder)
    (h : b.Finish sorter degree = some (.error e, b')) :
    b' = b ∧ (e = "degree < 2" ∨ e = "Finish called more than once") := by
  unfold HilbertBuilder.Finish at h
  split_ifs at h with h1 h2 h3
  · simp only [Option.some.injEq, Prod.mk.injEq, Except.error.injEq] at h
    exact ⟨h.2.symm, Or.inl h.1.symm⟩
  · cases h
  · simp only [Option.some.injEq, Prod.mk.injEq, Except.error.injEq] at h
    exact ⟨h.2.symm, Or.inr h.1.symm⟩
  · cases hs : b.sort sorter with
    | none => rw [hs] at h; cases h
    | some b₁ =>
      rw [hs] at h
      cases hp : b₁.pack degree.toNat with
      | none => simp only [hp] at h; cases h
      | some b₂ => simp only [hp] at h; cases h

theorem OMTBuilder.Finish_error_state_omt (buckets : Nat → List F64 → Nat → List (Nat × Nat))
    (logCeil : Nat → Int → Int) (b : OMTBuilder) (degree : Int) (e : String) (b' : OMTBuilder)
    (h : b.Finish buckets logCeil degree = some (.error e, b')) :
    b' = b ∧ (e = "degree < 2" ∨ e = "Finish called more than once") := by
  unfold OMTBuilder.Finish at h
  split_ifs at h with h1 h2 h3
  · simp only [Option.some.injEq, Prod.mk.injEq, Except.error.injEq] at h
    exact ⟨h.2.symm, Or.inl h.1.symm⟩
  · cases h
  · simp only [Option.some.injEq, Prod.mk.injEq, Except.error.injEq] at h
    exact ⟨h.2.symm, Or.inr h.1.symm⟩
  · simp only at h
    split at h
    · cases h
    · split at h
      · cases h
      · cases h

/-- C18: whenever `Finish` (Hilbert or OMT) returns an error, the error is
"degree < 2" or "Finish called more than once" and the builder after the call
is the builder before it: count, refs, boxes (and, for the Hilbert builder,
the running bounds) are unchanged.  In particular `Finish(0)` followed by
`Finish(d)` returns what `Finish(d)` alone returns. -/
theorem finish_error_keeps_builder (sorter : List Nat → List (Nat × Nat))
    (buckets : Nat → List F64 → Nat → List (Nat × Nat)) (hb : HilbertBuilder)
    (ob : OMTBuilder) (logCeil : Nat → Int → Int) (degree d : Int) :
    (∀ e hb', hb.Finish sorter degree = some (.error e, hb') →
      hb' = hb ∧ (e = "degree < 2" ∨ e = "Finish called more than once")) ∧
    (∀ e ob', ob.Finish buckets logCeil degree = some (.error e, ob') →
      ob' = ob ∧ (e = "degree < 2" ∨ e = "Finish called more than once")) ∧
    (∃ e hb', hb.Finish sorter 0 = some (.error e, hb') ∧
      hb'.Finish sorter d = hb.Finish sorter d) ∧
    (∃ e ob', ob.Finish buckets logCeil 0 = some (.error e, ob') ∧
      ob'.Finish buckets logCeil d = ob.Finish buckets logCeil d) :=
  ⟨fun e hb' h => HilbertBuilder.Finish_error_state sorter hb degree e hb' h,
    fun e ob' h => OMTBuilder.Finish_error_state_omt buckets logCeil ob degree e ob' h,
    ⟨"degree < 2", hb, HilbertBuilder.Finish_small_degree sorter hb 0 (by decide), rfl⟩,
    ⟨"degree < 2", ob, OMTBuilder.Finish_small_degree_omt buckets logCeil ob 0 (by decide), rfl⟩⟩

theorem finish_error_keeps_builder_witness :
    (NewHilbertBuilder.addAll sampleItems).Finish sampleSorter 1 =
      some (.error "degree < 2", NewHilbertBuilder.addAll sampleItems) ∧
    NewHilbertBuilder.addAll sampleItems = NewHilbertBuilder.addAll sampleItems ∧
    (("degree < 2" : String) = "degree < 2" ∨ ("degree < 2" : String) =
      "Finish called more than once") :=
  ⟨HilbertBuilder.Finish_small_degree sampleSorter _ 1 (by decide),
    (finish_error_keeps_builder sampleSorter sampleBuckets
      (NewHilbertBuilder.addAll sampleItems) (NewOMTBuilder.addAll sampleItems) exactLogCeil
      1 2).1
      "degree < 2" (NewHilbertBuilder.addAll sampleItems)
      (HilbertBuilder.Finish_small_degree sampleSorter _ 1 (by decide))⟩

theorem F64.ofRat_neg (r : ℚ) : ofRat (-r) = neg (ofRat r) := by
  unfold ofRat
  have hB : (0 : ℚ) < 2 ^ 1024 := pow_pos (by norm_num) 1024
  generalize (2 : ℚ) ^ 1024 = B at hB
  by_cases h1 : B ≤ r
  · have h2 : -r ≤ -B := by linarith
    have h3 : ¬ B ≤ -r := by intro h; linarith
    rw [if_pos h1, if_neg h3, if_pos h2]
    rfl
  · by_cases h2 : r ≤ -B
    · have h3 : B ≤ -r := by linarith
      rw [if_neg h1, if_pos h2, if_pos h3]
      rfl
    · have h3 : ¬ B ≤ -r := by intro h; apply h2; linarith
      have h4 : ¬ -r ≤ -B := by intro h; apply h1; linarith
      rw [if_neg h1, if_neg h2, if_neg h3, if_neg h4]
      rfl

theorem F64.rnd_neg (q : ℚ) : rnd (-q) = neg (rnd q) := by
  unfold rnd
  rw [F64.nearest_neg, F64.ofRat_neg]

theorem F64.neg_mul_self_neg (x : F64) : neg x * neg x = x * x := by
  cases x with
  | negInf => rfl
  | posInf => rfl
  | fin a =>
    show fin (-a) * fin (-a) = fin a * fin a
    rw [F64.fin_mul_fin, F64.fin_mul_fin, neg_mul_neg]

theorem F64.sub_self_fin (a : ℚ) : fin a - fin a = fin 0 := by
  rw [F64.sub_fin, sub_self, F64.rnd_zero]

theorem F64.neg_sub_fin (a b : ℚ) : fin a - fin b = neg (fin b - fin a) := by
  rw [F64.sub_fin, F64.sub_fin, ← F64.rnd_neg, neg_sub]

theorem F64.sub_nonneg_of_le (p a : F64) (h : p ≤ a) : 0 ≤ a - p := by
  rcases lt_or_eq_of_le h with h | h
  · exact F64.sub_nonneg_of_lt p a h
  · subst h
    cases p with
    | negInf => exact le_refl _
    | posInf => exact le_refl _
    | fin a => rw [F64.sub_self_fin]; exact le_refl _

theorem F64.sub_nonpos_of_le (a b : F64) (h : a ≤ b) : a - b ≤ 0 := by
  rw [F64.zero_def]
  cases a <;> cases b
  all_goals first
    | exact absurd h (F64.not_fin_le_negInf _)
    | exact absurd h (F64.not_posInf_le_fin _)
    | exact absurd h F64.not_posInf_le_negInf
    | exact F64.negInf_le _
    | exact le_refl _
    | skip
  rename_i a b
  rw [F64.fin_le_fin] at h
  rw [F64.sub_fin, ← F64.rnd_zero]
  exact F64.rnd_mono _ _ (by linarith)

theorem axisDist_eq_max (p lo hi : F64) (h : lo ≤ hi) :
    axisDist p lo hi = max (lo - p) (max 0 (p - hi)) := by
  unfold axisDist
  by_cases h1 : p < lo
  · rw [if_pos h1]
    have h2 : p - hi ≤ 0 := F64.sub_nonpos_of_le p hi (le_trans (le_of_lt h1) h)
    rw [max_eq_left h2, max_eq_left (F64.sub_nonneg_of_lt p lo h1)]
  · rw [if_neg h1]
    have h3 : lo - p ≤ 0 := F64.sub_nonpos_of_le lo p (not_lt.mp h1)
    by_cases h2 : p ≤ hi
    · rw [if_pos h2, max_eq_left (F64.sub_nonpos_of_le p hi h2), max_eq_right h3]
    · rw [if_neg h2]
      have h4 : 0 ≤ p - hi := F64.sub_nonneg_of_lt hi p (not_le.mp h2)
      rw [max_eq_right h4, max_eq_right (le_trans h3 h4)]

theorem axisDist_inside (p lo hi : F64) (h1 : lo ≤ p) (h2 : p ≤ hi) : axisDist p lo hi = 0 := by
  unfold axisDist
  rw [if_neg (not_lt.mpr h1), if_pos h2]

theorem axisDist_clamp (p lo hi : F64) (h : lo ≤ hi) :
    axisDist p lo hi = axisDist p (max lo (min p hi)) (max lo (min p hi)) := by
  by_cases h1 : p < lo
  · have hc : max lo (min p hi) = lo := by
      rw [min_eq_left (le_trans (le_of_lt h1) h), max_eq_left (le_of_lt h1)]
    rw [hc]
    unfold axisDist
    rw [if_pos h1, if_pos h1]
  · by_cases h2 : p ≤ hi
    · have hc : max lo (min p hi) = p := by
        rw [min_eq_left h2, max_eq_right (not_lt.mp h1)]
      rw [hc, axisDist_inside p lo hi (not_lt.mp h1) h2, axisDist_inside p p p (le_refl _)
        (le_refl _)]
    · have hc : max lo (min p hi) = hi := by
        rw [min_eq_right (le_of_lt (not_le.mp h2)), max_eq_right h]
      rw [hc]
      unfold axisDist
      rw [if_neg h1, if_neg h2, if_neg (not_lt.mpr (le_of_lt (not_le.mp h2)))]

theorem F64.sub_eq_neg_sub (p s : F64) (h : p < s) : p - s = neg (s - p) := by
  cases p <;> cases s
  all_goals first
    | exact absurd h (lt_irrefl _)
    | exact absurd (le_of_lt h) (F64.not_fin_le_negInf _)
    | exact absurd (le_of_lt h) (F64.not_posInf_le_fin _)
    | exact absurd (le_of_lt h) F64.not_posInf_le_negInf
    | rfl
    | skip
  rename_i a b
  exact F64.neg_sub_fin a b

theorem axisDist_point_sq (p s : F64) :
    axisDist p s s * axisDist p s s = (p - s) * (p - s) := by
  unfold axisDist
  by_cases h1 : p < s
  · rw [if_pos h1, F64.sub_eq_neg_sub p s h1, F64.neg_mul_self_neg]
  · rw [if_neg h1]
    by_cases h2 : p ≤ s
    · have he : p = s := le_antisymm h2 (not_lt.mp h1)
      subst he
      rw [if_pos h2]
      cases p with
      | negInf => rfl
      | posInf => rfl
      | fin a => rw [F64.sub_self_fin]; rfl
    · rw [if_neg h2]

theorem PlanarBoxDist_point (pX pY sX sY : F64) :
    PlanarBoxDist pX pY sX sY sX sY = (pX - sX) * (pX - sX) + (pY - sY) * (pY - sY) := by
  rw [PlanarBoxDist_eq, axisDist_point_sq, axisDist_point_sq]

theorem F64.sq_sum_pos_of_gap (e : Int) (h1 : -537 ≤ e) (h2 : e < 512) (dX dY : F64)
    (hx : fin (2 ^ e) ≤ dX) (hy : 0 ≤ dY) : 0 < dX * dX + dY * dY := by
  have h9 : (0 : F64) ≤ fin (2 ^ e) := by
    rw [F64.zero_def, F64.fin_le_fin]; positivity
  have h18 : (0 : F64) ≤ fin (2 ^ (e + e)) := by
    rw [F64.zero_def, F64.fin_le_fin]; positivity
  have hsq : fin (2 ^ e) * fin (2 ^ e) ≤ dX * dX :=
    (F64.mul_self_mono (fin (2 ^ e)) dX h9 hx).2
  have hpow2 : fin (2 ^ e) * fin (2 ^ e) = fin (2 ^ (e + e)) := by
    rw [F64.fin_mul_fin, ← zpow_add₀ (by norm_num : (2 : ℚ) ≠ 0)]
    exact F64.rnd_two_zpow (e + e) (by omega) (by omega)
  rw [hpow2] at hsq
  have hy2 : (0 : F64) ≤ dY * dY := (F64.mul_self_mono dY dY hy (le_refl dY)).1
  have hsum : fin (2 ^ (e + e)) + (0 : F64) ≤ dX * dX + dY * dY :=
    F64.add_mono_nonneg (fin (2 ^ (e + e))) (dX * dX) 0 (dY * dY) h18 hsq
      (le_refl (0 : F64)) hy2
  have hlhs : fin (2 ^ (e + e)) + (0 : F64) = fin (2 ^ (e + e)) := by
    rw [F64.zero_def, F64.fin_add_fin, add_zero]
    exact F64.rnd_two_zpow (e + e) (by omega) (by omega)
  rw [hlhs] at hsum
  refine lt_of_lt_of_le ?_ hsum
  rw [F64.zero_def, F64.fin_lt_fin]
  positivity

theorem F64.add_comm_fl (a b : F64) : a + b = b + a := by
  cases a <;> cases b <;> first
    | rfl
    | (rename_i a b; rw [F64.fin_add_fin, F64.fin_add_fin, add_comm])

theorem F64.sq_sum_zero : fin 0 * fin 0 + fin 0 * fin 0 = fin 0 := by
  rw [F64.fin_mul_fin, mul_zero, F64.rnd_zero, F64.fin_add_fin, add_zero, F64.rnd_zero]


theorem axisGap_sq_le (p lo hi s : ℚ) (h1 : lo ≤ s) (h2 : s ≤ hi) :
    axisGap p lo hi ^ 2 ≤ (p - s) ^ 2 := by
  unfold axisGap
  rcases le_total (lo - p) (max 0 (p - hi)) with h | h
  · rw [max_eq_right h]
    rcases le_total 0 (p - hi) with h' | h'
    · rw [max_eq_right h']; nlinarith
    · rw [max_eq_left h']; nlinarith [sq_nonneg (p - s)]
  · rw [max_eq_left h]
    have : 0 ≤ lo - p := le_trans (le_max_left _ _) h
    nlinarith

theorem axisGap_eq_zero (p lo hi : ℚ) :
    axisGap p lo hi = 0 ↔ lo ≤ p ∧ p ≤ hi := by
  unfold axisGap
  constructor
  · intro h0
    have h1 : lo - p ≤ 0 := by rw [← h0]; exact le_max_left _ _
    have h2 : p - hi ≤ 0 := by
      rw [← h0]; exact le_trans (le_max_right _ _) (le_max_right _ _)
    constructor <;> linarith
  · rintro ⟨h1, h2⟩
    rw [max_eq_right (by rw [max_eq_left] <;> linarith), max_eq_left (by linarith)]

theorem axisDist_exact (p lo hi : ℚ) (h : lo ≤ hi) (hg : F64.IsFloat (axisGap p lo hi)) :
    axisDist (fin p) (fin lo) (fin hi) = fin (axisGap p lo hi) := by
  unfold F64.IsFloat at hg
  unfold axisDist
  by_cases h1 : p < lo
  · have hgap : axisGap p lo hi = lo - p := by
      unfold axisGap
      rw [max_eq_left]
      apply max_le <;> linarith
    rw [if_pos ((F64.fin_lt_fin p lo).mpr h1), F64.sub_fin, ← hgap, hg]
  · rw [if_neg (fun hc => h1 ((F64.fin_lt_fin p lo).mp hc))]
    by_cases h2 : p ≤ hi
    · have hgap : axisGap p lo hi = 0 := (axisGap_eq_zero p lo hi).mpr ⟨not_lt.mp h1, h2⟩
      rw [if_pos ((F64.fin_le_fin p hi).mpr h2), hgap]
      rfl
    · have hgap : axisGap p lo hi = p - hi := by
        unfold axisGap
        rw [max_eq_right, max_eq_right]
        · linarith
        · rw [max_eq_right] <;> linarith
      rw [if_neg (fun hc => h2 ((F64.fin_le_fin p hi).mp hc)), F64.sub_fin, ← hgap, hg]

theorem PlanarBoxDist_exact (pX pY minX minY maxX maxY : ℚ) (hx : minX ≤ maxX)
    (hy : minY ≤ maxY) (hgx : F64.IsFloat (axisGap pX minX maxX))
    (hgy : F64.IsFloat (axisGap pY minY maxY))
    (hsx : F64.IsFloat (axisGap pX minX maxX * axisGap pX minX maxX))
    (hsy : F64.IsFloat (axisGap pY minY maxY * axisGap pY minY maxY))
    (hsum : F64.IsFloat (axisGap pX minX maxX * axisGap pX minX maxX +
      axisGap pY minY maxY * axisGap pY minY maxY)) :
    PlanarBoxDist (fin pX) (fin pY) (fin minX) (fin minY) (fin maxX) (fin maxY) =
      fin (axisGap pX minX maxX ^ 2 + axisGap pY minY maxY ^ 2) := by
  unfold F64.IsFloat at hsx hsy hsum
  rw [PlanarBoxDist_eq, axisDist_exact pX minX maxX hx hgx, axisDist_exact pY minY maxY hy hgy,
    F64.fin_mul_fin, F64.fin_mul_fin, hsx, hsy, F64.fin_add_fin, hsum, sq, sq]

theorem PlanarBoxDist_small (pX pY minX minY maxX maxY gx gy : Int)
    (hx : (minX : ℚ) ≤ maxX) (hy : (minY : ℚ) ≤ maxY)
    (hgx : axisGap pX minX maxX = gx) (hgy : axisGap pY minY maxY = gy)
    (h1 : |gx| ≤ 2 ^ 26) (h2 : |gy| ≤ 2 ^ 26) :
    PlanarBoxDist (fin pX) (fin pY) (fin minX) (fin minY) (fin maxX) (fin maxY) =
      fin ((gx * gx + gy * gy : Int) : ℚ) := by
  have a1 : |gx * gx| ≤ 2 ^ 52 := by
    rw [abs_mul]
    calc |gx| * |gx| ≤ 2 ^ 26 * 2 ^ 26 := mul_le_mul h1 h1 (abs_nonneg _) (by norm_num)
      _ = 2 ^ 52 := by norm_num
  have a2 : |gy * gy| ≤ 2 ^ 52 := by
    rw [abs_mul]
    calc |gy| * |gy| ≤ 2 ^ 26 * 2 ^ 26 := mul_le_mul h2 h2 (abs_nonneg _) (by norm_num)
      _ = 2 ^ 52 := by norm_num
  have a3 : |gx * gx + gy * gy| ≤ 2 ^ 53 :=
    le_trans (abs_add _ _) (by linarith)
  have b1 : |gx| ≤ 2 ^ 53 := le_trans h1 (by norm_num)
  have b2 : |gy| ≤ 2 ^ 53 := le_trans h2 (by norm_num)
  rw [PlanarBoxDist_exact pX pY minX minY maxX maxY hx hy
    (by rw [hgx]; exact F64.isFloat_intCast gx b1)
    (by rw [hgy]; exact F64.isFloat_intCast gy b2)
    (by rw [hgx, ← Int.cast_mul]; exact F64.isFloat_intCast _ (le_trans a1 (by norm_num)))
    (by rw [hgy, ← Int.cast_mul]; exact F64.isFloat_intCast _ (le_trans a2 (by norm_num)))
    (by rw [hgx, hgy, ← Int.cast_mul, ← Int.cast_mul, ← Int.cast_add]
        exact F64.isFloat_intCast _ a3), hgx, hgy]
  congr 1
  push_cast
  ring

theorem PlanarBoxDist_witnesses :
    PlanarBoxDist (fin 1) (fin 1) (fin 0) (fin 0) (fin 2) (fin 2) = fin 0 ∧
    PlanarBoxDist (fin 1) (fin 3) (fin 0) (fin 0) (fin 2) (fin 2) = fin 1 ∧
    PlanarBoxDist (fin 3) (fin 3) (fin 0) (fin 0) (fin 2) (fin 2) = fin 2 ∧
    PlanarBoxDist (fin 3) (fin 1) (fin 0) (fin 0) (fin 2) (fin 2) = fin 1 ∧
    PlanarBoxDist (fin 3) (fin (-1)) (fin 0) (fin 0) (fin 2) (fin 2) = fin 2 ∧
    PlanarBoxDist (fin 1) (fin (-1)) (fin 0) (fin 0) (fin 2) (fin 2) = fin 1 ∧
    PlanarBoxDist (fin (-1)) (fin (-1)) (fin 0) (fin 0) (fin 2) (fin 2) = fin 2 ∧
    PlanarBoxDist (fin (-1)) (fin 1) (fin 0) (fin 0) (fin 2) (fin 2) = fin 1 ∧
    PlanarBoxDist (fin (-1)) (fin 3) (fin 0) (fin 0) (fin 2) (fin 2) = fin 2 := by
  have key : ∀ (pX pY gx gy : Int), axisGap pX ((0 : Int) : ℚ) ((2 : Int) : ℚ) = gx →
      axisGap pY ((0 : Int) : ℚ) ((2 : Int) : ℚ) = gy → |gx| ≤ 2 ^ 26 → |gy| ≤ 2 ^ 26 →
      PlanarBoxDist (fin pX) (fin pY) (fin ((0 : Int) : ℚ)) (fin ((0 : Int) : ℚ))
        (fin ((2 : Int) : ℚ)) (fin ((2 : Int) : ℚ)) = fin ((gx * gx + gy * gy : Int) : ℚ) :=
    fun pX pY gx gy h1 h2 h3 h4 =>
      PlanarBoxDist_small pX pY 0 0 2 2 gx gy (by norm_num) (by norm_num) h1 h2 h3 h4
  have k1 := key 1 1 0 0 (by norm_num [axisGap]) (by norm_num [axisGap]) (by norm_num)
    (by norm_num)
  have k2 := key 1 3 0 1 (by norm_num [axisGap]) (by norm_num [axisGap]) (by norm_num)
    (by norm_num)
  have k3 := key 3 3 1 1 (by norm_num [axisGap]) (by norm_num [axisGap]) (by norm_num)
    (by norm_num)
  have k4 := key 3 1 1 0 (by norm_num [axisGap]) (by norm_num [axisGap]) (by norm_num)
    (by norm_num)
  have k5 := key 3 (-1) 1 1 (by norm_num [axisGap]) (by norm_num [axisGap]) (by norm_num)
    (by norm_num)
  have k6 := key 1 (-1) 0 1 (by norm_num [axisGap]) (by norm_num [axisGap]) (by norm_num)
    (by norm_num)
  have k7 := key (-1) (-1) 1 1 (by norm_num [axisGap]) (by norm_num [axisGap]) (by norm_num)
    (by norm_num)
  have k8 := key (-1) 1 1 0 (by norm_num [axisGap]) (by norm_num [axisGap]) (by norm_num)
    (by norm_num)
  have k9 := key (-1) 3 1 1 (by norm_num [axisGap]) (by norm_num [axisGap]) (by norm_num)
    (by norm_num)
  norm_num at k1 k2 k3 k4 k5 k6 k7 k8 k9
  exact ⟨k1, k2, k3, k4, k5, k6, k7, k8, k9⟩

/-- C19, as stated, fails: float64 arithmetic rounds, and the square of a
small gap underflows.  For the point (0, 0) and the rectangle
[2^-600, 0, 1, 1], whose coordinates are float64 values, the point lies to
the left of the rectangle at distance 2^-600, the squared distance is
2^-1200, and `PlanarBoxDist` returns 0. -/
theorem planar_box_dist_underflow :
    F64.IsFloat (2 ^ (-600 : Int)) ∧ F64.IsFloat 0 ∧ F64.IsFloat 1 ∧
    fin (2 ^ (-600 : Int)) ≤ fin 1 ∧ fin 0 ≤ fin 1 ∧
    ¬ (fin (2 ^ (-600 : Int)) ≤ fin 0) ∧
    axisGap 0 (2 ^ (-600 : Int)) 1 ^ 2 + axisGap 0 0 1 ^ 2 = 2 ^ (-1200 : Int) ∧
    PlanarBoxDist (fin 0) (fin 0) (fin (2 ^ (-600 : Int))) (fin 0) (fin 1) (fin 1) = fin 0 := by
  have hpos : (0 : ℚ) < 2 ^ (-600 : Int) := by positivity
  have hle1 : (2 : ℚ) ^ (-600 : Int) ≤ 1 := by
    have := zpow_le_zpow_right₀ (show (1 : ℚ) ≤ 2 by norm_num) (show (-600 : Int) ≤ 0 by norm_num)
    simpa using this
  have hfl : F64.rnd (2 ^ (-600 : Int)) = fin (2 ^ (-600 : Int)) :=
    F64.rnd_two_zpow (-600) (by norm_num) (by norm_num)
  refine ⟨hfl, F64.rnd_zero, ?_, (F64.fin_le_fin _ _).mpr hle1,
    (F64.fin_le_fin _ _).mpr (by norm_num), ?_, ?_, ?_⟩
  · have := F64.rnd_intCast 1 (by norm_num)
    simpa using this
  · rw [F64.fin_le_fin]
    exact not_le.mpr hpos
  · have g1 : axisGap 0 (2 ^ (-600 : Int)) 1 = 2 ^ (-600 : Int) := by
      unfold axisGap
      rw [sub_zero, max_eq_left]
      apply max_le hpos.le
      linarith
    have g2 : axisGap 0 0 1 = 0 := (axisGap_eq_zero 0 0 1).mpr ⟨le_refl _, by norm_num⟩
    rw [g1, g2, ← zpow_natCast, ← zpow_mul]
    norm_num
  · rw [PlanarBoxDist_eq]
    have hx : axisDist (fin 0) (fin (2 ^ (-600 : Int))) (fin 1) = fin (2 ^ (-600 : Int)) := by
      unfold axisDist
      rw [if_pos ((F64.fin_lt_fin _ _).mpr hpos), F64.sub_fin, sub_zero, hfl]
    have hy : axisDist (fin 0) (fin 0) (fin 1) = fin 0 :=
      axisDist_inside _ _ _ (le_refl _) ((F64.fin_le_fin _ _).mpr (by norm_num))
    have hsq : fin (2 ^ (-600 : Int)) * fin (2 ^ (-600 : Int)) = fin 0 := by
      rw [F64.fin_mul_fin, ← zpow_add₀ (by norm_num : (2 : ℚ) ≠ 0),
        show (-600 : Int) + -600 = -1200 by norm_num]
      apply F64.rnd_underflow _ (by positivity)
      exact zpow_le_zpow_right₀ (by norm_num) (by norm_num)
    rw [hx, hy, hsq]
    rw [F64.fin_mul_fin, mul_zero, F64.rnd_zero, F64.fin_add_fin, add_zero, F64.rnd_zero]

/-- C19: in float64 arithmetic, every operation rounded to the nearest value,
for every point and every rectangle with `minX <= maxX` and `minY <= maxY`,
infinite coordinates included: `PlanarBoxDist` is
`max(minX - pX, 0, pX - maxX)^2 + max(minY - pY, 0, pY - maxY)^2` so
evaluated; it is at most `(pX - sX)^2 + (pY - sY)^2`, so evaluated, for every
point `(sX, sY)` of the closed rectangle, with equality at the clamped point,
which lies in the rectangle; it is 0 whenever the point lies in the closed
rectangle, and it is positive whenever the point is outside by at least
2^-537 along an axis (below that the squares may underflow to 0).  Whenever
the two gaps, their squares and the sum of the squares are float64 values, so
that no operation rounds, it is the exact squared Euclidean distance: it is
the exact value of the formula, at most the exact squared distance to every
point of the rectangle, and 0 exactly when the point lies in the rectangle.
For the box [0,0,2,2] the points (1,1), (1,3), (3,3), (3,1), (3,-1), (1,-1),
(-1,-1), (-1,1), (-1,3) give 0, 1, 2, 1, 2, 1, 2, 1, 2. -/
theorem planar_box_dist_euclidean (pX pY minX minY maxX maxY : F64) (hx : minX ≤ maxX)
    (hy : minY ≤ maxY) :
    PlanarBoxDist pX pY minX minY maxX maxY =
      max (minX - pX) (max 0 (pX - maxX)) * max (minX - pX) (max 0 (pX - maxX)) +
        max (minY - pY) (max 0 (pY - maxY)) * max (minY - pY) (max 0 (pY - maxY)) ∧
    (∀ sX sY : F64, minX ≤ sX → sX ≤ maxX → minY ≤ sY → sY ≤ maxY →
      PlanarBoxDist pX pY minX minY maxX maxY ≤
        (pX - sX) * (pX - sX) + (pY - sY) * (pY - sY)) ∧
    (minX ≤ max minX (min pX maxX) ∧ max minX (min pX maxX) ≤ maxX ∧
      minY ≤ max minY (min pY maxY) ∧ max minY (min pY maxY) ≤ maxY ∧
      PlanarBoxDist pX pY minX minY maxX maxY =
        (pX - max minX (min pX maxX)) * (pX - max minX (min pX maxX)) +
          (pY - max minY (min pY maxY)) * (pY - max minY (min pY maxY))) ∧
    (minX ≤ pX → pX ≤ maxX → minY ≤ pY → pY ≤ maxY →
      PlanarBoxDist pX pY minX minY maxX maxY = 0) ∧
    ((fin (2 ^ (-537 : Int)) ≤ minX - pX ∨ fin (2 ^ (-537 : Int)) ≤ pX - maxX ∨
        fin (2 ^ (-537 : Int)) ≤ minY - pY ∨ fin (2 ^ (-537 : Int)) ≤ pY - maxY) →
      0 < PlanarBoxDist pX pY minX minY maxX maxY) ∧
    (∀ a b lx ly ux uy : ℚ, pX = fin a → pY = fin b → minX = fin lx → minY = fin ly →
      maxX = fin ux → maxY = fin uy →
      F64.IsFloat (axisGap a lx ux) → F64.IsFloat (axisGap b ly uy) →
      F64.IsFloat (axisGap a lx ux * axisGap a lx ux) →
      F64.IsFloat (axisGap b ly uy * axisGap b ly uy) →
      F64.IsFloat (axisGap a lx ux * axisGap a lx ux + axisGap b ly uy * axisGap b ly uy) →
      PlanarBoxDist pX pY minX minY maxX maxY =
          fin (max (lx - a) (max 0 (a - ux)) ^ 2 + max (ly - b) (max 0 (b - uy)) ^ 2) ∧
        (∀ sX sY : ℚ, lx ≤ sX → sX ≤ ux → ly ≤ sY → sY ≤ uy →
          PlanarBoxDist pX pY minX minY maxX maxY ≤ fin ((a - sX) ^ 2 + (b - sY) ^ 2)) ∧
        (PlanarBoxDist pX pY minX minY maxX maxY = 0 ↔
          (lx ≤ a ∧ a ≤ ux ∧ ly ≤ b ∧ b ≤ uy))) ∧
    (PlanarBoxDist (fin 1) (fin 1) (fin 0) (fin 0) (fin 2) (fin 2) = fin 0 ∧
      PlanarBoxDist (fin 1) (fin 3) (fin 0) (fin 0) (fin 2) (fin 2) = fin 1 ∧
      PlanarBoxDist (fin 3) (fin 3) (fin 0) (fin 0) (fin 2) (fin 2) = fin 2 ∧
      PlanarBoxDist (fin 3) (fin 1) (fin 0) (fin 0) (fin 2) (fin 2) = fin 1 ∧
      PlanarBoxDist (fin 3) (fin (-1)) (fin 0) (fin 0) (fin 2) (fin 2) = fin 2 ∧
      PlanarBoxDist (fin 1) (fin (-1)) (fin 0) (fin 0) (fin 2) (fin 2) = fin 1 ∧
      PlanarBoxDist (fin (-1)) (fin (-1)) (fin 0) (fin 0) (fin 2) (fin 2) = fin 2 ∧
      PlanarBoxDist (fin (-1)) (fin 1) (fin 0) (fin 0) (fin 2) (fin 2) = fin 1 ∧
      PlanarBoxDist (fin (-1)) (fin 3) (fin 0) (fin 0) (fin 2) (fin 2) = fin 2) := by
  have hform : PlanarBoxDist pX pY minX minY maxX maxY =
      max (minX - pX) (max 0 (pX - maxX)) * max (minX - pX) (max 0 (pX - maxX)) +
        max (minY - pY) (max 0 (pY - maxY)) * max (minY - pY) (max 0 (pY - maxY)) := by
    rw [PlanarBoxDist_eq, axisDist_eq_max pX minX maxX hx, axisDist_eq_max pY minY maxY hy]
  refine ⟨hform, ?_, ?_, ?_, ?_, ?_, PlanarBoxDist_witnesses⟩
  · intro sX sY h1 h2 h3 h4
    rw [← PlanarBoxDist_point]
    exact PlanarBoxDist_mono pX pY ⟨minX, minY, maxX, maxY⟩ ⟨sX, sY, sX, sY⟩ ⟨hx, hy⟩
      ⟨le_refl _, le_refl _⟩ ⟨h1, h3, h2, h4⟩
  · refine ⟨le_max_left _ _, max_le hx (min_le_right _ _), le_max_left _ _,
      max_le hy (min_le_right _ _), ?_⟩
    rw [← PlanarBoxDist_point, PlanarBoxDist_eq, PlanarBoxDist_eq,
      ← axisDist_clamp pX minX maxX hx, ← axisDist_clamp pY minY maxY hy]
  · intro h1 h2 h3 h4
    rw [PlanarBoxDist_eq, axisDist_inside pX minX maxX h1 h2, axisDist_inside pY minY maxY h3 h4]
    exact F64.sq_sum_zero
  · intro hgap
    rw [PlanarBoxDist_eq]
    have ex := axisDist_eq_max pX minX maxX hx
    have ey := axisDist_eq_max pY minY maxY hy
    have nx := axisDist_nonneg pX minX maxX
    have ny := axisDist_nonneg pY minY maxY
    rcases hgap with h | h | h | h
    · exact F64.sq_sum_pos_of_gap (-537) (by norm_num) (by norm_num) _ _
        (by rw [ex]; exact le_trans h (le_max_left _ _)) ny
    · exact F64.sq_sum_pos_of_gap (-537) (by norm_num) (by norm_num) _ _
        (by rw [ex]; exact le_trans h (le_trans (le_max_right _ _) (le_max_right _ _))) ny
    · rw [F64.add_comm_fl]
      exact F64.sq_sum_pos_of_gap (-537) (by norm_num) (by norm_num) _ _
        (by rw [ey]; exact le_trans h (le_max_left _ _)) nx
    · rw [F64.add_comm_fl]
      exact F64.sq_sum_pos_of_gap (-537) (by norm_num) (by norm_num) _ _
        (by rw [ey]; exact le_trans h (le_trans (le_max_right _ _) (le_max_right _ _))) nx
  · intro a b lx ly ux uy e1 e2 e3 e4 e5 e6 f1 f2 f3 f4 f5
    subst e1 e2 e3 e4 e5 e6
    rw [F64.fin_le_fin] at hx hy
    have hex := PlanarBoxDist_exact a b lx ly ux uy hx hy f1 f2 f3 f4 f5
    refine ⟨hex, ?_, ?_⟩
    · intro sX sY h1 h2 h3 h4
      rw [hex, F64.fin_le_fin]
      exact add_le_add (axisGap_sq_le a lx ux sX h1 h2) (axisGap_sq_le b ly uy sY h3 h4)
    · rw [hex, F64.zero_def, F64.fin.injEq]
      have hx0 : 0 ≤ axisGap a lx ux ^ 2 := sq_nonneg _
      have hy0 : 0 ≤ axisGap b ly uy ^ 2 := sq_nonneg _
      constructor
      · intro h
        have h1 : axisGap a lx ux ^ 2 = 0 := by linarith
        have h2 : axisGap b ly uy ^ 2 = 0 := by linarith
        have h1' := (axisGap_eq_zero a lx ux).mp (pow_eq_zero_iff (by decide) |>.mp h1)
        have h2' := (axisGap_eq_zero b ly uy).mp (pow_eq_zero_iff (by decide) |>.mp h2)
        exact ⟨h1'.1, h1'.2, h2'.1, h2'.2⟩
      · rintro ⟨h1, h2, h3, h4⟩
        rw [(axisGap_eq_zero a lx ux).mpr ⟨h1, h2⟩, (axisGap_eq_zero b ly uy).mpr ⟨h3, h4⟩]
        norm_num

theorem planar_box_dist_euclidean_witness :
    fin 0 ≤ fin 2 ∧ fin 0 ≤ fin 2 ∧
    PlanarBoxDist (fin 3) (fin 3) (fin 0) (fin 0) (fin 2) (fin 2) =
      max (fin 0 - fin 3) (max 0 (fin 3 - fin 2)) * max (fin 0 - fin 3) (max 0 (fin 3 - fin 2)) +
        max (fin 0 - fin 3) (max 0 (fin 3 - fin 2)) *
          max (fin 0 - fin 3) (max 0 (fin 3 - fin 2)) :=
  ⟨(F64.fin_le_fin 0 2).mpr (by norm_num), (F64.fin_le_fin 0 2).mpr (by norm_num),
    (planar_box_dist_euclidean (fin 3) (fin 3) (fin 0) (fin 0) (fin 2) (fin 2)
      ((F64.fin_le_fin 0 2).mpr (by norm_num)) ((F64.fin_le_fin 0 2).mpr (by norm_num))).1⟩

theorem hilbertLayout_single (items : List Item) (hne : items ≠ []) (d : Nat) (hd : 2 ≤ d)
    (hN : items.length ≤ d) : (hilbertLayout items d).nodes.length = 1 := by
  have hpos : 0 < items.length := List.length_pos.mpr hne
  obtain ⟨n, hn⟩ : ∃ n, items.length = n + 1 := ⟨items.length - 1, by omega⟩
  have hlen : (chunkNodes d (items.map Item.box).length (items.map Item.box)).length = 1 := by
    rw [chunkNodes_length d (by omega) _ _ (le_refl _), List.length_map]
    exact ceilDiv_le_one hN hpos
  show ((packLevels d items.length (items.map Item.box)).flatten).length = 1
  rw [hn]
  simp only [packLevels, hlen, if_true, List.flatten_cons, List.flatten_nil, List.append_nil]

theorem pair_order {α : Type} (r : α → F64) (out : List α) (a b : α)
    (hperm : out.Perm [a, b]) (hsorted : out.Pairwise (fun u v => r u ≤ r v))
    (hlt : r a < r b) : out = [a, b] := by
  have hl := hperm.length_eq
  match out, hl with
  | [u, v], _ =>
    have hu : u = a ∨ u = b := by
      have := hperm.subset (List.mem_cons_self u [v])
      simpa using this
    have hv : v = a ∨ v = b := by
      have := hperm.subset (List.mem_cons_of_mem u (List.mem_cons_self v []))
      simpa using this
    have ha : a = u ∨ a = v := by
      have := hperm.symm.subset (List.mem_cons_self a [b])
      simpa using this
    have huv : r u ≤ r v := by
      have := List.pairwise_cons.mp hsorted
      exact this.1 v (List.mem_cons_self v [])
    have hb : b = u ∨ b = v := by
      have := hperm.symm.subset (List.mem_cons_of_mem a (List.mem_cons_self b []))
      simpa using this
    rcases hu with hu | hu
    · rcases hv with hv | hv
      · rcases hb with hb | hb
        · rw [hb, hu] at hlt; exact absurd hlt (lt_irrefl _)
        · rw [hb, hv] at hlt; exact absurd hlt (lt_irrefl _)
      · rw [hu, hv]
    · rcases hv with hv | hv
      · rw [hu, hv] at huv
        exact absurd (lt_of_lt_of_le hlt huv) (lt_irrefl _)
      · rcases ha with ha | ha
        · rw [ha, hu] at hlt; exact absurd hlt (lt_irrefl _)
        · rw [ha, hv] at hlt; exact absurd hlt (lt_irrefl _)

/-- C20: for the tree the Hilbert builder returns for N items with
1 <= N <= degree (one interior node, the root, over all items) and every
`boxDist` whatsoever, `Neighbors` with a callback that never stops hands out
all N items in non-decreasing order of the distance it reports:
`itemDist(x, y, ref)` when `itemDist` is supplied, `boxDist` of the item's own
box when it is nil.  In particular, of two items the one with the strictly
smaller such distance comes first, whatever the boxes. -/
theorem neighbors_single_level_order {Q : Type} (fq : FlatQueue Q)
    (entries : Q → Multiset (Int × F64)) (hl : fq.Lawful entries)
    (sorter : List Nat → List (Nat × Nat))
    (hs : ∀ vals, SwapsInRange (sorter vals) vals.length)
    (items : List Item) (hne : items ≠ []) (degree : Int) (hd : 2 ≤ degree)
    (hN : (items.length : Int) ≤ degree)
    (x y : F64) (boxDist : F64 → F64 → F64 → F64 → F64 → F64 → F64)
    (itemDist : Option (F64 → F64 → Int → F64)) :
    ∃ (tree : RTree) (b' : HilbertBuilder) (out : List (Int × F64)),
      (NewHilbertBuilder.addAll items).Finish sorter degree = some (.ok tree, b') ∧
      tree.refs.length = items.length + 2 ∧
      (∀ (fuel : Nat), tree.refs.length ≤ fuel →
        tree.Neighbors fq x y collectDist boxDist itemDist fuel [] = some out) ∧
      out.Perm (items.map fun it => (it.ref, itemDistance x y boxDist itemDist it)) ∧
      out.Pairwise (fun a b => a.2 ≤ b.2) ∧
      (∀ a b : Item, items = [a, b] →
        (itemDistance x y boxDist itemDist a < itemDistance x y boxDist itemDist b →
          out.map Prod.fst = [a.ref, b.ref]) ∧
        (itemDistance x y boxDist itemDist b < itemDistance x y boxDist itemDist a →
          out.map Prod.fst = [b.ref, a.ref])) := by
  obtain ⟨items', hperm, b', hfin⟩ := HilbertBuilder.Finish_spec sorter hs items hne degree hd
  have hne' : items' ≠ [] := by
    intro h; rw [h] at hperm; exact hne (List.Perm.eq_nil hperm.symm)
  have hd' : 2 ≤ degree.toNat := by omega
  have hN' : items'.length ≤ degree.toNat := by rw [hperm.length_eq]; omega
  obtain ⟨hwf, _⟩ := hilbertLayout_spec items' hne' degree.toNat hd'
  have hone := hilbertLayout_single items' hne' degree.toNat hd' hN'
  obtain ⟨out, hp, hsorted, hrun⟩ := Neighbors_layout_all fq entries hl
    (hilbertLayout items' degree.toNat) hwf x y boxDist itemDist
  have hso : out.Pairwise (fun a b => a.2 ≤ b.2) :=
    hsorted (fun j n _ hj => by rw [hone] at hj; omega)
  have hpo : out.Perm (items.map fun it => (it.ref, itemDistance x y boxDist itemDist it)) :=
    hp.trans (hperm.map _)
  refine ⟨_, b', out, hfin, ?_, ?_, hpo, hso, ?_⟩
  · rw [Layout.tree_refs_length, hone]
    show items'.length + 1 + 1 = _
    rw [hperm.length_eq]
  · intro fuel hfuel
    rw [hrun fuel hfuel collectDist [], feed_collectDist]
    rfl
  · intro a b hab
    rw [hab] at hpo
    constructor
    · intro hlt
      have := pair_order (fun p : Int × F64 => p.2) out _ _ hpo hso hlt
      rw [this]; rfl
    · intro hlt
      have hpo' : out.Perm [(b.ref, itemDistance x y boxDist itemDist b),
          (a.ref, itemDistance x y boxDist itemDist a)] := hpo.trans (List.Perm.swap _ _ _)
      have := pair_order (fun p : Int × F64 => p.2) out _ _ hpo' hso hlt
      rw [this]; rfl

theorem F64.sq_sum_pos (dX dY : F64) (hx : fin (2 ^ (-9 : Int)) ≤ dX) (hy : 0 ≤ dY) :
    fin 0 < dX * dX + dY * dY := by
  have h9 : (0 : F64) ≤ fin (2 ^ (-9 : Int)) := by
    rw [F64.zero_def, F64.fin_le_fin]; positivity
  have h18 : (0 : F64) ≤ fin (2 ^ (-18 : Int)) := by
    rw [F64.zero_def, F64.fin_le_fin]; positivity
  have hsq : fin (2 ^ (-9 : Int)) * fin (2 ^ (-9 : Int)) ≤ dX * dX :=
    (F64.mul_self_mono (fin (2 ^ (-9 : Int))) dX h9 hx).2
  have hpow2 : fin (2 ^ (-9 : Int)) * fin (2 ^ (-9 : Int)) = fin (2 ^ (-18 : Int)) := by
    rw [F64.fin_mul_fin, ← zpow_add₀ (by norm_num : (2 : ℚ) ≠ 0),
      show (-9 : Int) + -9 = -18 by norm_num]
    exact F64.rnd_two_zpow (-18) (by norm_num) (by norm_num)
  rw [hpow2] at hsq
  have hy2 : (0 : F64) ≤ dY * dY := (F64.mul_self_mono dY dY hy (le_refl dY)).1
  have hsum : fin (2 ^ (-18 : Int)) + (0 : F64) ≤ dX * dX + dY * dY :=
    F64.add_mono_nonneg (fin (2 ^ (-18 : Int))) (dX * dX) 0 (dY * dY) h18 hsq
      (le_refl (0 : F64)) hy2
  have hlhs : fin (2 ^ (-18 : Int)) + (0 : F64) = fin (2 ^ (-18 : Int)) := by
    rw [F64.zero_def, F64.fin_add_fin, add_zero]
    exact F64.rnd_two_zpow (-18) (by norm_num) (by norm_num)
  rw [hlhs] at hsum
  refine lt_of_lt_of_le ?_ hsum
  rw [F64.fin_lt_fin]
  positivity

theorem twoItems_gapX : fin (2 ^ (-9 : Int)) ≤ axisDist (fin (-112084665 / 1000000))
    (fin (-112080888 / 1000000)) (fin (-112073764 / 1000000)) := by
  have hpow : F64.rnd (2 ^ (-9 : Int)) = fin (2 ^ (-9 : Int)) :=
    F64.rnd_two_zpow (-9) (by norm_num) (by norm_num)
  unfold axisDist
  rw [if_pos (by rw [F64.fin_lt_fin]; norm_num), F64.sub_fin, ← hpow]
  apply F64.rnd_mono
  norm_num

theorem twoItems_insideX : axisDist (fin (-112084665 / 1000000)) (fin (-112108612 / 1000000))
    (fin (-112082519 / 1000000)) = fin 0 := by
  unfold axisDist
  rw [if_neg (by rw [F64.fin_lt_fin]; norm_num), if_pos (by rw [F64.fin_le_fin]; norm_num)]
  rfl

theorem twoItems_insideY : axisDist (fin (33470112 / 1000000)) (fin (33451423 / 1000000))
    (fin (33473262 / 1000000)) = fin 0 := by
  unfold axisDist
  rw [if_neg (by rw [F64.fin_lt_fin]; norm_num), if_pos (by rw [F64.fin_le_fin]; norm_num)]
  rfl

theorem itemDistance_none (x y : F64) (boxDist : F64 → F64 → F64 → F64 → F64 → F64 → F64)
    (it : Item) :
    itemDistance x y boxDist none it =
      boxDist x y it.box.minX it.box.minY it.box.maxX it.box.maxY := rfl

theorem twoItems_boxDist :
    itemDistance (fin (-112084665 / 1000000)) (fin (33470112 / 1000000)) PlanarBoxDist none
        ⟨0, ⟨fin (-112108612 / 1000000), fin (33451423 / 1000000), fin (-112082519 / 1000000),
          fin (33473262 / 1000000)⟩⟩ <
      itemDistance (fin (-112084665 / 1000000)) (fin (33470112 / 1000000)) PlanarBoxDist none
        ⟨1, ⟨fin (-112080888 / 1000000), fin (33472976 / 1000000), fin (-112073764 / 1000000),
          fin (33473048 / 1000000)⟩⟩ := by
  rw [itemDistance_none, itemDistance_none, PlanarBoxDist_eq, PlanarBoxDist_eq]
  simp only []
  rw [twoItems_insideX, twoItems_insideY, F64.sq_sum_zero]
  exact F64.sq_sum_pos _ _ twoItems_gapX (axisDist_nonneg _ _ _)

theorem neighbors_single_level_order_witness :
    listQueue.Lawful listQueue.entries ∧
    (∀ vals, SwapsInRange (sampleSorter vals) vals.length) ∧ twoItems ≠ [] ∧
    (2 : Int) ≤ 10 ∧ (twoItems.length : Int) ≤ 10 ∧
    (∃ (tree : RTree) (b' : HilbertBuilder) (out : List (Int × F64)),
      (NewHilbertBuilder.addAll twoItems).Finish sampleSorter 10 = some (.ok tree, b') ∧
      (∀ (fuel : Nat), tree.refs.length ≤ fuel →
        tree.Neighbors listQueue (fin (-112084665 / 1000000)) (fin (33470112 / 1000000))
          collectDist PlanarBoxDist (some twoItemsDist) fuel [] = some out) ∧
      out.map Prod.fst = [1, 0]) ∧
    (∃ (tree : RTree) (b' : HilbertBuilder) (out : List (Int × F64)),
      (NewHilbertBuilder.addAll twoItems).Finish sampleSorter 10 = some (.ok tree, b') ∧
      (∀ (fuel : Nat), tree.refs.length ≤ fuel →
        tree.Neighbors listQueue (fin (-112084665 / 1000000)) (fin (33470112 / 1000000))
          collectDist PlanarBoxDist none fuel [] = some out) ∧
      out.map Prod.fst = [0, 1]) := by
  have hne : twoItems ≠ [] := by simp [twoItems]
  have hN : (twoItems.length : Int) ≤ 10 := by decide
  refine ⟨listQueue_lawful, sampleSorter_inRange, hne, by decide, hN, ?_, ?_⟩
  · obtain ⟨tree, b', out, hfin, _, hrun, _, _, hpair⟩ :=
      neighbors_single_level_order listQueue listQueue.entries listQueue_lawful sampleSorter
        sampleSorter_inRange twoItems hne 10 (by decide) hN (fin (-112084665 / 1000000))
        (fin (33470112 / 1000000)) PlanarBoxDist (some twoItemsDist)
    refine ⟨tree, b', out, hfin, hrun, ?_⟩
    refine (hpair _ _ rfl).2 ?_
    show fin 12030000 < fin 12040000
    rw [F64.fin_lt_fin]; norm_num
  · obtain ⟨tree, b', out, hfin, _, hrun, _, _, hpair⟩ :=
      neighbors_single_level_order listQueue listQueue.entries listQueue_lawful sampleSorter
        sampleSorter_inRange twoItems hne 10 (by decide) hN (fin (-112084665 / 1000000))
        (fin (33470112 / 1000000)) PlanarBoxDist none
    exact ⟨tree, b', out, hfin, hrun, (hpair _ _ rfl).1 twoItems_boxDist⟩

/-- C30: `PlanarBoxDist` is monotone under containment: for every point and
all valid rectangles A and B with `A.minX <= B.minX`, `A.minY <= B.minY`,
`B.maxX <= A.maxX`, `B.maxY <= A.maxY`, the distance to A is at most the
distance to B.  Hence in every tree whose interior boxes cover their children
and whose boxes are valid, the distance `Neighbors` gives to an interior node
with `PlanarBoxDist` never exceeds the distance it gives to a child of that
node. -/
theorem planar_box_dist_monotone (pX pY : F64) (A B : Box) (hA : A.Valid) (hB : B.Valid)
    (h1 : A.minX ≤ B.minX) (h2 : A.minY ≤ B.minY) (h3 : B.maxX ≤ A.maxX)
    (h4 : B.maxY ≤ A.maxY) (ly : Layout) (hwf : ly.WF) (hcov : ly.Covers)
    (hvalid : ∀ b ∈ ly.allBoxes, b.Valid) :
    PlanarBoxDist pX pY A.minX A.minY A.maxX A.maxY ≤
      PlanarBoxDist pX pY B.minX B.minY B.maxX B.maxY ∧
    ly.DistMono (ly.distTable pX pY PlanarBoxDist none) :=
  ⟨PlanarBoxDist_mono pX pY A B hA hB ⟨h1, h2, h3, h4⟩,
    Layout.distMono_of_covers ly hwf hcov hvalid pX pY PlanarBoxDist none
      (PlanarBoxDist_mono pX pY) (fun f hf => by cases hf)⟩

theorem sampleLayout_valid : ∀ b ∈ (hilbertLayout sampleItems 2).allBoxes, b.Valid :=
  (hilbertLayout_spec sampleItems (by simp [sampleItems]) 2 (le_refl _)).2.valid
    (fun n kids h => ⟨h.1, h.2.1, h.2.2.1⟩) sampleItems_valid

theorem planar_box_dist_monotone_witness :
    (⟨fin 0, fin 0, fin 3, fin 3⟩ : Box).Valid ∧ (⟨fin 1, fin 1, fin 2, fin 2⟩ : Box).Valid ∧
    (fin 0 : F64) ≤ fin 1 ∧ (fin 0 : F64) ≤ fin 1 ∧ (fin 2 : F64) ≤ fin 3 ∧
    (fin 2 : F64) ≤ fin 3 ∧
    (hilbertLayout sampleItems 2).WF ∧ (hilbertLayout sampleItems 2).Covers ∧
    (∀ b ∈ (hilbertLayout sampleItems 2).allBoxes, b.Valid) ∧
    PlanarBoxDist (fin 5) (fin 1) (fin 0) (fin 0) (fin 3) (fin 3) ≤
      PlanarBoxDist (fin 5) (fin 1) (fin 1) (fin 1) (fin 2) (fin 2) ∧
    (hilbertLayout sampleItems 2).DistMono
      ((hilbertLayout sampleItems 2).distTable (fin 5) (fin 1) PlanarBoxDist none) :=
  have hne : sampleItems ≠ [] := by simp [sampleItems]
  have hA : (⟨fin 0, fin 0, fin 3, fin 3⟩ : Box).Valid := ⟨by decide, by decide⟩
  have hB : (⟨fin 1, fin 1, fin 2, fin 2⟩ : Box).Valid := ⟨by decide, by decide⟩
  ⟨hA, hB, by decide, by decide, by decide, by decide,
    (hilbertLayout_spec sampleItems hne 2 (le_refl _)).1,
    hilbertLayout_covers sampleItems hne 2 (le_refl _), sampleLayout_valid,
    planar_box_dist_monotone (fin 5) (fin 1) ⟨fin 0, fin 0, fin 3, fin 3⟩
      ⟨fin 1, fin 1, fin 2, fin 2⟩ hA hB (by decide) (by decide) (by decide) (by decide)
      (hilbertLayout sampleItems 2) (hilbertLayout_spec sampleItems hne 2 (le_refl _)).1
      (hilbertLayout_covers sampleItems hne 2 (le_refl _)) sampleLayout_valid⟩

theorem interval_unique (o : Nat → Nat) (M : Nat) (hinc : ∀ j, j < M → o j < o (j + 1))
    (h0 : o 0 = 0) (k : Nat) (hk : k < o M) :
    ∃! j, j < M ∧ o j ≤ k ∧ k < o (j + 1) := by
  have hmono : ∀ i j, i ≤ j → j ≤ M → o i ≤ o j := by
    intro i j hij
    induction j with
    | zero =>
      intro _
      have : i = 0 := by omega
      rw [this]
    | succ j ih =>
      intro hj
      rcases Nat.lt_or_ge i (j + 1) with h | h
      · have := ih (by omega) (by omega)
        have := hinc j (by omega)
        omega
      · have : i = j + 1 := by omega
        rw [this]
  have hex : ∀ m, m ≤ M → k < o m → ∃ j, j < m ∧ o j ≤ k ∧ k < o (j + 1) := by
    intro m
    induction m with
    | zero => intro _ h; rw [h0] at h; omega
    | succ m ih =>
      intro hm h
      rcases Nat.lt_or_ge k (o m) with h' | h'
      · obtain ⟨j, hj, h1, h2⟩ := ih (by omega) h'
        exact ⟨j, by omega, h1, h2⟩
      · exact ⟨m, by omega, h', h⟩
  obtain ⟨j, hj, h1, h2⟩ := hex M (le_refl _) hk
  refine ⟨j, ⟨hj, h1, h2⟩, ?_⟩
  rintro j' ⟨hj', h1', h2'⟩
  rcases Nat.lt_trichotomy j' j with h | h | h
  · have := hmono (j' + 1) j (by omega) (by omega)
    omega
  · exact h
  · have := hmono (j + 1) j' (by omega) (by omega)
    omega

theorem Layout.offsets {P : Interior → List Box → Prop} (ly : Layout) (hwf : ly.WF)
    (hpart : Layout.Partial P ly) (hP : ∀ n kids, P n kids → 1 ≤ n.size) :
    1 ≤ ly.nodes.length ∧
    (∀ j, j ≤ ly.nodes.length →
      ly.tree.refs[ly.leaves.length + j]? = some ((4 * childStart ly.nodes j : Nat) : Int)) ∧
    childStart ly.nodes 0 = 0 ∧
    childStart ly.nodes ly.nodes.length = ly.leaves.length + ly.nodes.length - 1 ∧
    (∀ j, j < ly.nodes.length → childStart ly.nodes j < childStart ly.nodes (j + 1) ∧
      childStart ly.nodes (j + 1) ≤ ly.leaves.length + j) := by
  have hM : 0 < ly.nodes.length := List.length_pos.mpr hwf.nonempty
  refine ⟨hM, fun j hj => Layout.tree_refs_at ly j hj, childStart_zero _, ?_, ?_⟩
  · have := hwf.covered; omega
  · intro j hj
    have hn : ly.nodes[j]? = some ly.nodes[j] := List.getElem?_eq_getElem hj
    have h1 := hP _ _ (hpart.holds j _ hn)
    rw [childStart_succ _ _ _ hn]
    have := hwf.before j hj
    rw [childStart_succ _ _ _ hn] at this
    exact ⟨by omega, this⟩

/-- C22: the tree the Hilbert builder returns for N >= 1 items and
degree >= 2 has `len(refs) = N + M + 1` and `len(boxes) = 4*(N + M)` for the
number M >= 1 of interior nodes; `refs[N] = 0`, the last offset `refs[N+M]` is
`4*(N+M-1)`, so only the last node, N + M - 1, is no child of another; and the
root of `Search`, node index `len(boxes) - 4`, and the root of `Neighbors`,
ref index `len(refs) - 2`, are both that node. -/
theorem hilbert_tree_shape (sorter : List Nat → List (Nat × Nat))
    (hs : ∀ vals, SwapsInRange (sorter vals) vals.length)
    (items : List Item) (hne : items ≠ []) (degree : Int) (hd : 2 ≤ degree) :
    ∃ (tree : RTree) (b' : HilbertBuilder) (M : Nat),
      (NewHilbertBuilder.addAll items).Finish sorter degree = some (.ok tree, b') ∧
      1 ≤ M ∧ tree.Count = items.length ∧
      tree.refs.length = items.length + M + 1 ∧
      tree.boxes.length = 4 * (items.length + M) ∧
      tree.refs[items.length]? = some 0 ∧
      tree.refs[items.length + M]? = some ((4 * (items.length + M - 1) : Nat) : Int) ∧
      (tree.boxes.length : Int) - 4 = ((4 * (items.length + M - 1) : Nat) : Int) ∧
      (tree.refs.length : Int) - 2 = ((items.length + M - 1 : Nat) : Int) ∧
      Int.tdiv ((tree.boxes.length : Int) - 4) 4 = (tree.refs.length : Int) - 2 := by
  obtain ⟨ly, b', hfin, hperm, hwf, hpart⟩ :=
    HilbertBuilder.Finish_layout sorter hs items hne degree hd
  have hlen : ly.leaves.length = items.length := hperm.length_eq
  obtain ⟨hM, hrefs, h0, hlast, _⟩ := Layout.offsets ly hwf hpart (fun n kids h => h.2.2.1)
  have hbl : (ly.tree.boxes.length : Int) - 4 =
      ((4 * (items.length + ly.nodes.length - 1) : Nat) : Int) := by
    rw [Layout.tree_boxes_length, hlen]; omega
  have hrl : (ly.tree.refs.length : Int) - 2 =
      ((items.length + ly.nodes.length - 1 : Nat) : Int) := by
    rw [Layout.tree_refs_length, hlen]; omega
  refine ⟨ly.tree, b', ly.nodes.length, hfin, hM, hlen, ?_, ?_, ?_, ?_, hbl, hrl, ?_⟩
  · rw [Layout.tree_refs_length, hlen]
  · rw [Layout.tree_boxes_length, hlen]
  · have := hrefs 0 (Nat.zero_le _)
    rw [h0, hlen] at this
    simpa using this
  · have := hrefs ly.nodes.length (le_refl _)
    rw [hlast, hlen] at this
    exact this
  · rw [hbl, hrl, tdiv_four]

theorem hilbert_tree_shape_witness :
    (∀ vals, SwapsInRange (sampleSorter vals) vals.length) ∧ sampleItems ≠ [] ∧
    (2 : Int) ≤ 2 ∧
    ∃ (tree : RTree) (b' : HilbertBuilder) (M : Nat),
      (NewHilbertBuilder.addAll sampleItems).Finish sampleSorter 2 = some (.ok tree, b') ∧
      1 ≤ M ∧ tree.Count = sampleItems.length ∧
      tree.refs.length = sampleItems.length + M + 1 ∧
      tree.boxes.length = 4 * (sampleItems.length + M) ∧
      tree.refs[sampleItems.length]? = some 0 ∧
      tree.refs[sampleItems.length + M]? =
        some ((4 * (sampleItems.length + M - 1) : Nat) : Int) ∧
      (tree.boxes.length : Int) - 4 = ((4 * (sampleItems.length + M - 1) : Nat) : Int) ∧
      (tree.refs.length : Int) - 2 = ((sampleItems.length + M - 1 : Nat) : Int) ∧
      Int.tdiv ((tree.boxes.length : Int) - 4) 4 = (tree.refs.length : Int) - 2 :=
  ⟨sampleSorter_inRange, by simp [sampleItems], le_refl _,
    hilbert_tree_shape sampleSorter sampleSorter_inRange sampleItems (by simp [sampleItems]) 2
      (le_refl _)⟩

/-- C26: in the tree the Hilbert builder returns for N >= 1 items and
degree >= 2, with M interior nodes, the offsets `refs[N+j]`, `0 <= j <= M`,
are `4 * o(j)` with `o(0) = 0`, `o(M) = N + M - 1`, `o` strictly increasing,
and `o(j+1) <= N + j` for every interior node j: the child ranges
`[o(j), o(j+1))` are consecutive, every node but the root lies in exactly one
of them, and every child has a smaller index than its parent. -/
theorem hilbert_offsets_tile (sorter : List Nat → List (Nat × Nat))
    (hs : ∀ vals, SwapsInRange (sorter vals) vals.length)
    (items : List Item) (hne : items ≠ []) (degree : Int) (hd : 2 ≤ degree) :
    ∃ (tree : RTree) (b' : HilbertBuilder) (M : Nat) (o : Nat → Nat),
      (NewHilbertBuilder.addAll items).Finish sorter degree = some (.ok tree, b') ∧
      1 ≤ M ∧ tree.refs.length = items.length + M + 1 ∧
      (∀ j, j ≤ M → tree.refs[items.length + j]? = some ((4 * o j : Nat) : Int)) ∧
      o 0 = 0 ∧ o M = items.length + M - 1 ∧
      (∀ j, j < M → o j < o (j + 1) ∧ o (j + 1) ≤ items.length + j) ∧
      (∀ k, k < items.length + M - 1 → ∃! j, j < M ∧ o j ≤ k ∧ k < o (j + 1)) ∧
      (∀ j k, j < M → o j ≤ k → k < o (j + 1) → k < items.length + j) := by
  obtain ⟨ly, b', hfin, hperm, hwf, hpart⟩ :=
    HilbertBuilder.Finish_layout sorter hs items hne degree hd
  have hlen : ly.leaves.length = items.length := hperm.length_eq
  obtain ⟨hM, hrefs, h0, hlast, hstep⟩ :=
    Layout.offsets ly hwf hpart (fun n kids h => h.2.2.1)
  rw [hlen] at hlast
  refine ⟨ly.tree, b', ly.nodes.length, childStart ly.nodes, hfin, hM, ?_, ?_, h0, hlast, ?_,
    ?_, ?_⟩
  · rw [Layout.tree_refs_length, hlen]
  · intro j hj
    rw [← hlen]; exact hrefs j hj
  · intro j hj
    rw [← hlen]; exact hstep j hj
  · intro k hk
    exact interval_unique (childStart ly.nodes) ly.nodes.length (fun j hj => (hstep j hj).1) h0 k
      (by rw [hlast]; exact hk)
  · intro j k hj _ h2
    have := (hstep j hj).2
    omega

theorem hilbert_offsets_tile_witness :
    (∀ vals, SwapsInRange (sampleSorter vals) vals.length) ∧ sampleItems ≠ [] ∧
    (2 : Int) ≤ 2 ∧
    ∃ (tree : RTree) (b' : HilbertBuilder) (M : Nat) (o : Nat → Nat),
      (NewHilbertBuilder.addAll sampleItems).Finish sampleSorter 2 = some (.ok tree, b') ∧
      1 ≤ M ∧ tree.refs.length = sampleItems.length + M + 1 ∧
      (∀ j, j ≤ M → tree.refs[sampleItems.length + j]? = some ((4 * o j : Nat) : Int)) ∧
      o 0 = 0 ∧ o M = sampleItems.length + M - 1 ∧
      (∀ j, j < M → o j < o (j + 1) ∧ o (j + 1) ≤ sampleItems.length + j) ∧
      (∀ k, k < sampleItems.length + M - 1 → ∃! j, j < M ∧ o j ≤ k ∧ k < o (j + 1)) ∧
      (∀ j k, j < M → o j ≤ k → k < o (j + 1) → k < sampleItems.length + j) :=
  ⟨sampleSorter_inRange, by simp [sampleItems], le_refl _,
    hilbert_offsets_tile sampleSorter sampleSorter_inRange sampleItems
      (by simp [sampleItems]) 2 (le_refl _)⟩

/-- C24: in the tree the OMT builder returns for N >= 1 items and
degree >= 2 (exact ceil/pow/sqrt/log: the height is `exactLogCeil`), every interior node j has offsets
`refs[N+j] = 4*lo` and `refs[N+j+1] = 4*hi` with `1 <= hi - lo <= degree`:
`(refs[N+j+1] - refs[N+j]) / 4` is at least 1 and at most `degree`. -/
theorem omt_fanout_le_degree (buckets : Nat → List F64 → Nat → List (Nat × Nat))
    (hbk : BucketsInRange buckets)
    (items : List Item) (hne : items ≠ []) (degree : Int) (hd : 2 ≤ degree) :
    ∃ (tree : RTree) (b' : OMTBuilder),
      (NewOMTBuilder.addAll items).Finish buckets exactLogCeil degree = some (.ok tree, b') ∧
      items.length + 1 < tree.refs.length ∧
      ∀ j, items.length + j + 1 < tree.refs.length →
        ∃ (lo hi : Nat),
          tree.refs[items.length + j]? = some ((4 * lo : Nat) : Int) ∧
          tree.refs[items.length + j + 1]? = some ((4 * hi : Nat) : Int) ∧
          1 ≤ hi - lo ∧ ((hi - lo : Nat) : Int) ≤ degree ∧
          1 ≤ (((4 * hi : Nat) : Int) - ((4 * lo : Nat) : Int)) / 4 ∧
          (((4 * hi : Nat) : Int) - ((4 * lo : Nat) : Int)) / 4 ≤ degree := by
  obtain ⟨ly, b', hfin, hperm, hwf, hpart⟩ :=
    OMTBuilder.Finish_layout_omt buckets hbk items hne degree hd
  have hlen : ly.leaves.length = items.length := hperm.length_eq
  obtain ⟨hM, hrefs, _, _, hstep⟩ := Layout.offsets ly hwf hpart (fun n kids h => h.2.2.1)
  refine ⟨ly.tree, b', hfin, ?_, ?_⟩
  · rw [Layout.tree_refs_length]; omega
  · intro j hj
    rw [Layout.tree_refs_length] at hj
    have hjlt : j < ly.nodes.length := by omega
    have hn : ly.nodes[j]? = some ly.nodes[j] := List.getElem?_eq_getElem hjlt
    have hsz := (hpart.holds j _ hn).2.2
    have hsucc := childStart_succ _ _ _ hn
    have h1 := hrefs j (by omega)
    have h2 := hrefs (j + 1) (by omega)
    rw [hlen] at h1 h2
    have hdiff : childStart ly.nodes (j + 1) - childStart ly.nodes j = ly.nodes[j].size := by
      omega
    refine ⟨childStart ly.nodes j, childStart ly.nodes (j + 1), h1, h2, ?_, ?_, ?_, ?_⟩
    · omega
    · rw [hdiff]; omega
    · omega
    · omega

theorem omt_fanout_le_degree_witness :
    BucketsInRange sampleBuckets ∧ sampleItems ≠ [] ∧ (2 : Int) ≤ 2 ∧
    ∃ (tree : RTree) (b' : OMTBuilder),
      (NewOMTBuilder.addAll sampleItems).Finish sampleBuckets exactLogCeil 2 = some (.ok tree, b') ∧
      sampleItems.length + 1 < tree.refs.length ∧
      ∀ j, sampleItems.length + j + 1 < tree.refs.length →
        ∃ (lo hi : Nat),
          tree.refs[sampleItems.length + j]? = some ((4 * lo : Nat) : Int) ∧
          tree.refs[sampleItems.length + j + 1]? = some ((4 * hi : Nat) : Int) ∧
          1 ≤ hi - lo ∧ ((hi - lo : Nat) : Int) ≤ 2 ∧
          1 ≤ (((4 * hi : Nat) : Int) - ((4 * lo : Nat) : Int)) / 4 ∧
          (((4 * hi : Nat) : Int) - ((4 * lo : Nat) : Int)) / 4 ≤ 2 :=
  ⟨sampleBuckets_inRange, by simp [sampleItems], le_refl _,
    omt_fanout_le_degree sampleBuckets sampleBuckets_inRange sampleItems
      (by simp [sampleItems]) 2 (le_refl _)⟩

theorem unflatBoxes_spec : ∀ (k : Nat) (l : List F64), l.length = 4 * k →
    flatBoxes (unflatBoxes l) = l ∧ (unflatBoxes l).length = k := by
  intro k
  induction k with
  | zero =>
    intro l h
    have : l = [] := List.length_eq_zero.mp (by omega)
    subst this
    exact ⟨rfl, rfl⟩
  | succ k ih =>
    intro l h
    match l, h with
    | a :: b :: c :: d :: rest, h =>
      have hr : rest.length = 4 * k := by simp at h; omega
      obtain ⟨h1, h2⟩ := ih rest hr
      refine ⟨?_, ?_⟩
      · simp only [unflatBoxes, flatBoxes, List.flatMap_cons, Box.coords] at h1 ⊢
        rw [h1]; rfl
      · simp [unflatBoxes, h2]
    | [], h => simp at h
    | [_], h => simp only [List.length_cons, List.length_nil] at h; omega
    | [_, _], h => simp only [List.length_cons, List.length_nil] at h; omega
    | [_, _, _], h => simp only [List.length_cons, List.length_nil] at h; omega

theorem map_zipWith_left {α β γ δ : Type} (g : α → β → γ) (f : γ → δ) (f' : α → δ)
    (h : ∀ a b, f (g a b) = f' a) :
    ∀ (l1 : List α) (l2 : List β), l1.length ≤ l2.length →
      (List.zipWith g l1 l2).map f = l1.map f'
  | [], _, _ => by simp
  | a :: l1, [], hl => by simp at hl
  | a :: l1, b :: l2, hl => by
    simp only [List.zipWith_cons_cons, List.map_cons, h]
    rw [map_zipWith_left g f f' h l1 l2 (by simpa using hl)]

theorem map_zipWith_right {α β γ : Type} (g : α → β → γ) (f : γ → β)
    (h : ∀ a b, f (g a b) = b) :
    ∀ (l1 : List α) (l2 : List β), l1.length ≤ l2.length →
      (List.zipWith g l1 l2).map f = l2.take l1.length
  | [], _, _ => by simp
  | a :: l1, [], hl => by simp at hl
  | a :: l1, b :: l2, hl => by
    simp only [List.zipWith_cons_cons, List.map_cons, h, List.length_cons, List.take_succ_cons]
    rw [map_zipWith_right g f h l1 l2 (by simpa using hl)]

theorem Layout.rebox_spec (ly : Layout) (boxes : List F64)
    (hb : boxes.length = 4 * (ly.leaves.length + ly.nodes.length)) :
    (ly.rebox boxes).leaves.length = ly.leaves.length ∧
    (ly.rebox boxes).nodes.length = ly.nodes.length ∧
    (∀ j, childStart (ly.rebox boxes).nodes j = childStart ly.nodes j) ∧
    (ly.rebox boxes).tree = ⟨ly.leaves.length, ly.tree.refs, boxes⟩ := by
  obtain ⟨hflat, hlen⟩ := unflatBoxes_spec _ boxes hb
  have h1 : (ly.rebox boxes).leaves.length = ly.leaves.length := by
    simp [Layout.rebox, hlen]
  have h2 : (ly.rebox boxes).nodes.length = ly.nodes.length := by
    simp [Layout.rebox, hlen]
  have hle1 : ly.leaves.length ≤ (unflatBoxes boxes).length := by omega
  have hle2 : ly.nodes.length ≤ ((unflatBoxes boxes).drop ly.leaves.length).length := by
    rw [List.length_drop]; omega
  have hsz : (ly.rebox boxes).nodes.map Interior.size = ly.nodes.map Interior.size :=
    map_zipWith_left (fun (n : Interior) (b : Box) => (⟨n.size, b⟩ : Interior)) Interior.size
      Interior.size (fun _ _ => rfl) _ _ hle2
  have h3 : ∀ j, childStart (ly.rebox boxes).nodes j = childStart ly.nodes j := by
    intro j
    unfold childStart
    rw [List.map_take, List.map_take, hsz]
  refine ⟨h1, h2, h3, ?_⟩
  have hrefs : (ly.rebox boxes).leaves.map Item.ref = ly.leaves.map Item.ref :=
    map_zipWith_left (fun (it : Item) (b : Box) => (⟨it.ref, b⟩ : Item)) Item.ref Item.ref
      (fun _ _ => rfl) _ _ hle1
  have hlb : (ly.rebox boxes).leaves.map Item.box = (unflatBoxes boxes).take ly.leaves.length :=
    map_zipWith_right (fun (it : Item) (b : Box) => (⟨it.ref, b⟩ : Item)) Item.box
      (fun _ _ => rfl) _ _ hle1
  have hnb : (ly.rebox boxes).nodes.map Interior.box =
      (unflatBoxes boxes).drop ly.leaves.length := by
    have := map_zipWith_right (fun (n : Interior) (b : Box) => (⟨n.size, b⟩ : Interior))
      Interior.box (fun _ _ => rfl) ly.nodes ((unflatBoxes boxes).drop ly.leaves.length)
      hle2
    have hle : ((unflatBoxes boxes).drop ly.leaves.length).length ≤ ly.nodes.length := by
      simp [hlen]
    rw [List.take_of_length_le hle] at this
    exact this
  have hall : (ly.rebox boxes).allBoxes = unflatBoxes boxes := by
    unfold Layout.allBoxes
    rw [hlb, hnb, List.take_append_drop]
  simp only [Layout.tree, hall, hflat, h1, h2, hrefs, h3]

theorem Layout.rebox_wf (ly : Layout) (hwf : ly.WF) (boxes : List F64)
    (hb : boxes.length = 4 * (ly.leaves.length + ly.nodes.length)) : (ly.rebox boxes).WF := by
  obtain ⟨h1, h2, h3, _⟩ := Layout.rebox_spec ly boxes hb
  refine ⟨?_, ?_, ?_⟩
  · intro h
    have := hwf.nonempty
    rw [h] at h2
    exact this (List.length_eq_zero.mp h2.symm)
  · intro j hj
    rw [h3, h1]; exact hwf.before j (by omega)
  · rw [h3, h1, h2]; exact hwf.covered

theorem Search_layout_returns (ly : Layout) (hwf : ly.WF) (minX minY maxX maxY : F64)
    {σ : Type} (iterf : Int → σ → Bool × σ) (fuel : Nat) (hfuel : ly.nodes.length ≤ fuel)
    (s : σ) : ∃ s', ly.tree.Search minX minY maxX maxY iterf fuel s = some s' := by
  have hb := hwf.before
  have hM : 0 < ly.nodes.length := List.length_pos.mpr hwf.nonempty
  unfold RTree.Search
  by_cases h0 : ly.tree.count = 0
  · exact ⟨s, by simp only [h0, if_true]⟩
  · simp only [h0, if_false]
    obtain ⟨j, hj⟩ : ∃ j, ly.nodes.length = j + 1 := ⟨ly.nodes.length - 1, by omega⟩
    have hroot_idx : ((ly.tree.boxes.length : Int) - 4) =
        ((4 * (ly.leaves.length + j) : Nat) : Int) := by
      rw [Layout.tree_boxes_length, hj]; push_cast; ring
    have hn : ly.nodes[j]? = some ly.nodes[j] := List.getElem?_eq_getElem (by omega)
    generalize ly.nodes[j] = n at hn
    rw [hroot_idx, Layout.tree_intersects ly _ n.box (Layout.allBoxes_node ly j n hn)]
    by_cases hint : n.box.intersects minX minY maxX maxY = true
    · simp only [hint]
      rw [search_layout ly hb _ _ _ _ iterf j n hn fuel (by omega) s]
      exact ⟨_, rfl⟩
    · simp only [Bool.not_eq_true] at hint
      simp only [hint]
      exact ⟨_, rfl⟩

theorem queriesReturn_of_count_zero (t : RTree) (h : t.count = 0) : t.QueriesReturn := by
  refine ⟨?_, ?_⟩
  · intro minX minY maxX maxY σ iterf s fuel _
    exact ⟨s, by simp [RTree.Search, h]⟩
  · intro Q fq entries _ x y boxDist itemDist σ iterf s fuel _
    exact ⟨s, by simp [RTree.Neighbors, h]⟩

theorem Layout.queriesReturn (ly : Layout) (hwf : ly.WF) : ly.tree.QueriesReturn := by
  refine ⟨?_, ?_⟩
  · intro minX minY maxX maxY σ iterf s fuel hfuel
    rw [Layout.tree_refs_length] at hfuel
    exact Search_layout_returns ly hwf minX minY maxX maxY iterf fuel (by omega) s
  · intro Q fq entries hl x y boxDist itemDist σ iterf s fuel hfuel
    obtain ⟨out, _, _, hrun⟩ := Neighbors_layout_all fq entries hl ly hwf x y boxDist itemDist
    exact ⟨_, hrun fuel hfuel iterf s⟩

theorem queriesReturn_of_shape (ly : Layout) (hwf : ly.WF) (t : RTree)
    (h : t.SameShape ly.tree) : t.QueriesReturn := by
  obtain ⟨hc, hr, hb⟩ := h
  rw [Layout.tree_boxes_length] at hb
  have e : t = (ly.rebox t.boxes).tree := by
    rw [(Layout.rebox_spec ly t.boxes hb).2.2.2]
    cases t
    simp only [Layout.tree_count] at hc
    simp only at hr
    simp [hc, hr]
  rw [e]
  exact Layout.queriesReturn _ (Layout.rebox_wf ly hwf t.boxes hb)

theorem HilbertBuilder.Finish_shape (sorter : List Nat → List (Nat × Nat))
    (hs : ∀ vals, SwapsInRange (sorter vals) vals.length)
    (items : List Item) (degree : Int) (hd : 2 ≤ degree) :
    ∃ (tree : RTree) (b' : HilbertBuilder),
      (NewHilbertBuilder.addAll items).Finish sorter degree = some (.ok tree, b') ∧
      tree.count = items.length ∧ ∀ t : RTree, t.SameShape tree → t.QueriesReturn := by
  by_cases hne : items = []
  · subst hne
    exact ⟨⟨0, [], []⟩, NewHilbertBuilder, HilbertBuilder.Finish_empty sorter degree hd, rfl,
      fun t h => queriesReturn_of_count_zero t h.1⟩
  · obtain ⟨ly, b', hfin, hperm, hwf, _⟩ :=
      HilbertBuilder.Finish_layout sorter hs items hne degree hd
    exact ⟨ly.tree, b', hfin, hperm.length_eq, fun t h => queriesReturn_of_shape ly hwf t h⟩

theorem OMTBuilder.Finish_shape_omt (buckets : Nat → List F64 → Nat → List (Nat × Nat))
    (hbk : BucketsInRange buckets) (logCeil : Nat → Int → Int)
    (items : List Item) (degree : Int) (hd : 2 ≤ degree) :
    ∃ (tree : RTree) (b' : OMTBuilder),
      (NewOMTBuilder.addAll items).Finish buckets logCeil degree = some (.ok tree, b') ∧
      tree.count = items.length ∧ ∀ t : RTree, t.SameShape tree → t.QueriesReturn := by
  by_cases hne : items = []
  · subst hne
    exact ⟨⟨0, [], []⟩, NewOMTBuilder, OMTBuilder.Finish_empty_omt buckets logCeil degree hd, rfl,
      fun t h => queriesReturn_of_count_zero t h.1⟩
  · obtain ⟨ly, b', hfin, hperm, hwf, _⟩ :=
      OMTBuilder.Finish_over buckets hbk logCeil items hne degree hd
    exact ⟨ly.tree, b', hfin, hperm.length_eq, fun t h => queriesReturn_of_shape ly hwf t h⟩

theorem roundTrip_sameShape {W : Type} (marshal : WireRTree → Except String W)
    (unmarshal : W → Except String WireRTree) (hcodec : Lossless marshal unmarshal)
    (u : RTree) (p : Nat) (hc : u.count < 4294967296) :
    ∃ (w : W) (t' : RTree), Serialize marshal u p = .ok w ∧ Deserialize unmarshal w = .ok t' ∧
      t'.SameShape u := by
  obtain ⟨w, h1, h2⟩ := Serialize_Deserialize marshal unmarshal hcodec u p
  exact ⟨w, _, h1, h2, Nat.mod_eq_of_lt hc, rfl, by simp⟩

/-- C21: for every tree returned without error by
`HilbertBuilder.Finish` or `OMTBuilder.Finish` (whatever height `logCeil` the
OMT builder derives from its float64 logarithms), and every tree with the
same count, the same refs and as many coordinates as such a tree, among them
the tree `Deserialize` returns for the record `Serialize` made of a built
tree of fewer than 2^32 items, `Search` and `Neighbors` return for every
argument and every callback: no index into `refs` or `boxes` is out of
range. -/
theorem built_shape_queries_return (sorter : List Nat → List (Nat × Nat))
    (hs : ∀ vals, SwapsInRange (sorter vals) vals.length)
    (buckets : Nat → List F64 → Nat → List (Nat × Nat)) (hbk : BucketsInRange buckets)
    (logCeil : Nat → Int → Int) (items : List Item) (degree : Int) (hd : 2 ≤ degree) :
    ∃ (tH : RTree) (bH : HilbertBuilder) (tO : RTree) (bO : OMTBuilder),
      (NewHilbertBuilder.addAll items).Finish sorter degree = some (.ok tH, bH) ∧
      (NewOMTBuilder.addAll items).Finish buckets logCeil degree = some (.ok tO, bO) ∧
      (∀ t : RTree, t.SameShape tH ∨ t.SameShape tO → t.QueriesReturn) ∧
      ∀ (W : Type) (marshal : WireRTree → Except String W)
        (unmarshal : W → Except String WireRTree), Lossless marshal unmarshal →
        ∀ (p : Nat), items.length < 4294967296 → ∀ u : RTree, u = tH ∨ u = tO →
          ∃ (w : W) (t' : RTree), Serialize marshal u p = .ok w ∧
            Deserialize unmarshal w = .ok t' ∧ t'.QueriesReturn := by
  obtain ⟨tH, bH, hH, hcH, hsH⟩ := HilbertBuilder.Finish_shape sorter hs items degree hd
  obtain ⟨tO, bO, hO, hcO, hsO⟩ :=
    OMTBuilder.Finish_shape_omt buckets hbk logCeil items degree hd
  refine ⟨tH, bH, tO, bO, hH, hO, ?_, ?_⟩
  · rintro t (h | h)
    · exact hsH t h
    · exact hsO t h
  · intro W marshal unmarshal hcodec p hlt u hu
    have hc : u.count < 4294967296 := by
      rcases hu with h | h
      · rw [h, hcH]; exact hlt
      · rw [h, hcO]; exact hlt
    obtain ⟨w, t', h1, h2, h3⟩ := roundTrip_sameShape marshal unmarshal hcodec u p hc
    refine ⟨w, t', h1, h2, ?_⟩
    rcases hu with h | h
    · rw [h] at h3; exact hsH t' h3
    · rw [h] at h3; exact hsO t' h3

theorem built_shape_queries_return_witness :
    (∀ vals, SwapsInRange (sampleSorter vals) vals.length) ∧ BucketsInRange sampleBuckets ∧
    (2 : Int) ≤ 2 ∧
    ∃ (tH : RTree) (bH : HilbertBuilder) (tO : RTree) (bO : OMTBuilder),
      (NewHilbertBuilder.addAll sampleItems).Finish sampleSorter 2 = some (.ok tH, bH) ∧
      (NewOMTBuilder.addAll sampleItems).Finish sampleBuckets exactLogCeil 2 = some (.ok tO, bO) ∧
      (∀ t : RTree, t.SameShape tH ∨ t.SameShape tO → t.QueriesReturn) ∧
      ∀ (W : Type) (marshal : WireRTree → Except String W)
        (unmarshal : W → Except String WireRTree), Lossless marshal unmarshal →
        ∀ (p : Nat), sampleItems.length < 4294967296 → ∀ u : RTree, u = tH ∨ u = tO →
          ∃ (w : W) (t' : RTree), Serialize marshal u p = .ok w ∧
            Deserialize unmarshal w = .ok t' ∧ t'.QueriesReturn :=
  ⟨sampleSorter_inRange, sampleBuckets_inRange, le_refl _,
    built_shape_queries_return sampleSorter sampleSorter_inRange sampleBuckets
      sampleBuckets_inRange exactLogCeil sampleItems 2 (le_refl _)⟩

/-- C21, as stated, fails: `Deserialize` accepts the parsed record with
count 1, refs `[7, 0, 4]` and no boxes, and on the tree it returns `Search`
reads `boxes[-4]` and `Neighbors` reads `boxes[0]`: both stop with an index
out of range, whatever the fuel, although the callback never returns
false. -/
theorem deserialize_unchecked_record_fails :
    Deserialize idMarshal ⟨1, [7, 0, 4], [], 0⟩ = .ok ⟨1, [7, 0, 4], []⟩ ∧
    RTree.intersects ⟨1, [7, 0, 4], []⟩ (-4) (fin 0) (fin 0) (fin 0) (fin 0) = none ∧
    (∀ fuel, RTree.Search ⟨1, [7, 0, 4], []⟩ (fin 0) (fin 0) (fin 0) (fin 0) collect fuel []
      = none) ∧
    (∀ fuel, RTree.Neighbors listQueue ⟨1, [7, 0, 4], []⟩ (fin 0) (fin 0) collectDist
      PlanarBoxDist none fuel [] = none) ∧
    ¬ RTree.QueriesReturn ⟨1, [7, 0, 4], []⟩ := by
  have hS : ∀ fuel, RTree.Search ⟨1, [7, 0, 4], []⟩ (fin 0) (fin 0) (fin 0) (fin 0) collect
      fuel [] = none := by
    intro fuel
    simp [RTree.Search, RTree.intersects, index]
  refine ⟨rfl, by simp [RTree.intersects, index], hS, ?_, ?_⟩
  · intro fuel
    cases fuel with
    | zero => simp [RTree.Neighbors, RTree.neighborsLoop]
    | succ f =>
      simp [RTree.Neighbors, RTree.neighborsLoop, listQueue, minEntry, eraseEntry, index,
        childIdxs, RTree.pushChildren, RTree.childDist]
  · intro h
    obtain ⟨s', hs'⟩ := h.1 (fin 0) (fin 0) (fin 0) (fin 0) (List Int) collect [] 3 (le_refl _)
    rw [hS 3] at hs'
    cases hs'

theorem HilbertBuilder.sort_scales (sorter : List Nat → List (Nat × Nat))
    (b : HilbertBuilder) :
    b.sort sorter =
      match b.hilbertValues b.xScale b.yScale (List.range b.count) with
      | none => none
      | some hilbertValues =>
        match sortByValues.applySwaps (sorter hilbertValues)
            ⟨b.refs, b.boxes, hilbertValues⟩ with
        | none => none
        | some s => some { b with refs := s.refs, boxes := s.boxes } := rfl

theorem HilbertBuilder.hilbertValue_grid (b : HilbertBuilder) (xScale yScale : F64) (i : Nat)
    (gx gy : F64) (h : b.gridCoords xScale yScale i = some (gx, gy)) :
    ∃ x0 x1 y0 y1, b.boxes[i * 4]? = some x0 ∧ b.boxes[i * 4 + 2]? = some x1 ∧
      b.boxes[i * 4 + 1]? = some y0 ∧ b.boxes[i * 4 + 3]? = some y1 ∧
      gx = F64.round (xScale * ((x0 + x1) / fin 2 - b.minX)) ∧
      gy = F64.round (yScale * ((y0 + y1) / fin 2 - b.minY)) ∧
      b.hilbertValue xScale yScale i =
        some (hilbert (roundToUint32 (xScale * ((x0 + x1) / fin 2 - b.minX)))
          (roundToUint32 (yScale * ((y0 + y1) / fin 2 - b.minY)))) := by
  unfold HilbertBuilder.gridCoords at h
  unfold HilbertBuilder.hilbertValue
  cases h0 : b.boxes[i * 4]? with
  | none => simp [h0] at h
  | some x0 =>
    cases h1 : b.boxes[i * 4 + 2]? with
    | none => simp [h0, h1] at h
    | some x1 =>
      cases h2 : b.boxes[i * 4 + 1]? with
      | none => simp [h0, h1, h2] at h
      | some y0 =>
        cases h3 : b.boxes[i * 4 + 3]? with
        | none => simp [h0, h1, h2, h3] at h
        | some y1 =>
          simp only [h0, h1, h2, h3, Option.some.injEq, Prod.mk.injEq] at h
          exact ⟨x0, x1, y0, y1, rfl, rfl, rfl, rfl, h.1.symm, h.2.symm, rfl⟩

theorem foldl_min_spec (f : Item → F64) (items : List Item) : ∀ (init : F64),
    items.foldl (fun m it => min m (f it)) init ≤ init ∧
    (∀ it ∈ items, items.foldl (fun m it => min m (f it)) init ≤ f it) ∧
    (items.foldl (fun m it => min m (f it)) init = init ∨
      ∃ it ∈ items, items.foldl (fun m it => min m (f it)) init = f it) := by
  induction items with
  | nil => intro init; simp
  | cons a items ih =>
    intro init
    obtain ⟨h1, h2, h3⟩ := ih (min init (f a))
    simp only [List.foldl_cons, List.mem_cons]
    refine ⟨h1.trans (min_le_left _ _), ?_, ?_⟩
    · rintro it (rfl | hit)
      · exact h1.trans (min_le_right _ _)
      · exact h2 it hit
    · rcases h3 with h | ⟨it, hit, h⟩
      · rcases min_choice init (f a) with e | e
        · left; rw [h, e]
        · right; exact ⟨a, Or.inl rfl, by rw [h, e]⟩
      · right; exact ⟨it, Or.inr hit, h⟩

theorem foldl_max_spec (f : Item → F64) (items : List Item) : ∀ (init : F64),
    init ≤ items.foldl (fun m it => max m (f it)) init ∧
    (∀ it ∈ items, f it ≤ items.foldl (fun m it => max m (f it)) init) ∧
    (items.foldl (fun m it => max m (f it)) init = init ∨
      ∃ it ∈ items, items.foldl (fun m it => max m (f it)) init = f it) := by
  induction items with
  | nil => intro init; simp
  | cons a items ih =>
    intro init
    obtain ⟨h1, h2, h3⟩ := ih (max init (f a))
    simp only [List.foldl_cons, List.mem_cons]
    refine ⟨(le_max_left _ _).trans h1, ?_, ?_⟩
    · rintro it (rfl | hit)
      · exact (le_max_right _ _).trans h1
      · exact h2 it hit
    · rcases h3 with h | ⟨it, hit, h⟩
      · rcases max_choice init (f a) with e | e
        · left; rw [h, e]
        · right; exact ⟨a, Or.inl rfl, by rw [h, e]⟩
      · right; exact ⟨it, Or.inr hit, h⟩

theorem HilbertBuilder.addAll_bounds (items : List Item) : ∀ (b : HilbertBuilder),
    (b.addAll items).minX = items.foldl (fun m it => min m it.box.minX) b.minX ∧
    (b.addAll items).minY = items.foldl (fun m it => min m it.box.minY) b.minY ∧
    (b.addAll items).maxX = items.foldl (fun m it => max m it.box.maxX) b.maxX ∧
    (b.addAll items).maxY = items.foldl (fun m it => max m it.box.maxY) b.maxY := by
  induction items with
  | nil => intro b; exact ⟨rfl, rfl, rfl, rfl⟩
  | cons a items ih =>
    intro b
    have := ih (b.Add a.ref a.box.minX a.box.minY a.box.maxX a.box.maxY)
    simpa [HilbertBuilder.addAll, HilbertBuilder.Add] using this

theorem roundHalfAway_range (q : ℚ) (h0 : 0 ≤ q) (h1 : q ≤ 65535) :
    0 ≤ roundHalfAway q ∧ roundHalfAway q ≤ 65535 := by
  unfold roundHalfAway
  rw [if_pos h0]
  refine ⟨Int.floor_nonneg.mpr (by linarith), ?_⟩
  have : ⌊q + 1 / 2⌋ < 65536 := by
    rw [Int.floor_lt]
    push_cast
    linarith
  omega

theorem roundHalfAway_zero : roundHalfAway 0 = 0 := by
  unfold roundHalfAway
  rw [if_pos (le_refl _), Int.floor_eq_iff]
  norm_num

theorem F64.ofRat_eq_fin (r q : ℚ) (h : ofRat r = fin q) : r = q := by
  unfold ofRat at h
  split_ifs at h
  exact F64.fin.inj h

theorem F64.isFloat_neg (q : ℚ) (h : F64.IsFloat q) : F64.IsFloat (-q) := by
  unfold F64.IsFloat at h ⊢
  rw [F64.rnd_neg, h]
  rfl

theorem F64.ulpExp_ge (q : ℚ) : -1074 ≤ ulpExp q := by
  unfold ulpExp
  have := le_max_right (Int.log 2 q) (-1022)
  omega

theorem F64.isFloat_rep_nonneg (q : ℚ) (hq : 0 ≤ q) (h : F64.IsFloat q) :
    ∃ m j : Int, |m| < 2 ^ 53 ∧ -1074 ≤ j ∧ q = (m : ℚ) * 2 ^ j := by
  unfold F64.IsFloat rnd at h
  have hn := F64.ofRat_eq_fin _ _ h
  unfold nearest at hn
  rw [if_pos hq] at hn
  unfold mag at hn
  have hu := F64.ulpExp_ge q
  have h0 := roundHalfEven_nonneg (q / 2 ^ ulpExp q) (div_nonneg hq (two_zpow_pos _).le)
  have h1 := roundHalfEven_le_pow _ 53 (F64.scaled_lt q).le
  generalize roundHalfEven (q / 2 ^ ulpExp q) = n at hn h0 h1
  generalize ulpExp q = u at hn hu
  rcases lt_or_eq_of_le h1 with hlt | heq
  · exact ⟨n, u, by rw [abs_of_nonneg h0]; exact_mod_cast hlt, hu, hn.symm⟩
  · refine ⟨1, u + 53, by norm_num, by omega, ?_⟩
    have e : (2 : ℚ) ^ (u + 53) = 2 ^ u * 2 ^ (53 : ℕ) := by
      rw [zpow_add₀ (by norm_num : (2 : ℚ) ≠ 0), ← zpow_natCast]
      rfl
    have hnq : (n : ℚ) = 2 ^ (53 : ℕ) := heq
    rw [← hn, hnq, e]
    push_cast
    ring

theorem F64.isFloat_rep (q : ℚ) (h : F64.IsFloat q) :
    ∃ m j : Int, |m| < 2 ^ 53 ∧ -1074 ≤ j ∧ q = (m : ℚ) * 2 ^ j := by
  rcases le_total 0 q with hq | hq
  · exact F64.isFloat_rep_nonneg q hq h
  · obtain ⟨m, j, hm, hj, e⟩ := F64.isFloat_rep_nonneg (-q) (by linarith) (F64.isFloat_neg q h)
    refine ⟨-m, j, by rw [abs_neg]; exact hm, hj, ?_⟩
    push_cast
    linarith

theorem F64.isFloat_double (q : ℚ) (h : F64.IsFloat q) (hb : |q| ≤ 2 ^ (1022 : Int)) :
    F64.IsFloat (2 * q) := by
  obtain ⟨m, j, hm, hj, e⟩ := F64.isFloat_rep q h
  have e2 : 2 * q = (m : ℚ) * 2 ^ (j + 1) := by
    rw [e, zpow_add₀ (by norm_num : (2 : ℚ) ≠ 0), zpow_one]
    ring
  unfold F64.IsFloat
  rw [e2]
  apply F64.rnd_rep m (j + 1) hm (by omega)
  rw [← e2, abs_mul, abs_of_pos (by norm_num : (0 : ℚ) < 2)]
  have h3 : (2 : ℚ) * 2 ^ (1022 : Int) = 2 ^ (1023 : Int) := by
    rw [show (1023 : Int) = 1 + 1022 by norm_num, zpow_add₀ (by norm_num : (2 : ℚ) ≠ 0), zpow_one]
  have h4 : (2 : ℚ) ^ (1023 : Int) < 2 ^ 1024 := by
    rw [← zpow_natCast]
    exact zpow_lt_zpow_right₀ (by norm_num) (by norm_num)
  calc 2 * |q| ≤ 2 * 2 ^ (1022 : Int) := by linarith
    _ = 2 ^ (1023 : Int) := h3
    _ < 2 ^ 1024 := h4

theorem F64.fin_of_between (x : F64) (a b : ℚ) (h1 : fin a ≤ x) (h2 : x ≤ fin b) :
    ∃ r : ℚ, x = fin r ∧ a ≤ r ∧ r ≤ b := by
  cases x with
  | negInf => exact absurd h1 (F64.not_fin_le_negInf _)
  | posInf => exact absurd h2 (F64.not_posInf_le_fin _)
  | fin r => exact ⟨r, rfl, (F64.fin_le_fin _ _).mp h1, (F64.fin_le_fin _ _).mp h2⟩

theorem F64.rnd_between (q a b : ℚ) (ha : F64.IsFloat a) (hb : F64.IsFloat b) (h1 : a ≤ q)
    (h2 : q ≤ b) : ∃ r : ℚ, rnd q = fin r ∧ a ≤ r ∧ r ≤ b := by
  apply F64.fin_of_between
  · rw [← ha]; exact F64.rnd_mono _ _ h1
  · rw [← hb]; exact F64.rnd_mono _ _ h2

theorem F64.isFloat_zero : F64.IsFloat 0 := F64.rnd_zero

theorem F64.isFloat_two_zpow (z : Int) (h1 : -1074 ≤ z) (h2 : z < 1024) :
    F64.IsFloat (2 ^ z) := F64.rnd_two_zpow z h1 h2

theorem roundHalfAway_grid (q : ℚ) (h0 : 0 ≤ q) (h1 : q ≤ 65535 + 1 / 4) :
    0 ≤ roundHalfAway q ∧ roundHalfAway q ≤ 65535 := by
  unfold roundHalfAway
  rw [if_pos h0]
  refine ⟨Int.floor_nonneg.mpr (by linarith), ?_⟩
  have : ⌊q + 1 / 2⌋ < 65536 := by
    rw [Int.floor_lt]
    push_cast
    linarith
  omega

theorem F64.isFloat_gridTop : F64.IsFloat (65535 + 1 / 4) := by
  have e : (65535 + 1 / 4 : ℚ) = ((262141 : Int) : ℚ) * 2 ^ (-2 : Int) := by norm_num
  unfold F64.IsFloat
  rw [e]
  apply F64.rnd_rep _ _ (by norm_num) (by norm_num)
  rw [← e, abs_of_pos (by norm_num)]
  calc (65535 + 1 / 4 : ℚ) < 2 ^ (17 : ℕ) := by norm_num
    _ < 2 ^ 1024 := pow_lt_pow_right₀ (by norm_num) (by norm_num)

theorem gridScale_spec (w : ℚ) (h1 : 2 ^ (-1007 : Int) ≤ w) (h2 : w ≤ 2 ^ (1023 : Int)) :
    ∃ sc : ℚ, F64.rnd (65535 / w) = fin sc ∧ 0 ≤ sc ∧ sc * w ≤ 65535 + 1 / 4 := by
  have hw : 0 < w := lt_of_lt_of_le (two_zpow_pos _) h1
  have hQ : 0 < 65535 / w := div_pos (by norm_num) hw
  have hQle : 65535 / w ≤ 2 ^ (1023 : Int) := by
    rw [div_le_iff₀ hw]
    have e : (2 : ℚ) ^ (1023 : Int) = 2 ^ (1007 : Int) * 2 ^ (16 : Int) := by
      rw [← zpow_add₀ (by norm_num : (2 : ℚ) ≠ 0)]; norm_num
    have e2 : (2 : ℚ) ^ (1007 : Int) * 2 ^ (-1007 : Int) = 1 := by
      rw [← zpow_add₀ (by norm_num : (2 : ℚ) ≠ 0)]; norm_num
    have p7 := two_zpow_pos 1007
    calc (65535 : ℚ) ≤ 2 ^ (16 : Int) * (2 ^ (1007 : Int) * 2 ^ (-1007 : Int)) := by
          rw [e2]; norm_num
      _ = 2 ^ (1023 : Int) * 2 ^ (-1007 : Int) := by rw [e]; ring
      _ ≤ 2 ^ (1023 : Int) * w := mul_le_mul_of_nonneg_left h1 (two_zpow_pos _).le
  have hQge : (2 : ℚ) ^ (-1022 : Int) ≤ 65535 / w := by
    rw [le_div_iff₀ hw]
    have e2 : (2 : ℚ) ^ (-1022 : Int) * 2 ^ (1023 : Int) = 2 := by
      rw [← zpow_add₀ (by norm_num : (2 : ℚ) ≠ 0)]; norm_num
    calc (2 : ℚ) ^ (-1022 : Int) * w ≤ 2 ^ (-1022 : Int) * 2 ^ (1023 : Int) :=
          mul_le_mul_of_nonneg_left h2 (two_zpow_pos _).le
      _ = 2 := e2
      _ ≤ 65535 := by norm_num
  obtain ⟨sc, hsc, _, herr⟩ := F64.rnd_bounded (65535 / w) 1023 (by norm_num) (by norm_num)
    (by rw [abs_of_pos hQ]; exact hQle)
  have hsc0 : 0 ≤ sc := by
    have := F64.rnd_nonneg (65535 / w) hQ.le
    rw [hsc, F64.fin_le_fin] at this
    exact this
  refine ⟨sc, hsc, hsc0, ?_⟩
  rw [abs_of_pos hQ] at herr
  have hmax : max (65535 / w * 2 ^ (-53 : Int)) (2 ^ (-1075 : Int)) =
      65535 / w * 2 ^ (-53 : Int) := by
    apply max_eq_left
    have e3 : (2 : ℚ) ^ (-1075 : Int) = 2 ^ (-1022 : Int) * 2 ^ (-53 : Int) := by
      rw [← zpow_add₀ (by norm_num : (2 : ℚ) ≠ 0)]; norm_num
    rw [e3]
    exact mul_le_mul_of_nonneg_right hQge (two_zpow_pos _).le
  rw [hmax] at herr
  have hup : sc ≤ 65535 / w * (1 + 2 ^ (-53 : Int)) := by
    have := (abs_le.mp herr).2
    linarith
  have e53 : (2 : ℚ) ^ (-53 : Int) = 1 / 2 ^ 53 := by
    rw [zpow_neg, one_div]
    norm_num
  calc sc * w ≤ 65535 / w * (1 + 2 ^ (-53 : Int)) * w := mul_le_mul_of_nonneg_right hup hw.le
    _ = 65535 * (1 + 2 ^ (-53 : Int)) := by
        field_simp
        ring
    _ ≤ 65535 + 1 / 4 := by rw [e53]; norm_num

theorem gridCoord_spec (m M x0 x1 : ℚ) (h1 : m ≤ x0) (h2 : x0 ≤ x1) (h3 : x1 ≤ M)
    (fm : F64.IsFloat m) (fM : F64.IsFloat M) (bm : |m| ≤ 2 ^ (1022 : Int))
    (bM : |M| ≤ 2 ^ (1022 : Int))
    (hext : fin M - fin m = 0 ∨ fin (2 ^ (-1007 : Int)) ≤ fin M - fin m) :
    ∃ n : Nat, n ≤ 65535 ∧
      F64.round ((if fin M - fin m > 0 then fin 65535 / (fin M - fin m) else 0) *
        ((fin x0 + fin x1) / fin 2 - fin m)) = fin (n : ℚ) ∧
      roundToUint32 ((if fin M - fin m > 0 then fin 65535 / (fin M - fin m) else 0) *
        ((fin x0 + fin x1) / fin 2 - fin m)) = n ∧
      (fin M - fin m = 0 → n = 0) := by
  have p1022 := two_zpow_pos 1022
  have e23 : (2 : ℚ) ^ (1023 : Int) = 2 * 2 ^ (1022 : Int) := by
    rw [show (1023 : Int) = 1 + 1022 by norm_num, zpow_add₀ (by norm_num : (2 : ℚ) ≠ 0), zpow_one]
  obtain ⟨m1, m2⟩ := abs_le.mp bm
  obtain ⟨M1, M2⟩ := abs_le.mp bM
  -- the width
  obtain ⟨w, hw, w0, w1⟩ := F64.rnd_between (M - m) 0 (2 ^ (1023 : Int)) F64.isFloat_zero
    (F64.isFloat_two_zpow 1023 (by norm_num) (by norm_num)) (by linarith) (by rw [e23]; linarith)
  -- the midpoint
  obtain ⟨s1, hs1, sa, sb⟩ := F64.rnd_between (x0 + x1) (2 * m) (2 * M)
    (F64.isFloat_double m fm bm) (F64.isFloat_double M fM bM) (by linarith) (by linarith)
  obtain ⟨md, hmd, ma, mb⟩ := F64.rnd_between (s1 / 2) m M fm fM (by linarith) (by linarith)
  obtain ⟨tt, htt, t0, t1⟩ := F64.fin_of_between (F64.rnd (md - m)) 0 w
    (by rw [← F64.rnd_zero]; exact F64.rnd_mono _ _ (by linarith))
    (by rw [← hw]; exact F64.rnd_mono _ _ (by linarith))
  have hmid : (fin x0 + fin x1) / fin 2 - fin m = fin tt := by
    rw [F64.fin_add_fin, hs1, F64.fin_div_fin _ _ (by norm_num), hmd, F64.sub_fin, htt]
  rw [hmid, F64.sub_fin, hw]
  by_cases hpos : 0 < w
  · have hgt : fin w > 0 := (F64.fin_lt_fin 0 w).mpr hpos
    have hlow : (2 : ℚ) ^ (-1007 : Int) ≤ w := by
      rcases hext with h | h
      · rw [F64.sub_fin, hw] at h
        have : w = 0 := F64.fin.inj h
        linarith
      · rw [F64.sub_fin, hw, F64.fin_le_fin] at h
        exact h
    obtain ⟨sc, hsc, sc0, sc1⟩ := gridScale_spec w hlow w1
    rw [if_pos hgt, F64.fin_div_fin _ _ (ne_of_gt hpos), hsc, F64.fin_mul_fin]
    obtain ⟨pr, hpr, p0, p1⟩ := F64.rnd_between (sc * tt) 0 (65535 + 1 / 4) F64.isFloat_zero
      F64.isFloat_gridTop (mul_nonneg sc0 t0)
      (le_trans (mul_le_mul_of_nonneg_left t1 sc0) sc1)
    rw [hpr]
    obtain ⟨r0, r1⟩ := roundHalfAway_grid pr p0 p1
    refine ⟨(roundHalfAway pr).toNat, by omega, ?_, ?_, ?_⟩
    · simp only [F64.round]
      congr 1
      rw [← Int.cast_natCast, Int.toNat_of_nonneg r0]
    · simp only [roundToUint32]
      congr 1
      omega
    · intro h
      have : w = 0 := F64.fin.inj h
      linarith
  · have hgt : ¬ fin w > 0 := fun h => hpos ((F64.fin_lt_fin 0 w).mp h)
    rw [if_neg hgt, F64.zero_def, F64.fin_mul_fin, zero_mul, F64.rnd_zero]
    refine ⟨0, by omega, ?_, ?_, fun _ => rfl⟩
    · simp [F64.round, roundHalfAway_zero]
    · simp [roundToUint32, roundHalfAway_zero]

theorem HilbertBuilder.addAll_finite (items : List Item) (hne : items ≠ [])
    (hf : ∀ it ∈ items, it.box.Finite) :
    ∃ mx my Mx My : ℚ,
      (NewHilbertBuilder.addAll items).minX = fin mx ∧
      (NewHilbertBuilder.addAll items).minY = fin my ∧
      (NewHilbertBuilder.addAll items).maxX = fin Mx ∧
      (NewHilbertBuilder.addAll items).maxY = fin My ∧
      ∀ it ∈ items, ∃ x0 y0 x1 y1 : ℚ, it.box = ⟨fin x0, fin y0, fin x1, fin y1⟩ ∧
        mx ≤ x0 ∧ my ≤ y0 ∧ x1 ≤ Mx ∧ y1 ≤ My := by
  obtain ⟨e1, e2, e3, e4⟩ := HilbertBuilder.addAll_bounds items NewHilbertBuilder
  obtain ⟨a1, b1, c1⟩ := foldl_min_spec (fun it => it.box.minX) items NewHilbertBuilder.minX
  obtain ⟨a2, b2, c2⟩ := foldl_min_spec (fun it => it.box.minY) items NewHilbertBuilder.minY
  obtain ⟨a3, b3, c3⟩ := foldl_max_spec (fun it => it.box.maxX) items NewHilbertBuilder.maxX
  obtain ⟨a4, b4, c4⟩ := foldl_max_spec (fun it => it.box.maxY) items NewHilbertBuilder.maxY
  simp only [← e1] at a1 b1 c1
  simp only [← e2] at a2 b2 c2
  simp only [← e3] at a3 b3 c3
  simp only [← e4] at a4 b4 c4
  obtain ⟨a, as, rfl⟩ := List.exists_cons_of_ne_nil hne
  obtain ⟨ax0, ay0, ax1, ay1, ha⟩ := hf a (by simp)
  have ha1 := b1 a (by simp)
  have ha2 := b2 a (by simp)
  have ha3 := b3 a (by simp)
  have ha4 := b4 a (by simp)
  rw [ha] at ha1 ha2 ha3 ha4
  simp only at ha1 ha2 ha3 ha4
  have f1 : ∃ mx, (NewHilbertBuilder.addAll (a :: as)).minX = fin mx := by
    rcases c1 with h | ⟨it, hit, h⟩
    · rw [h] at ha1; exact absurd ha1 (F64.not_posInf_le_fin _)
    · obtain ⟨x0, y0, x1, y1, e⟩ := hf it hit
      exact ⟨x0, by rw [h, e]⟩
  have f2 : ∃ my, (NewHilbertBuilder.addAll (a :: as)).minY = fin my := by
    rcases c2 with h | ⟨it, hit, h⟩
    · rw [h] at ha2; exact absurd ha2 (F64.not_posInf_le_fin _)
    · obtain ⟨x0, y0, x1, y1, e⟩ := hf it hit
      exact ⟨y0, by rw [h, e]⟩
  have f3 : ∃ Mx, (NewHilbertBuilder.addAll (a :: as)).maxX = fin Mx := by
    rcases c3 with h | ⟨it, hit, h⟩
    · rw [h] at ha3; exact absurd ha3 (F64.not_fin_le_negInf _)
    · obtain ⟨x0, y0, x1, y1, e⟩ := hf it hit
      exact ⟨x1, by rw [h, e]⟩
  have f4 : ∃ My, (NewHilbertBuilder.addAll (a :: as)).maxY = fin My := by
    rcases c4 with h | ⟨it, hit, h⟩
    · rw [h] at ha4; exact absurd ha4 (F64.not_fin_le_negInf _)
    · obtain ⟨x0, y0, x1, y1, e⟩ := hf it hit
      exact ⟨y1, by rw [h, e]⟩
  obtain ⟨mx, hmx⟩ := f1
  obtain ⟨my, hmy⟩ := f2
  obtain ⟨Mx, hMx⟩ := f3
  obtain ⟨My, hMy⟩ := f4
  refine ⟨mx, my, Mx, My, hmx, hmy, hMx, hMy, ?_⟩
  intro it hit
  obtain ⟨x0, y0, x1, y1, e⟩ := hf it hit
  have g1 := b1 it hit
  have g2 := b2 it hit
  have g3 := b3 it hit
  have g4 := b4 it hit
  rw [e] at g1 g2 g3 g4
  simp only at g1 g2 g3 g4
  rw [hmx] at g1
  rw [hmy] at g2
  rw [hMx] at g3
  rw [hMy] at g4
  exact ⟨x0, y0, x1, y1, e, (F64.fin_le_fin _ _).mp g1, (F64.fin_le_fin _ _).mp g2,
    (F64.fin_le_fin _ _).mp g3, (F64.fin_le_fin _ _).mp g4⟩

theorem HilbertBuilder.addAll_box (items : List Item) (i : Nat) (it : Item)
    (h : items[i]? = some it) :
    (NewHilbertBuilder.addAll items).boxes[i * 4]? = some it.box.minX ∧
    (NewHilbertBuilder.addAll items).boxes[i * 4 + 1]? = some it.box.minY ∧
    (NewHilbertBuilder.addAll items).boxes[i * 4 + 2]? = some it.box.maxX ∧
    (NewHilbertBuilder.addAll items).boxes[i * 4 + 3]? = some it.box.maxY := by
  have hb := (HilbertBuilder.addAll_spec NewHilbertBuilder items).2.2
  have hb' : (NewHilbertBuilder.addAll items).boxes = flatBoxes (items.map Item.box) := by
    rw [hb]; rfl
  have e : i * 4 = 4 * i := by omega
  have hk : (items.map Item.box)[i]? = some it.box := by simp [h]
  rw [hb', e]
  refine ⟨?_, ?_, ?_, ?_⟩
  · have := flatBoxes_getElem? (items.map Item.box) i 0 (by omega)
    rw [hk] at this
    simpa [Box.coords] using this
  · rw [flatBoxes_getElem? _ _ _ (by omega), hk]; simp [Box.coords]
  · rw [flatBoxes_getElem? _ _ _ (by omega), hk]; simp [Box.coords]
  · rw [flatBoxes_getElem? _ _ _ (by omega), hk]; simp [Box.coords]

theorem Box.Moderate.finite {b : Box} (h : b.Moderate) : b.Finite := by
  obtain ⟨x0, y0, x1, y1, e, _⟩ := h
  exact ⟨x0, y0, x1, y1, e⟩

theorem HilbertBuilder.addAll_moderate (items : List Item) (hne : items ≠ [])
    (hm : ∀ it ∈ items, it.box.Moderate) :
    ∃ mx my Mx My : ℚ,
      (NewHilbertBuilder.addAll items).minX = fin mx ∧
      (NewHilbertBuilder.addAll items).minY = fin my ∧
      (NewHilbertBuilder.addAll items).maxX = fin Mx ∧
      (NewHilbertBuilder.addAll items).maxY = fin My ∧
      (F64.IsFloat mx ∧ |mx| ≤ 2 ^ (1022 : Int)) ∧ (F64.IsFloat my ∧ |my| ≤ 2 ^ (1022 : Int)) ∧
      (F64.IsFloat Mx ∧ |Mx| ≤ 2 ^ (1022 : Int)) ∧ (F64.IsFloat My ∧ |My| ≤ 2 ^ (1022 : Int)) ∧
      ∀ it ∈ items, ∃ x0 y0 x1 y1 : ℚ, it.box = ⟨fin x0, fin y0, fin x1, fin y1⟩ ∧
        mx ≤ x0 ∧ my ≤ y0 ∧ x1 ≤ Mx ∧ y1 ≤ My := by
  obtain ⟨mx, my, Mx, My, hmx, hmy, hMx, hMy, hall⟩ :=
    HilbertBuilder.addAll_finite items hne (fun it hit => (hm it hit).finite)
  obtain ⟨e1, e2, e3, e4⟩ := HilbertBuilder.addAll_bounds items NewHilbertBuilder
  obtain ⟨_, _, c1⟩ := foldl_min_spec (fun it => it.box.minX) items NewHilbertBuilder.minX
  obtain ⟨_, _, c2⟩ := foldl_min_spec (fun it => it.box.minY) items NewHilbertBuilder.minY
  obtain ⟨_, _, c3⟩ := foldl_max_spec (fun it => it.box.maxX) items NewHilbertBuilder.maxX
  obtain ⟨_, _, c4⟩ := foldl_max_spec (fun it => it.box.maxY) items NewHilbertBuilder.maxY
  simp only [← e1] at c1
  simp only [← e2] at c2
  simp only [← e3] at c3
  simp only [← e4] at c4
  rw [hmx] at c1
  rw [hmy] at c2
  rw [hMx] at c3
  rw [hMy] at c4
  refine ⟨mx, my, Mx, My, hmx, hmy, hMx, hMy, ?_, ?_, ?_, ?_, hall⟩
  · rcases c1 with h | ⟨it, hit, h⟩
    · cases h
    · obtain ⟨x0, y0, x1, y1, e, p0, p1, p2, p3⟩ := hm it hit
      rw [e] at h
      cases h
      exact p0
  · rcases c2 with h | ⟨it, hit, h⟩
    · cases h
    · obtain ⟨x0, y0, x1, y1, e, p0, p1, p2, p3⟩ := hm it hit
      rw [e] at h
      cases h
      exact p1
  · rcases c3 with h | ⟨it, hit, h⟩
    · cases h
    · obtain ⟨x0, y0, x1, y1, e, p0, p1, p2, p3⟩ := hm it hit
      rw [e] at h
      cases h
      exact p2
  · rcases c4 with h | ⟨it, hit, h⟩
    · cases h
    · obtain ⟨x0, y0, x1, y1, e, p0, p1, p2, p3⟩ := hm it hit
      rw [e] at h
      cases h
      exact p3

/-- C29: for every non-empty list of items whose coordinates are float64
values of magnitude at most 2^1022 with `minX <= maxX` and `minY <= maxY`,
and such that the extent of each axis, `maxX - minX` and `maxY - minY` as
`sort` computes them, is 0 or at least 2^-1007, the grid coordinates
`round(xScale * (midX - b.minX))` and `round(yScale * (midY - b.minY))`
computed in `sort`, every operation rounded as float64 operations are, are
integers in `[0, 65535]` for every item, so the conversion to uint32 leaves
them unchanged and `hilbert` is called with them; when the extent of an axis
is zero the coordinate on that axis is 0. -/
theorem grid_coords_in_range (items : List Item) (hne : items ≠ [])
    (hv : ∀ it ∈ items, it.box.Valid) (hm : ∀ it ∈ items, it.box.Moderate)
    (hx : (NewHilbertBuilder.addAll items).maxX - (NewHilbertBuilder.addAll items).minX = 0 ∨
      fin (2 ^ (-1007 : Int)) ≤
        (NewHilbertBuilder.addAll items).maxX - (NewHilbertBuilder.addAll items).minX)
    (hy : (NewHilbertBuilder.addAll items).maxY - (NewHilbertBuilder.addAll items).minY = 0 ∨
      fin (2 ^ (-1007 : Int)) ≤
        (NewHilbertBuilder.addAll items).maxY - (NewHilbertBuilder.addAll items).minY)
    (i : Nat) (hi : i < items.length) :
    ∃ gx gy : Nat, gx ≤ 65535 ∧ gy ≤ 65535 ∧
      (NewHilbertBuilder.addAll items).gridCoords (NewHilbertBuilder.addAll items).xScale
        (NewHilbertBuilder.addAll items).yScale i = some (fin (gx : ℚ), fin (gy : ℚ)) ∧
      (NewHilbertBuilder.addAll items).hilbertValue (NewHilbertBuilder.addAll items).xScale
        (NewHilbertBuilder.addAll items).yScale i = some (hilbert gx gy) ∧
      ((NewHilbertBuilder.addAll items).maxX - (NewHilbertBuilder.addAll items).minX = 0 →
        gx = 0) ∧
      ((NewHilbertBuilder.addAll items).maxY - (NewHilbertBuilder.addAll items).minY = 0 →
        gy = 0) := by
  obtain ⟨mx, my, Mx, My, hmx, hmy, hMx, hMy, ⟨f1, a1⟩, ⟨f2, a2⟩, ⟨f3, a3⟩, ⟨f4, a4⟩, hall⟩ :=
    HilbertBuilder.addAll_moderate items hne hm
  have hit : items[i]? = some items[i] := List.getElem?_eq_getElem hi
  have hmem : items[i] ∈ items := List.getElem_mem hi
  obtain ⟨x0, y0, x1, y1, ebox, b1, b2, b3, b4⟩ := hall _ hmem
  obtain ⟨v1, v2⟩ := hv _ hmem
  rw [ebox] at v1 v2
  obtain ⟨e0, e1, e2, e3⟩ := HilbertBuilder.addAll_box items i _ hit
  rw [ebox] at e0 e1 e2 e3
  simp only at e0 e1 e2 e3
  rw [hmx, hMx] at hx
  rw [hmy, hMy] at hy
  obtain ⟨gx, hgx, rx, ux, zx⟩ := gridCoord_spec mx Mx x0 x1 b1 ((F64.fin_le_fin _ _).mp v1) b3
    f1 f3 a1 a3 hx
  obtain ⟨gy, hgy, ry, uy, zy⟩ := gridCoord_spec my My y0 y1 b2 ((F64.fin_le_fin _ _).mp v2) b4
    f2 f4 a2 a4 hy
  refine ⟨gx, gy, hgx, hgy, ?_, ?_, ?_, ?_⟩
  · simp only [HilbertBuilder.gridCoords, HilbertBuilder.xScale, HilbertBuilder.yScale, e0, e1,
      e2, e3, hmx, hmy, hMx, hMy, rx, ry]
  · simp only [HilbertBuilder.hilbertValue, HilbertBuilder.xScale, HilbertBuilder.yScale, e0, e1,
      e2, e3, hmx, hmy, hMx, hMy, ux, uy]
  · rw [hmx, hMx]; exact zx
  · rw [hmy, hMy]; exact zy

theorem F64.min_fin (a b : ℚ) : min (fin a) (fin b) = fin (min a b) := by
  rcases le_total a b with h | h
  · rw [min_eq_left h, min_eq_left ((F64.fin_le_fin a b).mpr h)]
  · rw [min_eq_right h, min_eq_right ((F64.fin_le_fin b a).mpr h)]

theorem F64.max_fin (a b : ℚ) : max (fin a) (fin b) = fin (max a b) := by
  rcases le_total a b with h | h
  · rw [max_eq_right h, max_eq_right ((F64.fin_le_fin a b).mpr h)]
  · rw [max_eq_left h, max_eq_left ((F64.fin_le_fin b a).mpr h)]

theorem F64.min_posInf (x : F64) : min posInf x = x := min_eq_right (F64.le_posInf x)

theorem F64.max_negInf (x : F64) : max negInf x = x := max_eq_right (F64.negInf_le x)

theorem sampleItems_bounds :
    (NewHilbertBuilder.addAll sampleItems).minX = fin 0 ∧
    (NewHilbertBuilder.addAll sampleItems).minY = fin 0 ∧
    (NewHilbertBuilder.addAll sampleItems).maxX = fin 6 ∧
    (NewHilbertBuilder.addAll sampleItems).maxY = fin 6 := by
  obtain ⟨e1, e2, e3, e4⟩ := HilbertBuilder.addAll_bounds sampleItems NewHilbertBuilder
  rw [e1, e2, e3, e4]
  simp only [sampleItems, List.foldl_cons, List.foldl_nil, NewHilbertBuilder, F64.min_posInf,
    F64.max_negInf, F64.min_fin, F64.max_fin]
  norm_num

theorem sampleItems_moderate : ∀ it ∈ sampleItems, it.box.Moderate := by
  have hi : ∀ (q : ℚ) (k : Int), |k| ≤ 6 → (k : ℚ) = q →
      F64.IsFloat q ∧ |q| ≤ 2 ^ (1022 : Int) := by
    intro q k hk e
    subst e
    refine ⟨F64.isFloat_intCast k (le_trans hk (by norm_num)), ?_⟩
    have h1 : |(k : ℚ)| ≤ 6 := by
      have : ((|k| : Int) : ℚ) ≤ ((6 : Int) : ℚ) := by exact_mod_cast hk
      simpa using this
    have h2 : (6 : ℚ) ≤ 2 ^ (3 : Int) := by norm_num
    exact le_trans h1 (le_trans h2 (two_zpow_le (by norm_num)))
  have h0 := hi 0 0 (by norm_num) (by norm_num)
  have h1 := hi 1 1 (by norm_num) (by norm_num)
  have h2 := hi 2 2 (by norm_num) (by norm_num)
  have h5 := hi 5 5 (by norm_num) (by norm_num)
  have h6 := hi 6 6 (by norm_num) (by norm_num)
  intro it hit
  simp only [sampleItems, List.mem_cons, List.mem_singleton, List.not_mem_nil, or_false] at hit
  rcases hit with rfl | rfl | rfl
  · exact ⟨0, 0, 1, 1, rfl, h0, h0, h1, h1⟩
  · exact ⟨5, 5, 6, 6, rfl, h5, h5, h6, h6⟩
  · exact ⟨1, 1, 2, 2, rfl, h1, h1, h2, h2⟩

theorem sampleItems_extent :
    fin (2 ^ (-1007 : Int)) ≤ (fin 6 : F64) - fin 0 := by
  rw [F64.sub_fin, sub_zero]
  have h6 : F64.rnd 6 = fin 6 := by
    have := F64.rnd_intCast 6 (by norm_num)
    simpa using this
  rw [h6, F64.fin_le_fin]
  exact le_trans (two_zpow_le (show (-1007 : Int) ≤ 0 by norm_num)) (by norm_num)

theorem grid_coords_in_range_witness :
    sampleItems ≠ [] ∧ (∀ it ∈ sampleItems, it.box.Valid) ∧
    (∀ it ∈ sampleItems, it.box.Moderate) ∧
    ((NewHilbertBuilder.addAll sampleItems).maxX - (NewHilbertBuilder.addAll sampleItems).minX
        = 0 ∨
      fin (2 ^ (-1007 : Int)) ≤
        (NewHilbertBuilder.addAll sampleItems).maxX -
          (NewHilbertBuilder.addAll sampleItems).minX) ∧
    ((NewHilbertBuilder.addAll sampleItems).maxY - (NewHilbertBuilder.addAll sampleItems).minY
        = 0 ∨
      fin (2 ^ (-1007 : Int)) ≤
        (NewHilbertBuilder.addAll sampleItems).maxY -
          (NewHilbertBuilder.addAll sampleItems).minY) ∧
    1 < sampleItems.length ∧
    ∃ gx gy : Nat, gx ≤ 65535 ∧ gy ≤ 65535 ∧
      (NewHilbertBuilder.addAll sampleItems).gridCoords
        (NewHilbertBuilder.addAll sampleItems).xScale
        (NewHilbertBuilder.addAll sampleItems).yScale 1 = some (fin (gx : ℚ), fin (gy : ℚ)) ∧
      (NewHilbertBuilder.addAll sampleItems).hilbertValue
        (NewHilbertBuilder.addAll sampleItems).xScale
        (NewHilbertBuilder.addAll sampleItems).yScale 1 = some (hilbert gx gy) ∧
      ((NewHilbertBuilder.addAll sampleItems).maxX - (NewHilbertBuilder.addAll sampleItems).minX
        = 0 → gx = 0) ∧
      ((NewHilbertBuilder.addAll sampleItems).maxY - (NewHilbertBuilder.addAll sampleItems).minY
        = 0 → gy = 0) :=
  ⟨by simp [sampleItems], sampleItems_valid, sampleItems_moderate,
    Or.inr (by rw [sampleItems_bounds.1, sampleItems_bounds.2.2.1]; exact sampleItems_extent),
    Or.inr (by rw [sampleItems_bounds.2.1, sampleItems_bounds.2.2.2]; exact sampleItems_extent),
    by simp [sampleItems],
    grid_coords_in_range sampleItems (by simp [sampleItems]) sampleItems_valid
      sampleItems_moderate
      (Or.inr (by rw [sampleItems_bounds.1, sampleItems_bounds.2.2.1]; exact sampleItems_extent))
      (Or.inr (by rw [sampleItems_bounds.2.1, sampleItems_bounds.2.2.2];
                  exact sampleItems_extent))
      1 (by simp [sampleItems])⟩

theorem farItems_bounds :
    (NewHilbertBuilder.addAll farItems).minX = fin 0 ∧
    (NewHilbertBuilder.addAll farItems).minY = fin 0 ∧
    (NewHilbertBuilder.addAll farItems).maxX = fin (2 ^ (1023 : Int)) ∧
    (NewHilbertBuilder.addAll farItems).maxY = fin 0 := by
  obtain ⟨e1, e2, e3, e4⟩ := HilbertBuilder.addAll_bounds farItems NewHilbertBuilder
  have hp := (two_zpow_pos 1023).le
  rw [e1, e2, e3, e4]
  simp only [farItems, List.foldl_cons, List.foldl_nil, NewHilbertBuilder, F64.min_posInf,
    F64.max_negInf, F64.min_fin, F64.max_fin, min_self, max_self, min_eq_left hp,
    max_eq_right hp, and_self]

theorem farItems_gridCoords :
    farItems ≠ [] ∧ (∀ it ∈ farItems, it.box.Valid) ∧ (∀ it ∈ farItems, it.box.Finite) ∧
    F64.IsFloat 0 ∧ F64.IsFloat (2 ^ (1023 : Int)) ∧
    (NewHilbertBuilder.addAll farItems).gridCoords (NewHilbertBuilder.addAll farItems).xScale
      (NewHilbertBuilder.addAll farItems).yScale 1 = some (posInf, fin 0) := by
  have hp := two_zpow_pos 1023
  refine ⟨by simp [farItems], ?_, ?_, F64.isFloat_zero,
    F64.isFloat_two_zpow 1023 (by norm_num) (by norm_num), ?_⟩
  · intro it hit
    simp only [farItems, List.mem_cons, List.mem_singleton, List.not_mem_nil, or_false] at hit
    rcases hit with rfl | rfl <;> exact ⟨le_refl _, le_refl _⟩
  · intro it hit
    simp only [farItems, List.mem_cons, List.mem_singleton, List.not_mem_nil, or_false] at hit
    rcases hit with rfl | rfl <;> exact ⟨_, _, _, _, rfl⟩
  · obtain ⟨b1, b2, b3, b4⟩ := farItems_bounds
    obtain ⟨e0, e1, e2, e3⟩ := HilbertBuilder.addAll_box farItems 1
      ⟨2, ⟨fin (2 ^ (1023 : Int)), fin 0, fin (2 ^ (1023 : Int)), fin 0⟩⟩ rfl
    simp only at e0 e1 e2 e3
    have hw : (fin (2 ^ (1023 : Int)) : F64) - fin 0 = fin (2 ^ (1023 : Int)) := by
      rw [F64.sub_fin, sub_zero]
      exact F64.rnd_two_zpow 1023 (by norm_num) (by norm_num)
    have hsc : ∃ a : ℚ, 0 < a ∧ (fin 65535 : F64) / fin (2 ^ (1023 : Int)) = fin a := by
      have e : (65535 : ℚ) / 2 ^ (1023 : Int) = ((65535 : Int) : ℚ) * 2 ^ (-1023 : Int) := by
        rw [zpow_neg, div_eq_mul_inv]
        norm_num
      refine ⟨(65535 : ℚ) / 2 ^ (1023 : Int), div_pos (by norm_num) hp, ?_⟩
      rw [F64.fin_div_fin _ _ (ne_of_gt hp), e]
      apply F64.rnd_rep _ _ (by norm_num) (by norm_num)
      rw [← e, abs_of_pos (div_pos (by norm_num) hp)]
      have h1 : (65535 : ℚ) / 2 ^ (1023 : Int) ≤ 65535 := by
        apply div_le_self (by norm_num)
        exact le_trans (by norm_num) (two_zpow_le (show (0 : Int) ≤ 1023 by norm_num))
      calc (65535 : ℚ) / 2 ^ (1023 : Int) ≤ 65535 := h1
        _ < 2 ^ (17 : ℕ) := by norm_num
        _ < 2 ^ 1024 := pow_lt_pow_right₀ (by norm_num) (by norm_num)
    obtain ⟨a, ha, hsa⟩ := hsc
    have hxs : (NewHilbertBuilder.addAll farItems).xScale = fin a := by
      unfold HilbertBuilder.xScale
      simp only [b1, b3, hw]
      rw [if_pos (show (fin (2 ^ (1023 : Int)) : F64) > 0 from (F64.fin_lt_fin 0 _).mpr hp), hsa]
    have hys : (NewHilbertBuilder.addAll farItems).yScale = 0 := by
      unfold HilbertBuilder.yScale
      simp only [b2, b4, F64.sub_self_fin]
      rw [if_neg (show ¬ (fin 0 : F64) > 0 from lt_irrefl _)]
    have hmidx : (fin (2 ^ (1023 : Int)) + fin (2 ^ (1023 : Int)) : F64) / fin 2 - fin 0 =
        posInf := by
      have e : (2 : ℚ) ^ (1023 : Int) + 2 ^ (1023 : Int) = 2 ^ 1024 := by
        rw [← two_mul, show (1024 : ℕ) = 1023 + 1 by norm_num, pow_succ, ← zpow_natCast]
        push_cast
        ring
      rw [F64.fin_add_fin, F64.rnd_overflow _ (le_of_eq e.symm)]
      rfl
    have hmidy : ((fin 0 : F64) + fin 0) / fin 2 - fin 0 = fin 0 := by
      rw [F64.fin_add_fin, add_zero, F64.rnd_zero, F64.fin_div_fin _ _ (by norm_num), zero_div,
        F64.rnd_zero, F64.sub_self_fin]
    have hmul : (fin a : F64) * posInf = posInf := by
      show F64.mul (fin a) posInf = posInf
      simp [F64.mul, ha]
    have hzero : (0 : F64) * fin 0 = fin 0 := by
      rw [F64.zero_def, F64.fin_mul_fin, mul_zero, F64.rnd_zero]
    unfold HilbertBuilder.gridCoords
    simp only [e0, e1, e2, e3, b1, b2, hxs, hys, hmidx, hmidy, hmul, hzero]
    simp [F64.round, roundHalfAway_zero]

theorem nearItems_bounds :
    (NewHilbertBuilder.addAll nearItems).minX = fin 0 ∧
    (NewHilbertBuilder.addAll nearItems).minY = fin 0 ∧
    (NewHilbertBuilder.addAll nearItems).maxX = fin (2 ^ (-1060 : Int)) ∧
    (NewHilbertBuilder.addAll nearItems).maxY = fin 0 := by
  obtain ⟨e1, e2, e3, e4⟩ := HilbertBuilder.addAll_bounds nearItems NewHilbertBuilder
  have hp := (two_zpow_pos (-1060)).le
  rw [e1, e2, e3, e4]
  simp only [nearItems, List.foldl_cons, List.foldl_nil, NewHilbertBuilder, F64.min_posInf,
    F64.max_negInf, F64.min_fin, F64.max_fin, min_self, max_self, min_eq_left hp,
    max_eq_right hp, and_self]

theorem nearItems_gridCoords :
    (NewHilbertBuilder.addAll nearItems).xScale = posInf ∧
    (NewHilbertBuilder.addAll nearItems).gridCoords (NewHilbertBuilder.addAll nearItems).xScale
      (NewHilbertBuilder.addAll nearItems).yScale 1 = some (posInf, fin 0) := by
  have hp := two_zpow_pos (-1060)
  obtain ⟨b1, b2, b3, b4⟩ := nearItems_bounds
  obtain ⟨e0, e1, e2, e3⟩ := HilbertBuilder.addAll_box nearItems 1
    ⟨2, ⟨fin (2 ^ (-1060 : Int)), fin 0, fin (2 ^ (-1060 : Int)), fin 0⟩⟩ rfl
  simp only at e0 e1 e2 e3
  have hr : rnd (2 ^ (-1060 : Int)) = fin (2 ^ (-1060 : Int)) :=
    F64.rnd_two_zpow (-1060) (by norm_num) (by norm_num)
  have hw : (fin (2 ^ (-1060 : Int)) : F64) - fin 0 = fin (2 ^ (-1060 : Int)) := by
    rw [F64.sub_fin, sub_zero, hr]
  have hbig : (2 : ℚ) ^ 1024 ≤ 65535 / 2 ^ (-1060 : Int) := by
    have e : (65535 : ℚ) / 2 ^ (-1060 : Int) = 65535 * 2 ^ (1060 : ℕ) := by
      rw [zpow_neg, div_inv_eq_mul, ← zpow_natCast]
      rfl
    rw [e]
    calc (2 : ℚ) ^ 1024 ≤ 2 ^ 1060 := pow_le_pow_right₀ (by norm_num) (by norm_num)
      _ ≤ 65535 * 2 ^ 1060 := le_mul_of_one_le_left (by positivity) (by norm_num)
  have hsa : (fin 65535 : F64) / fin (2 ^ (-1060 : Int)) = posInf := by
    rw [F64.fin_div_fin _ _ (ne_of_gt hp), F64.rnd_overflow _ hbig]
  have hxs : (NewHilbertBuilder.addAll nearItems).xScale = posInf := by
    unfold HilbertBuilder.xScale
    simp only [b1, b3, hw]
    rw [if_pos (show (fin (2 ^ (-1060 : Int)) : F64) > 0 from (F64.fin_lt_fin 0 _).mpr hp), hsa]
  have hys : (NewHilbertBuilder.addAll nearItems).yScale = 0 := by
    unfold HilbertBuilder.yScale
    simp only [b2, b4, F64.sub_self_fin]
    rw [if_neg (show ¬ (fin 0 : F64) > 0 from lt_irrefl _)]
  have hmidx : (fin (2 ^ (-1060 : Int)) + fin (2 ^ (-1060 : Int)) : F64) / fin 2 - fin 0 =
      fin (2 ^ (-1060 : Int)) := by
    have e : (2 : ℚ) ^ (-1060 : Int) + 2 ^ (-1060 : Int) = 2 ^ (-1059 : Int) := by
      rw [← two_mul, show (-1059 : Int) = -1060 + 1 by norm_num, zpow_add_one₀ (by norm_num)]
      ring
    have e2 : (2 : ℚ) ^ (-1059 : Int) / 2 = 2 ^ (-1060 : Int) := by
      rw [show (-1059 : Int) = -1060 + 1 by norm_num, zpow_add_one₀ (by norm_num)]
      ring
    rw [F64.fin_add_fin, e, F64.rnd_two_zpow (-1059) (by norm_num) (by norm_num),
      F64.fin_div_fin _ _ (by norm_num), e2, hr, hw]
  have hmidy : ((fin 0 : F64) + fin 0) / fin 2 - fin 0 = fin 0 := by
    rw [F64.fin_add_fin, add_zero, F64.rnd_zero, F64.fin_div_fin _ _ (by norm_num), zero_div,
      F64.rnd_zero, F64.sub_self_fin]
  have hmul : (posInf : F64) * fin (2 ^ (-1060 : Int)) = posInf := by
    show (if 0 < (2 : ℚ) ^ (-1060 : Int) then posInf
      else if (2 : ℚ) ^ (-1060 : Int) < 0 then negInf else fin 0) = posInf
    rw [if_pos hp]
  have hzero : (0 : F64) * fin 0 = fin 0 := by
    rw [F64.zero_def, F64.fin_mul_fin, mul_zero, F64.rnd_zero]
  refine ⟨hxs, ?_⟩
  unfold HilbertBuilder.gridCoords
  simp only [e0, e1, e2, e3, b1, b2, hxs, hys, hmidx, hmidy, hmul, hzero]
  simp [F64.round, roundHalfAway_zero]

theorem nearItems_moderate : ∀ it ∈ nearItems, it.box.Moderate := by
  have h0 : F64.IsFloat 0 ∧ |(0 : ℚ)| ≤ 2 ^ (1022 : Int) :=
    ⟨F64.isFloat_zero, by rw [abs_zero]; exact (two_zpow_pos 1022).le⟩
  have h1 : F64.IsFloat (2 ^ (-1060 : Int)) ∧ |(2 : ℚ) ^ (-1060 : Int)| ≤ 2 ^ (1022 : Int) :=
    ⟨F64.isFloat_two_zpow (-1060) (by norm_num) (by norm_num), by
      rw [abs_of_pos (two_zpow_pos (-1060))]
      exact zpow_le_zpow_right₀ (by norm_num) (by norm_num)⟩
  intro it hit
  simp only [nearItems, List.mem_cons, List.mem_singleton, List.not_mem_nil, or_false] at hit
  rcases hit with rfl | rfl
  · exact ⟨0, 0, 0, 0, rfl, h0, h0, h0, h0⟩
  · exact ⟨2 ^ (-1060 : Int), 0, 2 ^ (-1060 : Int), 0, rfl, h1, h0, h1, h0⟩

/-- C29, as stated, fails: float64 sums and quotients overflow.  The two
items of `farItems`, the points (0, 0) and (2^1023, 0), have float64
coordinates with `minX <= maxX` and `minY <= maxY`; for the second one the
sum `2^1023 + 2^1023` computed for `midX` is `+Inf`, and so is the grid
coordinate `round(xScale * (midX - b.minX))`, which is not in `[0, 65535]`.
The two items of `nearItems`, the points (0, 0) and (2^-1060, 0), have
float64 coordinates of small magnitude; the extent of the x axis is 2^-1060,
the scale `65535 / 2^-1060` is `+Inf`, and so is the grid coordinate of the
second item. -/
theorem grid_coords_overflow :
    (farItems ≠ [] ∧ (∀ it ∈ farItems, it.box.Valid) ∧ (∀ it ∈ farItems, it.box.Finite) ∧
      F64.IsFloat 0 ∧ F64.IsFloat (2 ^ (1023 : Int)) ∧
      (NewHilbertBuilder.addAll farItems).gridCoords (NewHilbertBuilder.addAll farItems).xScale
        (NewHilbertBuilder.addAll farItems).yScale 1 = some (posInf, fin 0)) ∧
    (nearItems ≠ [] ∧ (∀ it ∈ nearItems, it.box.Valid) ∧ (∀ it ∈ nearItems, it.box.Moderate) ∧
      (NewHilbertBuilder.addAll nearItems).maxX - (NewHilbertBuilder.addAll nearItems).minX =
        fin (2 ^ (-1060 : Int)) ∧
      (NewHilbertBuilder.addAll nearItems).xScale = posInf ∧
      (NewHilbertBuilder.addAll nearItems).gridCoords
        (NewHilbertBuilder.addAll nearItems).xScale
        (NewHilbertBuilder.addAll nearItems).yScale 1 = some (posInf, fin 0)) := by
  refine ⟨farItems_gridCoords, by simp [nearItems], ?_, nearItems_moderate, ?_,
    nearItems_gridCoords.1, nearItems_gridCoords.2⟩
  · intro it hit
    simp only [nearItems, List.mem_cons, List.mem_singleton, List.not_mem_nil, or_false] at hit
    rcases hit with rfl | rfl <;> exact ⟨le_refl _, le_refl _⟩
  · obtain ⟨b1, _, b3, _⟩ := nearItems_bounds
    rw [b1, b3, F64.sub_fin, sub_zero]
    exact F64.rnd_two_zpow (-1060) (by norm_num) (by norm_num)

theorem chunkNodes_sizes (d : Nat) (hd : 1 ≤ d) :
    ∀ (f : Nat) (bs : List Box), bs.length ≤ f →
      LevelOver d bs.length ((chunkNodes d f bs).map Interior.size) := by
  intro f
  induction f with
  | zero =>
    intro bs h
    have : bs = [] := List.length_eq_zero.mp (by omega)
    subst this
    refine ⟨?_, ?_, ?_, ?_⟩ <;> simp [chunkNodes, ceilDiv_zero hd]
  | succ f ih =>
    intro bs h
    have hlen := chunkNodes_length d hd (f + 1) bs h
    by_cases hb : bs = []
    · subst hb
      refine ⟨?_, ?_, ?_, ?_⟩ <;> simp [chunkNodes, ceilDiv_zero hd]
    · have hpos : 0 < bs.length := List.length_pos.mpr hb
      obtain ⟨i1, i2, i3, i4⟩ := ih (bs.drop d) (by simp; omega)
      have hrl := chunkNodes_length d hd f (bs.drop d) (by simp; omega)
      refine ⟨by simpa using hlen, ?_, ?_, ?_⟩
      · simp only [chunkNodes, hb, if_false, List.map_cons, List.sum_cons, i2, List.length_take,
          List.length_drop]
        omega
      · intro s hs
        simp only [chunkNodes, hb, if_false, List.map_cons] at hs
        by_cases hr : (chunkNodes d f (bs.drop d)).map Interior.size = []
        · rw [hr] at hs; simp at hs
        · rw [List.dropLast_cons_of_ne_nil hr, List.mem_cons] at hs
          rcases hs with rfl | hs
          · have hgt : d < bs.length := by
              by_contra hcon
              apply hr
              have h0 : (bs.drop d).length = 0 := by simp; omega
              have : (chunkNodes d f (bs.drop d)).length = 0 := by
                rw [hrl, h0, ceilDiv_zero hd]
              simp [List.length_eq_zero.mp this]
            simp only [List.length_take]
            omega
          · exact i3 s hs
      · intro s hs
        simp only [chunkNodes, hb, if_false, List.map_cons, List.mem_cons] at hs
        rcases hs with rfl | hs
        · simp only [List.length_take]; omega
        · exact i4 s hs

theorem packLevels_sizes (d : Nat) (hd : 2 ≤ d) :
    ∀ (f : Nat) (bs : List Box), bs ≠ [] → bs.length ≤ f →
      PackedSizes d bs.length ((packLevels d f bs).map (List.map Interior.size)) := by
  intro f
  induction f with
  | zero =>
    intro bs hb h
    exact absurd (List.length_eq_zero.mp (by omega)) hb
  | succ f ih =>
    intro bs hb h
    have hl : 0 < bs.length := List.length_pos.mpr hb
    have hsz := chunkNodes_sizes d (by omega) bs.length bs (le_refl _)
    have hlen := chunkNodes_length d (by omega) bs.length bs (le_refl _)
    simp only [packLevels]
    by_cases h1 : (chunkNodes d bs.length bs).length = 1
    · simp only [h1, if_true, List.map_cons, List.map_nil]
      exact ⟨hsz, by simpa using h1⟩
    · simp only [h1, if_false, List.map_cons]
      have hpos := ceilDiv_pos (n := bs.length) (d := d) (by omega) (by omega)
      have h2 : 2 ≤ bs.length := by
        by_contra hc
        have h3 : ceilDiv bs.length d = 1 := ceilDiv_le_one (by omega) (by omega)
        exact h1 (hlen.trans h3)
      have hlt := ceilDiv_lt hd h2
      have hne : (chunkNodes d bs.length bs).map Interior.box ≠ [] := by
        intro hc
        have := congrArg List.length hc
        simp only [List.length_map, List.length_nil] at this
        omega
      have hrec := ih ((chunkNodes d bs.length bs).map Interior.box) hne
        (by simp only [List.length_map]; omega)
      simp only [List.length_map] at hrec
      cases hrest : (packLevels d f ((chunkNodes d bs.length bs).map Interior.box)).map
          (List.map Interior.size) with
      | nil => rw [hrest] at hrec; exact hrec.elim
      | cons next rest =>
        rw [hrest] at hrec
        exact ⟨hsz, by simpa using hrec⟩

theorem packLevels_lengths (d : Nat) (hd : 2 ≤ d) :
    ∀ (f : Nat) (bs : List Box), bs ≠ [] → bs.length ≤ f →
      1 ≤ (packLevels d f bs).length ∧
      (∀ k level, (packLevels d f bs)[k]? = some level →
        level.length = (fun n => ceilDiv n d)^[k + 1] bs.length) ∧
      (fun n => ceilDiv n d)^[(packLevels d f bs).length] bs.length = 1 ∧
      ∀ k, 1 ≤ k → k < (packLevels d f bs).length →
        (fun n => ceilDiv n d)^[k] bs.length ≠ 1 := by
  intro f
  induction f with
  | zero =>
    intro bs hb h
    exact absurd (List.length_eq_zero.mp (by omega)) hb
  | succ f ih =>
    intro bs hb h
    have hl : 0 < bs.length := List.length_pos.mpr hb
    have hlen := chunkNodes_length d (by omega) bs.length bs (le_refl _)
    simp only [packLevels]
    by_cases h1 : (chunkNodes d bs.length bs).length = 1
    · simp only [h1, if_true, List.length_singleton]
      refine ⟨le_refl _, ?_, ?_, ?_⟩
      · intro k level hk
        cases k with
        | zero =>
          simp only [List.getElem?_cons_zero, Option.some.injEq] at hk
          rw [← hk, hlen]; rfl
        | succ k => simp at hk
      · rw [Function.iterate_one, ← hlen, h1]
      · intro k hk1 hk2; omega
    · simp only [h1, if_false, List.length_cons]
      have hpos := ceilDiv_pos (n := bs.length) (d := d) (by omega) (by omega)
      have h2 : 2 ≤ bs.length := by
        by_contra hc
        have h3 : ceilDiv bs.length d = 1 := ceilDiv_le_one (by omega) (by omega)
        exact h1 (hlen.trans h3)
      have hlt := ceilDiv_lt hd h2
      have hne : (chunkNodes d bs.length bs).map Interior.box ≠ [] := by
        intro hc
        have := congrArg List.length hc
        simp only [List.length_map, List.length_nil] at this
        omega
      obtain ⟨r1, r2, r3, r4⟩ := ih ((chunkNodes d bs.length bs).map Interior.box) hne
        (by simp only [List.length_map]; omega)
      simp only [List.length_map, hlen] at r1 r2 r3 r4
      refine ⟨by omega, ?_, ?_, ?_⟩
      · intro k level hk
        cases k with
        | zero =>
          simp only [List.getElem?_cons_zero, Option.some.injEq] at hk
          rw [← hk, hlen]; rfl
        | succ k =>
          simp only [List.getElem?_cons_succ] at hk
          rw [Function.iterate_succ_apply]
          exact r2 k level hk
      · rw [Function.iterate_succ_apply]; exact r3
      · intro k hk1 hk2
        obtain ⟨k', rfl⟩ : ∃ k', k = k' + 1 := ⟨k - 1, by omega⟩
        rw [Function.iterate_succ_apply]
        cases k' with
        | zero =>
          rw [Function.iterate_zero, id_eq, ← hlen]; exact h1
        | succ k'' => exact r4 (k'' + 1) (by omega) (by omega)

/-- C23: in the tree `HilbertBuilder.Finish` builds for N >= 1 items and
degree >= 2 the interior nodes form levels, bottom-up, with child counts
`sizes`: the offsets `refs[N+j]` are 4 times the running sums of the child
counts; the nodes over a level of c nodes (c = N for the first level) are
`ceil(c / degree)` in number, every one of them but the last has exactly
`degree` children, the last has between 1 and `degree`, and their child counts
add up to c, so that no child range crosses a level boundary; the last level
is a single node. -/
theorem hilbert_levels_full (sorter : List Nat → List (Nat × Nat))
    (hs : ∀ vals, SwapsInRange (sorter vals) vals.length)
    (items : List Item) (hne : items ≠ []) (degree : Int) (hd : 2 ≤ degree) :
    ∃ (tree : RTree) (b' : HilbertBuilder) (sizes : List (List Nat)),
      (NewHilbertBuilder.addAll items).Finish sorter degree = some (.ok tree, b') ∧
      PackedSizes degree.toNat items.length sizes ∧
      tree.refs.length = items.length + sizes.flatten.length + 1 ∧
      ∀ j, j ≤ sizes.flatten.length →
        tree.refs[items.length + j]? = some ((4 * (sizes.flatten.take j).sum : Nat) : Int) := by
  obtain ⟨items', hperm, b', hfin⟩ := HilbertBuilder.Finish_spec sorter hs items hne degree hd
  have hne' : items' ≠ [] := by
    intro h; rw [h] at hperm; exact hne (List.Perm.eq_nil hperm.symm)
  have hlen : items'.length = items.length := hperm.length_eq
  have hbs : items'.map Item.box ≠ [] := by simpa using hne'
  have hps := packLevels_sizes degree.toNat (by omega) items'.length (items'.map Item.box) hbs
    (by simp)
  simp only [List.length_map, hlen] at hps
  have hflat : ((packLevels degree.toNat items.length (items'.map Item.box)).map
      (List.map Interior.size)).flatten =
      (hilbertLayout items' degree.toNat).nodes.map Interior.size := by
    simp only [hilbertLayout, hlen, List.map_flatten]
  refine ⟨_, b', _, hfin, hps, ?_, ?_⟩
  · rw [hflat, Layout.tree_refs_length, List.length_map]
    show items'.length + _ + 1 = _
    rw [hlen]
  · intro j hj
    rw [hflat] at hj ⊢
    simp only [List.length_map] at hj
    have := Layout.tree_refs_at (hilbertLayout items' degree.toNat) j hj
    rw [show (hilbertLayout items' degree.toNat).leaves.length = items.length from hlen] at this
    rw [this, ← List.map_take]
    rfl

theorem hilbert_levels_full_witness :
    (∀ vals, SwapsInRange (sampleSorter vals) vals.length) ∧ sampleItems ≠ [] ∧
    (2 : Int) ≤ 2 ∧
    ∃ (tree : RTree) (b' : HilbertBuilder) (sizes : List (List Nat)),
      (NewHilbertBuilder.addAll sampleItems).Finish sampleSorter 2 = some (.ok tree, b') ∧
      PackedSizes (2 : Int).toNat sampleItems.length sizes ∧
      tree.refs.length = sampleItems.length + sizes.flatten.length + 1 ∧
      ∀ j, j ≤ sizes.flatten.length →
        tree.refs[sampleItems.length + j]? =
          some ((4 * (sizes.flatten.take j).sum : Nat) : Int) :=
  ⟨sampleSorter_inRange, by simp [sampleItems], le_refl _,
    hilbert_levels_full sampleSorter sampleSorter_inRange sampleItems (by simp [sampleItems]) 2
      (le_refl _)⟩

theorem packLoop_iterations (d : Nat) :
    ∀ (f c nn e : Nat) (st r : PackState), packLoop d f c nn e st = some r →
      ∃ L, 1 ≤ L ∧ L ≤ f ∧ (fun n => ceilDiv n d)^[L] c = 1 ∧
        (∀ k, 1 ≤ k → k < L → (fun n => ceilDiv n d)^[k] c ≠ 1) ∧
        packLoop d L c nn e st = some r ∧
        ∀ fuel, fuel < L → packLoop d fuel c nn e st = none := by
  intro f
  induction f with
  | zero => intro c nn e st r h; simp [packLoop] at h
  | succ f ih =>
    intro c nn e st r h
    simp only [packLoop] at h
    cases hpl : packLevel d e (e + 1) st with
    | none => rw [hpl] at h; simp at h
    | some st' =>
      rw [hpl] at h
      simp only at h
      by_cases h1 : ceilDiv c d = 1
      · rw [if_pos h1] at h
        refine ⟨1, le_refl _, by omega, by rw [Function.iterate_one]; exact h1, ?_, ?_, ?_⟩
        · intro k hk1 hk2; omega
        · simp only [packLoop, hpl, h1, if_true]; exact h
        · intro fuel hfuel
          have : fuel = 0 := by omega
          subst this
          rfl
      · rw [if_neg h1] at h
        obtain ⟨L, hL1, hLf, hit, hno, hrun, hnone⟩ := ih _ _ _ _ _ h
        refine ⟨L + 1, by omega, by omega, ?_, ?_, ?_, ?_⟩
        · rw [Function.iterate_succ_apply]; exact hit
        · intro k hk1 hk2
          obtain ⟨k', rfl⟩ : ∃ k', k = k' + 1 := ⟨k - 1, by omega⟩
          rw [Function.iterate_succ_apply]
          cases k' with
          | zero => rw [Function.iterate_zero, id_eq]; exact h1
          | succ k'' => exact hno (k'' + 1) (by omega) (by omega)
        · simp only [packLoop, hpl, h1, if_false]; exact hrun
        · intro fuel hfuel
          cases fuel with
          | zero => rfl
          | succ g =>
            simp only [packLoop, hpl, h1, if_false]
            exact hnone g (by omega)

theorem iterations_unique (g : Nat → Nat) (c L1 L2 : Nat) (h1 : 1 ≤ L1) (h2 : 1 ≤ L2)
    (a1 : g^[L1] c = 1) (a2 : g^[L2] c = 1)
    (b1 : ∀ k, 1 ≤ k → k < L1 → g^[k] c ≠ 1) (b2 : ∀ k, 1 ≤ k → k < L2 → g^[k] c ≠ 1) :
    L1 = L2 := by
  rcases Nat.lt_trichotomy L1 L2 with h | h | h
  · exact absurd a1 (b2 L1 h1 h)
  · exact h
  · exact absurd a2 (b1 L2 h2 h)

/-- C25: for a builder holding N >= 1 items and degree >= 2, `pack` returns;
its outer loop makes exactly L iterations, L the number of levels it appends
(with L iterations allowed it returns, with fewer it does not); level k has
as many nodes as N replaced k times by `ceil(N / degree)`; and L is the
least number >= 1 of replacements that brings N to 1: the loop stops at the
first level of a single node and packs at least one level. -/
theorem hilbert_pack_terminates (b : HilbertBuilder) (items : List Item)
    (hc : b.count = items.length) (hr : b.refs = items.map Item.ref)
    (hb : b.boxes = flatBoxes (items.map Item.box)) (hN : 1 ≤ items.length)
    (d : Nat) (hd : 2 ≤ d) :
    ∃ (b' : HilbertBuilder) (levels : List (List Interior)) (st : PackState),
      b.pack d = some b' ∧
      b'.refs = (⟨items, levels.flatten⟩ : Layout).tree.refs ∧
      b'.boxes = (⟨items, levels.flatten⟩ : Layout).tree.boxes ∧
      LevelsBy (PackedNode d) (items.map Item.box) levels ∧
      1 ≤ levels.length ∧
      (∀ k level, levels[k]? = some level →
        level.length = (fun n => ceilDiv n d)^[k + 1] items.length) ∧
      (fun n => ceilDiv n d)^[levels.length] items.length = 1 ∧
      (∀ k, 1 ≤ k → k < levels.length → (fun n => ceilDiv n d)^[k] items.length ≠ 1) ∧
      packLoop d levels.length b.count b.count b.boxes.length ⟨b.refs ++ [0], b.boxes, 0⟩ =
        some st ∧
      ∀ fuel, fuel < levels.length →
        packLoop d fuel b.count b.count b.boxes.length ⟨b.refs ++ [0], b.boxes, 0⟩ = none := by
  have hpack := HilbertBuilder.pack_spec b items hc hr hb hN d hd
  have hbs : items.map Item.box ≠ [] := by
    intro h
    have := congrArg List.length h
    simp only [List.length_map, List.length_nil] at this
    omega
  obtain ⟨l1, l2, l3, l4⟩ := packLevels_lengths d hd items.length (items.map Item.box) hbs
    (by simp)
  simp only [List.length_map] at l1 l2 l3 l4
  have hlv := packLevels_levels d hd items.length (items.map Item.box) hbs (by simp)
  cases hrun : packLoop d (b.count + 1) b.count b.count b.boxes.length
      ⟨b.refs ++ [0], b.boxes, 0⟩ with
  | none =>
    unfold HilbertBuilder.pack at hpack
    rw [hrun] at hpack
    simp at hpack
  | some st =>
    obtain ⟨L, hL1, _, hit, hno, hL, hnone⟩ := packLoop_iterations d _ _ _ _ _ _ hrun
    rw [hc] at hit hno
    have hLeq : L = (packLevels d items.length (items.map Item.box)).length :=
      iterations_unique _ _ _ _ hL1 l1 hit l3 hno l4
    rw [hLeq] at hL hnone
    exact ⟨_, packLevels d items.length (items.map Item.box), st, hpack, rfl, rfl, hlv, l1, l2,
      l3, l4, hL, hnone⟩

theorem hilbert_pack_terminates_witness :
    (NewHilbertBuilder.addAll sampleItems).count = sampleItems.length ∧
    (NewHilbertBuilder.addAll sampleItems).refs = sampleItems.map Item.ref ∧
    (NewHilbertBuilder.addAll sampleItems).boxes = flatBoxes (sampleItems.map Item.box) ∧
    1 ≤ sampleItems.length ∧ 2 ≤ 2 ∧
    ∃ (b' : HilbertBuilder) (levels : List (List Interior)) (st : PackState),
      (NewHilbertBuilder.addAll sampleItems).pack 2 = some b' ∧
      b'.refs = (⟨sampleItems, levels.flatten⟩ : Layout).tree.refs ∧
      b'.boxes = (⟨sampleItems, levels.flatten⟩ : Layout).tree.boxes ∧
      LevelsBy (PackedNode 2) (sampleItems.map Item.box) levels ∧
      1 ≤ levels.length ∧
      (∀ k level, levels[k]? = some level →
        level.length = (fun n => ceilDiv n 2)^[k + 1] sampleItems.length) ∧
      (fun n => ceilDiv n 2)^[levels.length] sampleItems.length = 1 ∧
      (∀ k, 1 ≤ k → k < levels.length →
        (fun n => ceilDiv n 2)^[k] sampleItems.length ≠ 1) ∧
      packLoop 2 levels.length (NewHilbertBuilder.addAll sampleItems).count
        (NewHilbertBuilder.addAll sampleItems).count
        (NewHilbertBuilder.addAll sampleItems).boxes.length
        ⟨(NewHilbertBuilder.addAll sampleItems).refs ++ [0],
          (NewHilbertBuilder.addAll sampleItems).boxes, 0⟩ = some st ∧
      ∀ fuel, fuel < levels.length →
        packLoop 2 fuel (NewHilbertBuilder.addAll sampleItems).count
          (NewHilbertBuilder.addAll sampleItems).count
          (NewHilbertBuilder.addAll sampleItems).boxes.length
          ⟨(NewHilbertBuilder.addAll sampleItems).refs ++ [0],
            (NewHilbertBuilder.addAll sampleItems).boxes, 0⟩ = none :=
  ⟨rfl, rfl, rfl, by simp [sampleItems], le_refl _,
    hilbert_pack_terminates (NewHilbertBuilder.addAll sampleItems) sampleItems rfl rfl rfl
      (by simp [sampleItems]) 2 (le_refl _)⟩

theorem recordCall_repr (count : Nat) (items : List Item) (levels : List (List Interior))
    (cs ce : Nat) :
    recordCall cs ce (OMTBuilder.repr count items levels) =
      some (OMTBuilder.repr count items (levels ++ [callLevel (cs, ce)]), Box.empty) := by
  simp [recordCall, OMTBuilder.repr, callLevel, flatBoxes, Box.coords]

theorem buildChildren_record (count : Nat) (items : List Item) (end_ cap : Nat) :
    ∀ (starts : List Nat) (levels : List (List Interior)) (box0 : Box) (k0 : Nat),
      ∃ box1 : Box,
        buildChildren recordCall end_ cap starts
            ⟨OMTBuilder.repr count items levels, box0, k0⟩ =
          some ⟨OMTBuilder.repr count items
              (levels ++ (childRangesOf end_ cap starts).map callLevel),
            box1, k0 + (childRangesOf end_ cap starts).length⟩ := by
  intro starts
  induction starts with
  | nil =>
    intro levels box0 k0
    exact ⟨box0, by simp [buildChildren, childRangesOf]⟩
  | cons cs rest ih =>
    intro levels box0 k0
    obtain ⟨box1, h⟩ := ih (levels ++ [callLevel
      (cs, if cs + cap > end_ then end_ else cs + cap)])
      (box0.extend Box.empty.minX Box.empty.minY Box.empty.maxX Box.empty.maxY) (k0 + 1)
    refine ⟨box1, ?_⟩
    simp only [buildChildren, recordCall_repr]
    rw [h]
    simp only [childRangesOf, List.map_cons, List.length_cons, List.length_map,
      List.append_assoc, List.singleton_append]
    rw [Nat.add_assoc, Nat.add_comm 1]

theorem Tiles.appendTiles : ∀ (r1 : List (Nat × Nat)) (lo mid hi : Nat) (r2 : List (Nat × Nat)),
    Tiles lo mid r1 → Tiles mid hi r2 → Tiles lo hi (r1 ++ r2) := by
  intro r1
  induction r1 with
  | nil =>
    intro lo mid hi r2 h1 h2
    simp only [Tiles] at h1
    subst h1
    exact h2
  | cons r rest ih =>
    intro lo mid hi r2 h1 h2
    obtain ⟨a, b, c⟩ := h1
    exact ⟨a, b, ih _ _ _ _ c h2⟩

theorem children_tiles (start end_ cap : Nat) (hcap : 1 ≤ cap) :
    ∀ (fuel cs se : Nat), se - cs ≤ fuel → cs ≤ se → se ≤ end_ →
      (se = end_ ∨ cap ∣ (se - cs)) → start ≤ cs → cap ∣ (cs - start) →
      ∃ starts, loopStarts cs se cap = some starts ∧
        Tiles cs se (childRangesOf end_ cap starts) ∧
        ∀ r ∈ childRangesOf end_ cap starts, ChildRange start end_ cap r := by
  intro fuel
  induction fuel with
  | zero =>
    intro cs se hf h1 h2 _ _ _
    have : cs = se := by omega
    subst this
    exact ⟨[], loopStarts_nil _ _ _ (le_refl _), rfl, by simp [childRangesOf]⟩
  | succ fuel ih =>
    intro cs se hf h1 h2 h3 h4 h5
    rcases Nat.eq_or_lt_of_le h1 with heq | hlt
    · subst heq
      exact ⟨[], loopStarts_nil _ _ _ (le_refl _), rfl, by simp [childRangesOf]⟩
    · obtain ⟨rest, hrest, hstarts⟩ := loopStarts_cons cs se cap hlt hcap
      -- the end of the first child
      have hce : (if cs + cap > end_ then end_ else cs + cap) = min (cs + cap) end_ := by
        split_ifs with h
        · rw [Nat.min_def, if_neg (by omega)]
        · rw [Nat.min_def, if_pos (by omega)]
      have hle : min (cs + cap) end_ ≤ se := by
        rcases h3 with h3 | ⟨q, hq⟩
        · rw [h3]; exact Nat.min_le_right _ _
        · have hq1 : 1 ≤ q := by
            by_contra hc
            have : q = 0 := by omega
            rw [this] at hq
            omega
          have : cap ≤ cap * q := Nat.le_mul_of_pos_right cap (by omega)
          have : cs + cap ≤ se := by omega
          exact (Nat.min_le_left _ _).trans this
      have hdiv : se = end_ ∨ cap ∣ (se - min (cs + cap) end_) := by
        rcases h3 with h3 | ⟨q, hq⟩
        · exact Or.inl h3
        · have hq1 : 1 ≤ q := by
            by_contra hc
            have : q = 0 := by omega
            rw [this] at hq
            omega
          obtain ⟨q', rfl⟩ : ∃ q', q = q' + 1 := ⟨q - 1, by omega⟩
          have hm : cap * (q' + 1) = cap * q' + cap := by ring
          have hmin : min (cs + cap) end_ = cs + cap := by
            rw [Nat.min_def, if_pos (by omega)]
          right
          rw [hmin]
          exact ⟨q', by omega⟩
      have hdiv2 : cap ∣ (min (cs + cap) end_ - start) ∨ min (cs + cap) end_ = se := by
        by_cases hc : cs + cap ≤ end_
        · left
          rw [Nat.min_def, if_pos hc]
          obtain ⟨q, hq⟩ := h5
          exact ⟨q + 1, by rw [Nat.mul_add, Nat.mul_one, ← hq]; omega⟩
        · right
          rcases h3 with h3 | ⟨q, hq⟩
          · rw [h3, Nat.min_def, if_neg hc]
          · have hq1 : 1 ≤ q := by
              by_contra hc'
              have : q = 0 := by omega
              rw [this] at hq
              omega
            have : cap ≤ cap * q := Nat.le_mul_of_pos_right cap (by omega)
            omega
      have hrest' : loopStarts (min (cs + cap) end_) se cap = some rest := by
        by_cases hc : cs + cap ≤ end_
        · rw [Nat.min_def, if_pos hc]; exact hrest
        · have hse : se ≤ cs + cap := by omega
          rw [loopStarts_nil _ _ _ hse] at hrest
          rw [← hrest]
          apply loopStarts_nil
          rw [Nat.min_def, if_neg hc]
          rcases h3 with h3 | ⟨q, hq⟩
          · omega
          · have hq1 : 1 ≤ q := by
              by_contra hc'
              have : q = 0 := by omega
              rw [this] at hq
              omega
            have : cap ≤ cap * q := Nat.le_mul_of_pos_right cap (by omega)
            omega
      have hfirst : ChildRange start end_ cap (cs, min (cs + cap) end_) :=
        ⟨h4, h5, by show cs < end_; omega, rfl⟩
      rcases hdiv2 with hd2 | hd2
      · obtain ⟨starts', hs', ht', hg'⟩ := ih (min (cs + cap) end_) se
          (by have : cs < min (cs + cap) end_ := by
                rw [Nat.lt_min]; exact ⟨by omega, by omega⟩
              omega)
          hle h2 hdiv (by have := Nat.le_min.mpr ⟨(by omega : cs ≤ cs + cap),
            (by omega : cs ≤ end_)⟩; omega) hd2
        rw [hrest'] at hs'
        simp only [Option.some.injEq] at hs'
        subst hs'
        refine ⟨cs :: rest, hstarts, ?_, ?_⟩
        · simp only [childRangesOf, List.map_cons, Tiles, hce]
          refine ⟨trivial, ?_, ht'⟩
          rw [Nat.lt_min]; exact ⟨by omega, by omega⟩
        · intro r hr
          simp only [childRangesOf, List.map_cons, List.mem_cons, hce] at hr
          rcases hr with rfl | hr
          · exact hfirst
          · exact hg' r hr
      · have hnil : rest = [] := by
          rw [hd2, loopStarts_nil _ _ _ (le_refl _)] at hrest'
          simpa using hrest'.symm
        subst hnil
        refine ⟨[cs], hstarts, ?_, ?_⟩
        · simp only [childRangesOf, List.map_cons, List.map_nil, Tiles, hce]
          exact ⟨trivial, by omega, hd2⟩
        · intro r hr
          simp only [childRangesOf, List.map_cons, List.map_nil, List.mem_singleton, hce] at hr
          rw [hr]; exact hfirst

theorem OMTBuilder.repr_sortRange_at (buckets : Nat → List F64 → Nat → List (Nat × Nat))
    (hbk : BucketsInRange buckets) (count : Nat) (items : List Item)
    (levels : List (List Interior)) (sortBy n lo se : Nat) (h1 : lo ≤ se)
    (h2 : se ≤ items.length) :
    ∃ items' : List Item, items'.length = items.length ∧
      (OMTBuilder.repr count items levels).sortRange buckets sortBy lo se n =
        some (OMTBuilder.repr count items' levels) := by
  obtain ⟨S', hperm, hrun⟩ := OMTBuilder.repr_sortRange buckets hbk count (items.take lo)
    ((items.drop lo).take (se - lo)) (items.drop se) levels sortBy n
  have hA : (items.take lo).length = lo := by rw [List.length_take]; omega
  have hS : ((items.drop lo).take (se - lo)).length = se - lo := by
    rw [List.length_take, List.length_drop]; omega
  have hitems : items.take lo ++ (items.drop lo).take (se - lo) ++ items.drop se = items := by
    have e : items.drop se = (items.drop lo).drop (se - lo) := by
      rw [List.drop_drop]; congr 1; omega
    rw [e, List.append_assoc, List.take_append_drop, List.take_append_drop]
  rw [hitems, hA, hS, show lo + (se - lo) = se by omega] at hrun
  refine ⟨_, ?_, hrun⟩
  simp only [List.length_append, hA, hperm.length_eq, hS, List.length_drop]
  omega

theorem buildSlices_record (buckets : Nat → List F64 → Nat → List (Nat × Nat))
    (hbk : BucketsInRange buckets) (count start end_ cap m : Nat) (hcap : 1 ≤ cap)
    (hm : 1 ≤ m) :
    ∀ (fuel lo : Nat) (items : List Item) (levels : List (List Interior)) (box0 : Box)
      (k0 : Nat), end_ - lo ≤ fuel → start ≤ lo → lo ≤ end_ → end_ ≤ items.length →
      cap ∣ (lo - start) →
      ∃ (starts : List Nat) (items' : List Item) (ranges : List (Nat × Nat)) (box1 : Box),
        loopStarts lo end_ (cap * m) = some starts ∧ items'.length = items.length ∧
        buildSlices buckets recordCall end_ (cap * m) cap starts
            ⟨OMTBuilder.repr count items levels, box0, k0⟩ =
          some ⟨OMTBuilder.repr count items' (levels ++ ranges.map callLevel), box1,
            k0 + ranges.length⟩ ∧
        Tiles lo end_ ranges ∧ ∀ r ∈ ranges, ChildRange start end_ cap r := by
  have hs : 1 ≤ cap * m := Nat.mul_pos hcap hm
  intro fuel
  induction fuel with
  | zero =>
    intro lo items levels box0 k0 hf h1 h2 _ _
    have : lo = end_ := by omega
    subst this
    exact ⟨[], items, [], box0, loopStarts_nil _ _ _ (le_refl _), rfl,
      by simp [buildSlices], rfl, by simp⟩
  | succ fuel ih =>
    intro lo items levels box0 k0 hf h1 h2 h3 h4
    rcases Nat.eq_or_lt_of_le h2 with heq | hlt
    · subst heq
      exact ⟨[], items, [], box0, loopStarts_nil _ _ _ (le_refl _), rfl,
        by simp [buildSlices], rfl, by simp⟩
    · obtain ⟨rest, hrest, hstarts⟩ := loopStarts_cons lo end_ (cap * m) hlt hs
      obtain ⟨se, hse⟩ : ∃ se, se = if lo + cap * m > end_ then end_ else lo + cap * m :=
        ⟨_, rfl⟩
      have hse1 : lo ≤ se := by rw [hse]; split_ifs <;> omega
      have hse2 : se ≤ end_ := by rw [hse]; split_ifs <;> omega
      have hse3 : se = end_ ∨ cap ∣ (se - lo) := by
        rw [hse]
        split_ifs with h
        · exact Or.inl rfl
        · right; exact ⟨m, by omega⟩
      obtain ⟨items1, hlen1, hsort⟩ := OMTBuilder.repr_sortRange_at buckets hbk count items
        levels 1 cap lo se hse1 (by omega)
      obtain ⟨cstarts, hcs, hct, hcg⟩ := children_tiles start end_ cap hcap (se - lo) lo se
        (le_refl _) hse1 hse2 hse3 h1 h4
      obtain ⟨box1, hbc⟩ := buildChildren_record count items1 end_ cap cstarts levels box0 k0
      by_cases hlast : end_ ≤ lo + cap * m
      · have hse4 : se = end_ := by
          rw [hse]; split_ifs <;> omega
        rw [loopStarts_nil _ _ _ hlast] at hrest
        simp only [Option.some.injEq] at hrest
        subst hrest
        refine ⟨[lo], items1, childRangesOf end_ cap cstarts, box1, hstarts, hlen1, ?_, ?_,
          hcg⟩
        · simp only [buildSlices, ← hse, hsort, hcs, hbc]
        · rw [hse4] at hct; exact hct
      · have hse4 : se = lo + cap * m := by
          rw [hse]; split_ifs <;> omega
        obtain ⟨starts', items2, ranges2, box2, hs2, hlen2, hrun2, ht2, hg2⟩ :=
          ih se items1 (levels ++ (childRangesOf end_ cap cstarts).map callLevel) box1
            (k0 + (childRangesOf end_ cap cstarts).length) (by omega) (by omega) hse2
            (by omega)
            (by
              obtain ⟨q, hq⟩ := h4
              exact ⟨q + m, by rw [Nat.mul_add, ← hq]; omega⟩)
        rw [hse4, hrest] at hs2
        simp only [Option.some.injEq] at hs2
        subst hs2
        refine ⟨lo :: rest, items2, childRangesOf end_ cap cstarts ++ ranges2, box2, hstarts,
          hlen2.trans hlen1, ?_, Tiles.appendTiles _ _ _ _ _ hct ht2, ?_⟩
        · simp only [buildSlices, ← hse, hsort, hcs, hbc]
          rw [hrun2]
          simp only [List.map_append, List.append_assoc, List.length_append, Nat.add_assoc]
        · intro r hr
          rcases List.mem_append.mp hr with h | h
          · exact hcg r h
          · exact hg2 r h

theorem Tiles.count (end_ cap : Nat) (hcap : 1 ≤ cap) :
    ∀ (ranges : List (Nat × Nat)) (lo : Nat), lo ≤ end_ → Tiles lo end_ ranges →
      (∀ r ∈ ranges, r.2 = min (r.1 + cap) end_) →
      ranges.length = ceilDiv (end_ - lo) cap := by
  intro ranges
  induction ranges with
  | nil =>
    intro lo _ ht _
    simp only [Tiles] at ht
    subst ht
    simp [ceilDiv_zero hcap]
  | cons r rest ih =>
    intro lo hlo ht hr
    obtain ⟨x, y⟩ := r
    obtain ⟨a, b, c⟩ := ht
    have hr2 : y = min (x + cap) end_ := hr (x, y) (by simp)
    simp only at a b c
    subst a
    have hrest := ih y (by rw [hr2]; exact Nat.min_le_right _ _) c
      (fun z hz => hr z (by simp [hz]))
    simp only [List.length_cons, hrest]
    by_cases h : x + cap ≤ end_
    · have hy : y = x + cap := by rw [hr2, Nat.min_def, if_pos h]
      rw [hy, ceilDiv_sub hcap (show cap ≤ end_ - x by omega)]
      congr 2
      omega
    · have hy : y = end_ := by rw [hr2, Nat.min_def, if_neg h]
      rw [hy, Nat.sub_self, ceilDiv_zero hcap, ceilDiv_le_one (by omega) (by omega)]

theorem buildBody_record (buckets : Nat → List F64 → Nat → List (Nat × Nat))
    (hbk : BucketsInRange buckets) (d : Nat) (hd : 2 ≤ d) (L n : Nat)
    (hfit : Fits d (L + 1) n) (count start : Nat) (items : List Item)
    (levels : List (List Interior)) (hlen : start + n ≤ items.length)
    (hL : L + 1 < levels.length) :
    ∃ (b₁ : OMTBuilder) (box : Box) (ranges : List (Nat × Nat)),
      OMTBuilder.buildBody buckets d (L + 1) recordCall start (start + n)
        (OMTBuilder.repr count items levels) = some (b₁, box) ∧
      b₁.nodeSizes.drop levels.length = ranges.map (fun r => [r.1, r.2]) ∧
      Tiles start (start + n) ranges ∧ ranges.length ≤ ceilDiv n (d ^ (L + 1)) ∧
      ∀ r ∈ ranges, Fits d L (r.2 - r.1) := by
  obtain ⟨hc1, hcd, hnot, hcap1, hkids, hfit'⟩ := fits_step d L n hd hfit
  obtain ⟨c, hc⟩ : ∃ c, c = ceilDiv n (d ^ (L + 1)) := ⟨_, rfl⟩
  rw [← hc] at hc1 hcd hnot hcap1 hkids hfit'
  obtain ⟨cap, hcap⟩ : ∃ cap, cap = ceilDiv n c := ⟨_, rfl⟩
  rw [← hcap] at hcap1 hkids hfit'
  have hs1 := ceilSqrt_pos c hc1
  obtain ⟨items1, hlen1, hsort⟩ := OMTBuilder.repr_sortRange_at buckets hbk count items
    levels 0 (cap * ceilSqrt c) start (start + n) (by omega) hlen
  obtain ⟨starts, items2, ranges, box1, hstarts, hlen2, hrun, htiles, hgood⟩ :=
    buildSlices_record buckets hbk count start (start + n) cap (ceilSqrt c) hcap1 hs1 n start
      items1 levels Box.empty 0 (by omega) (le_refl _) (by omega) (by omega)
      (by rw [Nat.sub_self]; exact dvd_zero _)
  have hlv : L + 1 < (levels ++ ranges.map callLevel).length := by
    rw [List.length_append]; omega
  have hget : (levels ++ ranges.map callLevel)[L + 1]? = some levels[L + 1] := by
    rw [List.getElem?_append_left hL]; exact List.getElem?_eq_getElem hL
  rw [Nat.zero_add] at hrun
  refine ⟨OMTBuilder.repr count items2 (appendLevels (levels ++ ranges.map callLevel)
    (List.replicate (L + 1) [] ++ [[⟨ranges.length, box1⟩]])), box1, ranges, ?_, ?_, htiles,
    ?_, ?_⟩
  · simp only [OMTBuilder.buildBody, Nat.add_sub_cancel_left, ← hc, ← hcap]
    simp only [hnot, if_false, hsort, hstarts, hrun, Nat.zero_add]
    rw [OMTBuilder.repr_addNode _ _ _ _ _ _ hlv]
  · rw [appendLevels_single _ _ _ _ hget]
    simp only [OMTBuilder.repr, List.map_set, List.map_append, List.map_map]
    rw [List.drop_set_of_lt _ _ hL, List.drop_left']
    · apply List.map_congr_left
      intro r _
      rfl
    · simp
  · have hcount := Tiles.count (start + n) cap hcap1 ranges start (by omega) htiles
      (fun r hr => (hgood r hr).2.2.2)
    rw [hcount, Nat.add_sub_cancel_left, ← hc]
    exact hkids
  · intro r hr
    obtain ⟨g1, g2, g3, g4⟩ := hgood r hr
    have hr' := hfit' (start + n - r.1) (by omega) (by omega)
      (by rw [show n - (start + n - r.1) = r.1 - start by omega]; exact g2)
    have e : r.2 - r.1 = min cap (start + n - r.1) := by
      rw [g4]
      simp only [Nat.min_def]
      split_ifs <;> omega
    rw [e]; exact hr'

theorem LevelsBy.sums {P : Interior → List Box → Prop} :
    ∀ (levels : List (List Interior)) (prev : List Box), LevelsBy P prev levels →
      (∀ l, levels[0]? = some l → (l.map Interior.size).sum = prev.length) ∧
      (∀ k l l', levels[k]? = some l → levels[k + 1]? = some l' →
        (l'.map Interior.size).sum = l.length) ∧
      ∃ root, levels[levels.length - 1]? = some [root] := by
  intro levels
  induction levels with
  | nil => intro prev h; exact h.elim
  | cons level rest ih =>
    intro prev h
    cases rest with
    | nil =>
      obtain ⟨hal, h1⟩ := h
      refine ⟨?_, ?_, ?_⟩
      · intro l hl
        simp only [List.getElem?_cons_zero, Option.some.injEq] at hl
        rw [← hl]; exact AlignedBy.sum_sizes _ _ hal
      · intro k l l' _ hl'
        simp at hl'
      · obtain ⟨root, hroot⟩ := List.length_eq_one.mp h1
        exact ⟨root, by simp [hroot]⟩
    | cons next rest' =>
      obtain ⟨hal, hrest⟩ := h
      obtain ⟨i1, i2, i3⟩ := ih _ hrest
      refine ⟨?_, ?_, ?_⟩
      · intro l hl
        simp only [List.getElem?_cons_zero, Option.some.injEq] at hl
        rw [← hl]; exact AlignedBy.sum_sizes _ _ hal
      · intro k l l' hl hl'
        cases k with
        | zero =>
          simp only [List.getElem?_cons_zero, Option.some.injEq] at hl
          simp only [List.getElem?_cons_succ] at hl'
          have := i1 l' hl'
          rw [this, ← hl, List.length_map]
        | succ k =>
          rw [List.getElem?_cons_succ] at hl hl'
          exact i2 k l l' hl hl'
      · obtain ⟨root, hroot⟩ := i3
        refine ⟨root, ?_⟩
        simp only [List.length_cons, Nat.add_sub_cancel] at hroot ⊢
        rw [List.getElem?_cons_succ]
        exact hroot

theorem OMTBuilder.Finish_levels_omt (buckets : Nat → List F64 → Nat → List (Nat × Nat))
    (hbk : BucketsInRange buckets)
    (items : List Item) (hne : items ≠ []) (degree : Int) (hd : 2 ≤ degree) :
    ∃ (items' : List Item) (levels : List (List Interior)) (b' : OMTBuilder),
      items'.Perm items ∧ LevelsBy (OMTNode degree.toNat) (items'.map Item.box) levels ∧
      levels.length = max (Nat.clog degree.toNat items.length) 1 ∧
      b'.nodeSizes = levels.map (fun l => l.map Interior.size) ∧
      (NewOMTBuilder.addAll items).Finish buckets exactLogCeil degree =
        some (.ok (Layout.tree ⟨items', levels.flatten⟩), b') := by
  have hpos : 0 < items.length := List.length_pos.mpr hne
  have hd' : 2 ≤ degree.toNat := by omega
  obtain ⟨H, hH⟩ : ∃ H, H = max (Nat.clog degree.toNat items.length) 1 := ⟨_, rfl⟩
  have hH1 : 1 ≤ H := by rw [hH]; exact le_max_right _ _
  have hfit : Fits degree.toNat (H - 1) items.length := by
    rw [hH]; exact fits_top _ _ hd' hpos
  have hspec := OMTBuilder.build_spec buckets hbk degree.toNat hd' H (H - 1) (by omega)
  obtain ⟨S', news, root, hperm, hlen, hstack, hrun⟩ :=
    hspec items.length [] items [] (List.replicate H []) (by simp) hfit
  simp only [List.length_nil, Nat.zero_add, List.nil_append, List.append_nil] at hrun
  have hlv : appendLevels (List.replicate H []) (news ++ [[root]]) = news ++ [[root]] := by
    have := appendLevels_replicate_left (news ++ [[root]])
    rw [List.length_append, hlen] at this
    simp only [List.length_singleton] at this
    rwa [show H - 1 + 1 = H by omega] at this
  rw [hlv] at hrun
  refine ⟨S', news ++ [[root]],
    { OMTBuilder.repr items.length S' (news ++ [[root]]) with
      refs := (Layout.tree ⟨S', (news ++ [[root]]).flatten⟩).refs
      boxes := (Layout.tree ⟨S', (news ++ [[root]]).flatten⟩).boxes },
    hperm, StackTo.toLevelsBy news _ root hstack, ?_, rfl, ?_⟩
  · rw [List.length_append, hlen, ← hH]
    simp only [List.length_singleton]
    omega
  · rw [OMTBuilder.Finish_run buckets exactLogCeil items hne degree hd H
      (by rw [exactLogCeil_height, hH]), hrun]
    simp only
    rw [OMTBuilder.repr_pack]
    simp only [OMTBuilder.repr, Layout.tree, Option.some.injEq, Prod.mk.injEq,
      Except.ok.injEq, RTree.mk.injEq, true_and, and_true]
    exact hperm.length_eq.symm

/-- C27: for N >= 1 items and degree d >= 2, with
H = max(1, ceil(log_d N)) computed exactly: the top call of `build`, at level
H-1, satisfies `Fits` (between 1 and d^(L+1) items at level L, at least 2 at a
level >= 1); a call at level 0 takes the single-node branch; a call at level
L+1 that satisfies `Fits` does not take it, and the ranges it hands to the
recursive call (recorded by `recordCall`) tile `[start, end)` without gap or
overlap, are at most `childCount` in number and each satisfy `Fits` at level
L; and in the builder `Finish` leaves, `nodeSizes` has H levels, the sizes
at level 0 sum to N, the sizes at level L+1 sum to the number of nodes at
level L, and level H-1 holds exactly one node. -/
theorem omt_build_invariants (buckets : Nat → List F64 → Nat → List (Nat × Nat))
    (hbk : BucketsInRange buckets)
    (items : List Item) (hne : items ≠ []) (degree : Int) (hd : 2 ≤ degree) :
    Fits degree.toNat (max (Nat.clog degree.toNat items.length) 1 - 1) items.length ∧
    (∀ n : Nat, n ≤ ceilDiv n (degree.toNat ^ 0)) ∧
    (∀ (L n : Nat), Fits degree.toNat (L + 1) n →
      ¬ n ≤ ceilDiv n (degree.toNat ^ (L + 1)) ∧
      ∀ (count start : Nat) (its : List Item) (levels : List (List Interior)),
        start + n ≤ its.length → L + 1 < levels.length →
        ∃ (b₁ : OMTBuilder) (box : Box) (ranges : List (Nat × Nat)),
          OMTBuilder.buildBody buckets degree.toNat (L + 1) recordCall start (start + n)
            (OMTBuilder.repr count its levels) = some (b₁, box) ∧
          b₁.nodeSizes.drop levels.length = ranges.map (fun r => [r.1, r.2]) ∧
          Tiles start (start + n) ranges ∧
          ranges.length ≤ ceilDiv n (degree.toNat ^ (L + 1)) ∧
          ∀ r ∈ ranges, Fits degree.toNat L (r.2 - r.1)) ∧
    ∃ (tree : RTree) (b' : OMTBuilder),
      (NewOMTBuilder.addAll items).Finish buckets exactLogCeil degree = some (.ok tree, b') ∧
      b'.nodeSizes.length = max (Nat.clog degree.toNat items.length) 1 ∧
      (∀ sizes, b'.nodeSizes[0]? = some sizes → sizes.sum = items.length) ∧
      (∀ L below sizes, b'.nodeSizes[L]? = some below → b'.nodeSizes[L + 1]? = some sizes →
        sizes.sum = below.length) ∧
      ∃ s, b'.nodeSizes[max (Nat.clog degree.toNat items.length) 1 - 1]? = some [s] := by
  have hpos : 0 < items.length := List.length_pos.mpr hne
  have hd' : 2 ≤ degree.toNat := by omega
  refine ⟨fits_top _ _ hd' hpos, fun n => fits_zero_leaf n _, ?_, ?_⟩
  · intro L n hfit
    refine ⟨(fits_step _ L n hd' hfit).2.2.1, ?_⟩
    intro count start its levels h1 h2
    exact buildBody_record buckets hbk _ hd' L n hfit count start its levels h1 h2
  · obtain ⟨items', levels, b', hperm, hlv, hlen, hsz, hfin⟩ :=
      OMTBuilder.Finish_levels_omt buckets hbk items hne degree hd
    obtain ⟨s1, s2, root, s3⟩ := LevelsBy.sums levels _ hlv
    refine ⟨_, b', hfin, ?_, ?_, ?_, ?_⟩
    · rw [hsz, List.length_map, hlen]
    · intro sizes h
      rw [hsz, List.getElem?_map] at h
      cases hl : levels[0]? with
      | none => rw [hl] at h; simp at h
      | some l =>
        rw [hl] at h
        simp only [Option.map_some', Option.some.injEq] at h
        rw [← h, s1 l hl, List.length_map, hperm.length_eq]
    · intro L below sizes h h'
      rw [hsz, List.getElem?_map] at h h'
      cases hl : levels[L]? with
      | none => rw [hl] at h; simp at h
      | some l =>
        cases hl' : levels[L + 1]? with
        | none => rw [hl'] at h'; simp at h'
        | some l' =>
          rw [hl] at h
          rw [hl'] at h'
          simp only [Option.map_some', Option.some.injEq] at h h'
          rw [← h, ← h', s2 L l l' hl hl', List.length_map]
    · refine ⟨root.size, ?_⟩
      rw [hsz, List.getElem?_map, ← hlen, s3]
      rfl

theorem omt_build_invariants_witness :
    BucketsInRange sampleBuckets ∧ sampleItems ≠ [] ∧ (2 : Int) ≤ 2 ∧
    (Fits (2 : Int).toNat (max (Nat.clog (2 : Int).toNat sampleItems.length) 1 - 1)
      sampleItems.length ∧
    (∀ n : Nat, n ≤ ceilDiv n ((2 : Int).toNat ^ 0)) ∧
    (∀ (L n : Nat), Fits (2 : Int).toNat (L + 1) n →
      ¬ n ≤ ceilDiv n ((2 : Int).toNat ^ (L + 1)) ∧
      ∀ (count start : Nat) (its : List Item) (levels : List (List Interior)),
        start + n ≤ its.length → L + 1 < levels.length →
        ∃ (b₁ : OMTBuilder) (box : Box) (ranges : List (Nat × Nat)),
          OMTBuilder.buildBody sampleBuckets (2 : Int).toNat (L + 1) recordCall start
            (start + n) (OMTBuilder.repr count its levels) = some (b₁, box) ∧
          b₁.nodeSizes.drop levels.length = ranges.map (fun r => [r.1, r.2]) ∧
          Tiles start (start + n) ranges ∧
          ranges.length ≤ ceilDiv n ((2 : Int).toNat ^ (L + 1)) ∧
          ∀ r ∈ ranges, Fits (2 : Int).toNat L (r.2 - r.1)) ∧
    ∃ (tree : RTree) (b' : OMTBuilder),
      (NewOMTBuilder.addAll sampleItems).Finish sampleBuckets exactLogCeil 2 = some (.ok tree, b') ∧
      b'.nodeSizes.length = max (Nat.clog (2 : Int).toNat sampleItems.length) 1 ∧
      (∀ sizes, b'.nodeSizes[0]? = some sizes → sizes.sum = sampleItems.length) ∧
      (∀ L below sizes, b'.nodeSizes[L]? = some below → b'.nodeSizes[L + 1]? = some sizes →
        sizes.sum = below.length) ∧
      ∃ s, b'.nodeSizes[max (Nat.clog (2 : Int).toNat sampleItems.length) 1 - 1]? =
        some [s]) :=
  ⟨sampleBuckets_inRange, by simp [sampleItems], le_refl _,
    omt_build_invariants sampleBuckets sampleBuckets_inRange sampleItems
      (by simp [sampleItems]) 2 (le_refl _)⟩

theorem HBits.cd_comp : ∀ (w w' : HBits), (w.comp w').cd = w.act w'.cd := by
  decide

theorem HBits.act_comp : ∀ (w w' : HBits) (s : Bool × Bool),
    (w.comp w').act s = w.act (w'.act s) := by
  decide

theorem HBits.act_zero (w : HBits) : w.act (false, false) = w.cd := by
  revert w; decide

set_option maxRecDepth 100000 in
theorem HState.reachable_next : ∀ (σ : HState), σ ∈ HState.reachable →
    ∀ xk yk : Bool, σ.next xk yk ∈ HState.reachable := by
  decide

set_option maxRecDepth 100000 in
theorem HState.out_injective : ∀ (σ : HState), σ ∈ HState.reachable →
    ∀ xk yk xk' yk' : Bool, σ.out xk yk = σ.out xk' yk' → xk = xk' ∧ yk = yk' := by
  decide

theorem hilbert_stages (x y : Nat) :
    hilbert x y = shl32 (spreadBits (hilbertOdd x y)) 1 ||| spreadBits (x ^^^ y) := rfl

theorem hilbertScan_bits (k : Nat) (w : Nat × Nat × Nat × Nat) (j : Nat) :
    (((hilbertScan k w).1.testBit j, (hilbertScan k w).2.1.testBit j,
      (hilbertScan k w).2.2.1.testBit j, (hilbertScan k w).2.2.2.testBit j) : HBits) =
      HBits.comp (w.1.testBit j, w.2.1.testBit j, w.2.2.1.testBit j, w.2.2.2.testBit j)
        (w.1.testBit (k + j), w.2.1.testBit (k + j), w.2.2.1.testBit (k + j),
          w.2.2.2.testBit (k + j)) := by
  simp only [hilbertScan, HBits.comp, Nat.testBit_xor, Nat.testBit_and, Nat.testBit_shiftRight]

theorem hilbertInit_bits (x y : Nat) (j : Nat) :
    (((hilbertInit x y).1.testBit j, (hilbertInit x y).2.1.testBit j,
      (hilbertInit x y).2.2.1.testBit j, (hilbertInit x y).2.2.2.testBit j) : HBits) =
      hilbertBits (x.testBit j) (y.testBit j) (x.testBit (j + 1)) (y.testBit (j + 1))
        (decide (j < 16)) (decide (j + 1 < 16)) := by
  have h16 : (0xFFFF : Nat) = 2 ^ 16 - 1 := rfl
  simp only [hilbertInit, hilbertBits, Nat.testBit_xor, Nat.testBit_and, Nat.testBit_or,
    Nat.testBit_shiftRight, h16, Nat.testBit_two_pow_sub_one, Nat.add_comm 1 j]

theorem testBit_mod32 (x i : Nat) :
    (x % 4294967296).testBit i = (decide (i < 32) && x.testBit i) :=
  Nat.testBit_mod_two_pow x 32 i

theorem testBit_high (x : Nat) (hx : x < 2 ^ 16) (i : Nat) (hi : 16 ≤ i) :
    x.testBit i = false :=
  Nat.testBit_lt_two_pow (lt_of_lt_of_le hx (Nat.pow_le_pow_right (by norm_num) hi))

theorem testBit_mask (M : Nat) (hM : M < 2 ^ 32) (f : Nat → Bool)
    (h : ∀ j, j < 32 → M.testBit j = f j) (j : Nat) :
    M.testBit j = (decide (j < 32) && f j) := by
  by_cases hj : j < 32
  · simp [hj, h j hj]
  · simp only [hj, decide_False, Bool.false_and]
    exact Nat.testBit_lt_two_pow (lt_of_lt_of_le hM (Nat.pow_le_pow_right (by norm_num)
      (by omega)))

theorem mask8 (j : Nat) :
    (16711935 : Nat).testBit j = (decide (j < 32) && decide (j % 16 < 8)) :=
  testBit_mask 16711935 (by norm_num) (fun j => decide (j % 16 < 8))
    (by intro j hj; interval_cases j <;> rfl) j

theorem mask4 (j : Nat) :
    (252645135 : Nat).testBit j = (decide (j < 32) && decide (j % 8 < 4)) :=
  testBit_mask 252645135 (by norm_num) (fun j => decide (j % 8 < 4))
    (by intro j hj; interval_cases j <;> rfl) j

theorem mask2 (j : Nat) :
    (858993459 : Nat).testBit j = (decide (j < 32) && decide (j % 4 < 2)) :=
  testBit_mask 858993459 (by norm_num) (fun j => decide (j % 4 < 2))
    (by intro j hj; interval_cases j <;> rfl) j

theorem mask1 (j : Nat) :
    (1431655765 : Nat).testBit j = (decide (j < 32) && decide (j % 2 < 1)) :=
  testBit_mask 1431655765 (by norm_num) (fun j => decide (j % 2 < 1))
    (by intro j hj; interval_cases j <;> rfl) j

set_option maxRecDepth 10000 in
theorem spreadBits_even (w : Nat) (hw : w < 2 ^ 16) (k : Nat) (hk : k < 16) :
    (spreadBits w).testBit (2 * k) = w.testBit k := by
  have h16 := testBit_high w hw 16 (by norm_num)
  have h17 := testBit_high w hw 17 (by norm_num)
  have h18 := testBit_high w hw 18 (by norm_num)
  have h19 := testBit_high w hw 19 (by norm_num)
  have h20 := testBit_high w hw 20 (by norm_num)
  have h21 := testBit_high w hw 21 (by norm_num)
  have h22 := testBit_high w hw 22 (by norm_num)
  have h23 := testBit_high w hw 23 (by norm_num)
  have h24 := testBit_high w hw 24 (by norm_num)
  have h25 := testBit_high w hw 25 (by norm_num)
  have h26 := testBit_high w hw 26 (by norm_num)
  have h27 := testBit_high w hw 27 (by norm_num)
  have h28 := testBit_high w hw 28 (by norm_num)
  have h29 := testBit_high w hw 29 (by norm_num)
  have h30 := testBit_high w hw 30 (by norm_num)
  have h31 := testBit_high w hw 31 (by norm_num)
  interval_cases k <;>
    simp [spreadBits, shl32, Nat.testBit_and, Nat.testBit_or, Nat.testBit_shiftLeft,
      testBit_mod32, mask8, mask4, mask2, mask1, h16, h17, h18, h19, h20, h21, h22, h23, h24,
      h25, h26, h27, h28, h29, h30, h31, -Nat.testBit_zero]

theorem spreadBits_odd (w : Nat) (j : Nat) :
    (spreadBits w).testBit (2 * j + 1) = false := by
  have : (2 * j + 1) % 2 = 1 := by omega
  simp [spreadBits, Nat.testBit_and, mask1, this]

theorem hilbert_bits (x y : Nat) (hx : x < 2 ^ 16) (hy : y < 2 ^ 16)
    (ho : hilbertOdd x y < 2 ^ 16) (k : Nat) (hk : k < 16) :
    (hilbert x y).testBit (2 * k) = (x ^^^ y).testBit k ∧
    (hilbert x y).testBit (2 * k + 1) = (hilbertOdd x y).testBit k := by
  have hxy : x ^^^ y < 2 ^ 16 := Nat.xor_lt_two_pow hx hy
  rw [hilbert_stages]
  refine ⟨?_, ?_⟩
  · rw [Nat.testBit_or, spreadBits_even _ hxy k hk]
    simp only [shl32, testBit_mod32, Nat.testBit_shiftLeft]
    cases k with
    | zero => simp
    | succ k =>
      rw [show 2 * (k + 1) - 1 = 2 * k + 1 by omega, spreadBits_odd]
      simp
  · rw [Nat.testBit_or, spreadBits_odd]
    simp only [shl32, testBit_mod32, Nat.testBit_shiftLeft]
    rw [show 2 * k + 1 - 1 = 2 * k by omega, spreadBits_even _ ho k hk]
    have h1 : decide (2 * k + 1 < 32) = true := by simp; omega
    have h2 : decide (2 * k + 1 ≥ 1) = true := by simp
    rw [h1, h2]
    simp

theorem bitsAt_scan (k : Nat) (w : Nat × Nat × Nat × Nat) (j : Nat) :
    bitsAt (hilbertScan k w) j = (bitsAt w j).comp (bitsAt w (k + j)) :=
  hilbertScan_bits k w j

theorem bitsAt_init (x y j : Nat) :
    bitsAt (hilbertInit x y) j =
      hilbertBits (x.testBit j) (y.testBit j) (x.testBit (j + 1)) (y.testBit (j + 1))
        (decide (j < 16)) (decide (j + 1 < 16)) :=
  hilbertInit_bits x y j

theorem hilbertStateBits_unfold (x y j : Nat) :
    hilbertStateBits x y j =
      (bitsAt (hilbertInit x y) j).act ((bitsAt (hilbertInit x y) (j + 2)).act
        ((bitsAt (hilbertInit x y) (j + 4)).act ((bitsAt (hilbertInit x y) (j + 6)).act
          ((bitsAt (hilbertInit x y) (j + 8)).act ((bitsAt (hilbertInit x y) (j + 10)).act
            ((bitsAt (hilbertInit x y) (j + 12)).act
              (bitsAt (hilbertInit x y) (j + 14)).cd)))))) := by
  have e : hilbertStateBits x y j =
      (bitsAt (hilbertScan 8 (hilbertScan 4 (hilbertScan 2 (hilbertInit x y)))) j).cd := rfl
  rw [e]
  simp only [bitsAt_scan, HBits.cd_comp, HBits.act_comp]
  have e2 : 2 + j = j + 2 := by omega
  have e4 : 4 + j = j + 4 := by omega
  have e8 : 8 + j = j + 8 := by omega
  have e6 : 2 + (j + 4) = j + 6 := by omega
  have e10 : 2 + (j + 8) = j + 10 := by omega
  have e12 : 4 + (j + 8) = j + 12 := by omega
  have e14 : 2 + (j + 12) = j + 14 := by omega
  simp only [e2, e4, e8, e6, e10, e12, e14]

theorem bitsAt_init_high (x y : Nat) (hx : x < 2 ^ 16) (hy : y < 2 ^ 16) (j : Nat)
    (hj : 16 ≤ j) : bitsAt (hilbertInit x y) j = (false, false, false, false) := by
  rw [bitsAt_init, testBit_high x hx j hj, testBit_high y hy j hj,
    testBit_high x hx (j + 1) (by omega), testBit_high y hy (j + 1) (by omega)]
  have h1 : decide (j < 16) = false := by simp; omega
  have h2 : decide (j + 1 < 16) = false := by simp; omega
  rw [h1, h2]
  rfl

theorem hilbertStateBits_high (x y : Nat) (hx : x < 2 ^ 16) (hy : y < 2 ^ 16) (j : Nat)
    (hj : 16 ≤ j) : hilbertStateBits x y j = (false, false) := by
  rw [hilbertStateBits_unfold]
  rw [bitsAt_init_high x y hx hy j hj, bitsAt_init_high x y hx hy (j + 2) (by omega),
    bitsAt_init_high x y hx hy (j + 4) (by omega), bitsAt_init_high x y hx hy (j + 6) (by omega),
    bitsAt_init_high x y hx hy (j + 8) (by omega),
    bitsAt_init_high x y hx hy (j + 10) (by omega),
    bitsAt_init_high x y hx hy (j + 12) (by omega),
    bitsAt_init_high x y hx hy (j + 14) (by omega)]
  rfl

theorem hilbertStateBits_rec (x y : Nat) (hx : x < 2 ^ 16) (hy : y < 2 ^ 16) (j : Nat) :
    hilbertStateBits x y j =
      (hilbertBits (x.testBit j) (y.testBit j) (x.testBit (j + 1)) (y.testBit (j + 1))
        (decide (j < 16)) (decide (j + 1 < 16))).act (hilbertStateBits x y (j + 2)) := by
  rw [hilbertStateBits_unfold x y j, hilbertStateBits_unfold x y (j + 2), ← bitsAt_init]
  have e4 : j + 2 + 2 = j + 4 := by omega
  have e6 : j + 2 + 4 = j + 6 := by omega
  have e8 : j + 2 + 6 = j + 8 := by omega
  have e10 : j + 2 + 8 = j + 10 := by omega
  have e12 : j + 2 + 10 = j + 12 := by omega
  have e14 : j + 2 + 12 = j + 14 := by omega
  have e16 : j + 2 + 14 = j + 16 := by omega
  rw [e4, e6, e8, e10, e12, e14, e16, bitsAt_init_high x y hx hy (j + 16) (by omega)]
  have : HBits.cd (false, false, false, false) = (false, false) := rfl
  rw [this, HBits.act_zero]

theorem hilbertOdd_bits (x y k : Nat) :
    (hilbertOdd x y).testBit k =
      ((((hilbertStateBits x y k).2 ^^ (hilbertStateBits x y (k + 1)).2)) ||
        (decide (k < 16) ^^ ((x.testBit k ^^ y.testBit k) ||
          ((hilbertStateBits x y k).1 ^^ (hilbertStateBits x y (k + 1)).1)))) := by
  have h16 : (0xFFFF : Nat) = 2 ^ 16 - 1 := rfl
  simp only [hilbertOdd, hilbertStateBits, Nat.testBit_xor, Nat.testBit_or,
    Nat.testBit_shiftRight, h16, Nat.testBit_two_pow_sub_one, Nat.add_comm 1 k]

theorem hilbertOdd_lt (x y : Nat) (hx : x < 2 ^ 16) (hy : y < 2 ^ 16) :
    hilbertOdd x y < 2 ^ 16 := by
  apply Nat.lt_pow_two_of_testBit
  intro i hi
  rw [hilbertOdd_bits, hilbertStateBits_high x y hx hy i hi,
    hilbertStateBits_high x y hx hy (i + 1) (by omega), testBit_high x hx i hi,
    testBit_high y hy i hi]
  have h1 : decide (i < 16) = false := by simp; omega
  rw [h1]
  rfl

theorem hilbertAbove_next (x y : Nat) (hx : x < 2 ^ 16) (hy : y < 2 ^ 16) (k : Nat)
    (hk : k + 1 < 16) :
    (hilbertAbove x y (k + 1)).next (x.testBit (k + 1)) (y.testBit (k + 1)) =
      hilbertAbove x y k := by
  have hrec := hilbertStateBits_rec x y hx hy (k + 1)
  have h1 : decide (k + 1 < 16) = true := by simp; omega
  rw [h1] at hrec
  simp only [hilbertAbove, HState.next, HState.scan, h1]
  rw [← hrec]

theorem hilbertAbove_top (x y : Nat) (hx : x < 2 ^ 16) (hy : y < 2 ^ 16) :
    hilbertAbove x y 15 = (false, false, false, (false, false), (false, false)) := by
  simp only [hilbertAbove]
  rw [testBit_high x hx 16 (le_refl _), testBit_high y hy 16 (le_refl _),
    hilbertStateBits_high x y hx hy 16 (le_refl _),
    hilbertStateBits_high x y hx hy 17 (by omega)]
  rfl

theorem hilbertAbove_reachable (x y : Nat) (hx : x < 2 ^ 16) (hy : y < 2 ^ 16) :
    ∀ n k, k + n = 15 → hilbertAbove x y k ∈ HState.reachable := by
  intro n
  induction n with
  | zero =>
    intro k hk
    have : k = 15 := by omega
    subst this
    rw [hilbertAbove_top x y hx hy]
    decide
  | succ n ih =>
    intro k hk
    rw [← hilbertAbove_next x y hx hy k (by omega)]
    exact HState.reachable_next _ (ih (k + 1) (by omega)) _ _

theorem hilbertAbove_out (x y : Nat) (hx : x < 2 ^ 16) (hy : y < 2 ^ 16) (k : Nat)
    (hk : k < 16) :
    (hilbertAbove x y k).out (x.testBit k) (y.testBit k) =
      ((hilbert x y).testBit (2 * k), (hilbert x y).testBit (2 * k + 1)) := by
  obtain ⟨h0, h1⟩ := hilbert_bits x y hx hy (hilbertOdd_lt x y hx hy) k hk
  have hrec := hilbertStateBits_rec x y hx hy k
  have hd : decide (k < 16) = true := by simp; omega
  rw [hd] at hrec
  rw [h0, h1, hilbertOdd_bits, Nat.testBit_xor, hd]
  simp only [hilbertAbove, HState.out, HState.scan]
  rw [← hrec]

theorem hilbert_bits_eq (x y x' y' : Nat) (hx : x < 2 ^ 16) (hy : y < 2 ^ 16)
    (hx' : x' < 2 ^ 16) (hy' : y' < 2 ^ 16) (h : hilbert x y = hilbert x' y') :
    ∀ n j, 16 ≤ j + n →
      x.testBit j = x'.testBit j ∧ y.testBit j = y'.testBit j ∧
      hilbertStateBits x y j = hilbertStateBits x' y' j := by
  intro n
  induction n with
  | zero =>
    intro j hj
    rw [testBit_high x hx j hj, testBit_high y hy j hj, testBit_high x' hx' j hj,
      testBit_high y' hy' j hj, hilbertStateBits_high x y hx hy j hj,
      hilbertStateBits_high x' y' hx' hy' j hj]
    exact ⟨rfl, rfl, rfl⟩
  | succ n ih =>
    intro j hj
    by_cases hjn : 16 ≤ j + n
    · exact ih j hjn
    · have hj16 : j < 16 := by omega
      obtain ⟨a1, b1, c1⟩ := ih (j + 1) (by omega)
      obtain ⟨_, _, c2⟩ := ih (j + 2) (by omega)
      have hst : hilbertAbove x y j = hilbertAbove x' y' j := by
        simp only [hilbertAbove, a1, b1, c1, c2]
      have hout := hilbertAbove_out x y hx hy j hj16
      have hout' := hilbertAbove_out x' y' hx' hy' j hj16
      rw [h, ← hout', hst] at hout
      have hreach := hilbertAbove_reachable x' y' hx' hy' (15 - j) j (by omega)
      obtain ⟨ex, ey⟩ := HState.out_injective _ hreach _ _ _ _ hout
      refine ⟨ex, ey, ?_⟩
      rw [hilbertStateBits_rec x y hx hy j, hilbertStateBits_rec x' y' hx' hy' j, ex, ey, a1,
        b1, c2]

theorem hilbert_lt (x y : Nat) : hilbert x y < 4294967296 := by
  rw [hilbert_stages]
  have hm : (1431655765 : Nat) < 2 ^ 31 := by norm_num
  have hs : ∀ w, spreadBits w < 2 ^ 31 := by
    intro w
    exact lt_of_le_of_lt Nat.and_le_right hm
  have h32 : (4294967296 : Nat) = 2 ^ 32 := by norm_num
  rw [h32]
  apply Nat.or_lt_two_pow
  · rw [shl32, h32]
    exact Nat.mod_lt _ (by positivity)
  · exact lt_trans (hs _) (by norm_num)

theorem hilbert_eq_imp (x1 y1 x2 y2 : Nat) (hx1 : x1 < 65536) (hy1 : y1 < 65536)
    (hx2 : x2 < 65536) (hy2 : y2 < 65536) (h : hilbert x1 y1 = hilbert x2 y2) :
    x1 = x2 ∧ y1 = y2 := by
  have e : (65536 : Nat) = 2 ^ 16 := by norm_num
  rw [e] at hx1 hy1 hx2 hy2
  have hbits := hilbert_bits_eq x1 y1 x2 y2 hx1 hy1 hx2 hy2 h 16
  exact ⟨Nat.eq_of_testBit_eq fun i => (hbits i (by omega)).1,
    Nat.eq_of_testBit_eq fun i => (hbits i (by omega)).2.1⟩

theorem hilbert_onto (v : Nat) (hv : v < 4294967296) :
    ∃ x y, x ≤ 65535 ∧ y ≤ 65535 ∧ hilbert x y = v := by
  have hinj : Function.Injective
      (fun p : Fin 65536 × Fin 65536 =>
        (⟨hilbert p.1.val p.2.val, hilbert_lt _ _⟩ : Fin 4294967296)) := by
    intro p q hpq
    have h : hilbert p.1.val p.2.val = hilbert q.1.val q.2.val := congrArg Fin.val hpq
    obtain ⟨h1, h2⟩ := hilbert_eq_imp _ _ _ _ p.1.isLt p.2.isLt q.1.isLt q.2.isLt h
    exact Prod.ext (Fin.ext h1) (Fin.ext h2)
  have hcard : Fintype.card (Fin 65536 × Fin 65536) = Fintype.card (Fin 4294967296) := by
    rw [Fintype.card_prod, Fintype.card_fin, Fintype.card_fin]
  have hbij := (Fintype.bijective_iff_injective_and_card _).mpr ⟨hinj, hcard⟩
  obtain ⟨p, hp⟩ := hbij.2 ⟨v, hv⟩
  have hval := congrArg Fin.val hp
  exact ⟨p.1.val, p.2.val, by have := p.1.isLt; omega, by have := p.2.isLt; omega, hval⟩

/-- C28: `hilbert` is injective on the 16-bit grid: for all `x1, y1, x2, y2`
in `[0, 65535]`, `hilbert x1 y1 = hilbert x2 y2` implies `x1 = x2` and
`y1 = y2`; the values are below 2^32 and every number below 2^32 is the value
of a grid point, so the map onto the 32-bit indices is a bijection. -/
theorem hilbert_injective (x1 y1 x2 y2 : Nat) (hx1 : x1 ≤ 65535) (hy1 : y1 ≤ 65535)
    (hx2 : x2 ≤ 65535) (hy2 : y2 ≤ 65535) :
    (hilbert x1 y1 = hilbert x2 y2 → x1 = x2 ∧ y1 = y2) ∧
    hilbert x1 y1 < 4294967296 ∧
    ∀ v, v < 4294967296 → ∃ x y, x ≤ 65535 ∧ y ≤ 65535 ∧ hilbert x y = v :=
  ⟨fun h => hilbert_eq_imp x1 y1 x2 y2 (by omega) (by omega) (by omega) (by omega) h,
    hilbert_lt x1 y1, hilbert_onto⟩

theorem hilbert_injective_witness :
    (3 : Nat) ≤ 65535 ∧ (5 : Nat) ≤ 65535 ∧
    ((hilbert 3 5 = hilbert 5 3 → (3 : Nat) = 5 ∧ (5 : Nat) = 3) ∧
    hilbert 3 5 < 4294967296 ∧
    ∀ v, v < 4294967296 → ∃ x y, x ≤ 65535 ∧ y ≤ 65535 ∧ hilbert x y = v) :=
  ⟨by decide, by decide,
    hilbert_injective 3 5 5 3 (by decide) (by decide) (by decide) (by decide)⟩

end Flatrtree
